import Mathlib

set_option autoImplicit false

/-!
# Logic-gates library: embedding and verification

Shallow embedding of `src/src/vector.c` and `src/src/gate.c`.

Representation choices.

* Gates live in a heap, a list of optional gate records; a gate pointer is an
  index into that list, a freed gate is `none`, and `NULL` at the interface is
  `Option.none` of the pointer type.
* External signals are addresses (`Nat`) read through a valuation `sig`.
* `vector_out` keeps the live entries `data[0 .. size)` as a list, so
  `vector_out_size` is the length of that list; `capacity` stays a field.
* An `element_out` record is heap allocated in C and stays at the position of
  its vector where `vector_out_push_back` stored it until it is freed, so a
  pointer to it (`element_in.origin`) is represented by that position inside
  the producer's output vector.
* `unsigned`/`size_t` counters are natural numbers (no wrap-around is modelled).
* Allocation results are explicit boolean parameters of the operations.
* The recursive traversals take a recursion budget (`fuel`); `none` means the
  budget ran out. Theorems show a budget above the number of gates suffices.
-/

namespace LogicGates


/-! ## Data model (`vector.h`, `gate.h`, `gate.c`) -/

inductive gate_kind_t where
  | NAND | AND | OR | NOR | XOR | XNOR
deriving DecidableEq, Repr

inductive state where
  | UNVISITED | VISITED | CALCULATED
deriving DecidableEq, Repr

inductive in_connection_type_t where
  | SIGNAL | GATE
deriving DecidableEq, Repr

def FAILED : Int := -1

def SUCCESS : Int := 0

def EINVAL : Int := 22

structure res_with_code where
  res : Bool
  code : Int
deriving DecidableEq, Repr

/-- An output link: `pointer` is the consuming gate, `idx` the slot it feeds. -/
structure element_out where
  pointer : Nat
  idx : Nat
deriving DecidableEq, Repr

structure vector_out where
  data : List element_out
  capacity : Nat
deriving DecidableEq, Repr

/-- An input slot record: `pointer` is a signal address or a gate, `origin`
designates the matching link inside the producer's output vector. -/
structure element_in where
  connection_type : in_connection_type_t
  pointer : Nat
  origin : Nat
deriving DecidableEq, Repr

structure vector_in where
  data : List (Option element_in)
  size : Nat
  capacity : Nat
deriving DecidableEq, Repr

structure gate where
  in_ : vector_in
  out : vector_out
  state : state
  res : Bool
  path_len : Nat
  kind : gate_kind_t
deriving DecidableEq, Repr

abbrev Heap := List (Option gate)

/-- Dereference of a gate pointer. -/
def lookup (h : Heap) (g : Nat) : Option gate := h.getD g none

/-- Write through a gate pointer. -/
def store (h : Heap) (g : Nat) (G : gate) : Heap := h.set g (some G)

/-- The `max` macro of `vector.h`: `(a > b ? a : b)`. -/
def maxc (a b : Nat) : Nat := if a > b then a else b

/-! ## `vector.c` -/

def vector_in_init (n : Nat) : vector_in :=
  { data := List.replicate n none, size := 0, capacity := n }

def vector_out_init (n : Nat) : vector_out :=
  { data := [], capacity := n }

def vector_in_size (vec : vector_in) : Nat := vec.size

def vector_out_size (vec : vector_out) : Nat := vec.data.length

def vector_in_capacity (vec : vector_in) : Nat := vec.capacity

/-- Returns the vector and the status; `ok` is the result of `realloc`. -/
def vector_out_realloc (vec : vector_out) (ok : Bool) : vector_out × Int :=
  if vector_out_size vec = 0 then (vec, 0)
  else if vec.capacity = vector_out_size vec then
    if ok then ({ vec with capacity := vec.capacity * 2 }, 0) else (vec, -1)
  else if vec.capacity ≥ 4 * vector_out_size vec then
    if ok then ({ vec with capacity := vec.capacity / 2 }, 0) else (vec, -1)
  else (vec, 0)

def vector_out_push_back (vec : vector_out) (value : element_out) : vector_out :=
  { vec with data := vec.data ++ [value] }

def get_element_in_at_index (vec : vector_in) (index : Nat) : Option element_in :=
  vec.data.getD index none

def get_element_out_at_index (vec : vector_out) (index : Nat) : Option element_out :=
  vec.data[index]?

def vector_in_update_at_index (vec : vector_in) (value : element_in) (index : Nat) :
    vector_in :=
  { vec with
    size := if get_element_in_at_index vec index = none then vec.size + 1 else vec.size
    data := vec.data.set index (some value) }

/-! ## `gate.c`: construction and connection management -/

/-- Removal of the link at position `el` of the output vector of gate `p`
(`vec = p->out`): the last link is copied over it, the slot fed by the copied
link is redirected to `el`, and the last record is released. -/
def vector_out_delete_element (h : Heap) (p : Nat) (el : Nat) : Heap :=
  match lookup h p with
  | none => h
  | some P =>
    let last_idx := vector_out_size P.out - 1
    match P.out.data[last_idx]? with
    | none => h
    | some last =>
      let h1 := store h p
        { P with out := { P.out with data := (P.out.data.set el last).take last_idx } }
      match lookup h1 last.pointer with
      | none => h1
      | some g_under =>
        match get_element_in_at_index g_under.in_ last.idx with
        | none => h1
        | some g_under_el =>
          store h1 last.pointer
            { g_under with in_ := { g_under.in_ with
                data := g_under.in_.data.set last.idx (some { g_under_el with origin := el }) } }

/-- Creation of a gate; the three booleans are the results of the allocation of
the gate, of its input vector and of its output vector. The new gate is stored
at the end of the heap. -/
def gate_new (h : Heap) (kind : gate_kind_t) (n : Nat) (g_ok in_ok out_ok : Bool) :
    Heap × Option Nat :=
  if !g_ok then (h, none)
  else if !in_ok then (h, none)
  else if !out_ok then (h, none)
  else
    (h ++ [some { in_ := vector_in_init n, out := vector_out_init 1,
                  state := state.UNVISITED, res := false, path_len := 1, kind := kind }],
     some h.length)

/-- Removal of the old binding of a slot, common to both connect operations and
to `gate_delete`: when the slot holds a gate, its link is deleted from the old
producer's output vector. -/
def unlink_old (h : Heap) (in_value : Option element_in) : Heap :=
  match in_value with
  | none => h
  | some e =>
    if e.connection_type = in_connection_type_t.GATE then
      vector_out_delete_element h e.pointer e.origin
    else h

def gate_connect_gate (h : Heap) (g_out g_in : Option Nat) (k : Nat)
    (el_in_ok el_out_ok realloc_ok : Bool) : Heap × Int :=
  match g_out, g_in with
  | some p, some c =>
    match lookup h p, lookup h c with
    | some P, some C =>
      if k ≥ vector_in_capacity C.in_ then (h, FAILED)
      else if !el_in_ok then (h, FAILED)
      else if !el_out_ok then (h, FAILED)
      else
        let r := vector_out_realloc P.out realloc_ok
        if r.2 ≠ 0 then (h, FAILED)
        else
          let h1 := store h p { P with out := r.1 }
          let in_value := (lookup h1 c).bind (fun C1 => get_element_in_at_index C1.in_ k)
          let h2 := unlink_old h1 in_value
          match lookup h2 p with
          | none => (h2, FAILED)
          | some P2 =>
            let el_in : element_in :=
              { connection_type := in_connection_type_t.GATE, pointer := p,
                origin := vector_out_size P2.out }
            let h3 := store h2 p
              { P2 with out := vector_out_push_back P2.out { pointer := c, idx := k } }
            match lookup h3 c with
            | none => (h3, FAILED)
            | some C3 =>
              (store h3 c { C3 with in_ := vector_in_update_at_index C3.in_ el_in k }, SUCCESS)
    | _, _ => (h, FAILED)
  | _, _ => (h, FAILED)

def gate_connect_signal (h : Heap) (s : Option Nat) (g : Option Nat) (k : Nat)
    (el_ok : Bool) : Heap × Int :=
  match s, g with
  | some sp, some c =>
    match lookup h c with
    | some C =>
      if k ≥ vector_in_capacity C.in_ then (h, FAILED)
      else if !el_ok then (h, FAILED)
      else
        let el : element_in :=
          { connection_type := in_connection_type_t.SIGNAL, pointer := sp, origin := 0 }
        let in_value := get_element_in_at_index C.in_ k
        let h1 := unlink_old h in_value
        match lookup h1 c with
        | none => (h1, FAILED)
        | some C1 =>
          (store h1 c { C1 with in_ := vector_in_update_at_index C1.in_ el k }, SUCCESS)
    | none => (h, FAILED)
  | _, _ => (h, FAILED)

/-- One round of the first loop of `gate_delete`: slot `i` of gate `g`. -/
def delete_in_step (g : Nat) (h : Heap) (i : Nat) : Heap :=
  match lookup h g with
  | none => h
  | some G => unlink_old h (get_element_in_at_index G.in_ i)

/-- One round of the second loop of `gate_delete`: the slot fed by the link
`out_value` is emptied and the consumer's size is decremented. -/
def delete_out_step (h : Heap) (out_value : element_out) : Heap :=
  match lookup h out_value.pointer with
  | none => h
  | some g_old =>
    store h out_value.pointer
      { g_old with in_ := { g_old.in_ with
          data := g_old.in_.data.set out_value.idx none
          size := g_old.in_.size - 1 } }

def gate_delete (h : Heap) (g : Option Nat) : Heap :=
  match g with
  | none => h
  | some gp =>
    match lookup h gp with
    | none => h
    | some G =>
      let h1 := (List.range (vector_in_capacity G.in_)).foldl (delete_in_step gp) h
      match lookup h1 gp with
      | none => h1
      | some G1 =>
        let h2 := G1.out.data.foldl delete_out_step h1
        h2.set gp none

/-! ## `gate.c`: evaluation engine -/

/-- The fold step; returns the new accumulator and the status code. For
`XOR`/`XNOR` the C code multiplies the two booleans. -/
def calculate_result (res_value signal : Bool) (kind : gate_kind_t) : Bool × Int :=
  match kind with
  | gate_kind_t.AND => (res_value && signal, 0)
  | gate_kind_t.NAND => (res_value && signal, 0)
  | gate_kind_t.OR => (res_value || signal, 0)
  | gate_kind_t.NOR => (res_value || signal, 0)
  | gate_kind_t.XOR => (decide (res_value.toNat * signal.toNat ≠ 0), 0)
  | gate_kind_t.XNOR => (decide (res_value.toNat * signal.toNat ≠ 0), 0)

/-- Outcome of the slot loop of `nand_evaluate_recursive`: the loop ran to its
end (`cont`) or the function returned from inside the loop (`ret`). -/
inductive LoopRes where
  | cont (h : Heap) (res_value : Bool)
  | ret (h : Heap) (r : res_with_code)

/-- Body of the slot loop of `nand_evaluate_recursive` for slot `i` of gate `g`;
`rec` is the recursive call. -/
def eval_step (rec : Heap → Nat → Option (Heap × res_with_code)) (sig : Nat → Bool)
    (g : Nat) (i : Nat) (h : Heap) (res_value : Bool) : Option LoopRes :=
  match lookup h g with
  | none => some (LoopRes.ret h ⟨false, FAILED⟩)
  | some G =>
    match get_element_in_at_index G.in_ i with
    | none => some (LoopRes.cont h res_value)
    | some in_value =>
      if in_value.connection_type = in_connection_type_t.SIGNAL then
        let c := calculate_result res_value (sig in_value.pointer) G.kind
        if c.2 = -1 then some (LoopRes.ret h ⟨false, FAILED⟩)
        else some (LoopRes.cont h c.1)
      else
        let g_in := in_value.pointer
        if g = g_in then some (LoopRes.ret h ⟨false, FAILED⟩)
        else
          match rec h g_in with
          | none => none
          | some (h1, res) =>
            if res.code ≠ SUCCESS then some (LoopRes.ret h1 res)
            else
              let c := calculate_result res_value res.res G.kind
              if c.2 = -1 then some (LoopRes.ret h1 ⟨false, FAILED⟩)
              else
                match lookup h1 g, lookup h1 g_in with
                | some G1, some Gin =>
                  some (LoopRes.cont
                    (store h1 g { G1 with path_len := maxc G1.path_len Gin.path_len }) c.1)
                | _, _ => some (LoopRes.ret h1 ⟨false, FAILED⟩)

/-- The slot loop of `nand_evaluate_recursive` over the slot indices `is`. -/
def eval_loop (rec : Heap → Nat → Option (Heap × res_with_code)) (sig : Nat → Bool)
    (g : Nat) : List Nat → Heap → Bool → Option LoopRes
  | [], h, res_value => some (LoopRes.cont h res_value)
  | i :: is, h, res_value =>
    match eval_step rec sig g i h res_value with
    | none => none
    | some (LoopRes.ret h1 r) => some (LoopRes.ret h1 r)
    | some (LoopRes.cont h1 rv) => eval_loop rec sig g is h1 rv

/-- Initial accumulator of the fold. -/
def init_value (kind : gate_kind_t) : Bool :=
  if kind = gate_kind_t.OR ∨ kind = gate_kind_t.NOR ∨ kind = gate_kind_t.XNOR
      ∨ kind = gate_kind_t.XOR then false else true

/-- Output negation of the fold result. -/
def final_value (kind : gate_kind_t) (res_value : Bool) : Bool :=
  if kind = gate_kind_t.NAND ∨ kind = gate_kind_t.NOR ∨ kind = gate_kind_t.XNOR
  then !res_value else res_value

/-- The writes on entering a gate: `g->state = VISITED; g->path_len = 0`. -/
def enter (G : gate) : gate := { G with state := state.VISITED, path_len := 0 }

/-- The writes after the slot loop: the path length is incremented when the
gate has slots, the gate becomes `CALCULATED` and its result is stored. -/
def leave (G2 : gate) (res_value : Bool) : gate :=
  { G2 with
    path_len := if vector_in_size G2.in_ > 0 then G2.path_len + 1 else G2.path_len
    state := state.CALCULATED
    res := final_value G2.kind res_value }

/-- The part of `nand_evaluate_recursive` that follows the slot loop. -/
def eval_leave (g : Nat) : Option LoopRes → Option (Heap × res_with_code)
  | none => none
  | some (LoopRes.ret h2 r) => some (h2, r)
  | some (LoopRes.cont h2 res_value) =>
    match lookup h2 g with
    | none => some (h2, ⟨false, FAILED⟩)
    | some G2 => some (store h2 g (leave G2 res_value), ⟨(leave G2 res_value).res, SUCCESS⟩)

/-- The recursive evaluation; a pointer that is not a live gate is treated as
`NULL`. -/
def nand_evaluate_recursive : Nat → (Nat → Bool) → Heap → Nat → Option (Heap × res_with_code)
  | 0, _, _, _ => none
  | fuel + 1, sig, h, g =>
    match lookup h g with
    | none => some (h, ⟨false, FAILED⟩)
    | some G =>
      if vector_in_size G.in_ ≠ vector_in_capacity G.in_ then some (h, ⟨false, FAILED⟩)
      else if G.state = state.CALCULATED then some (h, ⟨G.res, SUCCESS⟩)
      else if G.state = state.VISITED then some (h, ⟨false, FAILED⟩)
      else
        eval_leave g (eval_loop (nand_evaluate_recursive fuel sig) sig g
          (List.range (vector_in_size G.in_)) (store h g (enter G)) (init_value G.kind))

/-- Body of the slot loop of `nand_clean_recursive` for slot `i` of gate `g`. -/
def clean_step (rec : Heap → Nat → Option Heap) (g : Nat) (i : Nat) (h : Heap) :
    Option Heap :=
  match lookup h g with
  | none => some h
  | some G =>
    match get_element_in_at_index G.in_ i with
    | none => some h
    | some in_value =>
      if in_value.connection_type = in_connection_type_t.GATE then
        match lookup h in_value.pointer with
        | none => some h
        | some g_in => if g_in.state ≠ state.UNVISITED then rec h in_value.pointer else some h
      else some h

def clean_loop (rec : Heap → Nat → Option Heap) (g : Nat) : List Nat → Heap → Option Heap
  | [], h => some h
  | i :: is, h =>
    match clean_step rec g i h with
    | none => none
    | some h1 => clean_loop rec g is h1

def nand_clean_recursive : Nat → Heap → Nat → Option Heap
  | 0, _, _ => none
  | fuel + 1, h, g =>
    match lookup h g with
    | none => some h
    | some G =>
      if G.state = state.UNVISITED then some h
      else
        clean_loop (nand_clean_recursive fuel) g (List.range (vector_in_size G.in_))
          (store h g { G with state := state.UNVISITED })

def nand_clean (fuel : Nat) : List (Option Nat) → Heap → Option Heap
  | [], h => some h
  | none :: gs, h => nand_clean fuel gs h
  | some g :: gs, h =>
    match nand_clean_recursive fuel h g with
    | none => none
    | some h1 => nand_clean fuel gs h1

/-- Result of `gate_evaluate`: the heap, the output buffer and the return value. -/
structure eval_result where
  heap : Heap
  s : List Bool
  ret : Int

/-- The main loop of `gate_evaluate` over the targets `gs = g[i ..]`; `all` is
the whole target array, `res` the running maximum. -/
def evaluate_loop (fuel : Nat) (sig : Nat → Bool) (all : List (Option Nat)) :
    List (Option Nat) → Nat → Heap → List Bool → Int → Option eval_result
  | [], _, h, s, res =>
    (nand_clean fuel all h).map (fun h1 => ⟨h1, s, res⟩)
  | none :: _, _, h, s, _ =>
    (nand_clean fuel all h).map (fun h1 => ⟨h1, s, FAILED⟩)
  | some gi :: gs, i, h, s, res =>
    match lookup h gi with
    | none => (nand_clean fuel all h).map (fun h1 => ⟨h1, s, FAILED⟩)
    | some G =>
      if vector_in_size G.in_ ≠ vector_in_capacity G.in_ then
        (nand_clean fuel all h).map (fun h1 => ⟨h1, s, FAILED⟩)
      else
        match nand_evaluate_recursive fuel sig h gi with
        | none => none
        | some (h1, res_code) =>
          if res_code.code ≠ 0 then
            (nand_clean fuel all h1).map (fun h2 => ⟨h2, s, FAILED⟩)
          else
            match lookup h1 gi with
            | none => (nand_clean fuel all h1).map (fun h2 => ⟨h2, s, FAILED⟩)
            | some G1 =>
              evaluate_loop fuel sig all gs (i + 1) h1 (s.set i res_code.res)
                (if (G1.path_len : Int) > res then (G1.path_len : Int) else res)

/-- Evaluation of the targets `g[0 .. m)` with `m = g.length`; `g = none` or
`s = none` stands for a `NULL` array. -/
def gate_evaluate (fuel : Nat) (sig : Nat → Bool) (h : Heap) (g : Option (List (Option Nat)))
    (s : Option (List Bool)) : Option eval_result :=
  match g, s with
  | some gs, some sb =>
    if gs.length = 0 then some ⟨h, sb, FAILED⟩
    else if gs.any (fun gi => gi.isNone) then some ⟨h, sb, FAILED⟩
    else evaluate_loop fuel sig gs gs 0 h sb 0
  | some _, none => some ⟨h, [], FAILED⟩
  | none, some sb => some ⟨h, sb, FAILED⟩
  | none, none => some ⟨h, [], FAILED⟩

/-! ## `gate.c`: introspection -/

def gate_fan_out (h : Heap) (g : Option Nat) : Int :=
  match g.bind (lookup h) with
  | none => FAILED
  | some G => (vector_out_size G.out : Int)

def gate_fan_in (h : Heap) (g : Option Nat) : Int :=
  match g.bind (lookup h) with
  | none => FAILED
  | some G => (vector_in_size G.in_ : Int)

/-- The stored pointer together with its kind (signal address or gate), and the
value written to `errno`, if any. -/
def gate_input (h : Heap) (g : Option Nat) (k : Nat) :
    Option (in_connection_type_t × Nat) × Option Int :=
  match g.bind (lookup h) with
  | none => (none, some EINVAL)
  | some G =>
    if k ≥ vector_in_capacity G.in_ then (none, some EINVAL)
    else
      match get_element_in_at_index G.in_ k with
      | none => (none, some 0)
      | some el => (some (el.connection_type, el.pointer), none)

def gate_output (h : Heap) (g : Option Nat) (k : Int) : Option Nat :=
  match g.bind (lookup h) with
  | none => none
  | some G =>
    if k < 0 ∨ k ≥ gate_fan_out h g then none
    else (get_element_out_at_index G.out k.toNat).map (fun el => el.pointer)

/-! ## The example of `src/example.c` -/

def example_sig : Nat → Bool := fun a => decide (a = 1)

def example_heap1 : Heap :=
  let h0 := (gate_new [] gate_kind_t.AND 2 true true true).1
  let h1 := (gate_new h0 gate_kind_t.NAND 2 true true true).1
  let h2 := (gate_new h1 gate_kind_t.NAND 2 true true true).1
  let h3 := (gate_connect_gate h2 (some 1) (some 0) 0 true true true).1
  let h4 := (gate_connect_gate h3 (some 2) (some 0) 1 true true true).1
  let h5 := (gate_connect_signal h4 (some 0) (some 1) 0 true).1
  let h6 := (gate_connect_signal h5 (some 0) (some 1) 1 true).1
  let h7 := (gate_connect_signal h6 (some 0) (some 2) 0 true).1
  (gate_connect_signal h7 (some 1) (some 2) 1 true).1

def example_heap2 : Heap :=
  let h0 := (gate_new example_heap1 gate_kind_t.XNOR 2 true true true).1
  let h1 := (gate_connect_gate h0 (some 1) (some 3) 0 true true true).1
  (gate_connect_gate h1 (some 0) (some 3) 1 true true true).1

/-! ## Reference definitions (following the specification) -/

def ref_init : gate_kind_t → Bool
  | gate_kind_t.AND => true
  | gate_kind_t.NAND => true
  | _ => false

def ref_op : gate_kind_t → Bool → Bool → Bool
  | gate_kind_t.OR, a, b => a || b
  | gate_kind_t.NOR, a, b => a || b
  | _, a, b => a && b

def ref_neg : gate_kind_t → Bool → Bool
  | gate_kind_t.NAND, a => !a
  | gate_kind_t.NOR, a => !a
  | gate_kind_t.XNOR, a => !a
  | _, a => a

/-- Combination of the accumulator with the contribution of one slot. -/
def ref_combine (kind : gate_kind_t) (acc v : Option Bool) : Option Bool :=
  match acc, v with
  | some a, some b => some (ref_op kind a b)
  | _, _ => none

/-- Reference value of a gate: `value(g) = neg (fold op init slots)`, a signal
slot contributing the signal's boolean and a gate slot the value of its
producer; an empty slot has no value. `none` when the budget is exhausted. -/
def ref_value (sig : Nat → Bool) (h : Heap) : Nat → Nat → Option Bool
  | 0, _ => none
  | fuel + 1, g =>
    match lookup h g with
    | none => none
    | some G =>
      (G.in_.data.foldl (fun acc slot =>
        ref_combine G.kind acc
          (match slot with
           | none => none
           | some e =>
             if e.connection_type = in_connection_type_t.SIGNAL then some (sig e.pointer)
             else ref_value sig h fuel e.pointer)) (some (ref_init G.kind))).map (ref_neg G.kind)

/-- Producer gates bound to the slots of a gate, in slot order. -/
def producers (G : gate) : List Nat :=
  G.in_.data.filterMap (fun slot =>
    match slot with
    | none => none
    | some e => if e.connection_type = in_connection_type_t.GATE then some e.pointer else none)

def ref_max (acc v : Option Nat) : Option Nat :=
  match acc, v with
  | some a, some b => some (Nat.max a b)
  | _, _ => none

/-- Reference depth: `0` for a gate without slots, otherwise one more than the
maximum of `0` and the depths of the producer gates. -/
def ref_depth (h : Heap) : Nat → Nat → Option Nat
  | 0, _ => none
  | fuel + 1, g =>
    match lookup h g with
    | none => none
    | some G =>
      if vector_in_capacity G.in_ = 0 then some 0
      else ((producers G).foldl (fun acc p => ref_max acc (ref_depth h fuel p)) (some 0)).map
        (fun d => 1 + d)

/-! ## Graph predicates -/

/-- Gate `a` has a slot bound to gate `b`. -/
def edge (h : Heap) (a b : Nat) : Prop :=
  ∃ A, lookup h a = some A ∧ b ∈ producers A

/-- Gate `x` is reachable from `g` through gate-bound slots. -/
def Reach (h : Heap) (g x : Nat) : Prop := Relation.ReflTransGen (edge h) g x

/-- Gate `x` lies on a cycle of gate-to-gate bindings. -/
def OnCycle (h : Heap) (x : Nat) : Prop := Relation.TransGen (edge h) x x

/-- A gate is ready when its logical size equals its slot count. -/
def ready (G : gate) : Prop := vector_in_size G.in_ = vector_in_capacity G.in_

instance (G : gate) : Decidable (ready G) := by unfold ready; infer_instance

/-- Every visitation marker is `UNVISITED`. -/
def all_unvisited (h : Heap) : Prop :=
  ∀ x X, lookup h x = some X → X.state = state.UNVISITED

/-- Number of non-empty slots of an input vector. -/
def bound_count (vec : vector_in) : Nat := vec.data.countP (fun s => s.isSome)

/-- Well-formedness of the input vector of a gate. -/
def wf_in (G : gate) : Prop :=
  G.in_.data.length = G.in_.capacity ∧ G.in_.size = bound_count G.in_

/-- Bidirectional consistency of the graph together with the well-formedness
of the input vectors: every live gate has a well-formed input vector; every
slot bound to a gate designates a link of the producer that records the slot;
every link designates a slot bound to the link's owner whose back-reference is
the position of the link. -/
structure Consistent (h : Heap) : Prop where
  wf : ∀ g G, lookup h g = some G → wf_in G
  slot_link : ∀ (c : Nat) (C : gate) (k : Nat) (e : element_in),
    lookup h c = some C → C.in_.data[k]? = some (some e) →
    e.connection_type = in_connection_type_t.GATE →
    ∃ P, lookup h e.pointer = some P ∧ P.out.data[e.origin]? = some (element_out.mk c k)
  link_slot : ∀ (p : Nat) (P : gate) (j c k : Nat),
    lookup h p = some P → P.out.data[j]? = some (element_out.mk c k) →
    ∃ C, lookup h c = some C ∧
      C.in_.data[k]? = some (some (element_in.mk in_connection_type_t.GATE p j))

/-! ## Termination of the recursive evaluation -/

def is_unvisited (o : Option gate) : Bool :=
  match o with
  | some G => decide (G.state = state.UNVISITED)
  | none => false

/-- Number of live gates whose marker is `UNVISITED`. -/
def unvisited_count (h : Heap) : Nat := h.countP is_unvisited

def LoopRes.heap : LoopRes → Heap
  | LoopRes.cont h _ => h
  | LoopRes.ret h _ => h

/-! ## Invariants of the evaluation -/

/-- Contribution of a bound slot, read from the signals and from the results
cached in the heap. -/
def slot_input (sig : Nat → Bool) (h : Heap) (e : element_in) : Bool :=
  if e.connection_type = in_connection_type_t.SIGNAL then sig e.pointer
  else match lookup h e.pointer with
    | some P => P.res
    | none => false

/-- Fold of `calculate_result` over a list of slots, empty slots skipped. -/
def cfold (kind : gate_kind_t) (sig : Nat → Bool) (h : Heap) (rv : Bool)
    (slots : List (Option element_in)) : Bool :=
  slots.foldl (fun rv slot =>
    match slot with
    | none => rv
    | some e => (calculate_result rv (slot_input sig h e) kind).1) rv

/-- Path length contributed by a bound slot. -/
def slot_len (h : Heap) (e : element_in) : Nat :=
  match lookup h e.pointer with
  | some P => P.path_len
  | none => 0

/-- Fold of the `max` macro over the gate-bound slots of a list of slots. -/
def plfold (h : Heap) (pl : Nat) (slots : List (Option element_in)) : Nat :=
  slots.foldl (fun pl slot =>
    match slot with
    | none => pl
    | some e =>
      if e.connection_type = in_connection_type_t.SIGNAL then pl
      else maxc pl (slot_len h e)) pl

/-- The cached fields of a calculated gate agree with its slots. -/
def Cached (sig : Nat → Bool) (h : Heap) (G : gate) : Prop :=
  G.res = final_value G.kind (cfold G.kind sig h (init_value G.kind) G.in_.data) ∧
  G.path_len = (if vector_in_size G.in_ > 0 then plfold h 0 G.in_.data + 1
    else plfold h 0 G.in_.data) ∧
  ∀ p ∈ producers G, ∃ P, lookup h p = some P ∧ P.state = state.CALCULATED

/-- Invariant of the heap during an evaluation. -/
structure Inv (sig : Nat → Bool) (h : Heap) : Prop where
  wf : ∀ g G, lookup h g = some G → wf_in G
  marked_ready : ∀ g G, lookup h g = some G → G.state ≠ state.UNVISITED → ready G
  cached : ∀ g G, lookup h g = some G → G.state = state.CALCULATED → Cached sig h G

/-- What a call of the evaluation may change at gate `x`: nothing of the
topology, and nothing at all once the gate is marked. -/
def Frame (h h1 : Heap) (x : Nat) : Prop :=
  match lookup h x with
  | none => lookup h1 x = none
  | some X => ∃ X1, lookup h1 x = some X1 ∧ X1.in_ = X.in_ ∧ X1.out = X.out ∧
      X1.kind = X.kind ∧ (X.state ≠ state.UNVISITED → X1 = X)

def Ext (h h1 : Heap) : Prop := ∀ x, Frame h h1 x

/-- Gate `x` is marked (its marker is not `UNVISITED`). -/
def marked (h : Heap) (x : Nat) : Prop :=
  ∃ X, lookup h x = some X ∧ X.state ≠ state.UNVISITED

/-- Gate `x` is reachable from a marked target in `T` along marked gates. -/
inductive MR (h : Heap) (T : List Nat) : Nat → Prop where
  | base (t : Nat) : t ∈ T → marked h t → MR h T t
  | step (a b : Nat) : MR h T a → edge h a b → marked h b → MR h T b

/-- Topology and marks are kept from `h` to `h1`. -/
def Grow (h h1 : Heap) : Prop :=
  ∀ y Y, lookup h y = some Y → ∃ Y1, lookup h1 y = some Y1 ∧ Y1.in_ = Y.in_ ∧
    (Y.state ≠ state.UNVISITED → Y1.state ≠ state.UNVISITED)

/-- Specification of a call of the recursive evaluation on gate `g`. -/
structure EvalSpec (sig : Nat → Bool) (h : Heap) (g : Nat) (h1 : Heap) (r : res_with_code) :
    Prop where
  ext : Ext h h1
  inv : Inv sig h1
  code : r.code = SUCCESS ∨ r.code = FAILED
  done : r.code = SUCCESS →
    ∃ G1, lookup h1 g = some G1 ∧ G1.state = state.CALCULATED ∧ r.res = G1.res
  visited : r.code = SUCCESS → ∀ x X1, lookup h1 x = some X1 → X1.state = state.VISITED →
    ∃ X, lookup h x = some X ∧ X.state = state.VISITED
  reach : ∀ x, marked h1 x → marked h x ∨ MR h1 [g] x

/-- Specification of the slot loop of gate `g` over the slots `slots`, started
in heap `h` with accumulator `rv`, where `G` is the record of `g` in `h`. -/
structure LoopSpec (sig : Nat → Bool) (g : Nat) (G : gate) (slots : List (Option element_in))
    (h : Heap) (rv : Bool) (res : LoopRes) : Prop where
  inv : Inv sig res.heap
  frame : ∀ x, x ≠ g → Frame h res.heap x
  self : ∃ pl, lookup res.heap g = some { G with path_len := pl }
  reach : ∀ x, marked res.heap x → marked h x ∨ MR res.heap [g] x
  fail : ∀ h1 r, res = LoopRes.ret h1 r → r.code = FAILED
  ok : ∀ h1 rv1, res = LoopRes.cont h1 rv1 →
    rv1 = cfold G.kind sig h1 rv slots ∧
    lookup h1 g = some { G with path_len := plfold h1 G.path_len slots } ∧
    (∀ e, some e ∈ slots → e.connection_type ≠ in_connection_type_t.SIGNAL →
      e.pointer ≠ g ∧ ∃ P, lookup h1 e.pointer = some P ∧ P.state = state.CALCULATED) ∧
    (∀ x X1, lookup h1 x = some X1 → X1.state = state.VISITED →
      ∃ X, lookup h x = some X ∧ X.state = state.VISITED)

/-! ## Topology of the graph -/

/-- The part of the heap the graph is made of: slots and kind of every gate. -/
def topo (h : Heap) (x : Nat) : Option (vector_in × gate_kind_t) :=
  (lookup h x).map (fun X => (X.in_, X.kind))

/-- Every gate reachable from `g` is a live ready gate off every cycle. -/
def Sound (h : Heap) (g : Nat) : Prop :=
  ∀ x, Reach h g x → (∃ X, lookup h x = some X ∧ ready X) ∧ ¬ OnCycle h x

/-- No gate reachable from `g` is in progress. -/
def NoVisited (h : Heap) (g : Nat) : Prop :=
  ∀ x X, Reach h g x → lookup h x = some X → X.state ≠ state.VISITED

/-! ## Calculated gates: path lengths, soundness, reference values -/

/-- Contribution of a slot to the reference value, with budget `n` for the
producers. -/
def ref_slot (sig : Nat → Bool) (h : Heap) (n : Nat) (slot : Option element_in) : Option Bool :=
  match slot with
  | none => none
  | some e =>
    if e.connection_type = in_connection_type_t.SIGNAL then some (sig e.pointer)
    else ref_value sig h n e.pointer

/-- Producer gates among a list of slots. -/
def producers_of (slots : List (Option element_in)) : List Nat :=
  slots.filterMap (fun slot =>
    match slot with
    | none => none
    | some e => if e.connection_type = in_connection_type_t.GATE then some e.pointer else none)

/-! ## The cleanup pass -/

def is_marked (o : Option gate) : Bool :=
  match o with
  | some G => decide (G.state ≠ state.UNVISITED)
  | none => false

/-- Number of live gates whose marker is not `UNVISITED`. -/
def marked_count (h : Heap) : Nat := h.countP is_marked

/-- What the cleanup may change at gate `x`: nothing but the marker, which it
may only reset. -/
def Unmark (h h1 : Heap) (x : Nat) : Prop :=
  lookup h1 x = lookup h x ∨
    ∃ X, lookup h x = some X ∧ lookup h1 x = some { X with state := state.UNVISITED }

/-- No slot below the logical size of `X` is bound to a marked gate. -/
def ChildrenClear (h1 : Heap) (X : gate) : Prop :=
  ∀ i e, i < vector_in_size X.in_ → get_element_in_at_index X.in_ i = some e →
    e.connection_type = in_connection_type_t.GATE → ¬ marked h1 e.pointer

/-- Relation between the heaps before and after a part of the cleanup: only
markers are reset, and the slots of every gate whose marker was reset lead to
unmarked gates. -/
structure CleanRel (h h1 : Heap) : Prop where
  unmark : ∀ x, Unmark h h1 x
  closed : ∀ x X, lookup h x = some X → X.state ≠ state.UNVISITED → ¬ marked h1 x →
    ChildrenClear h1 X

/-- Specification of a call of the recursive cleanup on gate `g`. -/
def CleanSpec (h : Heap) (g : Nat) (h1 : Heap) : Prop :=
  CleanRel h h1 ∧ ¬ marked h1 g

/-! ## The main loop of `gate_evaluate` -/

/-- The non-null entries of a target array. -/
def targets (gs : List (Option Nat)) : List Nat := gs.filterMap id

/-- Every entry of the target array is a gate from which only live ready gates
off every cycle are reachable. -/
def AllSound (h : Heap) (gs : List (Option Nat)) : Prop :=
  ∀ gi, gi ∈ gs → ∃ t, gi = some t ∧ Sound h t

/-- State of the heap between two targets of an evaluation. -/
structure Between (sig : Nat → Bool) (T : List Nat) (h : Heap) : Prop where
  inv : Inv sig h
  novis : ∀ x X, lookup h x = some X → X.state ≠ state.VISITED
  reach : ∀ x, marked h x → MR h T x

/-- What a successful run of the main loop over the targets `gs`, started at
index `i` with buffer `s` and running maximum `res`, has produced; `he` is the
heap before the cleanup. -/
structure Succ (he : Heap) (gs : List (Option Nat)) (i : Nat) (s : List Bool) (res : Int)
    (result : eval_result) : Prop where
  done : ∀ j t, gs[j]? = some (some t) → ∃ G, lookup he t = some G ∧
    G.state = state.CALCULATED ∧ (i + j < s.length → result.s[i + j]? = some G.res) ∧
    (G.path_len : Int) ≤ result.ret
  nonnull : ∀ gi, gi ∈ gs → gi ≠ none
  lower : res ≤ result.ret
  attained : result.ret = res ∨
    ∃ t G, some t ∈ gs ∧ lookup he t = some G ∧ result.ret = (G.path_len : Int)
  length : result.s.length = s.length
  before : ∀ k, k < i → result.s[k]? = s[k]?

/-! ## Executable checks of the hypotheses -/

def check_unvisited (h : Heap) : Bool :=
  h.all (fun o =>
    match o with
    | some G => decide (G.state = state.UNVISITED)
    | none => true)

def check_wf (h : Heap) : Bool :=
  h.all (fun o =>
    match o with
    | some G => decide (G.in_.data.length = G.in_.capacity ∧ G.in_.size = bound_count G.in_)
    | none => true)

def check_slot (h : Heap) (c k : Nat) (slot : Option (Option element_in)) : Bool :=
  match slot with
  | some (some e) =>
    if e.connection_type = in_connection_type_t.GATE then
      match lookup h e.pointer with
      | some P => decide (P.out.data[e.origin]? = some (element_out.mk c k))
      | none => false
    else true
  | _ => true

def check_slot_link (h : Heap) : Bool :=
  (List.range h.length).all (fun c =>
    match lookup h c with
    | none => true
    | some C => (List.range C.in_.data.length).all (fun k => check_slot h c k C.in_.data[k]?))

def check_link (h : Heap) (p j : Nat) (link : Option element_out) : Bool :=
  match link with
  | some l =>
    match lookup h l.pointer with
    | some C => decide (C.in_.data[l.idx]?
        = some (some (element_in.mk in_connection_type_t.GATE p j)))
    | none => false
  | none => true

def check_link_slot (h : Heap) : Bool :=
  (List.range h.length).all (fun p =>
    match lookup h p with
    | none => true
    | some P => (List.range P.out.data.length).all (fun j => check_link h p j P.out.data[j]?))

def check_consistent (h : Heap) : Bool :=
  check_wf h && check_slot_link h && check_link_slot h

/-- Check of soundness of the gates in `L` against a rank table: every gate of
`L` is live and ready and its producers are in `L` with a smaller rank. -/
def check_sound (h : Heap) (rank : List Nat) (L : List Nat) : Bool :=
  L.all (fun x =>
    match lookup h x with
    | none => false
    | some X => decide (ready X) &&
        (producers X).all (fun p => L.contains p && decide (rank.getD p 0 < rank.getD x 0)))

def check_targets (L : List Nat) (gs : List (Option Nat)) : Bool :=
  gs.all (fun gi =>
    match gi with
    | some t => L.contains t
    | none => false)

/-! ## Claims on the evaluation engine -/

/-- A two-gate cycle: `g0 = AND(g1)`, `g1 = OR(g0, b0)`, and a third gate
`g2 = NAND(g0)` evaluated after a fully calculated target. -/
def cycle_heap : Heap :=
  let h0 := (gate_new [] gate_kind_t.AND 1 true true true).1
  let h1 := (gate_new h0 gate_kind_t.OR 2 true true true).1
  let h2 := (gate_new h1 gate_kind_t.NAND 1 true true true).1
  let h3 := (gate_new h2 gate_kind_t.NOR 1 true true true).1
  let h4 := (gate_connect_gate h3 (some 1) (some 0) 0 true true true).1
  let h5 := (gate_connect_gate h4 (some 0) (some 1) 0 true true true).1
  let h6 := (gate_connect_signal h5 (some 0) (some 1) 1 true).1
  let h7 := (gate_connect_gate h6 (some 0) (some 2) 0 true true true).1
  (gate_connect_signal h7 (some 1) (some 3) 0 true).1

/-- A gate created with two slots of which only one is bound. -/
def half_bound_heap : Heap :=
  let h0 := (gate_new [] gate_kind_t.NAND 2 true true true).1
  (gate_connect_signal h0 (some 0) (some 0) 0 true).1

/-! ## Connection management: removal of a link -/

/-- Consistency of the graph where the slots in `D` are detached: a detached
slot has no link, every other slot bound to a gate has its link, and every link
designates the slot it feeds. -/
structure CE (h : Heap) (D : Nat → Nat → Prop) : Prop where
  wf : ∀ g G, lookup h g = some G → wf_in G
  slot_link : ∀ (c : Nat) (C : gate) (k : Nat) (e : element_in),
    lookup h c = some C → C.in_.data[k]? = some (some e) →
    e.connection_type = in_connection_type_t.GATE → ¬ D c k →
    ∃ P, lookup h e.pointer = some P ∧ P.out.data[e.origin]? = some (element_out.mk c k)
  link_slot : ∀ (p : Nat) (P : gate) (j c k : Nat),
    lookup h p = some P → P.out.data[j]? = some (element_out.mk c k) →
    ¬ D c k ∧ ∃ C, lookup h c = some C ∧
      C.in_.data[k]? = some (some (element_in.mk in_connection_type_t.GATE p j))

/-- The output vector after the removal of position `j`. -/
def removed (data : List element_out) (j : Nat) : List element_out :=
  match data[data.length - 1]? with
  | none => data
  | some last => (data.set j last).take (data.length - 1)

/-- The record of gate `x` after the removal of position `j` of the output
vector of `q`, whose last link is `last`. -/
def redirect (v : vector_in) (idx q j : Nat) : vector_in :=
  { v with data := v.data.set idx (some (element_in.mk in_connection_type_t.GATE q j)) }

def delete_upd (q j : Nat) (last : element_out) (newout : List element_out) (x : Nat)
    (X : gate) : gate :=
  { X with
    out := if x = q then { X.out with data := newout } else X.out
    in_ := if x = last.pointer then redirect X.in_ last.idx q j else X.in_ }

/-- The binding of every slot of a gate: empty, or the kind of producer and
the pointer to it. -/
def bindings (X : gate) : List (Option (in_connection_type_t × Nat)) :=
  X.in_.data.map (Option.map (fun e => (e.connection_type, e.pointer)))

/-- Everything of a gate record is kept but the back-references of its slots
and its output links. -/
structure Kept (X X2 : gate) : Prop where
  state : X2.state = X.state
  res : X2.res = X.res
  path_len : X2.path_len = X.path_len
  kind : X2.kind = X.kind
  size : X2.in_.size = X.in_.size
  capacity : X2.in_.capacity = X.in_.capacity
  out_capacity : X2.out.capacity = X.out.capacity
  bindings : bindings X2 = bindings X

/-- Slot `k` of gate `c` is bound to gate `q`. -/
def bound_to (h : Heap) (c k q : Nat) : Prop :=
  ∃ C e, lookup h c = some C ∧ C.in_.data[k]? = some (some e) ∧
    e.connection_type = in_connection_type_t.GATE ∧ e.pointer = q

/-- Relation between the heaps before and after the removal of the old
binding of slot `k` of gate `c`. -/
structure UnlinkRel (h h2 : Heap) (c k : Nat) : Prop where
  len : h2.length = h.length
  dead : ∀ x, lookup h x = none → lookup h2 x = none
  kept : ∀ x X, lookup h x = some X → ∃ X2, lookup h2 x = some X2 ∧ Kept X X2
  out_other : ∀ x X X2, lookup h x = some X → lookup h2 x = some X2 → ¬ bound_to h c k x →
    X2.out.data = X.out.data
  out_prod : ∀ q Q Q2, lookup h q = some Q → lookup h2 q = some Q2 → bound_to h c k q →
    Q2.out.data.Perm (Q.out.data.erase (element_out.mk c k)) ∧
      Q2.out.data.length + 1 = Q.out.data.length ∧ element_out.mk c k ∉ Q2.out.data

/-! ## Connection management: binding a slot -/

/-- The part of a gate record the consistency of the graph depends on. -/
def gview (X : gate) : vector_in × List element_out := (X.in_, X.out.data)

/-- The record of gate `x` after slot `k` of gate `c` received the record `el`
and, when `p` is a gate, a link to the slot was appended to the output vector
of `p`. -/
def connect_upd (p : Option Nat) (c k : Nat) (el : element_in) (x : Nat) (X : gate) : gate :=
  { X with
    out := if some x = p then vector_out_push_back X.out (element_out.mk c k) else X.out
    in_ := if x = c then vector_in_update_at_index X.in_ el k else X.in_ }

/-- The heap after the reallocation step of `gate_connect_gate`. -/
def realloc_heap (h : Heap) (p : Nat) (P : gate) (ok : Bool) : Heap :=
  store h p { P with out := (vector_out_realloc P.out ok).1 }

/-! ## `gate_delete`: the loop over the slots of the deleted gate -/

/-- Number of slots below index `i` of gate `X` that are bound to gate `x`. -/
def bound_slots (X : gate) (x i : Nat) : Nat :=
  ((bindings X).take i).count (some (in_connection_type_t.GATE, x))

/-- The links that do not feed a slot below index `i` of gate `gp`. -/
def links_except (gp i : Nat) (data : List element_out) : List element_out :=
  data.filter (fun l => decide (¬ (l.pointer = gp ∧ l.idx < i)))

/-- Invariant of the first loop of `gate_delete` on gate `gp` before slot `i`. -/
structure DelIn (h hh : Heap) (gp : Nat) (G : gate) (i : Nat) : Prop where
  ce : CE hh (fun c k => c = gp ∧ k < i)
  len : hh.length = h.length
  dead : ∀ x, lookup h x = none → lookup hh x = none
  kept : ∀ x X, lookup h x = some X → ∃ X1, lookup hh x = some X1 ∧ Kept X X1 ∧
    X1.out.data.Perm (links_except gp i X.out.data) ∧
    X1.out.data.length + bound_slots G x i = X.out.data.length

/-! ## `gate_delete`: the loop over the links of the deleted gate -/

/-- The write of one round of the second loop on an input vector. -/
def clear_slot (v : vector_in) (idx : Nat) : vector_in :=
  { v with data := v.data.set idx none, size := v.size - 1 }

/-- The input vector of gate `x` after the second loop over `links`. -/
def clear_slots (x : Nat) (links : List element_out) (v : vector_in) : vector_in :=
  links.foldl (fun v l => if l.pointer = x then clear_slot v l.idx else v) v

/-! ## `gate_delete` -/

/-- The binding of a slot after the deletion of gate `gp`. -/
def unbind (gp : Nat) (b : Option (in_connection_type_t × Nat)) :
    Option (in_connection_type_t × Nat) :=
  if b = some (in_connection_type_t.GATE, gp) then none else b

/-- Relation between the heaps before and after `gate_delete` of the live gate
`gp` with record `G`. -/
structure DeleteRel (h hf : Heap) (gp : Nat) (G : gate) : Prop where
  len : hf.length = h.length
  gone : lookup hf gp = none
  dead : ∀ x, lookup h x = none → lookup hf x = none
  kept : ∀ x X, x ≠ gp → lookup h x = some X → ∃ Xf, lookup hf x = some Xf ∧
    Xf.state = X.state ∧ Xf.res = X.res ∧ Xf.path_len = X.path_len ∧ Xf.kind = X.kind ∧
    Xf.in_.capacity = X.in_.capacity ∧ Xf.out.capacity = X.out.capacity ∧
    bindings Xf = (bindings X).map (unbind gp) ∧
    Xf.in_.size + (bindings X).count (some (in_connection_type_t.GATE, gp)) = X.in_.size ∧
    Xf.out.data.Perm (X.out.data.filter (fun l => decide (l.pointer ≠ gp))) ∧
    Xf.out.data.length + bound_slots G x G.in_.data.length = X.out.data.length

/-! ## `gate_new` and the failing paths of the connect operations -/

/-- Bidirectional consistency in the words of the specification: a slot bound to
a producer gate designates, through its back-reference, a link of the
producer's output vector that records the slot, and it is the only link of that
vector recording it; every link of every output vector records a slot bound to
the owner of the vector. -/
def Bidirectional (h : Heap) : Prop :=
  (∀ (c : Nat) (C : gate) (k : Nat) (e : element_in),
    lookup h c = some C → C.in_.data[k]? = some (some e) →
    e.connection_type = in_connection_type_t.GATE →
    ∃ P, lookup h e.pointer = some P ∧ P.out.data[e.origin]? = some (element_out.mk c k) ∧
      ∀ j : Nat, P.out.data[j]? = some (element_out.mk c k) → j = e.origin) ∧
  (∀ (p : Nat) (P : gate) (j c k : Nat),
    lookup h p = some P → P.out.data[j]? = some (element_out.mk c k) →
    ∃ C e, lookup h c = some C ∧ C.in_.data[k]? = some (some e) ∧
      e.connection_type = in_connection_type_t.GATE ∧ e.pointer = p)

/-! ## Claims on the connect operations -/

/-- What rebinding slot `k` of gate `c` leaves of the old producer `q`, whose
record was `Q`: its fan-out is one less, no link of `q` records `(c, k)`, and the
other links are all kept (as a multiset). -/
def OldLinkRemoved (h h2 : Heap) (q c k : Nat) (Q : gate) : Prop :=
  gate_fan_out h2 (some q) = gate_fan_out h (some q) - 1 ∧
  ∃ Q2, lookup h2 q = some Q2 ∧ element_out.mk c k ∉ Q2.out.data ∧
    Q2.out.data.Perm (Q.out.data.erase (element_out.mk c k))

/-! ## Input side of the connect operations -/

/-- Relation between the heaps before and after a successful connect operation
on slot `k` of gate `c`, seen from the input vectors: `b` is the new binding of
the slot. -/
structure ConnectRel (h h2 : Heap) (c k : Nat) (b : in_connection_type_t × Nat) : Prop where
  dead : ∀ x, lookup h x = none → lookup h2 x = none
  kept : ∀ x X, lookup h x = some X → ∃ X2, lookup h2 x = some X2 ∧
    X2.kind = X.kind ∧ X2.in_.capacity = X.in_.capacity ∧
    X2.in_.size = X.in_.size + (if x = c ∧ X.in_.data[k]? = some none then 1 else 0) ∧
    bindings X2 = (if x = c then (bindings X).set k (some b) else bindings X)

/-! ## Reachable states of the graph -/

/-- One mutating operation of the interface, with any arguments and any
allocation results. -/
inductive Step : Heap → Heap → Prop where
  | new (h : Heap) (kind : gate_kind_t) (n : Nat) (a b c : Bool) :
      Step h (gate_new h kind n a b c).1
  | connect_gate (h : Heap) (p c : Option Nat) (k : Nat) (a b ok : Bool) :
      Step h (gate_connect_gate h p c k a b ok).1
  | connect_signal (h : Heap) (s c : Option Nat) (k : Nat) (ok : Bool) :
      Step h (gate_connect_signal h s c k ok).1
  | delete (h : Heap) (g : Option Nat) : Step h (gate_delete h g)

/-- The states reachable from the empty graph by `gate_new`, the connect
operations and `gate_delete`. -/
inductive Reachable : Heap → Prop where
  | empty : Reachable []
  | step (h h1 : Heap) : Reachable h → Step h h1 → Reachable h1

/-! ## Results of `gate_input` -/

/-- The result of `gate_input` on slot `k` of a gate with slot count `cap` and
slot bindings `bs`: the failure (`NULL` with `errno = EINVAL`), the explicit
empty result (`NULL` with `errno = 0`), or the stored pointer. -/
def input_result (cap : Nat) (bs : List (Option (in_connection_type_t × Nat))) (k : Nat) :
    Option (in_connection_type_t × Nat) × Option Int :=
  if k ≥ cap then (none, some EINVAL)
  else
    match (bs[k]?).join with
    | none => (none, some 0)
    | some b => (some b, none)

/-- The law of `gate_input` on a graph: the empty result is returned exactly on
the in-range slots that are unbound, and every out-of-range index fails. -/
def InputLaw (h : Heap) : Prop :=
  ∀ (x : Nat) (X : gate) (k : Nat), lookup h x = some X →
    (gate_input h (some x) k = (none, some 0) ↔
      (k < vector_in_capacity X.in_ ∧ X.in_.data[k]? = some none)) ∧
    (k ≥ vector_in_capacity X.in_ → gate_input h (some x) k = (none, some EINVAL))

/-! ## A drained output vector -/

/-- The gate `g0` is bound to the three slots of `g1`, which grows its output
vector to capacity 4; the three slots are then rebound to signals, which leaves
the output vector of `g0` empty with capacity 4. -/
def drained_heap : Heap :=
  let h0 := (gate_new [] gate_kind_t.AND 0 true true true).1
  let h1 := (gate_new h0 gate_kind_t.AND 3 true true true).1
  let h2 := (gate_connect_gate h1 (some 0) (some 1) 0 true true true).1
  let h3 := (gate_connect_gate h2 (some 0) (some 1) 1 true true true).1
  let h4 := (gate_connect_gate h3 (some 0) (some 1) 2 true true true).1
  let h5 := (gate_connect_signal h4 (some 0) (some 1) 0 true).1
  let h6 := (gate_connect_signal h5 (some 0) (some 1) 1 true).1
  (gate_connect_signal h6 (some 0) (some 1) 2 true).1

/-! ## Effect of `vector_out_delete_element` -/

/-- What the removal of the link `l` at position `j` of the output vector of
gate `p` (record `P` before, heap `h1` after) does: the size drops by one, the
pair of `l` is erased from the multiset of links, the links at the other
positions below the last stay, the former last link `last` takes position `j`,
the slot fed by `last` designates position `j`, and when `j` is the last
position the remaining links are the links before it. Output vectors of other
gates and all slot bindings are kept. -/
structure SwapRemoved (h h1 : Heap) (p j : Nat) (P : gate) (l : element_out) : Prop where
  size : gate_fan_out h1 (some p) = gate_fan_out h (some p) - 1
  perm : ∃ P1, lookup h1 p = some P1 ∧ P1.out.data.Perm (P.out.data.erase l) ∧
    (∀ i, i < P.out.data.length - 1 → i ≠ j → P1.out.data[i]? = P.out.data[i]?) ∧
    (j < P.out.data.length - 1 → P1.out.data[j]? = P.out.data[P.out.data.length - 1]?) ∧
    (j = P.out.data.length - 1 → P1.out.data = P.out.data.take (P.out.data.length - 1))
  redirected : ∃ last C1, P.out.data[P.out.data.length - 1]? = some last ∧
    lookup h1 last.pointer = some C1 ∧
    C1.in_.data[last.idx]? = some (some (element_in.mk in_connection_type_t.GATE p j))
  others : ∀ x X, x ≠ p → lookup h x = some X → ∃ X1, lookup h1 x = some X1 ∧ X1.out = X.out
  kept : ∀ x X, lookup h x = some X → ∃ X1, lookup h1 x = some X1 ∧ Kept X X1

/-! ## Monotonicity of the markers -/

/-- Every gate marked in `h` is still marked in `h1`. -/
def MarksKept (h h1 : Heap) : Prop := ∀ x, marked h x → marked h1 x

/-! ## Topology seen by the interface -/

/-- The topology at gate `x`: its kind, its input vector (slot contents with
their back-references, logical size, slot count) and its output vector (links
in order, capacity). -/
def topology (h : Heap) (x : Nat) : Option (gate_kind_t × vector_in × vector_out) :=
  (lookup h x).map (fun X => (X.kind, X.in_, X.out))

/-- Heaps `h` and `h1` have the same topology at every gate. -/
def SameTopology (h h1 : Heap) : Prop := ∀ x, topology h1 x = topology h x

/-! ## Bounds of the output vectors -/

/-- The bounds of an output vector: at least one cell is allocated and the
links fit into the allocated cells. -/
def out_bounds (vec : vector_out) : Prop :=
  1 ≤ vec.capacity ∧ vector_out_size vec ≤ vec.capacity

/-- Every live gate has a bounded output vector. -/
def OutBounded (h : Heap) : Prop := ∀ g G, lookup h g = some G → out_bounds G.out

/-- The heap in which `gate_connect_gate(p, c, k)` calls `vector_out_push_back`:
the output vector of `p` (record `P`) has been reallocated and the old binding
of slot `k` of `c` has been removed. -/
def before_push (h : Heap) (p : Nat) (P : gate) (c k : Nat) (ok : Bool) : Heap :=
  unlink_old (realloc_heap h p P ok)
    ((lookup (realloc_heap h p P ok) c).bind (fun C1 => get_element_in_at_index C1.in_ k))

/-! # Theorems -/

/-! ## Heap lemmas -/

theorem lookup_eq (h : Heap) (g : Nat) : lookup h g = (h[g]?).join := by
  unfold lookup
  rw [List.getD_eq_getElem?_getD]
  cases h[g]? <;> rfl

theorem lookup_lt {h : Heap} {g : Nat} {G : gate} (hg : lookup h g = some G) :
    g < h.length := by
  by_contra hlt
  rw [lookup_eq, List.getElem?_eq_none (by omega)] at hg
  simp at hg

theorem length_store (h : Heap) (g : Nat) (G : gate) : (store h g G).length = h.length := by
  simp [store]

theorem lookup_store_ne (h : Heap) {g x : Nat} (G : gate) (hne : g ≠ x) :
    lookup (store h g G) x = lookup h x := by
  simp [lookup_eq, store, List.getElem?_set_ne hne]

theorem lookup_store_eq {h : Heap} {g : Nat} (G : gate) (hlt : g < h.length) :
    lookup (store h g G) g = some G := by
  simp [lookup_eq, store, List.getElem?_set_self, hlt]

theorem lookup_store (h : Heap) (g x : Nat) (G : gate) (hlt : g < h.length) :
    lookup (store h g G) x = if g = x then some G else lookup h x := by
  by_cases hx : g = x
  · subst hx; simp [lookup_store_eq G hlt]
  · simp [hx, lookup_store_ne h G hx]

/-! ## Termination of the recursive evaluation -/

theorem countP_set_add {α : Type} (p : α → Bool) (l : List α) (i : Nat) (a : α)
    (hi : i < l.length) :
    (l.set i a).countP p + (if p (l.get ⟨i, hi⟩) then 1 else 0)
      = l.countP p + (if p a then 1 else 0) := by
  induction l generalizing i with
  | nil => simp at hi
  | cons b t ih =>
    cases i with
    | zero =>
      simp only [List.set_cons_zero, List.countP_cons, List.get_eq_getElem,
        List.getElem_cons_zero]
      omega
    | succ j =>
      have hj : j < t.length := by simpa using hi
      have := ih j hj
      simp only [List.set_cons_succ, List.countP_cons, List.get_eq_getElem,
        List.getElem_cons_succ] at this ⊢
      omega

theorem lookup_get {h : Heap} {g : Nat} {G : gate} (hg : lookup h g = some G) :
    h.get ⟨g, lookup_lt hg⟩ = some G := by
  have hlt := lookup_lt hg
  rw [lookup_eq, List.getElem?_eq_getElem hlt] at hg
  simpa using hg

theorem unvisited_count_store {h : Heap} {g : Nat} {G : gate} (G1 : gate)
    (hg : lookup h g = some G) :
    unvisited_count (store h g G1) + (if G.state = state.UNVISITED then 1 else 0)
      = unvisited_count h + (if G1.state = state.UNVISITED then 1 else 0) := by
  have := countP_set_add is_unvisited h g (some G1) (lookup_lt hg)
  rw [lookup_get hg] at this
  simpa [unvisited_count, store, is_unvisited] using this

theorem unvisited_count_store_same {h : Heap} {g : Nat} {G : gate} (G1 : gate)
    (hg : lookup h g = some G) (hs : G1.state = G.state) :
    unvisited_count (store h g G1) = unvisited_count h := by
  have := unvisited_count_store G1 hg
  rw [hs] at this
  omega

theorem calculate_result_status (a b : Bool) (kind : gate_kind_t) :
    (calculate_result a b kind).2 = 0 := by
  cases kind <;> rfl

/-! Equations of the loop body, one per path through it. -/

theorem eval_step_dead (rec : Heap → Nat → Option (Heap × res_with_code)) (sig : Nat → Bool)
    {g i : Nat} {h : Heap} {rv : Bool} (hg : lookup h g = none) :
    eval_step rec sig g i h rv = some (LoopRes.ret h ⟨false, FAILED⟩) := by
  simp [eval_step, hg]

theorem eval_step_empty (rec : Heap → Nat → Option (Heap × res_with_code)) (sig : Nat → Bool)
    {g i : Nat} {h : Heap} {rv : Bool} {G : gate} (hg : lookup h g = some G)
    (hs : get_element_in_at_index G.in_ i = none) :
    eval_step rec sig g i h rv = some (LoopRes.cont h rv) := by
  simp [eval_step, hg, hs]

theorem eval_step_signal (rec : Heap → Nat → Option (Heap × res_with_code)) (sig : Nat → Bool)
    {g i : Nat} {h : Heap} {rv : Bool} {G : gate} {e : element_in} (hg : lookup h g = some G)
    (hs : get_element_in_at_index G.in_ i = some e)
    (hc : e.connection_type = in_connection_type_t.SIGNAL) :
    eval_step rec sig g i h rv
      = some (LoopRes.cont h (calculate_result rv (sig e.pointer) G.kind).1) := by
  simp [eval_step, hg, hs, hc, calculate_result_status]

theorem eval_step_self (rec : Heap → Nat → Option (Heap × res_with_code)) (sig : Nat → Bool)
    {g i : Nat} {h : Heap} {rv : Bool} {G : gate} {e : element_in} (hg : lookup h g = some G)
    (hs : get_element_in_at_index G.in_ i = some e)
    (hc : e.connection_type ≠ in_connection_type_t.SIGNAL) (hself : g = e.pointer) :
    eval_step rec sig g i h rv = some (LoopRes.ret h ⟨false, FAILED⟩) := by
  simp [eval_step, hg, hs, hc, ← hself]

theorem eval_step_fuel (rec : Heap → Nat → Option (Heap × res_with_code)) (sig : Nat → Bool)
    {g i : Nat} {h : Heap} {rv : Bool} {G : gate} {e : element_in} (hg : lookup h g = some G)
    (hs : get_element_in_at_index G.in_ i = some e)
    (hc : e.connection_type ≠ in_connection_type_t.SIGNAL) (hself : g ≠ e.pointer)
    (hr : rec h e.pointer = none) :
    eval_step rec sig g i h rv = none := by
  simp [eval_step, hg, hs, hc, hself, hr]

theorem eval_step_fail (rec : Heap → Nat → Option (Heap × res_with_code)) (sig : Nat → Bool)
    {g i : Nat} {h h1 : Heap} {rv : Bool} {G : gate} {e : element_in} {r : res_with_code}
    (hg : lookup h g = some G) (hs : get_element_in_at_index G.in_ i = some e)
    (hc : e.connection_type ≠ in_connection_type_t.SIGNAL) (hself : g ≠ e.pointer)
    (hr : rec h e.pointer = some (h1, r)) (hcode : r.code ≠ SUCCESS) :
    eval_step rec sig g i h rv = some (LoopRes.ret h1 r) := by
  simp [eval_step, hg, hs, hc, hself, hr, hcode]

theorem eval_step_ok (rec : Heap → Nat → Option (Heap × res_with_code)) (sig : Nat → Bool)
    {g i : Nat} {h h1 : Heap} {rv : Bool} {G G1 Gin : gate} {e : element_in}
    {r : res_with_code}
    (hg : lookup h g = some G) (hs : get_element_in_at_index G.in_ i = some e)
    (hc : e.connection_type ≠ in_connection_type_t.SIGNAL) (hself : g ≠ e.pointer)
    (hr : rec h e.pointer = some (h1, r)) (hcode : r.code = SUCCESS)
    (hg1 : lookup h1 g = some G1) (hp1 : lookup h1 e.pointer = some Gin) :
    eval_step rec sig g i h rv
      = some (LoopRes.cont (store h1 g { G1 with path_len := maxc G1.path_len Gin.path_len })
          (calculate_result rv r.res G.kind).1) := by
  simp [eval_step, hg, hs, hc, hself, hr, hcode, hg1, hp1, calculate_result_status]

theorem eval_step_lost (rec : Heap → Nat → Option (Heap × res_with_code)) (sig : Nat → Bool)
    {g i : Nat} {h h1 : Heap} {rv : Bool} {G : gate} {e : element_in}
    {r : res_with_code}
    (hg : lookup h g = some G) (hs : get_element_in_at_index G.in_ i = some e)
    (hc : e.connection_type ≠ in_connection_type_t.SIGNAL) (hself : g ≠ e.pointer)
    (hr : rec h e.pointer = some (h1, r)) (hcode : r.code = SUCCESS)
    (hlost : lookup h1 g = none ∨ lookup h1 e.pointer = none) :
    eval_step rec sig g i h rv = some (LoopRes.ret h1 ⟨false, FAILED⟩) := by
  rcases hlost with hl | hl
  · simp [eval_step, hg, hs, hc, hself, hr, hcode, hl, calculate_result_status]
  · cases hg1 : lookup h1 g <;>
      simp [eval_step, hg, hs, hc, hself, hr, hcode, hl, hg1, calculate_result_status]

theorem eval_step_total (rec : Heap → Nat → Option (Heap × res_with_code)) (sig : Nat → Bool)
    (n : Nat)
    (hrec : ∀ h p, unvisited_count h < n →
      ∃ h1 r, rec h p = some (h1, r) ∧ unvisited_count h1 ≤ unvisited_count h)
    (g i : Nat) (h : Heap) (rv : Bool) (hn : unvisited_count h < n) :
    ∃ res, eval_step rec sig g i h rv = some res ∧
      unvisited_count res.heap ≤ unvisited_count h := by
  cases hg : lookup h g with
  | none => exact ⟨_, eval_step_dead rec sig hg, le_refl _⟩
  | some G =>
    cases hs : get_element_in_at_index G.in_ i with
    | none => exact ⟨_, eval_step_empty rec sig hg hs, le_refl _⟩
    | some e =>
      by_cases hc : e.connection_type = in_connection_type_t.SIGNAL
      · exact ⟨_, eval_step_signal rec sig hg hs hc, le_refl _⟩
      · by_cases hself : g = e.pointer
        · exact ⟨_, eval_step_self rec sig hg hs hc hself, le_refl _⟩
        · obtain ⟨h1, r, hr, hle⟩ := hrec h e.pointer hn
          by_cases hcode : r.code = SUCCESS
          · cases hg1 : lookup h1 g with
            | none => exact ⟨_, eval_step_lost rec sig hg hs hc hself hr hcode (Or.inl hg1), hle⟩
            | some G1 =>
              cases hp1 : lookup h1 e.pointer with
              | none =>
                exact ⟨_, eval_step_lost rec sig hg hs hc hself hr hcode (Or.inr hp1), hle⟩
              | some Gin =>
                refine ⟨_, eval_step_ok rec sig hg hs hc hself hr hcode hg1 hp1, ?_⟩
                simp only [LoopRes.heap]
                exact (unvisited_count_store_same
                  { G1 with path_len := maxc G1.path_len Gin.path_len } hg1 rfl).le.trans hle
          · exact ⟨_, eval_step_fail rec sig hg hs hc hself hr hcode, hle⟩

theorem eval_loop_total (rec : Heap → Nat → Option (Heap × res_with_code)) (sig : Nat → Bool)
    (n : Nat)
    (hrec : ∀ h p, unvisited_count h < n →
      ∃ h1 r, rec h p = some (h1, r) ∧ unvisited_count h1 ≤ unvisited_count h)
    (g : Nat) (is : List Nat) (h : Heap) (rv : Bool) (hn : unvisited_count h < n) :
    ∃ res, eval_loop rec sig g is h rv = some res ∧
      unvisited_count res.heap ≤ unvisited_count h := by
  induction is generalizing h rv with
  | nil => exact ⟨_, rfl, le_refl _⟩
  | cons i is ih =>
    obtain ⟨res, hres, hle⟩ := eval_step_total rec sig n hrec g i h rv hn
    unfold eval_loop
    rw [hres]
    cases res with
    | ret h1 r => exact ⟨_, rfl, hle⟩
    | cont h1 rv1 =>
      simp only [LoopRes.heap] at hle
      obtain ⟨res2, hres2, hle2⟩ := ih h1 rv1 (by omega)
      exact ⟨res2, hres2, by omega⟩

theorem unvisited_count_store_le {h : Heap} {g : Nat} {G : gate} (G1 : gate)
    (hg : lookup h g = some G) (hs : G1.state ≠ state.UNVISITED) :
    unvisited_count (store h g G1) ≤ unvisited_count h := by
  have := unvisited_count_store G1 hg
  simp only [hs, if_false] at this
  omega

theorem state_unvisited_of {G : gate} (hcal : G.state ≠ state.CALCULATED)
    (hvis : G.state ≠ state.VISITED) : G.state = state.UNVISITED := by
  cases hst : G.state <;> simp_all

theorem eval_dead (sig : Nat → Bool) (fuel : Nat) {h : Heap} {g : Nat}
    (hg : lookup h g = none) :
    nand_evaluate_recursive (fuel + 1) sig h g = some (h, ⟨false, FAILED⟩) := by
  simp [nand_evaluate_recursive, hg]

theorem eval_not_ready (sig : Nat → Bool) (fuel : Nat) {h : Heap} {g : Nat} {G : gate}
    (hg : lookup h g = some G) (hr : ¬ ready G) :
    nand_evaluate_recursive (fuel + 1) sig h g = some (h, ⟨false, FAILED⟩) := by
  unfold ready at hr
  simp [nand_evaluate_recursive, hg, hr]

theorem eval_calculated (sig : Nat → Bool) (fuel : Nat) {h : Heap} {g : Nat} {G : gate}
    (hg : lookup h g = some G) (hr : ready G) (hs : G.state = state.CALCULATED) :
    nand_evaluate_recursive (fuel + 1) sig h g = some (h, ⟨G.res, SUCCESS⟩) := by
  unfold ready at hr
  simp [nand_evaluate_recursive, hg, hr, hs]

theorem eval_visited (sig : Nat → Bool) (fuel : Nat) {h : Heap} {g : Nat} {G : gate}
    (hg : lookup h g = some G) (hr : ready G) (hs : G.state = state.VISITED) :
    nand_evaluate_recursive (fuel + 1) sig h g = some (h, ⟨false, FAILED⟩) := by
  unfold ready at hr
  simp [nand_evaluate_recursive, hg, hr, hs]

theorem eval_unvisited (sig : Nat → Bool) (fuel : Nat) {h : Heap} {g : Nat} {G : gate}
    (hg : lookup h g = some G) (hr : ready G) (hs : G.state = state.UNVISITED) :
    nand_evaluate_recursive (fuel + 1) sig h g =
      eval_leave g (eval_loop (nand_evaluate_recursive fuel sig) sig g
          (List.range (vector_in_size G.in_)) (store h g (enter G)) (init_value G.kind)) := by
  unfold ready at hr
  simp [nand_evaluate_recursive, hg, hr, hs]

theorem eval_leave_ret (g : Nat) (h2 : Heap) (r : res_with_code) :
    eval_leave g (some (LoopRes.ret h2 r)) = some (h2, r) := rfl

theorem eval_leave_lost {g : Nat} {h2 : Heap} (rv : Bool) (hg2 : lookup h2 g = none) :
    eval_leave g (some (LoopRes.cont h2 rv)) = some (h2, ⟨false, FAILED⟩) := by
  simp only [eval_leave, hg2]

theorem eval_leave_cont {g : Nat} {h2 : Heap} {G2 : gate} (rv : Bool)
    (hg2 : lookup h2 g = some G2) :
    eval_leave g (some (LoopRes.cont h2 rv))
      = some (store h2 g (leave G2 rv), ⟨(leave G2 rv).res, SUCCESS⟩) := by
  simp only [eval_leave, hg2]

/-- The recursive evaluation returns whenever the budget exceeds the number of
unvisited gates, and it never raises that number. -/
theorem nand_evaluate_recursive_total (sig : Nat → Bool) (fuel : Nat) (h : Heap) (g : Nat)
    (hn : unvisited_count h < fuel) :
    ∃ h1 r, nand_evaluate_recursive fuel sig h g = some (h1, r) ∧
      unvisited_count h1 ≤ unvisited_count h := by
  induction fuel generalizing h g with
  | zero => omega
  | succ fuel ih =>
    cases hg : lookup h g with
    | none => exact ⟨_, _, eval_dead sig fuel hg, le_refl _⟩
    | some G =>
      by_cases hready : ready G
      · by_cases hcal : G.state = state.CALCULATED
        · exact ⟨_, _, eval_calculated sig fuel hg hready hcal, le_refl _⟩
        · by_cases hvis : G.state = state.VISITED
          · exact ⟨_, _, eval_visited sig fuel hg hready hvis, le_refl _⟩
          · have hun := state_unvisited_of hcal hvis
            have hcount := unvisited_count_store (enter G) hg
            simp only [hun, if_true, enter] at hcount
            have hdec : unvisited_count (store h g (enter G)) + 1 = unvisited_count h := by
              simpa [enter] using hcount
            obtain ⟨res, hres, hle⟩ := eval_loop_total (nand_evaluate_recursive fuel sig) sig fuel
              (fun h p hp => ih h p hp) g (List.range (vector_in_size G.in_))
              (store h g (enter G)) (init_value G.kind) (by omega)
            rw [eval_unvisited sig fuel hg hready hun, hres]
            cases res with
            | ret h2 r =>
              simp only [LoopRes.heap] at hle
              exact ⟨_, _, rfl, by omega⟩
            | cont h2 rv =>
              simp only [LoopRes.heap] at hle
              cases hg2 : lookup h2 g with
              | none => exact ⟨_, _, eval_leave_lost rv hg2, by omega⟩
              | some G2 =>
                refine ⟨_, _, eval_leave_cont rv hg2, ?_⟩
                have := unvisited_count_store_le (leave G2 rv) hg2 (by simp [leave])
                omega
      · exact ⟨_, _, eval_not_ready sig fuel hg hready, le_refl _⟩

/-! ## Invariants of the evaluation -/

theorem Frame.refl_frame (h : Heap) (x : Nat) : Frame h h x := by
  unfold Frame
  cases hx : lookup h x with
  | none => simp
  | some X => exact ⟨X, rfl, rfl, rfl, rfl, fun _ => rfl⟩

theorem Frame.of_some {h h1 : Heap} {x : Nat} {X : gate} (hf : Frame h h1 x)
    (hx : lookup h x = some X) :
    ∃ X1, lookup h1 x = some X1 ∧ X1.in_ = X.in_ ∧ X1.out = X.out ∧
      X1.kind = X.kind ∧ (X.state ≠ state.UNVISITED → X1 = X) := by
  unfold Frame at hf
  rw [hx] at hf
  exact hf

theorem Frame.of_none {h h1 : Heap} {x : Nat} (hf : Frame h h1 x)
    (hx : lookup h x = none) : lookup h1 x = none := by
  unfold Frame at hf
  rw [hx] at hf
  exact hf

theorem Frame.back {h h1 : Heap} {x : Nat} {X1 : gate} (hf : Frame h h1 x)
    (hx : lookup h1 x = some X1) :
    ∃ X, lookup h x = some X ∧ X1.in_ = X.in_ ∧ X1.out = X.out ∧
      X1.kind = X.kind ∧ (X.state ≠ state.UNVISITED → X1 = X) := by
  cases hx0 : lookup h x with
  | none => rw [hf.of_none hx0] at hx; cases hx
  | some X =>
    obtain ⟨X2, h2, r⟩ := hf.of_some hx0
    rw [hx] at h2
    cases h2
    exact ⟨X, rfl, r⟩

theorem Frame.trans_frame {h h1 h2 : Heap} {x : Nat} (h01 : Frame h h1 x) (h12 : Frame h1 h2 x) :
    Frame h h2 x := by
  cases hx : lookup h x with
  | none =>
    have := h12.of_none (h01.of_none hx)
    unfold Frame
    rw [hx]
    exact this
  | some X =>
    obtain ⟨X1, hx1, hi, ho, hk, hs⟩ := h01.of_some hx
    obtain ⟨X2, hx2, hi2, ho2, hk2, hs2⟩ := h12.of_some hx1
    unfold Frame
    rw [hx]
    refine ⟨X2, hx2, hi2.trans hi, ho2.trans ho, hk2.trans hk, ?_⟩
    intro hne
    have h1 := hs hne
    subst h1
    exact hs2 hne

theorem Ext.refl_ext (h : Heap) : Ext h h := fun x => Frame.refl_frame h x

theorem Ext.trans_ext {h h1 h2 : Heap} (h01 : Ext h h1) (h12 : Ext h1 h2) : Ext h h2 :=
  fun x => (h01 x).trans_frame (h12 x)

/-- A write that keeps the topology of a gate whose old marker is `UNVISITED`
or whose record is otherwise unchanged. -/
theorem Frame.store_other {h : Heap} {g x : Nat} (G1 : gate) (hne : g ≠ x) :
    Frame h (store h g G1) x := by
  unfold Frame
  rw [lookup_store_ne h G1 hne]
  cases hx : lookup h x with
  | none => simp
  | some X => exact ⟨X, rfl, rfl, rfl, rfl, fun _ => rfl⟩

theorem Frame.store_unvisited {h : Heap} {g : Nat} {G : gate} (G1 : gate)
    (hg : lookup h g = some G) (hs : G.state = state.UNVISITED)
    (hi : G1.in_ = G.in_) (ho : G1.out = G.out) (hk : G1.kind = G.kind) :
    Frame h (store h g G1) g := by
  unfold Frame
  rw [hg, lookup_store_eq G1 (lookup_lt hg)]
  exact ⟨G1, rfl, hi, ho, hk, fun hne => absurd hs hne⟩

theorem cfold_congr (kind : gate_kind_t) (sig : Nat → Bool) (h h1 : Heap) (rv : Bool)
    (slots : List (Option element_in))
    (hsame : ∀ e, some e ∈ slots → e.connection_type ≠ in_connection_type_t.SIGNAL →
      lookup h1 e.pointer = lookup h e.pointer) :
    cfold kind sig h1 rv slots = cfold kind sig h rv slots := by
  induction slots generalizing rv with
  | nil => rfl
  | cons s t ih =>
    have ht := fun r => ih r (fun e he hc => hsame e (List.mem_cons_of_mem _ he) hc)
    cases s with
    | none => simpa [cfold] using ht rv
    | some e =>
      have he : slot_input sig h1 e = slot_input sig h e := by
        unfold slot_input
        by_cases hc : e.connection_type = in_connection_type_t.SIGNAL
        · simp [hc]
        · simp only [hc, if_false]
          rw [hsame e (List.mem_cons_self _ _) hc]
      simp only [cfold, List.foldl_cons, he] at ht ⊢
      exact ht _

theorem plfold_congr (h h1 : Heap) (pl : Nat) (slots : List (Option element_in))
    (hsame : ∀ e, some e ∈ slots → e.connection_type ≠ in_connection_type_t.SIGNAL →
      lookup h1 e.pointer = lookup h e.pointer) :
    plfold h1 pl slots = plfold h pl slots := by
  induction slots generalizing pl with
  | nil => rfl
  | cons s t ih =>
    have ht := fun r => ih r (fun e he hc => hsame e (List.mem_cons_of_mem _ he) hc)
    cases s with
    | none => simpa [plfold] using ht pl
    | some e =>
      by_cases hc : e.connection_type = in_connection_type_t.SIGNAL
      · simp only [plfold, List.foldl_cons, hc, if_true] at ht ⊢
        exact ht _
      · have he : slot_len h1 e = slot_len h e := by
          unfold slot_len
          rw [hsame e (List.mem_cons_self _ _) hc]
        simp only [plfold, List.foldl_cons, hc, if_false, he] at ht ⊢
        exact ht _

theorem mem_producers {G : gate} {p : Nat} :
    p ∈ producers G ↔ ∃ e, some e ∈ G.in_.data ∧
      e.connection_type ≠ in_connection_type_t.SIGNAL ∧ e.pointer = p := by
  unfold producers
  rw [List.mem_filterMap]
  constructor
  · rintro ⟨s, hs, hp⟩
    cases s with
    | none => simp at hp
    | some e =>
      by_cases hc : e.connection_type = in_connection_type_t.GATE
      · simp only [hc, if_true, Option.some.injEq] at hp
        exact ⟨e, hs, by simp [hc], hp⟩
      · simp [hc] at hp
  · rintro ⟨e, hs, hc, hp⟩
    refine ⟨some e, hs, ?_⟩
    have : e.connection_type = in_connection_type_t.GATE := by
      cases hct : e.connection_type <;> simp_all
    simp [this, hp]

theorem edge_congr {h h1 : Heap} {a b : Nat} {A A1 : gate} (ha : lookup h a = some A)
    (ha1 : lookup h1 a = some A1) (hi : A1.in_ = A.in_) (he : edge h a b) : edge h1 a b := by
  obtain ⟨A0, ha0, hb⟩ := he
  rw [ha] at ha0
  cases ha0
  refine ⟨A1, ha1, ?_⟩
  unfold producers at hb ⊢
  rw [hi]
  exact hb

/-- Monotonicity of marked reachability: topology kept and marks kept. -/
theorem MR.mono {h h1 : Heap} {T : List Nat} {x : Nat}
    (hgrow : ∀ y Y, lookup h y = some Y → ∃ Y1, lookup h1 y = some Y1 ∧ Y1.in_ = Y.in_ ∧
      (Y.state ≠ state.UNVISITED → Y1.state ≠ state.UNVISITED))
    (hm : MR h T x) : MR h1 T x := by
  induction hm with
  | base t ht hmt =>
    obtain ⟨X, hx, hs⟩ := hmt
    obtain ⟨X1, hx1, _, hs1⟩ := hgrow t X hx
    exact MR.base t ht ⟨X1, hx1, hs1 hs⟩
  | step a b _ hab hmb ih =>
    obtain ⟨B, hb, hs⟩ := hmb
    obtain ⟨B1, hb1, _, hs1⟩ := hgrow b B hb
    obtain ⟨A, ha, hpa⟩ := hab
    obtain ⟨A1, ha1, hi, _⟩ := hgrow a A ha
    exact MR.step a b ih (edge_congr ha ha1 hi ⟨A, ha, hpa⟩) ⟨B1, hb1, hs1 hs⟩

/-- Marked reachability from a producer lifts to its marked consumer. -/
theorem MR.lift {h : Heap} {g p x : Nat} (hg : marked h g) (he : edge h g p)
    (hm : MR h [p] x) : MR h [g] x := by
  induction hm with
  | base t ht hmt =>
    have : t = p := by simpa using ht
    subst this
    exact MR.step g t (MR.base g (by simp) hg) he hmt
  | step a b _ hab hmb ih => exact MR.step a b ih hab hmb

theorem MR.subset {h : Heap} {T T1 : List Nat} {x : Nat} (hsub : ∀ t, t ∈ T → t ∈ T1)
    (hm : MR h T x) : MR h T1 x := by
  induction hm with
  | base t ht hmt => exact MR.base t (hsub t ht) hmt
  | step a b _ hab hmb ih => exact MR.step a b ih hab hmb

theorem Grow.of_ext {h h1 : Heap} (he : Ext h h1) : Grow h h1 := by
  intro y Y hy
  obtain ⟨Y1, hy1, hi, _, _, hs⟩ := (he y).of_some hy
  exact ⟨Y1, hy1, hi, fun hne => by rw [hs hne]; exact hne⟩

theorem Grow.store {h : Heap} {g : Nat} {G : gate} (G1 : gate) (hg : lookup h g = some G)
    (hi : G1.in_ = G.in_) (hs : G.state ≠ state.UNVISITED → G1.state ≠ state.UNVISITED) :
    Grow h (store h g G1) := by
  intro y Y hy
  by_cases hgy : g = y
  · subst hgy
    rw [hg] at hy
    cases hy
    exact ⟨G1, lookup_store_eq G1 (lookup_lt hg), hi, hs⟩
  · exact ⟨Y, by rw [lookup_store_ne h G1 hgy]; exact hy, rfl, fun hne => hne⟩

theorem mem_of_get_element {vec : vector_in} {i : Nat} {e : element_in}
    (hs : get_element_in_at_index vec i = some e) : some e ∈ vec.data := by
  unfold get_element_in_at_index at hs
  rw [List.getD_eq_getElem?_getD] at hs
  cases hget : vec.data[i]? with
  | none => simp [hget] at hs
  | some s =>
    simp only [hget, Option.getD_some] at hs
    subst hs
    exact List.mem_iff_getElem?.mpr ⟨i, hget⟩

theorem edge_of_slot {h : Heap} {g i : Nat} {G : gate} {e : element_in}
    (hg : lookup h g = some G) (hs : get_element_in_at_index G.in_ i = some e)
    (hc : e.connection_type ≠ in_connection_type_t.SIGNAL) : edge h g e.pointer :=
  ⟨G, hg, mem_producers.mpr ⟨e, mem_of_get_element hs, hc, rfl⟩⟩

theorem Cached.congr_cached {sig : Nat → Bool} {h h1 : Heap} {G : gate} (hc : Cached sig h G)
    (hsame : ∀ p, p ∈ producers G → lookup h1 p = lookup h p) : Cached sig h1 G := by
  obtain ⟨hres, hpl, hprod⟩ := hc
  have hs : ∀ e, some e ∈ G.in_.data → e.connection_type ≠ in_connection_type_t.SIGNAL →
      lookup h1 e.pointer = lookup h e.pointer :=
    fun e he hne => hsame e.pointer (mem_producers.mpr ⟨e, he, hne, rfl⟩)
  refine ⟨?_, ?_, ?_⟩
  · rw [cfold_congr G.kind sig h h1 _ _ hs]; exact hres
  · rw [plfold_congr h h1 _ _ hs]; exact hpl
  · intro p hp
    rw [hsame p hp]
    exact hprod p hp

/-- A write to a gate that is not calculated, keeping its slots and marker. -/
theorem Inv.store_pending {sig : Nat → Bool} {h : Heap} {g : Nat} {G : gate} (G1 : gate)
    (hinv : Inv sig h) (hg : lookup h g = some G) (hi : G1.in_ = G.in_)
    (hs : G1.state = G.state) (hnc : G.state ≠ state.CALCULATED) :
    Inv sig (store h g G1) := by
  have hlt := lookup_lt hg
  refine ⟨?_, ?_, ?_⟩
  · intro x X hx
    rw [lookup_store h g x G1 hlt] at hx
    split_ifs at hx with hgx
    · cases hx
      have := hinv.wf g G hg
      unfold wf_in bound_count at this ⊢
      rw [hi]; exact this
    · exact hinv.wf x X hx
  · intro x X hx hne
    rw [lookup_store h g x G1 hlt] at hx
    split_ifs at hx with hgx
    · cases hx
      have := hinv.marked_ready g G hg (by rw [← hs]; exact hne)
      unfold ready at this ⊢
      rw [hi]; exact this
    · exact hinv.marked_ready x X hx hne
  · intro x X hx hcal
    rw [lookup_store h g x G1 hlt] at hx
    split_ifs at hx with hgx
    · cases hx
      rw [hs] at hcal
      exact absurd hcal hnc
    · refine (hinv.cached x X hx hcal).congr_cached ?_
      intro p hp
      obtain ⟨P, hP, hPc⟩ := (hinv.cached x X hx hcal).2.2 p hp
      have : g ≠ p := by
        rintro rfl
        rw [hg] at hP
        cases hP
        exact hnc hPc
      exact lookup_store_ne h G1 this

theorem gate_eta_path_len (G : gate) : ({ G with path_len := G.path_len } : gate) = G := by
  cases G; rfl

/-- The loop specification when the heap is left untouched. -/
theorem LoopSpec.still {sig : Nat → Bool} {g : Nat} {G : gate} {h : Heap}
    (hinv : Inv sig h) (hg : lookup h g = some G) (slot : Option element_in) (rv rv1 : Bool)
    (hrv : rv1 = cfold G.kind sig h rv [slot])
    (hsig : ∀ e, slot = some e → e.connection_type = in_connection_type_t.SIGNAL) :
    LoopSpec sig g G [slot] h rv (LoopRes.cont h rv1) := by
  refine ⟨hinv, fun x _ => Frame.refl_frame h x, ⟨G.path_len, ?_⟩, fun x hx => Or.inl hx, ?_, ?_⟩
  · rw [gate_eta_path_len]; exact hg
  · intro h1 r hres; cases hres
  · intro h1 rv2 hres
    cases hres
    refine ⟨hrv, ?_, ?_, ?_⟩
    · have : plfold h G.path_len [slot] = G.path_len := by
        cases slot with
        | none => rfl
        | some e => simp [plfold, hsig e rfl]
      rw [this, gate_eta_path_len]; exact hg
    · intro e he hne
      have : slot = some e := by simpa [eq_comm] using he
      exact absurd (hsig e this) hne
    · intro x X1 hx hs
      exact ⟨X1, hx, hs⟩

theorem LoopSpec.failed {sig : Nat → Bool} {g : Nat} {G : gate} {h h1 : Heap}
    (hg : lookup h g = some G) (hv : G.state = state.VISITED)
    (slots : List (Option element_in)) (rv : Bool) (r : res_with_code) (p : Nat)
    (hedge : edge h g p)
    (hspec : EvalSpec sig h p h1 r) (hcode : r.code = FAILED) :
    LoopSpec sig g G slots h rv (LoopRes.ret h1 r) := by
  have hne : G.state ≠ state.UNVISITED := by rw [hv]; decide
  obtain ⟨G1, hg1, hi, _, _, hsame⟩ := (hspec.ext g).of_some hg
  have hG1 : G1 = G := hsame hne
  subst hG1
  refine ⟨hspec.inv, fun x _ => hspec.ext x, ⟨G1.path_len, ?_⟩, ?_, ?_, ?_⟩
  · rw [gate_eta_path_len]; exact hg1
  · intro x hx
    rcases hspec.reach x hx with hl | hr
    · exact Or.inl hl
    · exact Or.inr (MR.lift ⟨G1, hg1, hne⟩ (edge_congr hg hg1 rfl hedge) hr)
  · intro h2 r2 hres
    cases hres
    exact hcode
  · intro h2 rv2 hres
    cases hres

theorem LoopSpec.advance {sig : Nat → Bool} {g : Nat} {G P : gate} {h h1 : Heap}
    {e : element_in} {r : res_with_code}
    (hg : lookup h g = some G) (hv : G.state = state.VISITED)
    (hedge : edge h g e.pointer)
    (hc : e.connection_type ≠ in_connection_type_t.SIGNAL) (hself : g ≠ e.pointer)
    (hspec : EvalSpec sig h e.pointer h1 r) (hcode : r.code = SUCCESS)
    (hg1 : lookup h1 g = some G) (hp1 : lookup h1 e.pointer = some P)
    (hPc : P.state = state.CALCULATED) (hPr : r.res = P.res) (rv : Bool) :
    LoopSpec sig g G [some e] h rv
      (LoopRes.cont (store h1 g { G with path_len := maxc G.path_len P.path_len })
        (calculate_result rv r.res G.kind).1) := by
  have hne : G.state ≠ state.UNVISITED := by rw [hv]; decide
  have hncal : G.state ≠ state.CALCULATED := by rw [hv]; decide
  have hlt := lookup_lt hg1
  have hp2 : lookup (store h1 g { G with path_len := maxc G.path_len P.path_len }) e.pointer
      = some P := by
    rw [lookup_store_ne h1 _ hself]; exact hp1
  have hg2 : lookup (store h1 g { G with path_len := maxc G.path_len P.path_len }) g
      = some { G with path_len := maxc G.path_len P.path_len } := lookup_store_eq _ hlt
  have hgrow : Grow h1 (store h1 g { G with path_len := maxc G.path_len P.path_len }) :=
    Grow.store _ hg1 rfl (fun hx => hx)
  refine ⟨?_, ?_, ⟨_, hg2⟩, ?_, ?_, ?_⟩
  · exact hspec.inv.store_pending _ hg1 rfl rfl hncal
  · intro x hx
    exact (hspec.ext x).trans_frame (Frame.store_other _ (Ne.symm hx))
  · intro x hx
    by_cases hxg : x = g
    · subst hxg
      exact Or.inl ⟨G, hg, hne⟩
    · have hx1 : marked h1 x := by
        obtain ⟨X, hX, hXs⟩ := hx
        simp only [LoopRes.heap] at hX
        rw [lookup_store_ne h1 _ (Ne.symm hxg)] at hX
        exact ⟨X, hX, hXs⟩
      rcases hspec.reach x hx1 with hl | hr
      · exact Or.inl hl
      · refine Or.inr (MR.mono hgrow ?_)
        exact MR.lift ⟨G, hg1, hne⟩ (edge_congr hg hg1 rfl hedge) hr
  · intro h2 r2 hres
    cases hres
  · intro h2 rv2 hres
    cases hres
    refine ⟨?_, ?_, ?_, ?_⟩
    · simp only [cfold, List.foldl_cons, List.foldl_nil, slot_input, hc, if_false, hp2, hPr]
    · simp only [plfold, List.foldl_cons, List.foldl_nil, slot_len, hc, if_false, hp2]
      exact hg2
    · intro e1 he1 _
      have : e1 = e := by simpa using he1
      subst this
      exact ⟨Ne.symm hself, P, hp2, hPc⟩
    · intro x X1 hx hs
      by_cases hxg : x = g
      · subst hxg
        exact ⟨G, hg, hv⟩
      · rw [lookup_store_ne h1 _ (Ne.symm hxg)] at hx
        exact hspec.visited hcode x X1 hx hs

theorem eval_step_spec (rec : Heap → Nat → Option (Heap × res_with_code)) (sig : Nat → Bool)
    (hrec : ∀ h p h1 r, rec h p = some (h1, r) → Inv sig h → EvalSpec sig h p h1 r)
    {g i : Nat} {G : gate} {h : Heap} {rv : Bool} {res : LoopRes}
    (hinv : Inv sig h) (hg : lookup h g = some G) (hv : G.state = state.VISITED)
    (hres : eval_step rec sig g i h rv = some res) :
    LoopSpec sig g G [get_element_in_at_index G.in_ i] h rv res := by
  have hne : G.state ≠ state.UNVISITED := by rw [hv]; decide
  cases hs : get_element_in_at_index G.in_ i with
  | none =>
    rw [eval_step_empty rec sig hg hs] at hres
    cases hres
    exact LoopSpec.still hinv hg none rv rv rfl (fun e he => by cases he)
  | some e =>
    by_cases hc : e.connection_type = in_connection_type_t.SIGNAL
    · rw [eval_step_signal rec sig hg hs hc] at hres
      cases hres
      refine LoopSpec.still hinv hg (some e) rv _ ?_ (fun e1 he1 => by cases he1; exact hc)
      simp [cfold, slot_input, hc]
    · have hedge := edge_of_slot hg hs hc
      by_cases hself : g = e.pointer
      · rw [eval_step_self rec sig hg hs hc hself] at hres
        cases hres
        refine ⟨hinv, fun x _ => Frame.refl_frame h x, ⟨G.path_len, ?_⟩, fun x hx => Or.inl hx, ?_, ?_⟩
        · rw [gate_eta_path_len]; exact hg
        · intro h1 r hr; cases hr; rfl
        · intro h1 rv1 hr; cases hr
      · cases hr : rec h e.pointer with
        | none =>
          rw [eval_step_fuel rec sig hg hs hc hself hr] at hres
          cases hres
        | some hr1 =>
          obtain ⟨h1, r⟩ := hr1
          have hspec := hrec h e.pointer h1 r hr hinv
          obtain ⟨G1, hg1, _, _, _, hsame⟩ := (hspec.ext g).of_some hg
          have hG1 : G1 = G := hsame hne
          subst hG1
          by_cases hcode : r.code = SUCCESS
          · obtain ⟨P, hp1, hPc, hPr⟩ := hspec.done hcode
            rw [eval_step_ok rec sig hg hs hc hself hr hcode hg1 hp1] at hres
            cases hres
            exact LoopSpec.advance hg hv hedge hc hself hspec hcode hg1 hp1 hPc hPr rv
          · rw [eval_step_fail rec sig hg hs hc hself hr hcode] at hres
            cases hres
            have hf : r.code = FAILED := by
              rcases hspec.code with hc1 | hc1
              · exact absurd hc1 hcode
              · exact hc1
            exact LoopSpec.failed hg hv _ rv r e.pointer hedge hspec hf

/-- Composition of the loop specification of the first slot with that of the
remaining slots. -/
theorem LoopSpec.cons {sig : Nat → Bool} {g : Nat} {G : gate} {h h1 : Heap} {rv rv1 : Bool}
    {slot : Option element_in} {slots : List (Option element_in)} {res : LoopRes}
    (hg : lookup h g = some G) (hv : G.state = state.VISITED)
    (h1spec : LoopSpec sig g G [slot] h rv (LoopRes.cont h1 rv1))
    (h2spec : LoopSpec sig g { G with path_len := plfold h1 G.path_len [slot] } slots h1 rv1 res) :
    LoopSpec sig g G (slot :: slots) h rv res := by
  have hne : G.state ≠ state.UNVISITED := by rw [hv]; decide
  obtain ⟨hrv1, hg1, hprod1, hvis1⟩ := h1spec.ok h1 rv1 rfl
  have hgrow : Grow h1 res.heap := by
    intro y Y hy
    by_cases hyg : y = g
    · subst hyg
      obtain ⟨pl, hpl⟩ := h2spec.self
      rw [hg1] at hy
      cases hy
      exact ⟨_, hpl, rfl, fun hx => hx⟩
    · obtain ⟨Y1, hy1, hi, _, _, hs⟩ := (h2spec.frame y hyg).of_some hy
      exact ⟨Y1, hy1, hi, fun hx => by rw [hs hx]; exact hx⟩
  refine ⟨h2spec.inv, ?_, ?_, ?_, h2spec.fail, ?_⟩
  · intro x hx
    exact (h1spec.frame x hx).trans_frame (h2spec.frame x hx)
  · obtain ⟨pl, hpl⟩ := h2spec.self
    exact ⟨pl, hpl⟩
  · intro x hx
    rcases h2spec.reach x hx with hl | hr
    · rcases h1spec.reach x hl with hl1 | hr1
      · exact Or.inl hl1
      · exact Or.inr (MR.mono hgrow hr1)
    · exact Or.inr hr
  · intro h2 rv2 hres
    obtain ⟨hrv2, hg2, hprod2, hvis2⟩ := h2spec.ok h2 rv2 hres
    subst hres
    have hkeep : ∀ e, some e ∈ [slot] → e.connection_type ≠ in_connection_type_t.SIGNAL →
        lookup h2 e.pointer = lookup h1 e.pointer := by
      intro e he hc
      obtain ⟨hne1, P, hP, hPc⟩ := hprod1 e he hc
      obtain ⟨P2, hP2, _, _, _, hs⟩ := (h2spec.frame e.pointer hne1).of_some hP
      have : P2 = P := hs (by rw [hPc]; decide)
      subst this
      simp only [LoopRes.heap] at hP2
      rw [hP2, hP]
    refine ⟨?_, ?_, ?_, ?_⟩
    · rw [hrv2, hrv1]
      show cfold G.kind sig h2 (cfold G.kind sig h1 rv [slot]) slots
        = cfold G.kind sig h2 rv (slot :: slots)
      rw [← cfold_congr G.kind sig h1 h2 rv [slot] hkeep]
      simp [cfold]
    · rw [hg2]
      have : plfold h2 (plfold h1 G.path_len [slot]) slots
          = plfold h2 G.path_len (slot :: slots) := by
        rw [← plfold_congr h1 h2 G.path_len [slot] hkeep]
        simp [plfold]
      simp only [this]
    · intro e he hc
      rcases List.mem_cons.mp he with hhead | htail
      · have hmem : some e ∈ [slot] := by simp [hhead]
        obtain ⟨hne1, P, hP, hPc⟩ := hprod1 e hmem hc
        refine ⟨hne1, P, ?_, hPc⟩
        rw [hkeep e hmem hc]; exact hP
      · exact hprod2 e htail hc
    · intro x X1 hx hs
      obtain ⟨X, hX, hXs⟩ := hvis2 x X1 hx hs
      exact hvis1 x X hX hXs

theorem eval_loop_spec (rec : Heap → Nat → Option (Heap × res_with_code)) (sig : Nat → Bool)
    (hrec : ∀ h p h1 r, rec h p = some (h1, r) → Inv sig h → EvalSpec sig h p h1 r)
    (g : Nat) (vec : vector_in) (is : List Nat) :
    ∀ (G : gate) (h : Heap) (rv : Bool) (res : LoopRes), G.in_ = vec →
      Inv sig h → lookup h g = some G → G.state = state.VISITED →
      eval_loop rec sig g is h rv = some res →
      LoopSpec sig g G (is.map (get_element_in_at_index vec)) h rv res := by
  induction is with
  | nil =>
    intro G h rv res _ hinv hg hv hres
    simp only [eval_loop] at hres
    cases hres
    refine ⟨hinv, fun x _ => Frame.refl_frame h x, ⟨G.path_len, ?_⟩, fun x hx => Or.inl hx, ?_, ?_⟩
    · rw [gate_eta_path_len]; exact hg
    · intro h1 r hr; cases hr
    · intro h1 rv1 hr
      cases hr
      refine ⟨rfl, ?_, ?_, ?_⟩
      · simp only [List.map_nil, plfold, List.foldl_nil]
        rw [gate_eta_path_len]; exact hg
      · intro e he; simp at he
      · intro x X1 hx hs; exact ⟨X1, hx, hs⟩
  | cons i is ih =>
    intro G h rv res hvec hinv hg hv hres
    simp only [eval_loop] at hres
    cases hstep : eval_step rec sig g i h rv with
    | none => rw [hstep] at hres; cases hres
    | some sres =>
      rw [hstep] at hres
      have h1spec := eval_step_spec rec sig hrec hinv hg hv hstep
      rw [hvec] at h1spec
      cases sres with
      | ret h1 r =>
        simp only at hres
        cases hres
        refine ⟨h1spec.inv, h1spec.frame, h1spec.self, h1spec.reach, h1spec.fail, ?_⟩
        intro h2 rv2 hr; cases hr
      | cont h1 rv1 =>
        simp only at hres
        obtain ⟨_, hg1, _, _⟩ := h1spec.ok h1 rv1 rfl
        have h2spec := ih { G with path_len := plfold h1 G.path_len [get_element_in_at_index vec i] }
          h1 rv1 res hvec h1spec.inv hg1 hv hres
        exact LoopSpec.cons hg hv h1spec h2spec

theorem map_get_element_range (vec : vector_in) :
    (List.range vec.data.length).map (get_element_in_at_index vec) = vec.data := by
  apply List.ext_getElem
  · simp
  · intro i h1 h2
    simp [get_element_in_at_index, List.getD_eq_getElem?_getD, List.getElem?_eq_getElem h2]

/-- A write to a gate that was not calculated and is not calculated afterwards. -/
theorem Inv.store_enter {sig : Nat → Bool} {h : Heap} {g : Nat} {G : gate} (G1 : gate)
    (hinv : Inv sig h) (hg : lookup h g = some G) (hi : G1.in_ = G.in_)
    (hready : ready G) (hnc : G.state ≠ state.CALCULATED) (hnc1 : G1.state ≠ state.CALCULATED) :
    Inv sig (store h g G1) := by
  have hlt := lookup_lt hg
  refine ⟨?_, ?_, ?_⟩
  · intro x X hx
    rw [lookup_store h g x G1 hlt] at hx
    split_ifs at hx with hgx
    · cases hx
      have := hinv.wf g G hg
      unfold wf_in bound_count at this ⊢
      rw [hi]; exact this
    · exact hinv.wf x X hx
  · intro x X hx hne
    rw [lookup_store h g x G1 hlt] at hx
    split_ifs at hx with hgx
    · cases hx
      unfold ready at hready ⊢
      rw [hi]; exact hready
    · exact hinv.marked_ready x X hx hne
  · intro x X hx hcal
    rw [lookup_store h g x G1 hlt] at hx
    split_ifs at hx with hgx
    · cases hx
      exact absurd hcal hnc1
    · refine (hinv.cached x X hx hcal).congr_cached ?_
      intro p hp
      obtain ⟨P, hP, hPc⟩ := (hinv.cached x X hx hcal).2.2 p hp
      have : g ≠ p := by
        rintro rfl
        rw [hg] at hP
        cases hP
        exact hnc hPc
      exact lookup_store_ne h G1 this

/-- The write that makes a gate calculated, its cached fields agreeing with
its slots. -/
theorem Inv.store_leave {sig : Nat → Bool} {h : Heap} {g : Nat} {G : gate} (G1 : gate)
    (hinv : Inv sig h) (hg : lookup h g = some G) (hi : G1.in_ = G.in_)
    (hready : ready G) (hnc : G.state ≠ state.CALCULATED)
    (hcached : Cached sig (store h g G1) G1) :
    Inv sig (store h g G1) := by
  have hlt := lookup_lt hg
  refine ⟨?_, ?_, ?_⟩
  · intro x X hx
    rw [lookup_store h g x G1 hlt] at hx
    split_ifs at hx with hgx
    · cases hx
      have := hinv.wf g G hg
      unfold wf_in bound_count at this ⊢
      rw [hi]; exact this
    · exact hinv.wf x X hx
  · intro x X hx hne
    rw [lookup_store h g x G1 hlt] at hx
    split_ifs at hx with hgx
    · cases hx
      unfold ready at hready ⊢
      rw [hi]; exact hready
    · exact hinv.marked_ready x X hx hne
  · intro x X hx hcal
    rw [lookup_store h g x G1 hlt] at hx
    split_ifs at hx with hgx
    · cases hx
      exact hcached
    · refine (hinv.cached x X hx hcal).congr_cached ?_
      intro p hp
      obtain ⟨P, hP, hPc⟩ := (hinv.cached x X hx hcal).2.2 p hp
      have : g ≠ p := by
        rintro rfl
        rw [hg] at hP
        cases hP
        exact hnc hPc
      exact lookup_store_ne h G1 this

theorem EvalSpec.same {sig : Nat → Bool} {h : Heap} (g : Nat) (hinv : Inv sig h) :
    EvalSpec sig h g h ⟨false, FAILED⟩ := by
  refine ⟨Ext.refl_ext h, hinv, Or.inr rfl, ?_, ?_, fun x hx => Or.inl hx⟩
  · intro hc; simp [FAILED, SUCCESS] at hc
  · intro hc; simp [FAILED, SUCCESS] at hc

theorem nand_evaluate_recursive_spec (sig : Nat → Bool) (fuel : Nat) :
    ∀ (h : Heap) (g : Nat) (h1 : Heap) (r : res_with_code),
      nand_evaluate_recursive fuel sig h g = some (h1, r) → Inv sig h →
      EvalSpec sig h g h1 r := by
  induction fuel with
  | zero =>
    intro h g h1 r hres
    simp [nand_evaluate_recursive] at hres
  | succ fuel ih =>
    intro h g h1 r hres hinv
    cases hg : lookup h g with
    | none =>
      rw [eval_dead sig fuel hg] at hres
      cases hres
      exact EvalSpec.same g hinv
    | some G =>
      by_cases hready : ready G
      swap
      · rw [eval_not_ready sig fuel hg hready] at hres
        cases hres
        exact EvalSpec.same g hinv
      by_cases hcal : G.state = state.CALCULATED
      · rw [eval_calculated sig fuel hg hready hcal] at hres
        cases hres
        exact ⟨Ext.refl_ext h, hinv, Or.inl rfl, fun _ => ⟨G, hg, hcal, rfl⟩,
          fun _ x X1 hx hs => ⟨X1, hx, hs⟩, fun x hx => Or.inl hx⟩
      by_cases hvis : G.state = state.VISITED
      · rw [eval_visited sig fuel hg hready hvis] at hres
        cases hres
        exact EvalSpec.same g hinv
      have hun := state_unvisited_of hcal hvis
      rw [eval_unvisited sig fuel hg hready hun] at hres
      have hlt := lookup_lt hg
      have hg0 : lookup (store h g (enter G)) g = some (enter G) := lookup_store_eq _ hlt
      have hinv0 : Inv sig (store h g (enter G)) :=
        hinv.store_enter (enter G) hg rfl hready hcal (by simp [enter])
      have hwf := hinv.wf g G hg
      have hslots : (List.range (vector_in_size G.in_)).map (get_element_in_at_index G.in_)
          = G.in_.data := by
        have : vector_in_size G.in_ = G.in_.data.length := by
          unfold ready at hready
          rw [hready, hwf.1]; rfl
        rw [this]
        exact map_get_element_range G.in_
      cases hloop : eval_loop (nand_evaluate_recursive fuel sig) sig g
          (List.range (vector_in_size G.in_)) (store h g (enter G)) (init_value G.kind) with
      | none => rw [hloop] at hres; simp [eval_leave] at hres
      | some res =>
        rw [hloop] at hres
        have hspec := eval_loop_spec (nand_evaluate_recursive fuel sig) sig ih g G.in_
          (List.range (vector_in_size G.in_)) (enter G) (store h g (enter G)) (init_value G.kind)
          res rfl hinv0 hg0 rfl hloop
        rw [hslots] at hspec
        have hframe0 : ∀ x, x ≠ g → Frame h res.heap x := fun x hx =>
          (Frame.store_other (enter G) (Ne.symm hx)).trans_frame (hspec.frame x hx)
        have hmark0 : ∀ x, x ≠ g → marked (store h g (enter G)) x → marked h x := by
          intro x hx ⟨X, hX, hXs⟩
          rw [lookup_store_ne h _ (Ne.symm hx)] at hX
          exact ⟨X, hX, hXs⟩
        cases res with
        | ret h2 r2 =>
          rw [eval_leave_ret] at hres
          cases hres
          have hcode := hspec.fail h1 r rfl
          obtain ⟨pl, hpl⟩ := hspec.self
          simp only [LoopRes.heap] at hpl hframe0
          refine ⟨?_, hspec.inv, Or.inr hcode, ?_, ?_, ?_⟩
          · intro x
            by_cases hx : x = g
            · subst hx
              unfold Frame
              rw [hg, hpl]
              exact ⟨_, rfl, rfl, rfl, rfl, fun hne => absurd hun hne⟩
            · exact hframe0 x hx
          · intro hc; rw [hcode] at hc; simp [FAILED, SUCCESS] at hc
          · intro hc; rw [hcode] at hc; simp [FAILED, SUCCESS] at hc
          · intro x hx
            rcases hspec.reach x hx with hl | hr
            · by_cases hxg : x = g
              · subst hxg
                exact Or.inr (MR.base x (by simp) hx)
              · exact Or.inl (hmark0 x hxg hl)
            · exact Or.inr hr
        | cont h2 rv =>
          obtain ⟨hrv, hg2, hprod, hvisited⟩ := hspec.ok h2 rv rfl
          rw [eval_leave_cont rv hg2] at hres
          cases hres
          simp only [LoopRes.heap] at hframe0
          have hlt2 := lookup_lt hg2
          set G2 : gate := { enter G with path_len := plfold h2 (enter G).path_len G.in_.data }
            with hG2
          have hg3 : lookup (store h2 g (leave G2 rv)) g = some (leave G2 rv) :=
            lookup_store_eq _ hlt2
          have hkeep : ∀ e, some e ∈ G.in_.data →
              e.connection_type ≠ in_connection_type_t.SIGNAL →
              lookup (store h2 g (leave G2 rv)) e.pointer = lookup h2 e.pointer :=
            fun e he hc => lookup_store_ne h2 _ (Ne.symm (hprod e he hc).1)
          have hcached : Cached sig (store h2 g (leave G2 rv)) (leave G2 rv) := by
            refine ⟨?_, ?_, ?_⟩
            · show final_value G.kind rv = final_value G.kind
                (cfold G.kind sig (store h2 g (leave G2 rv)) (init_value G.kind) G.in_.data)
              rw [cfold_congr G.kind sig h2 _ _ _ hkeep, hrv]
              rfl
            · show (if vector_in_size G.in_ > 0 then plfold h2 0 G.in_.data + 1
                  else plfold h2 0 G.in_.data)
                = (if vector_in_size G.in_ > 0
                    then plfold (store h2 g (leave G2 rv)) 0 G.in_.data + 1
                    else plfold (store h2 g (leave G2 rv)) 0 G.in_.data)
              rw [plfold_congr h2 _ _ _ hkeep]
            · intro p hp
              obtain ⟨e, he, hc, hep⟩ := mem_producers.mp hp
              subst hep
              obtain ⟨_, P, hP, hPc⟩ := hprod e he hc
              exact ⟨P, by rw [hkeep e he hc]; exact hP, hPc⟩
          have hgrow : Grow h2 (store h2 g (leave G2 rv)) :=
            Grow.store _ hg2 rfl (fun _ => by simp [leave])
          refine ⟨?_, ?_, Or.inl rfl, ?_, ?_, ?_⟩
          · intro x
            by_cases hx : x = g
            · subst hx
              unfold Frame
              rw [hg, hg3]
              exact ⟨_, rfl, rfl, rfl, rfl, fun hne => absurd hun hne⟩
            · exact (hframe0 x hx).trans_frame (Frame.store_other _ (Ne.symm hx))
          · exact hspec.inv.store_leave (leave G2 rv) hg2 rfl hready (by simp [hG2, enter])
              hcached
          · intro _
            exact ⟨_, hg3, rfl, rfl⟩
          · intro _ x X1 hx hs
            by_cases hxg : x = g
            · subst hxg
              rw [hg3] at hx
              cases hx
              simp [leave] at hs
            · rw [lookup_store_ne h2 _ (Ne.symm hxg)] at hx
              obtain ⟨X, hX, hXs⟩ := hvisited x X1 hx hs
              rw [lookup_store_ne h _ (Ne.symm hxg)] at hX
              exact ⟨X, hX, hXs⟩
          · intro x hx
            by_cases hxg : x = g
            · subst hxg
              exact Or.inr (MR.base x (by simp) hx)
            · have hx2 : marked h2 x := by
                obtain ⟨X, hX, hXs⟩ := hx
                rw [lookup_store_ne h2 _ (Ne.symm hxg)] at hX
                exact ⟨X, hX, hXs⟩
              rcases hspec.reach x hx2 with hl | hr
              · exact Or.inl (hmark0 x hxg hl)
              · exact Or.inr (MR.mono hgrow hr)

/-! ## Topology of the graph -/

theorem topo_some {h : Heap} {x : Nat} {X : gate} (hx : lookup h x = some X) :
    topo h x = some (X.in_, X.kind) := by
  simp [topo, hx]

theorem lookup_of_topo {h h1 : Heap} (ht : topo h1 = topo h) {x : Nat} {X : gate}
    (hx : lookup h x = some X) :
    ∃ X1, lookup h1 x = some X1 ∧ X1.in_ = X.in_ ∧ X1.kind = X.kind := by
  have := congrFun ht x
  rw [topo_some hx] at this
  unfold topo at this
  cases hx1 : lookup h1 x with
  | none => simp [hx1] at this
  | some X1 =>
    simp only [hx1, Option.map_some', Option.some.injEq, Prod.mk.injEq] at this
    exact ⟨X1, rfl, this.1, this.2⟩

theorem edge_of_topo {h h1 : Heap} (ht : topo h1 = topo h) {a b : Nat} (he : edge h a b) :
    edge h1 a b := by
  obtain ⟨A, ha, hb⟩ := he
  obtain ⟨A1, ha1, hi, _⟩ := lookup_of_topo ht ha
  exact edge_congr ha ha1 hi ⟨A, ha, hb⟩

theorem edge_eq_of_topo {h h1 : Heap} (ht : topo h1 = topo h) : edge h1 = edge h := by
  funext a b
  exact propext ⟨edge_of_topo ht.symm, edge_of_topo ht⟩

theorem topo_of_ext {h h1 : Heap} (he : Ext h h1) : topo h1 = topo h := by
  funext x
  unfold topo
  cases hx : lookup h x with
  | none => rw [(he x).of_none hx]
  | some X =>
    obtain ⟨X1, hx1, hi, _, hk, _⟩ := (he x).of_some hx
    simp [hx1, hi, hk]

theorem topo_store {h : Heap} {g : Nat} {G : gate} (G1 : gate) (hg : lookup h g = some G)
    (hi : G1.in_ = G.in_) (hk : G1.kind = G.kind) : topo (store h g G1) = topo h := by
  funext x
  unfold topo
  rw [lookup_store h g x G1 (lookup_lt hg)]
  split_ifs with hgx
  · subst hgx
    simp [hg, hi, hk]
  · rfl

theorem LoopSpec.topo {sig : Nat → Bool} {g : Nat} {G : gate}
    {slots : List (Option element_in)} {h : Heap} {rv : Bool} {res : LoopRes}
    (hspec : LoopSpec sig g G slots h rv res) (hg : lookup h g = some G) :
    LogicGates.topo res.heap = LogicGates.topo h := by
  funext x
  unfold LogicGates.topo
  by_cases hx : x = g
  · subst hx
    obtain ⟨pl, hpl⟩ := hspec.self
    rw [hpl, hg]
    rfl
  · cases hx0 : lookup h x with
    | none => rw [(hspec.frame x hx).of_none hx0]
    | some X =>
      obtain ⟨X1, hx1, hi, _, hk, _⟩ := (hspec.frame x hx).of_some hx0
      simp [hx1, hi, hk]

theorem Sound.of_topo_sound {h h1 : Heap} (ht : topo h1 = topo h) {g : Nat} (hs : Sound h g) :
    Sound h1 g := by
  intro x hx
  unfold Reach at hx
  rw [edge_eq_of_topo ht] at hx
  obtain ⟨⟨X, hX, hr⟩, hc⟩ := hs x hx
  obtain ⟨X1, hX1, hi, _⟩ := lookup_of_topo ht hX
  refine ⟨⟨X1, hX1, ?_⟩, ?_⟩
  · unfold ready at hr ⊢
    rw [hi]; exact hr
  · unfold OnCycle
    rw [edge_eq_of_topo ht]
    exact hc

theorem Sound.step_sound {h : Heap} {g p : Nat} (hs : Sound h g) (he : edge h g p) : Sound h p :=
  fun x hx => hs x (Relation.ReflTransGen.head he hx)

theorem Sound.not_self {h : Heap} {g p : Nat} (hs : Sound h g) (he : edge h g p) : g ≠ p := by
  rintro rfl
  exact (hs g Relation.ReflTransGen.refl).2 (Relation.TransGen.single he)

theorem Sound.not_back {h : Heap} {g p : Nat} (hs : Sound h g) (he : edge h g p) :
    ¬ Reach h p g := by
  intro hr
  exact (hs g Relation.ReflTransGen.refl).2 (Relation.TransGen.head' he hr)

theorem eval_loop_success (sig : Nat → Bool) (fuel : Nat)
    (ih : ∀ (h : Heap) (g : Nat) (h1 : Heap) (r : res_with_code),
      nand_evaluate_recursive fuel sig h g = some (h1, r) → Inv sig h → Sound h g →
      NoVisited h g → r.code = SUCCESS)
    (g : Nat) (vec : vector_in) (h0 : Heap) (is : List Nat) :
    ∀ (G : gate) (h : Heap) (rv : Bool) (res : LoopRes), G.in_ = vec →
      Inv sig h → lookup h g = some G → G.state = state.VISITED → topo h = topo h0 →
      (∀ i e, i ∈ is → get_element_in_at_index vec i = some e →
        e.connection_type ≠ in_connection_type_t.SIGNAL →
        g ≠ e.pointer ∧ Sound h0 e.pointer ∧
          ∀ x X, Reach h0 e.pointer x → lookup h x = some X → X.state ≠ state.VISITED) →
      eval_loop (nand_evaluate_recursive fuel sig) sig g is h rv = some res →
      ∃ h1 rv1, res = LoopRes.cont h1 rv1 := by
  induction is with
  | nil =>
    intro G h rv res _ _ _ _ _ _ hres
    simp only [eval_loop] at hres
    cases hres
    exact ⟨_, _, rfl⟩
  | cons i is ihl =>
    intro G h rv res hvec hinv hg hv ht hslots hres
    simp only [eval_loop] at hres
    cases hstep : eval_step (nand_evaluate_recursive fuel sig) sig g i h rv with
    | none => rw [hstep] at hres; cases hres
    | some sres =>
      rw [hstep] at hres
      have h1spec := eval_step_spec (nand_evaluate_recursive fuel sig) sig
        (nand_evaluate_recursive_spec sig fuel) hinv hg hv hstep
      have hcont : ∃ h1 rv1, sres = LoopRes.cont h1 rv1 := by
        cases hs : get_element_in_at_index G.in_ i with
        | none =>
          rw [eval_step_empty _ sig hg hs] at hstep
          cases hstep
          exact ⟨_, _, rfl⟩
        | some e =>
          by_cases hc : e.connection_type = in_connection_type_t.SIGNAL
          · rw [eval_step_signal _ sig hg hs hc] at hstep
            cases hstep
            exact ⟨_, _, rfl⟩
          · obtain ⟨hself, hsound, hnov⟩ :=
              hslots i e (List.mem_cons_self _ _) (by rw [← hvec]; exact hs) hc
            cases hr : nand_evaluate_recursive fuel sig h e.pointer with
            | none =>
              rw [eval_step_fuel _ sig hg hs hc hself hr] at hstep
              cases hstep
            | some hr1 =>
              obtain ⟨h1, r⟩ := hr1
              have hspec := nand_evaluate_recursive_spec sig fuel h e.pointer h1 r hr hinv
              have hcode : r.code = SUCCESS := by
                refine ih h e.pointer h1 r hr hinv (hsound.of_topo_sound ht) ?_
                intro x X hx hX
                unfold Reach at hx
                rw [edge_eq_of_topo ht] at hx
                exact hnov x X hx hX
              obtain ⟨P, hp1, _, _⟩ := hspec.done hcode
              obtain ⟨G1, hg1, _⟩ := (hspec.ext g).of_some hg
              rw [eval_step_ok _ sig hg hs hc hself hr hcode hg1 hp1] at hstep
              cases hstep
              exact ⟨_, _, rfl⟩
      obtain ⟨h1, rv1, hsres⟩ := hcont
      subst hsres
      simp only at hres
      obtain ⟨_, hg1, _, hvis⟩ := h1spec.ok h1 rv1 rfl
      have ht1 : topo h1 = topo h0 := (h1spec.topo hg).trans ht
      refine ihl { G with path_len := plfold h1 G.path_len [get_element_in_at_index G.in_ i] }
        h1 rv1 res hvec h1spec.inv hg1 hv ht1 ?_ hres
      intro j e hj he hc
      obtain ⟨hself, hsound, hnov⟩ := hslots j e (List.mem_cons_of_mem _ hj) he hc
      refine ⟨hself, hsound, ?_⟩
      intro x X1 hx hX1 hs
      obtain ⟨X, hX, hXs⟩ := hvis x X1 hX1 hs
      exact hnov x X hx hX hXs

theorem get_element_of_mem {vec : vector_in} {e : element_in} (he : some e ∈ vec.data) :
    ∃ i, i < vec.data.length ∧ get_element_in_at_index vec i = some e := by
  obtain ⟨i, hi, hget⟩ := List.mem_iff_getElem.mp he
  refine ⟨i, hi, ?_⟩
  simp [get_element_in_at_index, List.getD_eq_getElem?_getD, List.getElem?_eq_getElem hi, hget]

/-- On a sound part of the graph without gates in progress, the recursive
evaluation succeeds. -/
theorem nand_evaluate_recursive_success (sig : Nat → Bool) (fuel : Nat) :
    ∀ (h : Heap) (g : Nat) (h1 : Heap) (r : res_with_code),
      nand_evaluate_recursive fuel sig h g = some (h1, r) → Inv sig h → Sound h g →
      NoVisited h g → r.code = SUCCESS := by
  induction fuel with
  | zero =>
    intro h g h1 r hres
    simp [nand_evaluate_recursive] at hres
  | succ fuel ih =>
    intro h g h1 r hres hinv hsound hnov
    obtain ⟨⟨G, hg, hready⟩, _⟩ := hsound g Relation.ReflTransGen.refl
    have hvis : G.state ≠ state.VISITED := hnov g G Relation.ReflTransGen.refl hg
    by_cases hcal : G.state = state.CALCULATED
    · rw [eval_calculated sig fuel hg hready hcal] at hres
      cases hres
      rfl
    have hun := state_unvisited_of hcal hvis
    rw [eval_unvisited sig fuel hg hready hun] at hres
    have hlt := lookup_lt hg
    have hg0 : lookup (store h g (enter G)) g = some (enter G) := lookup_store_eq _ hlt
    have hinv0 : Inv sig (store h g (enter G)) :=
      hinv.store_enter (enter G) hg rfl hready hcal (by simp [enter])
    have ht0 : topo (store h g (enter G)) = topo h := topo_store _ hg rfl rfl
    cases hloop : eval_loop (nand_evaluate_recursive fuel sig) sig g
        (List.range (vector_in_size G.in_)) (store h g (enter G)) (init_value G.kind) with
    | none => rw [hloop] at hres; simp [eval_leave] at hres
    | some res =>
      rw [hloop] at hres
      have hspec := eval_loop_spec (nand_evaluate_recursive fuel sig) sig
        (nand_evaluate_recursive_spec sig fuel) g G.in_
        (List.range (vector_in_size G.in_)) (enter G) (store h g (enter G)) (init_value G.kind)
        res rfl hinv0 hg0 rfl hloop
      obtain ⟨h2, rv, hcont⟩ := eval_loop_success sig fuel ih g G.in_ h
        (List.range (vector_in_size G.in_)) (enter G) (store h g (enter G)) (init_value G.kind)
        res rfl hinv0 hg0 rfl ht0 (by
          intro i e _ he hc
          have hedge : edge h g e.pointer := edge_of_slot hg he hc
          refine ⟨hsound.not_self hedge, hsound.step_sound hedge, ?_⟩
          intro x X hx hX
          have hxg : g ≠ x := by
            rintro rfl
            exact hsound.not_back hedge hx
          rw [lookup_store_ne h _ hxg] at hX
          exact hnov x X (Relation.ReflTransGen.head hedge hx) hX) hloop
      subst hcont
      obtain ⟨_, hg2, _, _⟩ := hspec.ok h2 rv rfl
      rw [eval_leave_cont rv hg2] at hres
      cases hres
      rfl

/-! ## Calculated gates: path lengths, soundness, reference values -/

theorem maxc_eq_max (a b : Nat) : maxc a b = Nat.max a b := by
  unfold maxc
  split_ifs with hab
  · exact (Nat.max_eq_left (Nat.le_of_lt hab)).symm
  · exact (Nat.max_eq_right (Nat.le_of_not_lt hab)).symm

theorem plfold_ge_acc (h : Heap) (slots : List (Option element_in)) (acc : Nat) :
    acc ≤ plfold h acc slots := by
  induction slots generalizing acc with
  | nil => exact le_refl _
  | cons s t ih =>
    cases s with
    | none => simpa [plfold] using ih acc
    | some e =>
      by_cases hc : e.connection_type = in_connection_type_t.SIGNAL
      · simpa [plfold, hc] using ih acc
      · have := ih (maxc acc (slot_len h e))
        simp only [plfold, List.foldl_cons, hc, if_false] at this ⊢
        rw [maxc_eq_max] at this ⊢
        exact le_trans (Nat.le_max_left _ _) this

theorem plfold_ge_slot (h : Heap) (slots : List (Option element_in)) (acc : Nat)
    (e : element_in) (he : some e ∈ slots)
    (hc : e.connection_type ≠ in_connection_type_t.SIGNAL) :
    slot_len h e ≤ plfold h acc slots := by
  induction slots generalizing acc with
  | nil => simp at he
  | cons s t ih =>
    rcases List.mem_cons.mp he with hhead | htail
    · subst hhead
      have := plfold_ge_acc h t (maxc acc (slot_len h e))
      simp only [plfold, List.foldl_cons, hc, if_false] at this ⊢
      rw [maxc_eq_max] at this ⊢
      exact le_trans (Nat.le_max_right _ _) this
    · have := fun a => ih a htail
      cases s with
      | none => simpa [plfold] using this acc
      | some e1 =>
        by_cases hc1 : e1.connection_type = in_connection_type_t.SIGNAL
        · simpa [plfold, hc1] using this acc
        · simpa [plfold, hc1] using this (maxc acc (slot_len h e1))

/-- A producer of a calculated gate is calculated, with a shorter path. -/
theorem calculated_edge {sig : Nat → Bool} {h : Heap} (hinv : Inv sig h) {g p : Nat} {G : gate}
    (hg : lookup h g = some G) (hcal : G.state = state.CALCULATED) (he : edge h g p) :
    ∃ P, lookup h p = some P ∧ P.state = state.CALCULATED ∧ P.path_len < G.path_len := by
  obtain ⟨G0, hg0, hp⟩ := he
  rw [hg] at hg0
  cases hg0
  obtain ⟨_, hpl, hprod⟩ := hinv.cached g G hg hcal
  obtain ⟨P, hP, hPc⟩ := hprod p hp
  refine ⟨P, hP, hPc, ?_⟩
  obtain ⟨e, he, hc, hep⟩ := mem_producers.mp hp
  have hwf := hinv.wf g G hg
  have hready := hinv.marked_ready g G hg (by rw [hcal]; decide)
  have hsize : vector_in_size G.in_ > 0 := by
    unfold ready at hready
    rw [hready]
    unfold vector_in_capacity
    rw [← hwf.1]
    exact List.length_pos_of_mem he
  rw [if_pos hsize] at hpl
  have := plfold_ge_slot h G.in_.data 0 e he hc
  unfold slot_len at this
  rw [hep, hP] at this
  simp only at this
  omega

theorem calculated_reach {sig : Nat → Bool} {h : Heap} (hinv : Inv sig h) {g x : Nat} {G : gate}
    (hg : lookup h g = some G) (hcal : G.state = state.CALCULATED) (hr : Reach h g x) :
    ∃ X, lookup h x = some X ∧ X.state = state.CALCULATED := by
  induction hr with
  | refl => exact ⟨G, hg, hcal⟩
  | tail _ he ih =>
    obtain ⟨B, hb, hbc⟩ := ih
    obtain ⟨P, hP, hPc, _⟩ := calculated_edge hinv hb hbc he
    exact ⟨P, hP, hPc⟩

theorem calculated_trans {sig : Nat → Bool} {h : Heap} (hinv : Inv sig h) {g x : Nat} {G : gate}
    (hg : lookup h g = some G) (hcal : G.state = state.CALCULATED)
    (hr : Relation.TransGen (edge h) g x) :
    ∃ X, lookup h x = some X ∧ X.state = state.CALCULATED ∧ X.path_len < G.path_len := by
  induction hr with
  | single he => exact calculated_edge hinv hg hcal he
  | tail _ he ih =>
    obtain ⟨B, hb, hbc, hlt⟩ := ih
    obtain ⟨P, hP, hPc, hlt2⟩ := calculated_edge hinv hb hbc he
    exact ⟨P, hP, hPc, by omega⟩

/-- Everything reachable from a calculated gate is ready and acyclic. -/
theorem calculated_sound {sig : Nat → Bool} {h : Heap} (hinv : Inv sig h) {g : Nat} {G : gate}
    (hg : lookup h g = some G) (hcal : G.state = state.CALCULATED) : Sound h g := by
  intro x hx
  obtain ⟨X, hX, hXc⟩ := calculated_reach hinv hg hcal hx
  refine ⟨⟨X, hX, hinv.marked_ready x X hX (by rw [hXc]; decide)⟩, ?_⟩
  intro hcyc
  obtain ⟨X1, hX1, _, hlt⟩ := calculated_trans hinv hX hXc hcyc
  rw [hX] at hX1
  cases hX1
  omega

theorem calculate_result_ref (a b : Bool) (kind : gate_kind_t) :
    (calculate_result a b kind).1 = ref_op kind a b := by
  cases kind <;> cases a <;> cases b <;> rfl

theorem init_value_ref (kind : gate_kind_t) : init_value kind = ref_init kind := by
  cases kind <;> rfl

theorem final_value_ref (kind : gate_kind_t) (a : Bool) :
    final_value kind a = ref_neg kind a := by
  cases kind <;> rfl

theorem ref_value_succ (sig : Nat → Bool) (h : Heap) (n g : Nat) {G : gate}
    (hg : lookup h g = some G) :
    ref_value sig h (n + 1) g =
      (G.in_.data.foldl (fun acc slot => ref_combine G.kind acc (ref_slot sig h n slot))
        (some (ref_init G.kind))).map (ref_neg G.kind) := by
  simp only [ref_value, hg, ref_slot]
  try rfl

theorem ref_depth_succ (h : Heap) (n g : Nat) {G : gate} (hg : lookup h g = some G) :
    ref_depth h (n + 1) g =
      if vector_in_capacity G.in_ = 0 then some 0
      else ((producers G).foldl (fun acc p => ref_max acc (ref_depth h n p)) (some 0)).map
        (fun d => 1 + d) := by
  simp only [ref_depth, hg]

theorem ref_fold_value (sig : Nat → Bool) (h : Heap) (n : Nat) (kind : gate_kind_t)
    (slots : List (Option element_in)) (acc : Bool)
    (hall : ∀ s, s ∈ slots → ∃ e, s = some e ∧
      (e.connection_type ≠ in_connection_type_t.SIGNAL →
        ref_value sig h n e.pointer = some (slot_input sig h e))) :
    slots.foldl (fun acc slot => ref_combine kind acc (ref_slot sig h n slot)) (some acc)
      = some (cfold kind sig h acc slots) := by
  induction slots generalizing acc with
  | nil => rfl
  | cons s t ih =>
    obtain ⟨e, hs, hv⟩ := hall s (List.mem_cons_self _ _)
    subst hs
    have hslot : ref_slot sig h n (some e) = some (slot_input sig h e) := by
      unfold ref_slot
      by_cases hc : e.connection_type = in_connection_type_t.SIGNAL
      · simp [hc, slot_input]
      · simp only [hc, if_false]
        exact hv hc
    simp only [List.foldl_cons, hslot, ref_combine, cfold]
    rw [← calculate_result_ref]
    exact ih _ (fun s hs => hall s (List.mem_cons_of_mem _ hs))

theorem producers_eq (G : gate) : producers G = producers_of G.in_.data := rfl

theorem ref_fold_depth (h : Heap) (n : Nat) (slots : List (Option element_in)) (acc : Nat)
    (hall : ∀ e, some e ∈ slots → e.connection_type ≠ in_connection_type_t.SIGNAL →
        ref_depth h n e.pointer = some (slot_len h e)) :
    (producers_of slots).foldl (fun acc p => ref_max acc (ref_depth h n p)) (some acc)
      = some (plfold h acc slots) := by
  induction slots generalizing acc with
  | nil => rfl
  | cons s t ih =>
    have iht := fun a => ih a (fun e he hc => hall e (List.mem_cons_of_mem _ he) hc)
    cases s with
    | none => simpa [producers_of, plfold] using iht acc
    | some e =>
      by_cases hc : e.connection_type = in_connection_type_t.SIGNAL
      · simpa [producers_of, plfold, hc] using iht acc
      · have hg : e.connection_type = in_connection_type_t.GATE := by
          cases hct : e.connection_type <;> simp_all
        have hd := hall e (List.mem_cons_self _ _) hc
        have := iht (maxc acc (slot_len h e))
        simp only [producers_of, List.filterMap_cons, hg, if_true, List.foldl_cons, hd, ref_max,
          plfold, hc, if_false] at this ⊢
        rw [← maxc_eq_max]
        simpa [hg] using this

theorem all_bound_of_ready {G : gate} (hwf : wf_in G) (hr : ready G) :
    ∀ s, s ∈ G.in_.data → ∃ e, s = some e := by
  intro s hs
  have hcount : G.in_.data.countP (fun s => s.isSome) = G.in_.data.length := by
    have h1 := hwf.1
    have h2 := hwf.2
    unfold ready vector_in_size vector_in_capacity at hr
    unfold bound_count at h2
    omega
  have := List.countP_eq_length.mp hcount s hs
  cases s with
  | none => simp at this
  | some e => exact ⟨e, rfl⟩

/-- The cached result and path length of a calculated gate are the reference
value and the reference depth, for every budget above the path length. -/
theorem ref_of_calculated {sig : Nat → Bool} {h : Heap} (hinv : Inv sig h) (n : Nat) :
    ∀ (g : Nat) (G : gate), lookup h g = some G → G.state = state.CALCULATED →
      G.path_len ≤ n →
      ref_value sig h (n + 1) g = some G.res ∧ ref_depth h (n + 1) g = some G.path_len := by
  induction n with
  | zero =>
    intro g G hg hcal hle
    have hnoprod : ∀ e, some e ∈ G.in_.data →
        e.connection_type ≠ in_connection_type_t.SIGNAL → False := by
      intro e he hc
      obtain ⟨P, _, _, hlt⟩ := calculated_edge hinv hg hcal
        ⟨G, hg, mem_producers.mpr ⟨e, he, hc, rfl⟩⟩
      omega
    obtain ⟨hres, hpl, _⟩ := hinv.cached g G hg hcal
    have hwf := hinv.wf g G hg
    have hready := hinv.marked_ready g G hg (by rw [hcal]; decide)
    have hbound := all_bound_of_ready hwf hready
    constructor
    · rw [ref_value_succ sig h 0 g hg, ref_fold_value sig h 0 G.kind G.in_.data _ (by
        intro s hs
        obtain ⟨e, he⟩ := hbound s hs
        subst he
        exact ⟨e, rfl, fun hc => (hnoprod e hs hc).elim⟩)]
      rw [hres, init_value_ref, final_value_ref]
      rfl
    · rw [ref_depth_succ h 0 g hg]
      have hzero : vector_in_size G.in_ = 0 := by
        by_contra hne
        rw [if_pos (Nat.pos_of_ne_zero hne)] at hpl
        omega
      unfold ready at hready
      rw [if_pos (by rw [← hready]; exact hzero)]
      have : G.path_len = 0 := by omega
      rw [this]
  | succ n ih =>
    intro g G hg hcal hle
    obtain ⟨hres, hpl, hprod⟩ := hinv.cached g G hg hcal
    have hwf := hinv.wf g G hg
    have hready := hinv.marked_ready g G hg (by rw [hcal]; decide)
    have hbound := all_bound_of_ready hwf hready
    have hsub : ∀ e, some e ∈ G.in_.data →
        e.connection_type ≠ in_connection_type_t.SIGNAL →
        ref_value sig h (n + 1) e.pointer = some (slot_input sig h e) ∧
        ref_depth h (n + 1) e.pointer = some (slot_len h e) := by
      intro e he hc
      obtain ⟨P, hP, hPc, hlt⟩ := calculated_edge hinv hg hcal
        ⟨G, hg, mem_producers.mpr ⟨e, he, hc, rfl⟩⟩
      have := ih e.pointer P hP hPc (by omega)
      simp only [slot_input, hc, if_false, hP, slot_len]
      exact this
    constructor
    · rw [ref_value_succ sig h (n + 1) g hg, ref_fold_value sig h (n + 1) G.kind G.in_.data _ (by
        intro s hs
        obtain ⟨e, he⟩ := hbound s hs
        subst he
        exact ⟨e, rfl, fun hc => (hsub e hs hc).1⟩)]
      rw [hres, init_value_ref, final_value_ref]
      rfl
    · rw [ref_depth_succ h (n + 1) g hg, producers_eq,
        ref_fold_depth h (n + 1) G.in_.data 0 (fun e he hc => (hsub e he hc).2)]
      unfold ready at hready
      by_cases hzero : vector_in_capacity G.in_ = 0
      · rw [if_pos hzero]
        have hdata : G.in_.data = [] := by
          apply List.eq_nil_of_length_eq_zero
          rw [hwf.1]; exact hzero
        rw [hready, hzero, hdata] at hpl
        simp [plfold] at hpl
        rw [hpl]
      · rw [if_neg hzero]
        rw [hready, if_pos (Nat.pos_of_ne_zero hzero)] at hpl
        simp only [Option.map_some', hpl, Option.some.injEq]
        omega

theorem ref_value_of_topo {sig : Nat → Bool} {h h1 : Heap} (ht : topo h1 = topo h) (n : Nat) :
    ∀ g, ref_value sig h1 n g = ref_value sig h n g := by
  induction n with
  | zero => intro g; rfl
  | succ n ih =>
    intro g
    cases hg : lookup h g with
    | none =>
      have : lookup h1 g = none := by
        have := congrFun ht g
        simp only [topo, hg, Option.map_none'] at this
        cases hg1 : lookup h1 g with
        | none => rfl
        | some X => simp [hg1] at this
      simp [ref_value, hg, this]
    | some G =>
      obtain ⟨G1, hg1, hi, hk⟩ := lookup_of_topo ht hg
      rw [ref_value_succ sig h1 n g hg1, ref_value_succ sig h n g hg, hi, hk]
      have : ref_slot sig h1 n = ref_slot sig h n := by
        funext slot
        cases slot with
        | none => rfl
        | some e => simp only [ref_slot, ih]
      rw [this]

theorem ref_depth_of_topo {h h1 : Heap} (ht : topo h1 = topo h) (n : Nat) :
    ∀ g, ref_depth h1 n g = ref_depth h n g := by
  induction n with
  | zero => intro g; rfl
  | succ n ih =>
    intro g
    cases hg : lookup h g with
    | none =>
      have : lookup h1 g = none := by
        have := congrFun ht g
        simp only [topo, hg, Option.map_none'] at this
        cases hg1 : lookup h1 g with
        | none => rfl
        | some X => simp [hg1] at this
      simp [ref_depth, hg, this]
    | some G =>
      obtain ⟨G1, hg1, hi, hk⟩ := lookup_of_topo ht hg
      rw [ref_depth_succ h1 n g hg1, ref_depth_succ h n g hg]
      have hp : producers G1 = producers G := by unfold producers; rw [hi]
      have : (fun acc p => ref_max acc (ref_depth h1 n p))
          = (fun acc p => ref_max acc (ref_depth h n p)) := by
        funext acc p
        rw [ih]
      rw [hp, hi, this]

/-! ## The cleanup pass -/

theorem clean_step_dead (rec : Heap → Nat → Option Heap) {g i : Nat} {h : Heap}
    (hg : lookup h g = none) : clean_step rec g i h = some h := by
  simp [clean_step, hg]

theorem clean_step_empty (rec : Heap → Nat → Option Heap) {g i : Nat} {h : Heap} {G : gate}
    (hg : lookup h g = some G) (hs : get_element_in_at_index G.in_ i = none) :
    clean_step rec g i h = some h := by
  simp [clean_step, hg, hs]

theorem clean_step_signal (rec : Heap → Nat → Option Heap) {g i : Nat} {h : Heap} {G : gate}
    {e : element_in} (hg : lookup h g = some G)
    (hs : get_element_in_at_index G.in_ i = some e)
    (hc : e.connection_type ≠ in_connection_type_t.GATE) :
    clean_step rec g i h = some h := by
  simp [clean_step, hg, hs, hc]

theorem clean_step_lost (rec : Heap → Nat → Option Heap) {g i : Nat} {h : Heap} {G : gate}
    {e : element_in} (hg : lookup h g = some G)
    (hs : get_element_in_at_index G.in_ i = some e)
    (hc : e.connection_type = in_connection_type_t.GATE) (hp : lookup h e.pointer = none) :
    clean_step rec g i h = some h := by
  simp [clean_step, hg, hs, hc, hp]

theorem clean_step_skip (rec : Heap → Nat → Option Heap) {g i : Nat} {h : Heap} {G P : gate}
    {e : element_in} (hg : lookup h g = some G)
    (hs : get_element_in_at_index G.in_ i = some e)
    (hc : e.connection_type = in_connection_type_t.GATE) (hp : lookup h e.pointer = some P)
    (hu : P.state = state.UNVISITED) :
    clean_step rec g i h = some h := by
  simp [clean_step, hg, hs, hc, hp, hu]

theorem clean_step_rec (rec : Heap → Nat → Option Heap) {g i : Nat} {h : Heap} {G P : gate}
    {e : element_in} (hg : lookup h g = some G)
    (hs : get_element_in_at_index G.in_ i = some e)
    (hc : e.connection_type = in_connection_type_t.GATE) (hp : lookup h e.pointer = some P)
    (hu : P.state ≠ state.UNVISITED) :
    clean_step rec g i h = rec h e.pointer := by
  simp [clean_step, hg, hs, hc, hp, hu]

theorem clean_dead (fuel : Nat) {h : Heap} {g : Nat} (hg : lookup h g = none) :
    nand_clean_recursive (fuel + 1) h g = some h := by
  simp [nand_clean_recursive, hg]

theorem clean_unvisited (fuel : Nat) {h : Heap} {g : Nat} {G : gate}
    (hg : lookup h g = some G) (hu : G.state = state.UNVISITED) :
    nand_clean_recursive (fuel + 1) h g = some h := by
  simp [nand_clean_recursive, hg, hu]

theorem clean_marked (fuel : Nat) {h : Heap} {g : Nat} {G : gate}
    (hg : lookup h g = some G) (hu : G.state ≠ state.UNVISITED) :
    nand_clean_recursive (fuel + 1) h g =
      clean_loop (nand_clean_recursive fuel) g (List.range (vector_in_size G.in_))
        (store h g { G with state := state.UNVISITED }) := by
  simp [nand_clean_recursive, hg, hu]

theorem marked_count_le_length (h : Heap) : marked_count h ≤ h.length :=
  List.countP_le_length _

theorem unvisited_count_le_length (h : Heap) : unvisited_count h ≤ h.length :=
  List.countP_le_length _

theorem marked_count_unmark {h : Heap} {g : Nat} {G : gate}
    (hg : lookup h g = some G) (hu : G.state ≠ state.UNVISITED) :
    marked_count (store h g { G with state := state.UNVISITED }) + 1 = marked_count h := by
  have := countP_set_add is_marked h g (some { G with state := state.UNVISITED })
    (lookup_lt hg)
  rw [lookup_get hg] at this
  simpa [marked_count, store, is_marked, hu] using this

theorem clean_step_total (rec : Heap → Nat → Option Heap) (n : Nat)
    (hrec : ∀ h p, marked_count h < n →
      ∃ h1, rec h p = some h1 ∧ marked_count h1 ≤ marked_count h)
    (g i : Nat) (h : Heap) (hn : marked_count h < n) :
    ∃ h1, clean_step rec g i h = some h1 ∧ marked_count h1 ≤ marked_count h := by
  cases hg : lookup h g with
  | none => exact ⟨h, clean_step_dead rec hg, le_refl _⟩
  | some G =>
    cases hs : get_element_in_at_index G.in_ i with
    | none => exact ⟨h, clean_step_empty rec hg hs, le_refl _⟩
    | some e =>
      by_cases hc : e.connection_type = in_connection_type_t.GATE
      · cases hp : lookup h e.pointer with
        | none => exact ⟨h, clean_step_lost rec hg hs hc hp, le_refl _⟩
        | some P =>
          by_cases hu : P.state = state.UNVISITED
          · exact ⟨h, clean_step_skip rec hg hs hc hp hu, le_refl _⟩
          · rw [clean_step_rec rec hg hs hc hp hu]
            exact hrec h e.pointer hn
      · exact ⟨h, clean_step_signal rec hg hs hc, le_refl _⟩

theorem clean_loop_total (rec : Heap → Nat → Option Heap) (n : Nat)
    (hrec : ∀ h p, marked_count h < n →
      ∃ h1, rec h p = some h1 ∧ marked_count h1 ≤ marked_count h)
    (g : Nat) (is : List Nat) (h : Heap) (hn : marked_count h < n) :
    ∃ h1, clean_loop rec g is h = some h1 ∧ marked_count h1 ≤ marked_count h := by
  induction is generalizing h with
  | nil => exact ⟨h, rfl, le_refl _⟩
  | cons i is ih =>
    obtain ⟨h1, hstep, hle⟩ := clean_step_total rec n hrec g i h hn
    obtain ⟨h2, hloop, hle2⟩ := ih h1 (by omega)
    refine ⟨h2, ?_, by omega⟩
    simp only [clean_loop, hstep]
    exact hloop

/-- The recursive cleanup returns whenever the budget exceeds the number of
marked gates, and it never raises that number. -/
theorem nand_clean_recursive_total (fuel : Nat) (h : Heap) (g : Nat)
    (hn : marked_count h < fuel) :
    ∃ h1, nand_clean_recursive fuel h g = some h1 ∧ marked_count h1 ≤ marked_count h := by
  induction fuel generalizing h g with
  | zero => omega
  | succ fuel ih =>
    cases hg : lookup h g with
    | none => exact ⟨h, clean_dead fuel hg, le_refl _⟩
    | some G =>
      by_cases hu : G.state = state.UNVISITED
      · exact ⟨h, clean_unvisited fuel hg hu, le_refl _⟩
      · have hdec := marked_count_unmark hg hu
        obtain ⟨h1, hloop, hle⟩ := clean_loop_total (nand_clean_recursive fuel) fuel
          (fun h p hp => ih h p hp) g (List.range (vector_in_size G.in_))
          (store h g { G with state := state.UNVISITED }) (by omega)
        exact ⟨h1, by rw [clean_marked fuel hg hu]; exact hloop, by omega⟩

theorem gate_eta_state (G : gate) (hu : G.state = state.UNVISITED) :
    ({ G with state := state.UNVISITED } : gate) = G := by
  cases G; simp_all

theorem Unmark.of_marked {h h1 : Heap} {x : Nat} (hu : Unmark h h1 x) (hm : marked h1 x) :
    marked h x ∧ lookup h1 x = lookup h x := by
  rcases hu with heq | ⟨X, hX, hX1⟩
  · unfold LogicGates.marked at hm ⊢
    rw [heq] at hm
    exact ⟨hm, heq⟩
  · obtain ⟨X1, h1, h2⟩ := hm
    rw [hX1] at h1
    cases h1
    simp at h2

theorem CleanRel.refl_clean (h : Heap) : CleanRel h h :=
  ⟨fun _ => Or.inl rfl, fun _ X hx hs hm => absurd ⟨X, hx, hs⟩ hm⟩

theorem CleanRel.not_marked {h h1 : Heap} (hr : CleanRel h h1) {x : Nat} (hm : ¬ marked h x) :
    ¬ marked h1 x := fun hm1 => hm ((hr.unmark x).of_marked hm1).1

theorem CleanRel.trans_clean {h h1 h2 : Heap} (h01 : CleanRel h h1) (h12 : CleanRel h1 h2) :
    CleanRel h h2 := by
  refine ⟨?_, ?_⟩
  · intro x
    rcases h01.unmark x with heq | ⟨X, hX, hX1⟩
    · rcases h12.unmark x with heq2 | ⟨X, hX, hX2⟩
      · exact Or.inl (heq2.trans heq)
      · exact Or.inr ⟨X, by rw [← heq]; exact hX, hX2⟩
    · rcases h12.unmark x with heq2 | ⟨X2, hX2, hX3⟩
      · exact Or.inr ⟨X, hX, by rw [heq2]; exact hX1⟩
      · rw [hX1] at hX2
        cases hX2
        exact Or.inr ⟨X, hX, hX3⟩
  · intro x X hX hs hm2
    by_cases hm1 : marked h1 x
    · have heq := ((h01.unmark x).of_marked hm1).2
      rw [hX] at heq
      exact h12.closed x X heq hs hm2
    · have := h01.closed x X hX hs hm1
      intro i e hi he hc
      exact h12.not_marked (this i e hi he hc)

theorem CleanRel.keep {h h1 : Heap} (hr : CleanRel h h1) {x : Nat} {X : gate}
    (hX : lookup h x = some X) (hu : X.state = state.UNVISITED) : lookup h1 x = some X := by
  rcases hr.unmark x with heq | ⟨X0, hX0, hX1⟩
  · rw [heq]; exact hX
  · rw [hX] at hX0
    cases hX0
    rw [hX1, gate_eta_state X hu]

theorem clean_step_spec (rec : Heap → Nat → Option Heap)
    (hrec : ∀ h p h1, rec h p = some h1 → CleanSpec h p h1)
    {g i : Nat} {h h1 : Heap} {G : gate} (hg : lookup h g = some G)
    (hres : clean_step rec g i h = some h1) :
    CleanRel h h1 ∧ ∀ e, get_element_in_at_index G.in_ i = some e →
      e.connection_type = in_connection_type_t.GATE → ¬ marked h1 e.pointer := by
  cases hs : get_element_in_at_index G.in_ i with
  | none =>
    rw [clean_step_empty rec hg hs] at hres
    cases hres
    exact ⟨CleanRel.refl_clean h, fun e he => by cases he⟩
  | some e =>
    by_cases hc : e.connection_type = in_connection_type_t.GATE
    · cases hp : lookup h e.pointer with
      | none =>
        rw [clean_step_lost rec hg hs hc hp] at hres
        cases hres
        refine ⟨CleanRel.refl_clean h, fun e1 he1 _ => ?_⟩
        cases he1
        rintro ⟨P, hP, _⟩
        rw [hp] at hP
        cases hP
      | some P =>
        by_cases hu : P.state = state.UNVISITED
        · rw [clean_step_skip rec hg hs hc hp hu] at hres
          cases hres
          refine ⟨CleanRel.refl_clean h, fun e1 he1 _ => ?_⟩
          cases he1
          rintro ⟨P1, hP1, hP1s⟩
          rw [hp] at hP1
          cases hP1
          exact hP1s hu
        · rw [clean_step_rec rec hg hs hc hp hu] at hres
          obtain ⟨hrel, hclear⟩ := hrec h e.pointer h1 hres
          refine ⟨hrel, fun e1 he1 _ => ?_⟩
          cases he1
          exact hclear
    · rw [clean_step_signal rec hg hs hc] at hres
      cases hres
      exact ⟨CleanRel.refl_clean h, fun e1 he1 hc1 => by cases he1; exact absurd hc1 hc⟩

theorem clean_loop_spec (rec : Heap → Nat → Option Heap)
    (hrec : ∀ h p h1, rec h p = some h1 → CleanSpec h p h1)
    (g : Nat) (G : gate) (hu : G.state = state.UNVISITED) (is : List Nat) :
    ∀ (h h1 : Heap), lookup h g = some G → clean_loop rec g is h = some h1 →
      CleanRel h h1 ∧ ∀ i e, i ∈ is → get_element_in_at_index G.in_ i = some e →
        e.connection_type = in_connection_type_t.GATE → ¬ marked h1 e.pointer := by
  induction is with
  | nil =>
    intro h h1 _ hres
    simp only [clean_loop] at hres
    cases hres
    exact ⟨CleanRel.refl_clean h, fun i e hi => by simp at hi⟩
  | cons i is ih =>
    intro h h2 hg hres
    simp only [clean_loop] at hres
    cases hstep : clean_step rec g i h with
    | none => rw [hstep] at hres; cases hres
    | some h1 =>
      rw [hstep] at hres
      simp only at hres
      obtain ⟨hrel1, hclear1⟩ := clean_step_spec rec hrec hg hstep
      obtain ⟨hrel2, hclear2⟩ := ih h1 h2 (hrel1.keep hg hu) hres
      refine ⟨hrel1.trans_clean hrel2, ?_⟩
      intro j e hj he hc
      rcases List.mem_cons.mp hj with hhead | htail
      · subst hhead
        exact hrel2.not_marked (hclear1 e he hc)
      · exact hclear2 j e htail he hc

theorem nand_clean_recursive_spec (fuel : Nat) :
    ∀ (h : Heap) (g : Nat) (h1 : Heap), nand_clean_recursive fuel h g = some h1 →
      CleanSpec h g h1 := by
  induction fuel with
  | zero =>
    intro h g h1 hres
    simp [nand_clean_recursive] at hres
  | succ fuel ih =>
    intro h g h1 hres
    cases hg : lookup h g with
    | none =>
      rw [clean_dead fuel hg] at hres
      cases hres
      refine ⟨CleanRel.refl_clean h, ?_⟩
      rintro ⟨G, hG, _⟩
      rw [hg] at hG
      cases hG
    | some G =>
      by_cases hu : G.state = state.UNVISITED
      · rw [clean_unvisited fuel hg hu] at hres
        cases hres
        refine ⟨CleanRel.refl_clean h, ?_⟩
        rintro ⟨G1, hG1, hG1s⟩
        rw [hg] at hG1
        cases hG1
        exact hG1s hu
      · rw [clean_marked fuel hg hu] at hres
        have hlt := lookup_lt hg
        have hg0 : lookup (store h g { G with state := state.UNVISITED }) g
            = some { G with state := state.UNVISITED } := lookup_store_eq _ hlt
        obtain ⟨hrel, hclear⟩ := clean_loop_spec (nand_clean_recursive fuel) ih g
          { G with state := state.UNVISITED } rfl (List.range (vector_in_size G.in_))
          _ h1 hg0 hres
        have hg1 := hrel.keep hg0 rfl
        have hnm : ¬ marked h1 g := by
          rintro ⟨G1, hG1, hG1s⟩
          rw [hg1] at hG1
          cases hG1
          exact hG1s rfl
        refine ⟨⟨?_, ?_⟩, hnm⟩
        · intro x
          by_cases hx : g = x
          · subst hx
            exact Or.inr ⟨G, hg, hg1⟩
          · rcases hrel.unmark x with heq | ⟨X, hX, hX1⟩
            · exact Or.inl (by rw [heq, lookup_store_ne h _ hx])
            · rw [lookup_store_ne h _ hx] at hX
              exact Or.inr ⟨X, hX, hX1⟩
        · intro x X hX hs hm
          by_cases hx : g = x
          · subst hx
            rw [hg] at hX
            cases hX
            intro i e hi he hc
            exact hclear i e (List.mem_range.mpr hi) he hc
          · refine hrel.closed x X ?_ hs hm
            rw [lookup_store_ne h _ hx]
            exact hX

/-! ## The heap keeps its length -/

theorem eval_step_length (rec : Heap → Nat → Option (Heap × res_with_code)) (sig : Nat → Bool)
    (hrec : ∀ h p h1 r, rec h p = some (h1, r) → h1.length = h.length)
    {g i : Nat} {h : Heap} {rv : Bool} {res : LoopRes}
    (hres : eval_step rec sig g i h rv = some res) : res.heap.length = h.length := by
  cases hg : lookup h g with
  | none => rw [eval_step_dead rec sig hg] at hres; cases hres; rfl
  | some G =>
    cases hs : get_element_in_at_index G.in_ i with
    | none => rw [eval_step_empty rec sig hg hs] at hres; cases hres; rfl
    | some e =>
      by_cases hc : e.connection_type = in_connection_type_t.SIGNAL
      · rw [eval_step_signal rec sig hg hs hc] at hres; cases hres; rfl
      · by_cases hself : g = e.pointer
        · rw [eval_step_self rec sig hg hs hc hself] at hres; cases hres; rfl
        · cases hr : rec h e.pointer with
          | none => rw [eval_step_fuel rec sig hg hs hc hself hr] at hres; cases hres
          | some hr1 =>
            obtain ⟨h1, r⟩ := hr1
            have hlen := hrec h e.pointer h1 r hr
            by_cases hcode : r.code = SUCCESS
            · cases hg1 : lookup h1 g with
              | none =>
                rw [eval_step_lost rec sig hg hs hc hself hr hcode (Or.inl hg1)] at hres
                cases hres; exact hlen
              | some G1 =>
                cases hp1 : lookup h1 e.pointer with
                | none =>
                  rw [eval_step_lost rec sig hg hs hc hself hr hcode (Or.inr hp1)] at hres
                  cases hres; exact hlen
                | some Gin =>
                  rw [eval_step_ok rec sig hg hs hc hself hr hcode hg1 hp1] at hres
                  cases hres
                  simp only [LoopRes.heap, length_store]
                  exact hlen
            · rw [eval_step_fail rec sig hg hs hc hself hr hcode] at hres
              cases hres; exact hlen

theorem eval_loop_length (rec : Heap → Nat → Option (Heap × res_with_code)) (sig : Nat → Bool)
    (hrec : ∀ h p h1 r, rec h p = some (h1, r) → h1.length = h.length)
    (g : Nat) (is : List Nat) :
    ∀ (h : Heap) (rv : Bool) (res : LoopRes), eval_loop rec sig g is h rv = some res →
      res.heap.length = h.length := by
  induction is with
  | nil =>
    intro h rv res hres
    simp only [eval_loop] at hres
    cases hres; rfl
  | cons i is ih =>
    intro h rv res hres
    simp only [eval_loop] at hres
    cases hstep : eval_step rec sig g i h rv with
    | none => rw [hstep] at hres; cases hres
    | some sres =>
      rw [hstep] at hres
      have hlen := eval_step_length rec sig hrec hstep
      cases sres with
      | ret h1 r => simp only at hres; cases hres; exact hlen
      | cont h1 rv1 =>
        simp only at hres
        exact (ih h1 rv1 res hres).trans hlen

theorem nand_evaluate_recursive_length (sig : Nat → Bool) (fuel : Nat) :
    ∀ (h : Heap) (g : Nat) (h1 : Heap) (r : res_with_code),
      nand_evaluate_recursive fuel sig h g = some (h1, r) → h1.length = h.length := by
  induction fuel with
  | zero =>
    intro h g h1 r hres
    simp [nand_evaluate_recursive] at hres
  | succ fuel ih =>
    intro h g h1 r hres
    cases hg : lookup h g with
    | none => rw [eval_dead sig fuel hg] at hres; cases hres; rfl
    | some G =>
      by_cases hready : ready G
      swap
      · rw [eval_not_ready sig fuel hg hready] at hres; cases hres; rfl
      by_cases hcal : G.state = state.CALCULATED
      · rw [eval_calculated sig fuel hg hready hcal] at hres; cases hres; rfl
      by_cases hvis : G.state = state.VISITED
      · rw [eval_visited sig fuel hg hready hvis] at hres; cases hres; rfl
      rw [eval_unvisited sig fuel hg hready (state_unvisited_of hcal hvis)] at hres
      cases hloop : eval_loop (nand_evaluate_recursive fuel sig) sig g
          (List.range (vector_in_size G.in_)) (store h g (enter G)) (init_value G.kind) with
      | none => rw [hloop] at hres; simp [eval_leave] at hres
      | some res =>
        rw [hloop] at hres
        have hlen := eval_loop_length _ sig ih g _ _ _ _ hloop
        rw [length_store] at hlen
        cases res with
        | ret h2 r2 =>
          rw [eval_leave_ret] at hres
          cases hres; exact hlen
        | cont h2 rv =>
          cases hg2 : lookup h2 g with
          | none => rw [eval_leave_lost rv hg2] at hres; cases hres; exact hlen
          | some G2 =>
            rw [eval_leave_cont rv hg2] at hres
            cases hres
            rw [length_store]; exact hlen

/-! ## Cleanup of a list of targets -/

theorem nand_clean_spec (fuel : Nat) (gs : List (Option Nat)) :
    ∀ (h : Heap), marked_count h < fuel →
      ∃ h1, nand_clean fuel gs h = some h1 ∧ CleanRel h h1 ∧
        marked_count h1 ≤ marked_count h ∧ ∀ t, some t ∈ gs → ¬ marked h1 t := by
  induction gs with
  | nil =>
    intro h _
    exact ⟨h, rfl, CleanRel.refl_clean h, le_refl _, fun t ht => by simp at ht⟩
  | cons gi gs ih =>
    intro h hn
    cases gi with
    | none =>
      obtain ⟨h1, hres, hrel, hle, hclear⟩ := ih h hn
      refine ⟨h1, by simp only [nand_clean]; exact hres, hrel, hle, ?_⟩
      intro t ht
      rcases List.mem_cons.mp ht with hhead | htail
      · cases hhead
      · exact hclear t htail
    | some g =>
      obtain ⟨h1, hres1, hle1⟩ := nand_clean_recursive_total fuel h g hn
      obtain ⟨hrel1, hclear1⟩ := nand_clean_recursive_spec fuel h g h1 hres1
      obtain ⟨h2, hres2, hrel2, hle2, hclear2⟩ := ih h1 (by omega)
      refine ⟨h2, by simp only [nand_clean, hres1]; exact hres2, hrel1.trans_clean hrel2,
        by omega, ?_⟩
      intro t ht
      rcases List.mem_cons.mp ht with hhead | htail
      · cases hhead
        exact hrel2.not_marked hclear1
      · exact hclear2 t htail

theorem MR.is_marked {h : Heap} {T : List Nat} {x : Nat} (hm : MR h T x) : marked h x := by
  cases hm with
  | base t _ hmt => exact hmt
  | step a b _ _ hmb => exact hmb

/-- When every marked gate is reachable from a target along marked gates, the
cleanup of the targets resets every marker. -/
theorem clean_all_unvisited {sig : Nat → Bool} {h h1 : Heap} {T : List Nat}
    (hinv : Inv sig h) (hmr : ∀ x, marked h x → MR h T x) (hrel : CleanRel h h1)
    (hclear : ∀ t, t ∈ T → ¬ marked h1 t) : all_unvisited h1 := by
  have key : ∀ x, MR h T x → ¬ marked h1 x := by
    intro x hx
    induction hx with
    | base t ht _ => exact hclear t ht
    | step a b ha hab _ ih =>
      obtain ⟨A, hA, hAs⟩ := ha.is_marked
      have hcc := hrel.closed a A hA hAs ih
      obtain ⟨A0, hA0, hb⟩ := hab
      rw [hA] at hA0
      cases hA0
      obtain ⟨e, he, hc, hep⟩ := mem_producers.mp hb
      obtain ⟨i, hi, hget⟩ := get_element_of_mem he
      have hready := hinv.marked_ready a A hA hAs
      have hwf := hinv.wf a A hA
      unfold ready at hready
      have hgate : e.connection_type = in_connection_type_t.GATE := by
        cases hct : e.connection_type <;> simp_all
      rw [← hep]
      refine hcc i e ?_ hget hgate
      rw [hready]
      unfold vector_in_capacity
      rw [← hwf.1]
      exact hi
  intro x X hX
  by_contra hs
  have hm1 : marked h1 x := ⟨X, hX, hs⟩
  exact key x (hmr x ((hrel.unmark x).of_marked hm1).1) hm1

theorem topo_of_clean {h h1 : Heap} (hrel : CleanRel h h1) : topo h1 = topo h := by
  funext x
  unfold topo
  rcases hrel.unmark x with heq | ⟨X, hX, hX1⟩
  · rw [heq]
  · rw [hX, hX1]
    rfl

theorem clean_step_length (rec : Heap → Nat → Option Heap)
    (hrec : ∀ h p h1, rec h p = some h1 → h1.length = h.length)
    {g i : Nat} {h h1 : Heap} (hres : clean_step rec g i h = some h1) :
    h1.length = h.length := by
  cases hg : lookup h g with
  | none => rw [clean_step_dead rec hg] at hres; cases hres; rfl
  | some G =>
    cases hs : get_element_in_at_index G.in_ i with
    | none => rw [clean_step_empty rec hg hs] at hres; cases hres; rfl
    | some e =>
      by_cases hc : e.connection_type = in_connection_type_t.GATE
      · cases hp : lookup h e.pointer with
        | none => rw [clean_step_lost rec hg hs hc hp] at hres; cases hres; rfl
        | some P =>
          by_cases hu : P.state = state.UNVISITED
          · rw [clean_step_skip rec hg hs hc hp hu] at hres; cases hres; rfl
          · rw [clean_step_rec rec hg hs hc hp hu] at hres
            exact hrec h e.pointer h1 hres
      · rw [clean_step_signal rec hg hs hc] at hres; cases hres; rfl

theorem clean_loop_length (rec : Heap → Nat → Option Heap)
    (hrec : ∀ h p h1, rec h p = some h1 → h1.length = h.length)
    (g : Nat) (is : List Nat) :
    ∀ (h h1 : Heap), clean_loop rec g is h = some h1 → h1.length = h.length := by
  induction is with
  | nil =>
    intro h h1 hres
    simp only [clean_loop] at hres
    cases hres; rfl
  | cons i is ih =>
    intro h h2 hres
    simp only [clean_loop] at hres
    cases hstep : clean_step rec g i h with
    | none => rw [hstep] at hres; cases hres
    | some h1 =>
      rw [hstep] at hres
      simp only at hres
      exact (ih h1 h2 hres).trans (clean_step_length rec hrec hstep)

theorem nand_clean_recursive_length (fuel : Nat) :
    ∀ (h : Heap) (g : Nat) (h1 : Heap), nand_clean_recursive fuel h g = some h1 →
      h1.length = h.length := by
  induction fuel with
  | zero =>
    intro h g h1 hres
    simp [nand_clean_recursive] at hres
  | succ fuel ih =>
    intro h g h1 hres
    cases hg : lookup h g with
    | none => rw [clean_dead fuel hg] at hres; cases hres; rfl
    | some G =>
      by_cases hu : G.state = state.UNVISITED
      · rw [clean_unvisited fuel hg hu] at hres; cases hres; rfl
      · rw [clean_marked fuel hg hu] at hres
        have := clean_loop_length (nand_clean_recursive fuel) ih g _ _ _ hres
        rw [length_store] at this
        exact this

theorem nand_clean_length (fuel : Nat) (gs : List (Option Nat)) :
    ∀ (h h1 : Heap), nand_clean fuel gs h = some h1 → h1.length = h.length := by
  induction gs with
  | nil =>
    intro h h1 hres
    simp only [nand_clean] at hres
    cases hres; rfl
  | cons gi gs ih =>
    intro h h2 hres
    cases gi with
    | none =>
      simp only [nand_clean] at hres
      exact ih h h2 hres
    | some g =>
      simp only [nand_clean] at hres
      cases hstep : nand_clean_recursive fuel h g with
      | none => rw [hstep] at hres; cases hres
      | some h1 =>
        rw [hstep] at hres
        simp only at hres
        exact (ih h1 h2 hres).trans (nand_clean_recursive_length fuel h g h1 hstep)

/-! ## The main loop of `gate_evaluate` -/

theorem mem_targets {gs : List (Option Nat)} {t : Nat} : t ∈ targets gs ↔ some t ∈ gs := by
  simp [targets, List.mem_filterMap]

theorem exit_spec {sig : Nat → Bool} {fuel : Nat} {all : List (Option Nat)} {h : Heap}
    (hinv : Inv sig h) (hreach : ∀ x, marked h x → MR h (targets all) x)
    (hfuel : h.length < fuel) :
    ∃ h1, nand_clean fuel all h = some h1 ∧ CleanRel h h1 ∧ h1.length = h.length ∧
      all_unvisited h1 := by
  obtain ⟨h1, hres, hrel, _, hclear⟩ := nand_clean_spec fuel all h
    (lt_of_le_of_lt (marked_count_le_length h) hfuel)
  refine ⟨h1, hres, hrel, nand_clean_length fuel all h h1 hres, ?_⟩
  exact clean_all_unvisited hinv hreach hrel (fun t ht => hclear t (mem_targets.mp ht))

theorem evaluate_loop_nil (fuel : Nat) (sig : Nat → Bool) (all : List (Option Nat)) (i : Nat)
    (h : Heap) (s : List Bool) (res : Int) :
    evaluate_loop fuel sig all [] i h s res
      = (nand_clean fuel all h).map (fun h1 => ⟨h1, s, res⟩) := by
  simp [evaluate_loop]

theorem evaluate_loop_null (fuel : Nat) (sig : Nat → Bool) (all gs : List (Option Nat))
    (i : Nat) (h : Heap) (s : List Bool) (res : Int) :
    evaluate_loop fuel sig all (none :: gs) i h s res
      = (nand_clean fuel all h).map (fun h1 => ⟨h1, s, FAILED⟩) := by
  simp [evaluate_loop]

theorem evaluate_loop_not_ready (fuel : Nat) (sig : Nat → Bool) (all gs : List (Option Nat))
    (i : Nat) {h : Heap} (s : List Bool) (res : Int) {gi : Nat}
    (hg : ∀ G, lookup h gi = some G → ¬ ready G) :
    evaluate_loop fuel sig all (some gi :: gs) i h s res
      = (nand_clean fuel all h).map (fun h1 => ⟨h1, s, FAILED⟩) := by
  cases hl : lookup h gi with
  | none => simp [evaluate_loop, hl]
  | some G =>
    have := hg G hl
    unfold ready at this
    simp [evaluate_loop, hl, this]

theorem evaluate_loop_failed (fuel : Nat) (sig : Nat → Bool) (all gs : List (Option Nat))
    (i : Nat) {h h1 : Heap} (s : List Bool) (res : Int) {gi : Nat} {G : gate}
    {r : res_with_code}
    (hg : lookup h gi = some G) (hready : ready G)
    (heval : nand_evaluate_recursive fuel sig h gi = some (h1, r)) (hcode : r.code ≠ 0) :
    evaluate_loop fuel sig all (some gi :: gs) i h s res
      = (nand_clean fuel all h1).map (fun h2 => ⟨h2, s, FAILED⟩) := by
  unfold ready at hready
  simp [evaluate_loop, hg, hready, heval, hcode]

theorem evaluate_loop_next (fuel : Nat) (sig : Nat → Bool) (all gs : List (Option Nat))
    (i : Nat) {h h1 : Heap} (s : List Bool) (res : Int) {gi : Nat} {G G1 : gate}
    {r : res_with_code}
    (hg : lookup h gi = some G) (hready : ready G)
    (heval : nand_evaluate_recursive fuel sig h gi = some (h1, r)) (hcode : r.code = 0)
    (hg1 : lookup h1 gi = some G1) :
    evaluate_loop fuel sig all (some gi :: gs) i h s res
      = evaluate_loop fuel sig all gs (i + 1) h1 (s.set i r.res)
          (if (G1.path_len : Int) > res then (G1.path_len : Int) else res) := by
  unfold ready at hready
  simp [evaluate_loop, hg, hready, heval, hcode, hg1]

theorem AllSound.tail {h : Heap} {gi : Option Nat} {gs : List (Option Nat)}
    (hs : AllSound h (gi :: gs)) : AllSound h gs :=
  fun g hg => hs g (List.mem_cons_of_mem _ hg)

theorem AllSound.of_topo_all {h h1 : Heap} (ht : topo h1 = topo h) {gs : List (Option Nat)}
    (hs : AllSound h gs) : AllSound h1 gs := by
  intro gi hgi
  obtain ⟨t, ht1, hsound⟩ := hs gi hgi
  exact ⟨t, ht1, hsound.of_topo_sound ht⟩

theorem evaluate_loop_spec (fuel : Nat) (sig : Nat → Bool) (all : List (Option Nat))
    (gs : List (Option Nat)) :
    ∀ (i : Nat) (h : Heap) (s : List Bool) (res : Int),
      Between sig (targets all) h → h.length < fuel → (∀ gi, gi ∈ gs → gi ∈ all) →
      ∃ result he, evaluate_loop fuel sig all gs i h s res = some result ∧
        Inv sig he ∧ Ext h he ∧ CleanRel he result.heap ∧
        result.heap.length = h.length ∧ all_unvisited result.heap ∧
        ((result.ret = FAILED ∧ ¬ AllSound h gs) ∨ Succ he gs i s res result) := by
  induction gs with
  | nil =>
    intro i h s res hb hfuel _
    obtain ⟨h1, hres, hrel, hlen, hun⟩ := exit_spec hb.inv hb.reach hfuel
    refine ⟨⟨h1, s, res⟩, h, ?_, hb.inv, Ext.refl_ext h, hrel, hlen, hun, Or.inr ?_⟩
    · rw [evaluate_loop_nil, hres]; rfl
    · exact ⟨fun j t hj => by simp at hj, fun gi hgi => by simp at hgi, le_refl _, Or.inl rfl,
        rfl, fun k _ => rfl⟩
  | cons g0 gs ih =>
    intro i h s res hb hfuel hsub
    have hfail : ¬ AllSound h (g0 :: gs) →
        ∀ he, Inv sig he → Ext h he → (∀ x, marked he x → MR he (targets all) x) →
        he.length = h.length →
        evaluate_loop fuel sig all (g0 :: gs) i h s res
          = (nand_clean fuel all he).map (fun h2 => ⟨h2, s, FAILED⟩) →
        ∃ result he, evaluate_loop fuel sig all (g0 :: gs) i h s res = some result ∧
          Inv sig he ∧ Ext h he ∧ CleanRel he result.heap ∧
          result.heap.length = h.length ∧ all_unvisited result.heap ∧
          ((result.ret = FAILED ∧ ¬ AllSound h (g0 :: gs)) ∨
            Succ he (g0 :: gs) i s res result) := by
      intro hns he hinv hext hreach hlen heq
      obtain ⟨h1, hres, hrel, hlen1, hun⟩ := @exit_spec _ fuel all _ hinv hreach
        (by rw [hlen]; exact hfuel)
      refine ⟨⟨h1, s, FAILED⟩, he, ?_, hinv, hext, hrel, hlen1.trans hlen, hun,
        Or.inl ⟨rfl, hns⟩⟩
      rw [heq, hres]; rfl
    cases g0 with
    | none =>
      refine hfail ?_ h hb.inv (Ext.refl_ext h) hb.reach rfl (evaluate_loop_null ..)
      intro hs
      obtain ⟨t, ht, _⟩ := hs none (List.mem_cons_self _ _)
      cases ht
    | some t =>
      by_cases hlive : ∃ G, lookup h t = some G ∧ ready G
      swap
      · refine hfail ?_ h hb.inv (Ext.refl_ext h) hb.reach rfl
          (evaluate_loop_not_ready fuel sig all gs i s res
            (fun G hG hr => hlive ⟨G, hG, hr⟩))
        intro hs
        obtain ⟨t1, ht1, hsound⟩ := hs (some t) (List.mem_cons_self _ _)
        cases ht1
        exact hlive (hsound t Relation.ReflTransGen.refl).1
      obtain ⟨G, hG, hready⟩ := hlive
      obtain ⟨h1, r, heval, _⟩ := nand_evaluate_recursive_total sig fuel h t
        (lt_of_le_of_lt (unvisited_count_le_length h) hfuel)
      have hspec := nand_evaluate_recursive_spec sig fuel h t h1 r heval hb.inv
      have hlen1 := nand_evaluate_recursive_length sig fuel h t h1 r heval
      have htT : t ∈ targets all := mem_targets.mpr (hsub _ (List.mem_cons_self _ _))
      have hreach1 : ∀ x, marked h1 x → MR h1 (targets all) x := by
        intro x hx
        rcases hspec.reach x hx with hl | hr
        · exact MR.mono (Grow.of_ext hspec.ext) (hb.reach x hl)
        · exact MR.subset (fun t1 ht1 => by
            have : t1 = t := by simpa using ht1
            rw [this]; exact htT) hr
      by_cases hcode : r.code = 0
      swap
      · refine hfail ?_ h1 hspec.inv hspec.ext hreach1 hlen1
          (evaluate_loop_failed fuel sig all gs i s res hG hready heval hcode)
        intro hs
        obtain ⟨t1, ht1, hsound⟩ := hs (some t) (List.mem_cons_self _ _)
        cases ht1
        exact hcode (nand_evaluate_recursive_success sig fuel h t h1 r heval hb.inv hsound
          (fun x X _ hX => hb.novis x X hX))
      obtain ⟨G1, hG1, hG1c, hG1r⟩ := hspec.done hcode
      have hb1 : Between sig (targets all) h1 := by
        refine ⟨hspec.inv, ?_, hreach1⟩
        intro x X1 hX1 hs
        obtain ⟨X, hX, hXs⟩ := hspec.visited hcode x X1 hX1 hs
        exact hb.novis x X hX hXs
      obtain ⟨result, he, hres, hinv, hext, hrel, hlen, hun, hcase⟩ :=
        ih (i + 1) h1 (s.set i r.res)
          (if (G1.path_len : Int) > res then (G1.path_len : Int) else res) hb1 (by omega)
          (fun gi hgi => hsub gi (List.mem_cons_of_mem _ hgi))
      refine ⟨result, he, ?_, hinv, hspec.ext.trans_ext hext, hrel, by omega, hun, ?_⟩
      · rw [evaluate_loop_next fuel sig all gs i s res hG hready heval hcode hG1]
        exact hres
      · rcases hcase with ⟨hret, hns⟩ | hsucc
        · refine Or.inl ⟨hret, fun hs => hns ?_⟩
          exact (AllSound.tail hs).of_topo_all (topo_of_ext hspec.ext)
        · refine Or.inr ⟨?_, ?_, ?_, ?_, ?_, ?_⟩
          · intro j t1 hj
            cases j with
            | zero =>
              simp only [List.getElem?_cons_zero, Option.some.injEq] at hj
              subst hj
              obtain ⟨G2, hG2, _, _, _, hsame⟩ := (hext t).of_some hG1
              have : G2 = G1 := hsame (by rw [hG1c]; decide)
              subst this
              refine ⟨G2, hG2, hG1c, ?_, ?_⟩
              · intro hi
                have hi1 : i < s.length := by simpa using hi
                rw [Nat.add_zero, hsucc.before i (Nat.lt_succ_self i), hG1r]
                exact List.getElem?_set_self hi1
              · have := hsucc.lower
                split_ifs at this with hgt
                · exact this
                · omega
            | succ j =>
              simp only [List.getElem?_cons_succ] at hj
              obtain ⟨G2, hG2, hG2c, hout, hpl⟩ := hsucc.done j t1 hj
              refine ⟨G2, hG2, hG2c, ?_, hpl⟩
              intro hi
              have := hout (by simp only [List.length_set]; omega)
              rw [show i + (j + 1) = i + 1 + j by omega]
              exact this
          · intro gi hgi
            rcases List.mem_cons.mp hgi with hhead | htail
            · rw [hhead]; simp
            · exact hsucc.nonnull gi htail
          · have := hsucc.lower
            split_ifs at this with hgt
            · omega
            · exact this
          · rcases hsucc.attained with hatt | ⟨t1, G2, ht1, hG2, hret⟩
            · split_ifs at hatt with hgt
              · right
                obtain ⟨G2, hG2, _, _, _, hsame⟩ := (hext t).of_some hG1
                have : G2 = G1 := hsame (by rw [hG1c]; decide)
                subst this
                exact ⟨t, G2, List.mem_cons_self _ _, hG2, hatt⟩
              · exact Or.inl hatt
            · exact Or.inr ⟨t1, G2, List.mem_cons_of_mem _ ht1, hG2, hret⟩
          · rw [hsucc.length, List.length_set]
          · intro k hk
            rw [hsucc.before k (by omega), List.getElem?_set_ne (by omega)]

/-! ## `gate_evaluate` -/

theorem Inv.of_unvisited_inv (sig : Nat → Bool) {h : Heap}
    (hwf : ∀ g G, lookup h g = some G → wf_in G) (hun : all_unvisited h) : Inv sig h :=
  ⟨hwf, fun g G hg hne => absurd (hun g G hg) hne,
    fun g G hg hc => by rw [hun g G hg] at hc; cases hc⟩

theorem Between.of_unvisited_between (sig : Nat → Bool) (T : List Nat) {h : Heap}
    (hwf : ∀ g G, lookup h g = some G → wf_in G) (hun : all_unvisited h) :
    Between sig T h := by
  refine ⟨Inv.of_unvisited_inv sig hwf hun, ?_, ?_⟩
  · intro x X hX hs
    rw [hun x X hX] at hs
    cases hs
  · rintro x ⟨X, hX, hs⟩
    exact absurd (hun x X hX) hs

theorem gate_evaluate_null_g (fuel : Nat) (sig : Nat → Bool) (h : Heap)
    (s : Option (List Bool)) :
    ∃ sb, gate_evaluate fuel sig h none s = some ⟨h, sb, FAILED⟩ := by
  cases s with
  | none => exact ⟨[], rfl⟩
  | some sb => exact ⟨sb, rfl⟩

theorem gate_evaluate_null_s (fuel : Nat) (sig : Nat → Bool) (h : Heap)
    (g : Option (List (Option Nat))) :
    ∃ sb, gate_evaluate fuel sig h g none = some ⟨h, sb, FAILED⟩ := by
  cases g with
  | none => exact ⟨[], rfl⟩
  | some gs => exact ⟨[], rfl⟩

theorem gate_evaluate_empty (fuel : Nat) (sig : Nat → Bool) (h : Heap) (sb : List Bool) :
    gate_evaluate fuel sig h (some []) (some sb) = some ⟨h, sb, FAILED⟩ := by
  simp [gate_evaluate]

theorem gate_evaluate_null_entry (fuel : Nat) (sig : Nat → Bool) (h : Heap) (sb : List Bool)
    {gs : List (Option Nat)} (hnull : none ∈ gs) :
    gate_evaluate fuel sig h (some gs) (some sb) = some ⟨h, sb, FAILED⟩ := by
  have hany : gs.any (fun gi => gi.isNone) = true :=
    List.any_eq_true.mpr ⟨none, hnull, rfl⟩
  simp only [gate_evaluate, hany, if_true]
  split_ifs <;> rfl

theorem gate_evaluate_loop (fuel : Nat) (sig : Nat → Bool) (h : Heap) (sb : List Bool)
    {gs : List (Option Nat)} (hne : gs ≠ []) (hnull : none ∉ gs) :
    gate_evaluate fuel sig h (some gs) (some sb) = evaluate_loop fuel sig gs gs 0 h sb 0 := by
  have hany : gs.any (fun gi => gi.isNone) = false := by
    rw [Bool.eq_false_iff]
    intro hc
    obtain ⟨gi, hgi, hnone⟩ := List.any_eq_true.mp hc
    cases gi with
    | none => exact hnull hgi
    | some t => simp at hnone
  have hlen : gs.length ≠ 0 := fun hl => hne (List.eq_nil_of_length_eq_zero hl)
  simp [gate_evaluate, hany, hlen]

/-- Specification of `gate_evaluate` on a heap with well-formed input vectors
and no marked gate: the call returns, all markers are reset, and either it
failed and the targets are not all sound, or it succeeded on a non-empty
target array. -/
theorem gate_evaluate_spec (fuel : Nat) (sig : Nat → Bool) (h : Heap)
    (gs : List (Option Nat)) (sb : List Bool)
    (hwf : ∀ g G, lookup h g = some G → wf_in G) (hun : all_unvisited h)
    (hfuel : h.length < fuel) :
    ∃ result he, gate_evaluate fuel sig h (some gs) (some sb) = some result ∧
      Inv sig he ∧ Ext h he ∧ CleanRel he result.heap ∧
      result.heap.length = h.length ∧ all_unvisited result.heap ∧
      ((result.ret = FAILED ∧ (gs = [] ∨ ¬ AllSound h gs)) ∨
        (gs ≠ [] ∧ Succ he gs 0 sb 0 result)) := by
  have hinv := Inv.of_unvisited_inv sig hwf hun
  by_cases hne : gs = []
  · subst hne
    exact ⟨⟨h, sb, FAILED⟩, h, gate_evaluate_empty fuel sig h sb, hinv, Ext.refl_ext h,
      CleanRel.refl_clean h, rfl, hun, Or.inl ⟨rfl, Or.inl rfl⟩⟩
  by_cases hnull : none ∈ gs
  · refine ⟨⟨h, sb, FAILED⟩, h, gate_evaluate_null_entry fuel sig h sb hnull, hinv,
      Ext.refl_ext h, CleanRel.refl_clean h, rfl, hun, Or.inl ⟨rfl, Or.inr ?_⟩⟩
    intro hs
    obtain ⟨t, ht, _⟩ := hs none hnull
    cases ht
  obtain ⟨result, he, hres, hinv1, hext, hrel, hlen, hun1, hcase⟩ :=
    evaluate_loop_spec fuel sig gs gs 0 h sb 0 (Between.of_unvisited_between sig _ hwf hun) hfuel
      (fun gi hgi => hgi)
  refine ⟨result, he, ?_, hinv1, hext, hrel, hlen, hun1, ?_⟩
  · rw [gate_evaluate_loop fuel sig h sb hne hnull]; exact hres
  · rcases hcase with ⟨hret, hns⟩ | hsucc
    · exact Or.inl ⟨hret, Or.inr hns⟩
    · exact Or.inr ⟨hne, hsucc⟩

theorem Succ.nonneg {he : Heap} {gs : List (Option Nat)} {sb : List Bool}
    {result : eval_result} (hs : Succ he gs 0 sb 0 result) : 0 ≤ result.ret := hs.lower

theorem Succ.all_sound {sig : Nat → Bool} {h he : Heap} {gs : List (Option Nat)} {i : Nat}
    {sb : List Bool} {res : Int} {result : eval_result} (hs : Succ he gs i sb res result)
    (hinv : Inv sig he) (hext : Ext h he) : AllSound h gs := by
  intro gi hgi
  cases gi with
  | none => exact absurd rfl (hs.nonnull none hgi)
  | some t =>
    obtain ⟨j, hj⟩ := List.mem_iff_getElem?.mp hgi
    obtain ⟨G, hG, hGc, _, _⟩ := hs.done j t hj
    exact ⟨t, rfl, (calculated_sound hinv hG hGc).of_topo_sound (topo_of_ext hext).symm⟩

/-- The outputs of a successful run are the reference values, and the path
lengths of the targets are their reference depths. -/
theorem Succ.reference {sig : Nat → Bool} {h he : Heap} {gs : List (Option Nat)}
    {sb : List Bool} {result : eval_result} (hs : Succ he gs 0 sb 0 result)
    (hinv : Inv sig he) (hext : Ext h he) (j t : Nat) (hj : gs[j]? = some (some t)) :
    ∃ (v : Bool) (d : Nat), (j < sb.length → result.s[j]? = some v) ∧ (d : Int) ≤ result.ret ∧
      (∀ n : Nat, d < n → ref_value sig h n t = some v ∧ ref_depth h n t = some d) ∧
      ∃ G, lookup he t = some G ∧ G.res = v ∧ G.path_len = d := by
  obtain ⟨G, hG, hGc, hout, hpl⟩ := hs.done j t hj
  refine ⟨G.res, G.path_len, ?_, hpl, ?_, G, hG, rfl, rfl⟩
  · intro hlt
    have := hout (by omega)
    rw [Nat.zero_add] at this
    exact this
  · intro n hn
    obtain ⟨m, rfl⟩ : ∃ m, n = m + 1 := ⟨n - 1, by omega⟩
    have := ref_of_calculated hinv m t G hG hGc (by omega)
    have ht := topo_of_ext hext
    rw [ref_value_of_topo ht, ref_depth_of_topo ht] at this
    exact this

/-! ## Executable checks of the hypotheses -/

theorem mem_of_lookup {h : Heap} {x : Nat} {X : gate} (hx : lookup h x = some X) :
    some X ∈ h := by
  have hlt := lookup_lt hx
  rw [lookup_eq, List.getElem?_eq_getElem hlt] at hx
  have hx1 : h[x] = some X := by simpa using hx
  have := List.getElem_mem hlt
  rw [hx1] at this
  exact this

theorem all_unvisited_of_check {h : Heap} (hc : check_unvisited h = true) :
    all_unvisited h := by
  intro x X hx
  have := List.all_eq_true.mp hc (some X) (mem_of_lookup hx)
  simpa using this

theorem consistent_of_check {h : Heap} (hc : check_consistent h = true) : Consistent h := by
  unfold check_consistent at hc
  simp only [Bool.and_eq_true] at hc
  obtain ⟨⟨h1, h2⟩, h3⟩ := hc
  refine ⟨?_, ?_, ?_⟩
  · intro g G hg
    have := List.all_eq_true.mp h1 (some G) (mem_of_lookup hg)
    simpa [wf_in] using this
  · intro c C k e hC hk hgate
    have hc1 := List.all_eq_true.mp h2 c (List.mem_range.mpr (lookup_lt hC))
    simp only [hC] at hc1
    have hklt : k < C.in_.data.length := by
      by_contra hge
      rw [List.getElem?_eq_none (by omega)] at hk
      cases hk
    have hc2 := List.all_eq_true.mp hc1 k (List.mem_range.mpr hklt)
    simp only [check_slot, hk, hgate, if_true] at hc2
    cases hP : lookup h e.pointer with
    | none => simp [hP] at hc2
    | some P =>
      simp only [hP, decide_eq_true_eq] at hc2
      exact ⟨P, rfl, hc2⟩
  · intro p P j c k hP hj
    have hc1 := List.all_eq_true.mp h3 p (List.mem_range.mpr (lookup_lt hP))
    simp only [hP] at hc1
    have hjlt : j < P.out.data.length := by
      by_contra hge
      rw [List.getElem?_eq_none (by omega)] at hj
      cases hj
    have hc2 := List.all_eq_true.mp hc1 j (List.mem_range.mpr hjlt)
    simp only [check_link, hj] at hc2
    cases hC : lookup h c with
    | none => simp [hC] at hc2
    | some C =>
      simp only [hC, decide_eq_true_eq] at hc2
      exact ⟨C, rfl, hc2⟩

theorem sound_of_check {h : Heap} {rank L : List Nat} (hc : check_sound h rank L = true)
    {t : Nat} (ht : t ∈ L) : Sound h t := by
  have hstep : ∀ x, x ∈ L → (∃ X, lookup h x = some X ∧ ready X) ∧
      ∀ p, edge h x p → p ∈ L ∧ rank.getD p 0 < rank.getD x 0 := by
    intro x hx
    have hcx := List.all_eq_true.mp hc x hx
    cases hX : lookup h x with
    | none => simp [hX] at hcx
    | some X =>
      simp only [hX, Bool.and_eq_true, decide_eq_true_eq] at hcx
      refine ⟨⟨X, rfl, hcx.1⟩, ?_⟩
      rintro p ⟨X0, hX0, hp⟩
      rw [hX] at hX0
      cases hX0
      have := List.all_eq_true.mp hcx.2 p hp
      simpa using this
  have hclosed : ∀ x, Reach h t x → x ∈ L := by
    intro x hx
    induction hx with
    | refl => exact ht
    | tail _ he ih => exact ((hstep _ ih).2 _ he).1
  have hrank : ∀ x y, x ∈ L → Relation.TransGen (edge h) x y →
      y ∈ L ∧ rank.getD y 0 < rank.getD x 0 := by
    intro x y hx hxy
    induction hxy with
    | single he => exact (hstep x hx).2 _ he
    | tail _ he ih =>
      obtain ⟨hb, hlt⟩ := ih
      obtain ⟨hc1, hlt1⟩ := (hstep _ hb).2 _ he
      exact ⟨hc1, by omega⟩
  intro x hx
  refine ⟨(hstep x (hclosed x hx)).1, ?_⟩
  intro hcyc
  have := (hrank x x (hclosed x hx) hcyc).2
  omega

theorem all_sound_of_check {h : Heap} {R L : List Nat} {gs : List (Option Nat)}
    (hc : check_sound h R L = true) (hg : check_targets L gs = true) : AllSound h gs := by
  intro gi hgi
  have := List.all_eq_true.mp hg gi hgi
  cases gi with
  | none => simp at this
  | some t =>
    exact ⟨t, rfl, sound_of_check hc (by simpa using this)⟩

theorem ready_iff_bound {G : gate} (hwf : wf_in G) : ready G ↔ none ∉ G.in_.data := by
  constructor
  · intro hr hnone
    obtain ⟨e, he⟩ := all_bound_of_ready hwf hr none hnone
    cases he
  · intro hnone
    unfold ready vector_in_size vector_in_capacity
    rw [hwf.2, ← hwf.1]
    unfold bound_count
    rw [List.countP_eq_length]
    intro s hs
    cases s with
    | none => exact absurd hs hnone
    | some e => rfl

theorem wf_of_topo {h h1 : Heap} (ht : topo h1 = topo h)
    (hwf : ∀ g G, lookup h g = some G → wf_in G) :
    ∀ g G, lookup h1 g = some G → wf_in G := by
  intro g G hg
  obtain ⟨G0, hg0, hi, _⟩ := lookup_of_topo ht.symm hg
  have := hwf g G0 hg0
  unfold wf_in bound_count at this ⊢
  rw [← hi]
  exact this

theorem Succ.target {sig : Nat → Bool} {h he : Heap} {gs : List (Option Nat)} {i : Nat}
    {sb : List Bool} {res : Int} {result : eval_result} (hs : Succ he gs i sb res result)
    (hinv : Inv sig he) (hext : Ext h he) {t : Nat} (ht : some t ∈ gs) :
    ∃ G, lookup he t = some G ∧ (G.path_len : Int) ≤ result.ret ∧
      ∀ n : Nat, G.path_len < n →
        ref_value sig h n t = some G.res ∧ ref_depth h n t = some G.path_len := by
  obtain ⟨j, hj⟩ := List.mem_iff_getElem?.mp ht
  obtain ⟨G, hG, hGc, _, hpl⟩ := hs.done j t hj
  refine ⟨G, hG, hpl, ?_⟩
  intro n hn
  obtain ⟨m, rfl⟩ : ∃ m, n = m + 1 := ⟨n - 1, by omega⟩
  have := ref_of_calculated hinv m t G hG hGc (by omega)
  have htopo := topo_of_ext hext
  rw [ref_value_of_topo htopo, ref_depth_of_topo htopo] at this
  exact this

/-! ## Claims on the evaluation engine -/

/-- C1: on a consistent graph whose markers are all unvisited, for a non-empty
array of non-null targets from which only ready gates off every cycle are
reachable, `gate_evaluate` succeeds and writes into `s[i]` the reference value
of `g[i]` (the fold of the kind's operator over the slots, negated for
NAND/NOR/XNOR), for every budget above the number of gates. -/
theorem gate_evaluate_reference_value (fuel : Nat) (sig : Nat → Bool) (h : Heap)
    (gs : List (Option Nat)) (sb : List Bool)
    (hcons : Consistent h) (hun : all_unvisited h) (hfuel : h.length < fuel)
    (hne : gs ≠ []) (hsound : AllSound h gs) (hlen : sb.length = gs.length) :
    ∃ result, gate_evaluate fuel sig h (some gs) (some sb) = some result ∧
      0 ≤ result.ret ∧ result.s.length = gs.length ∧
      ∀ (i t : Nat), gs[i]? = some (some t) →
        ∃ v, result.s[i]? = some v ∧
          ∀ n : Nat, result.ret < (n : Int) → ref_value sig h n t = some v := by
  obtain ⟨result, he, hres, hinv, hext, _, _, _, hcase⟩ :=
    gate_evaluate_spec fuel sig h gs sb hcons.wf hun hfuel
  rcases hcase with ⟨_, hbad⟩ | ⟨_, hsucc⟩
  · rcases hbad with hnil | hns
    · exact absurd hnil hne
    · exact absurd hsound hns
  · refine ⟨result, hres, hsucc.nonneg, by rw [hsucc.length, hlen], ?_⟩
    intro i t hi
    obtain ⟨v, d, hout, hd, href, _⟩ := hsucc.reference hinv hext i t hi
    have hilt : i < gs.length := by
      by_contra hge
      rw [List.getElem?_eq_none (by omega)] at hi
      cases hi
    refine ⟨v, hout (by omega), ?_⟩
    intro n hn
    exact (href n (by omega)).1

/-- C1 (witness): the example of `example.c`; `g0 = AND(NAND(b0,b0), NAND(b0,b1))`
with `b0 = false`, `b1 = true` evaluates to `true`. -/
theorem gate_evaluate_reference_value_witness :
    (gate_evaluate 4 example_sig example_heap1 (some [some 0]) (some [false])).map
        (fun r => r.s) = some [true] ∧
    ∃ result, gate_evaluate 4 example_sig example_heap1 (some [some 0]) (some [false])
        = some result ∧
      0 ≤ result.ret ∧ result.s.length = [some 0].length ∧
      ∀ (i t : Nat), [some 0][i]? = some (some t) →
        ∃ v, result.s[i]? = some v ∧
          ∀ n : Nat, result.ret < (n : Int) → ref_value example_sig example_heap1 n t = some v :=
  ⟨by decide, gate_evaluate_reference_value 4 example_sig example_heap1 [some 0] [false]
    (consistent_of_check (by decide)) (all_unvisited_of_check (by decide)) (by decide)
    (by decide)
    (all_sound_of_check (R := [1, 0, 0]) (L := [0, 1, 2]) (by decide) (by decide))
    (by decide)⟩

/-- C2: a successful `gate_evaluate` returns the maximum over the targets of the
reference depth (`0` for a gate without slots, otherwise one more than the
maximum of `0` and the depths of the producers): every target's depth is at
most the returned value and some target's depth equals it. -/
theorem gate_evaluate_path_length (fuel : Nat) (sig : Nat → Bool) (h : Heap)
    (gs : List (Option Nat)) (sb : List Bool)
    (hcons : Consistent h) (hun : all_unvisited h) (hfuel : h.length < fuel) :
    ∃ result, gate_evaluate fuel sig h (some gs) (some sb) = some result ∧
      (result.ret ≠ FAILED →
        (∀ t, some t ∈ gs → ∃ d : Nat, (d : Int) ≤ result.ret ∧
          ∀ n : Nat, result.ret < (n : Int) → ref_depth h n t = some d) ∧
        ∃ (t d : Nat), some t ∈ gs ∧ result.ret = (d : Int) ∧
          ∀ n : Nat, result.ret < (n : Int) → ref_depth h n t = some d) := by
  obtain ⟨result, he, hres, hinv, hext, _, _, _, hcase⟩ :=
    gate_evaluate_spec fuel sig h gs sb hcons.wf hun hfuel
  refine ⟨result, hres, fun hok => ?_⟩
  rcases hcase with ⟨hfail, _⟩ | ⟨hne, hsucc⟩
  · exact absurd hfail hok
  · have hall : ∀ t, some t ∈ gs → ∃ d : Nat, (d : Int) ≤ result.ret ∧
        ∀ n : Nat, result.ret < (n : Int) → ref_depth h n t = some d := by
      intro t ht
      obtain ⟨G, _, hpl, href⟩ := hsucc.target hinv hext ht
      exact ⟨G.path_len, hpl, fun n hn => (href n (by omega)).2⟩
    refine ⟨hall, ?_⟩
    rcases hsucc.attained with hzero | ⟨t, G, ht, hG, hret⟩
    · obtain ⟨g0, gs1, rfl⟩ := List.exists_cons_of_ne_nil hne
      cases g0 with
      | none => exact absurd rfl (hsucc.nonnull none (List.mem_cons_self _ _))
      | some t =>
        obtain ⟨d, hd, href⟩ := hall t (List.mem_cons_self _ _)
        refine ⟨t, d, List.mem_cons_self _ _, ?_, href⟩
        omega
    · obtain ⟨G1, hG1, _, href⟩ := hsucc.target hinv hext ht
      rw [hG] at hG1
      cases hG1
      exact ⟨t, G.path_len, ht, hret, fun n hn => (href n (by omega)).2⟩

/-- C2 (witness): the example returns 2 for `[g0]` and 3 for `[g4]`. -/
theorem gate_evaluate_path_length_witness :
    (gate_evaluate 4 example_sig example_heap1 (some [some 0]) (some [false])).map
        (fun r => r.ret) = some 2 ∧
    (gate_evaluate 5 example_sig example_heap2 (some [some 3]) (some [false])).map
        (fun r => r.ret) = some 3 ∧
    ∃ result, gate_evaluate 5 example_sig example_heap2 (some [some 3]) (some [false])
        = some result ∧
      (result.ret ≠ FAILED →
        (∀ t, some t ∈ [some 3] → ∃ d : Nat, (d : Int) ≤ result.ret ∧
          ∀ n : Nat, result.ret < (n : Int) → ref_depth example_heap2 n t = some d) ∧
        ∃ (t d : Nat), some t ∈ [some 3] ∧ result.ret = (d : Int) ∧
          ∀ n : Nat, result.ret < (n : Int) → ref_depth example_heap2 n t = some d) :=
  ⟨by decide, by decide,
    gate_evaluate_path_length 5 example_sig example_heap2 [some 3] [false]
      (consistent_of_check (by decide)) (all_unvisited_of_check (by decide)) (by decide)⟩

/-- C9: when every marker is unvisited before `gate_evaluate`, every marker is
unvisited again when the call returns, on every exit path (null arrays, empty
array, null entries, not-ready targets, cycles, success). -/
theorem gate_evaluate_resets_markers (fuel : Nat) (sig : Nat → Bool) (h : Heap)
    (g : Option (List (Option Nat))) (s : Option (List Bool))
    (hcons : Consistent h) (hun : all_unvisited h) (hfuel : h.length < fuel) :
    ∃ result, gate_evaluate fuel sig h g s = some result ∧ all_unvisited result.heap := by
  cases g with
  | none =>
    obtain ⟨sb, hres⟩ := gate_evaluate_null_g fuel sig h s
    exact ⟨_, hres, hun⟩
  | some gs =>
    cases s with
    | none =>
      obtain ⟨sb, hres⟩ := gate_evaluate_null_s fuel sig h (some gs)
      exact ⟨_, hres, hun⟩
    | some sb =>
      obtain ⟨result, he, hres, _, _, _, _, hun1, _⟩ :=
        gate_evaluate_spec fuel sig h gs sb hcons.wf hun hfuel
      exact ⟨result, hres, hun1⟩

/-- C9 (witness): a batch whose first target is fully calculated and whose
second target reaches a cycle; the call fails and all markers are reset. -/
theorem gate_evaluate_resets_markers_witness :
    (gate_evaluate 5 example_sig cycle_heap (some [some 3, some 2]) (some [false, false])).map
        (fun r => r.ret) = some (-1) ∧
    ∃ result, gate_evaluate 5 example_sig cycle_heap (some [some 3, some 2])
        (some [false, false]) = some result ∧ all_unvisited result.heap :=
  ⟨by decide, gate_evaluate_resets_markers 5 example_sig cycle_heap (some [some 3, some 2])
    (some [false, false]) (consistent_of_check (by decide))
    (all_unvisited_of_check (by decide)) (by decide)⟩

/-- C8: on a consistent graph with unvisited markers, `gate_evaluate` fails
(returns `-1`) when some gate reachable from a target has an empty slot, and it
does not fail on a non-empty array of non-null targets from which only fully
bound gates off every cycle are reachable. -/
theorem gate_evaluate_readiness (fuel : Nat) (sig : Nat → Bool) (h : Heap)
    (gs : List (Option Nat)) (sb : List Bool)
    (hcons : Consistent h) (hun : all_unvisited h) (hfuel : h.length < fuel) :
    ∃ result, gate_evaluate fuel sig h (some gs) (some sb) = some result ∧
      ((∃ t x X, some t ∈ gs ∧ Reach h t x ∧ lookup h x = some X ∧ none ∈ X.in_.data) →
        result.ret = -1) ∧
      (gs ≠ [] →
        (∀ gi, gi ∈ gs → ∃ t, gi = some t ∧ ∀ x, Reach h t x →
          (∃ X, lookup h x = some X ∧ none ∉ X.in_.data) ∧ ¬ OnCycle h x) →
        0 ≤ result.ret) := by
  obtain ⟨result, he, hres, hinv, hext, _, _, _, hcase⟩ :=
    gate_evaluate_spec fuel sig h gs sb hcons.wf hun hfuel
  refine ⟨result, hres, ?_, ?_⟩
  · rintro ⟨t, x, X, ht, hreach, hX, hnone⟩
    rcases hcase with ⟨hfail, _⟩ | ⟨_, hsucc⟩
    · exact hfail
    · exfalso
      obtain ⟨t1, ht1, hsound⟩ := hsucc.all_sound hinv hext (some t) ht
      cases ht1
      obtain ⟨⟨X1, hX1, hready⟩, _⟩ := hsound x hreach
      rw [hX] at hX1
      cases hX1
      exact (ready_iff_bound (hcons.wf x X hX)).mp hready hnone
  · intro hne hall
    rcases hcase with ⟨_, hbad⟩ | ⟨_, hsucc⟩
    · exfalso
      rcases hbad with hnil | hns
      · exact hne hnil
      · apply hns
        intro gi hgi
        obtain ⟨t, ht, hreach⟩ := hall gi hgi
        refine ⟨t, ht, fun x hx => ?_⟩
        obtain ⟨⟨X, hX, hbound⟩, hcyc⟩ := hreach x hx
        exact ⟨⟨X, hX, (ready_iff_bound (hcons.wf x X hX)).mpr hbound⟩, hcyc⟩
    · exact hsucc.nonneg

/-- C8 (witness): the half-bound gate, evaluated alone, fails. -/
theorem gate_evaluate_readiness_witness :
    (gate_evaluate 2 example_sig half_bound_heap (some [some 0]) (some [false])).map
        (fun r => r.ret) = some (-1) ∧
    ∃ result, gate_evaluate 2 example_sig half_bound_heap (some [some 0]) (some [false])
        = some result ∧
      ((∃ t x X, some t ∈ [some 0] ∧ Reach half_bound_heap t x ∧
          lookup half_bound_heap x = some X ∧ none ∈ X.in_.data) → result.ret = -1) ∧
      ([some 0] ≠ [] →
        (∀ gi, gi ∈ [some 0] → ∃ t, gi = some t ∧ ∀ x, Reach half_bound_heap t x →
          (∃ X, lookup half_bound_heap x = some X ∧ none ∉ X.in_.data) ∧
            ¬ OnCycle half_bound_heap x) →
        0 ≤ result.ret) :=
  ⟨by decide, gate_evaluate_readiness 2 example_sig half_bound_heap [some 0] [false]
    (consistent_of_check (by decide)) (all_unvisited_of_check (by decide)) (by decide)⟩

/-- C10: two calls of `gate_evaluate` in succession on an unmodified graph
return the same value, and on success the same output booleans, whatever the
first call left in the cached result and path-length fields. -/
theorem gate_evaluate_twice (fuel : Nat) (sig : Nat → Bool) (h : Heap)
    (gs : List (Option Nat)) (sb sb2 : List Bool)
    (hcons : Consistent h) (hun : all_unvisited h) (hfuel : h.length < fuel)
    (hlen : sb2.length = sb.length) :
    ∃ r1 r2, gate_evaluate fuel sig h (some gs) (some sb) = some r1 ∧
      gate_evaluate fuel sig r1.heap (some gs) (some sb2) = some r2 ∧
      r2.ret = r1.ret ∧
      (r1.ret ≠ FAILED → ∀ i : Nat, i < gs.length → r2.s[i]? = r1.s[i]?) := by
  obtain ⟨r1, he1, hres1, hinv1, hext1, hrel1, hlen1, hun1, hcase1⟩ :=
    gate_evaluate_spec fuel sig h gs sb hcons.wf hun hfuel
  have htopo1 : topo r1.heap = topo h := (topo_of_clean hrel1).trans (topo_of_ext hext1)
  obtain ⟨r2, he2, hres2, hinv2, hext2, _, _, _, hcase2⟩ :=
    gate_evaluate_spec fuel sig r1.heap gs sb2 (wf_of_topo htopo1 hcons.wf) hun1
      (by omega)
  refine ⟨r1, r2, hres1, hres2, ?_⟩
  rcases hcase1 with ⟨hfail1, hbad1⟩ | ⟨hne1, hsucc1⟩
  · rcases hcase2 with ⟨hfail2, _⟩ | ⟨hne2, hsucc2⟩
    · exact ⟨by rw [hfail1, hfail2], fun hok => absurd hfail1 hok⟩
    · exfalso
      rcases hbad1 with hnil | hns
      · exact hne2 hnil
      · exact hns ((hsucc2.all_sound hinv2 hext2).of_topo_all htopo1.symm)
  · rcases hcase2 with ⟨_, hbad2⟩ | ⟨_, hsucc2⟩
    · exfalso
      rcases hbad2 with hnil | hns
      · exact hne1 hnil
      · exact hns ((hsucc1.all_sound hinv1 hext1).of_topo_all htopo1)
    · have hsame : ∀ t, some t ∈ gs → ∃ G1 G2, lookup he1 t = some G1 ∧
          lookup he2 t = some G2 ∧ G1.path_len = G2.path_len ∧ G1.res = G2.res ∧
          (G1.path_len : Int) ≤ r1.ret ∧ (G2.path_len : Int) ≤ r2.ret := by
        intro t ht
        obtain ⟨G1, hG1, hpl1, href1⟩ := hsucc1.target hinv1 hext1 ht
        obtain ⟨G2, hG2, hpl2, href2⟩ := hsucc2.target hinv2 hext2 ht
        have h1 := href1 (G1.path_len + G2.path_len + 1) (by omega)
        have h2 := href2 (G1.path_len + G2.path_len + 1) (by omega)
        rw [ref_value_of_topo htopo1, ref_depth_of_topo htopo1] at h2
        rw [h1.1, h1.2] at h2
        simp only [Option.some.injEq] at h2
        exact ⟨G1, G2, hG1, hG2, h2.2, h2.1, hpl1, hpl2⟩
      refine ⟨?_, ?_⟩
      · have hle12 : r1.ret ≤ r2.ret := by
          rcases hsucc1.attained with hz | ⟨t, G, ht, hG, hret⟩
          · rw [hz]; exact hsucc2.lower
          · obtain ⟨G1, G2, hG1, _, hpl, _, _, hle⟩ := hsame t ht
            rw [hG] at hG1
            cases hG1
            omega
        have hle21 : r2.ret ≤ r1.ret := by
          rcases hsucc2.attained with hz | ⟨t, G, ht, hG, hret⟩
          · rw [hz]; exact hsucc1.lower
          · obtain ⟨G1, G2, _, hG2, hpl, _, hle, _⟩ := hsame t ht
            rw [hG] at hG2
            cases hG2
            omega
        omega
      · intro _ i hi
        cases hgi : gs[i]? with
        | none =>
          rw [List.getElem?_eq_none_iff] at hgi
          omega
        | some gi =>
          cases gi with
          | none =>
            exact absurd rfl (hsucc1.nonnull none (List.getElem?_mem hgi))
          | some t =>
            obtain ⟨G1, G2, hG1, hG2, _, hres, _, _⟩ := hsame t (List.getElem?_mem hgi)
            obtain ⟨G1a, hG1a, _, hout1, _⟩ := hsucc1.done i t hgi
            obtain ⟨G2a, hG2a, _, hout2, _⟩ := hsucc2.done i t hgi
            rw [hG1] at hG1a
            rw [hG2] at hG2a
            cases hG1a
            cases hG2a
            rw [Nat.zero_add] at hout1 hout2
            by_cases hib : i < sb.length
            · rw [hout1 hib, hout2 (by omega), hres]
            · have l1 := hsucc1.length
              have l2 := hsucc2.length
              rw [List.getElem?_eq_none (by omega), List.getElem?_eq_none (by omega)]

/-- C10 (witness): the example evaluated twice. -/
theorem gate_evaluate_twice_witness :
    ∃ r1 r2, gate_evaluate 5 example_sig example_heap2 (some [some 3, some 0])
        (some [false, false]) = some r1 ∧
      gate_evaluate 5 example_sig r1.heap (some [some 3, some 0]) (some [true, false])
        = some r2 ∧
      r2.ret = r1.ret ∧
      (r1.ret ≠ FAILED → ∀ i : Nat, i < [some 3, some 0].length → r2.s[i]? = r1.s[i]?) :=
  gate_evaluate_twice 5 example_sig example_heap2 [some 3, some 0] [false, false] [true, false]
    (consistent_of_check (by decide)) (all_unvisited_of_check (by decide)) (by decide)
    (by decide)

/-! ## Connection management: removal of a link -/

theorem CE.of_consistent {h : Heap} (hc : Consistent h) : CE h (fun _ _ => False) :=
  ⟨hc.wf, fun c C k e hC hk hg _ => hc.slot_link c C k e hC hk hg,
    fun p P j c k hP hj => ⟨fun hf => hf, hc.link_slot p P j c k hP hj⟩⟩

theorem CE.consistent {h : Heap} {D : Nat → Nat → Prop} (hce : CE h D)
    (hD : ∀ c C k e, lookup h c = some C → C.in_.data[k]? = some (some e) →
      e.connection_type = in_connection_type_t.GATE → ¬ D c k) : Consistent h :=
  ⟨hce.wf, fun c C k e hC hk hg => hce.slot_link c C k e hC hk hg (hD c C k e hC hk hg),
    fun p P j c k hP hj => (hce.link_slot p P j c k hP hj).2⟩

/-- Two positions of an output vector holding the same link coincide. -/
theorem CE.link_inj {h : Heap} {D : Nat → Nat → Prop} (hce : CE h D) {p : Nat} {P : gate}
    {j1 j2 : Nat} {l : element_out} (hP : lookup h p = some P)
    (h1 : P.out.data[j1]? = some l) (h2 : P.out.data[j2]? = some l) : j1 = j2 := by
  obtain ⟨c, k⟩ := l
  obtain ⟨_, C1, hC1, hs1⟩ := hce.link_slot p P j1 c k hP h1
  obtain ⟨_, C2, hC2, hs2⟩ := hce.link_slot p P j2 c k hP h2
  rw [hC1] at hC2
  cases hC2
  rw [hs1] at hs2
  simpa using hs2

theorem CE.nodup {h : Heap} {D : Nat → Nat → Prop} (hce : CE h D) {p : Nat} {P : gate}
    (hP : lookup h p = some P) : P.out.data.Nodup := by
  rw [List.nodup_iff_getElem?_ne_getElem?]
  intro i j hij hj heq
  have hi : i < P.out.data.length := by omega
  have h1 : P.out.data[i]? = some P.out.data[i] := List.getElem?_eq_getElem hi
  have h2 : P.out.data[j]? = some P.out.data[i] := by rw [← heq]; exact h1
  have := hce.link_inj hP h1 h2
  omega

theorem removed_get {data : List element_out} {j : Nat} {last : element_out}
    (hlast : data[data.length - 1]? = some last) (o : Nat) :
    (removed data j)[o]? =
      if o < data.length - 1 then (if o = j then some last else data[o]?) else none := by
  unfold removed
  rw [hlast]
  simp only [List.getElem?_take]
  split_ifs with h1 h2
  · subst h2
    rw [List.getElem?_set_self (by omega)]
  · rw [List.getElem?_set_ne (by omega)]
  · rfl

theorem removed_length {data : List element_out} {j : Nat} (hne : data ≠ []) :
    (removed data j).length = data.length - 1 := by
  unfold removed
  have hpos : 0 < data.length := List.length_pos.mpr hne
  rw [List.getElem?_eq_getElem (by omega)]
  simp

theorem delete_lookup {h : Heap} {q j : Nat} {Q C : gate} {last : element_out}
    (hQ : lookup h q = some Q)
    (hlast : Q.out.data[Q.out.data.length - 1]? = some last)
    (hC : lookup h last.pointer = some C)
    (hslot : C.in_.data[last.idx]?
      = some (some (element_in.mk in_connection_type_t.GATE q (Q.out.data.length - 1))))
    (x : Nat) :
    lookup (vector_out_delete_element h q j) x
      = (lookup h x).map (delete_upd q j last (removed Q.out.data j) x) := by
  have hltq := lookup_lt hQ
  have hltc := lookup_lt hC
  have hrem : removed Q.out.data j
      = (Q.out.data.set j last).take (Q.out.data.length - 1) := by
    unfold removed; rw [hlast]
  have hget : ∀ (v : vector_in), v.data = C.in_.data →
      get_element_in_at_index v last.idx
        = some (element_in.mk in_connection_type_t.GATE q (Q.out.data.length - 1)) := by
    intro v hv
    unfold get_element_in_at_index
    rw [List.getD_eq_getElem?_getD, hv, hslot]
    rfl
  unfold vector_out_delete_element
  simp only [hQ, vector_out_size, hlast]
  by_cases hcq : last.pointer = q
  · have hCQ : C = Q := by
      rw [hcq, hQ] at hC
      cases hC; rfl
    subst hCQ
    rw [hcq, lookup_store_eq _ hltq]
    simp only [hget _ rfl]
    rw [lookup_store _ _ _ _ (by rw [length_store]; exact hltq)]
    by_cases hx : q = x
    · subst hx
      simp [hQ, delete_upd, hcq, hrem, redirect]
    · rw [if_neg hx, lookup_store_ne _ _ hx]
      cases hX : lookup h x with
      | none => rfl
      | some X =>
        simp [delete_upd, Ne.symm hx, hcq]
  · rw [lookup_store_ne _ _ (Ne.symm hcq), hC]
    simp only [hget _ rfl]
    rw [lookup_store _ _ _ _ (by rw [length_store]; exact hltc)]
    by_cases hx : last.pointer = x
    · subst hx
      simp [hC, delete_upd, hcq, redirect]
    · rw [if_neg hx, lookup_store _ _ _ _ hltq]
      by_cases hxq : q = x
      · subst hxq
        simp [hQ, delete_upd, hrem, Ne.symm hx]
      · rw [if_neg hxq]
        cases hX : lookup h x with
        | none => rfl
        | some X =>
          simp [delete_upd, Ne.symm hx, Ne.symm hxq]

theorem bound_count_set_some {data : List (Option element_in)} {i : Nat} {e0 : element_in}
    (e1 : element_in) (hi : data[i]? = some (some e0)) :
    (data.set i (some e1)).countP (fun s => s.isSome) = data.countP (fun s => s.isSome) := by
  have hlt : i < data.length := by
    by_contra hge
    rw [List.getElem?_eq_none (by omega)] at hi
    cases hi
  have := countP_set_add (fun s : Option element_in => s.isSome) data i (some e1) hlt
  have hget : data.get ⟨i, hlt⟩ = some e0 := by
    rw [List.getElem?_eq_getElem hlt] at hi
    simpa using hi
  rw [hget] at this
  simpa using this

theorem redirect_get (v : vector_in) (idx q j i : Nat) (hidx : idx < v.data.length) :
    (redirect v idx q j).data[i]?
      = if i = idx then some (some (element_in.mk in_connection_type_t.GATE q j))
        else v.data[i]? := by
  unfold redirect
  simp only
  split_ifs with hi
  · subst hi
    rw [List.getElem?_set_self hidx]
  · rw [List.getElem?_set_ne (Ne.symm hi)]

theorem lt_of_getElem?_some {α : Type} {l : List α} {i : Nat} {a : α} (hi : l[i]? = some a) :
    i < l.length := by
  by_contra hge
  rw [List.getElem?_eq_none (by omega)] at hi
  cases hi

/-- Removal of the link of a slot bound to a gate: the slot becomes detached,
everything else stays consistent, and the heap changes as `delete_upd` says. -/
theorem CE.delete {h : Heap} {D : Nat → Nat → Prop} {c k : Nat} {C : gate} {e : element_in}
    (hce : CE h D) (hD : ¬ D c k) (hC : lookup h c = some C)
    (hk : C.in_.data[k]? = some (some e))
    (hg : e.connection_type = in_connection_type_t.GATE) :
    ∃ Q last, lookup h e.pointer = some Q ∧
      Q.out.data[e.origin]? = some (element_out.mk c k) ∧
      Q.out.data[Q.out.data.length - 1]? = some last ∧
      (∃ Cl, lookup h last.pointer = some Cl ∧ last.idx < Cl.in_.data.length) ∧
      (∀ x, lookup (vector_out_delete_element h e.pointer e.origin) x
        = (lookup h x).map
            (delete_upd e.pointer e.origin last (removed Q.out.data e.origin) x)) ∧
      CE (vector_out_delete_element h e.pointer e.origin)
        (fun c1 k1 => D c1 k1 ∨ (c1 = c ∧ k1 = k)) := by
  obtain ⟨Q, hQ, hj⟩ := hce.slot_link c C k e hC hk hg hD
  have hjlt := lt_of_getElem?_some hj
  have hlast : Q.out.data[Q.out.data.length - 1]? = some (Q.out.data[Q.out.data.length - 1]) :=
    List.getElem?_eq_getElem (by omega)
  generalize hlastdef : Q.out.data[Q.out.data.length - 1] = last at hlast
  obtain ⟨lc, lk⟩ := last
  obtain ⟨hDl, Cl, hCl, hsl⟩ := hce.link_slot e.pointer Q _ lc lk hQ hlast
  have hlklt := lt_of_getElem?_some hsl
  have hview := delete_lookup (j := e.origin) hQ hlast hCl hsl
  refine ⟨Q, ⟨lc, lk⟩, hQ, hj, hlast, ⟨Cl, hCl, hlklt⟩, hview, ?_⟩
  -- slots and links of the new heap
  have hslot : ∀ x X i, lookup h x = some X →
      (delete_upd e.pointer e.origin ⟨lc, lk⟩ (removed Q.out.data e.origin) x X).in_.data[i]?
        = if x = lc ∧ i = lk
          then some (some (element_in.mk in_connection_type_t.GATE e.pointer e.origin))
          else X.in_.data[i]? := by
    intro x X i hX
    unfold delete_upd
    simp only
    by_cases hx : x = lc
    · subst hx
      rw [hCl] at hX
      cases hX
      rw [if_pos rfl, redirect_get _ _ _ _ _ hlklt]
      simp
    · rw [if_neg hx]
      simp [hx]
  have hout : ∀ x X,
      (delete_upd e.pointer e.origin ⟨lc, lk⟩ (removed Q.out.data e.origin) x X).out.data
        = if x = e.pointer then removed Q.out.data e.origin else X.out.data := by
    intro x X
    unfold delete_upd
    simp only
    split_ifs <;> rfl
  have hback : ∀ x X2, lookup (vector_out_delete_element h e.pointer e.origin) x = some X2 →
      ∃ X, lookup h x = some X ∧
        X2 = delete_upd e.pointer e.origin ⟨lc, lk⟩ (removed Q.out.data e.origin) x X := by
    intro x X2 hX2
    rw [hview x] at hX2
    cases hX : lookup h x with
    | none => rw [hX] at hX2; cases hX2
    | some X =>
      rw [hX] at hX2
      simp only [Option.map_some', Option.some.injEq] at hX2
      exact ⟨X, rfl, hX2.symm⟩
  have hfwd : ∀ x X, lookup h x = some X →
      lookup (vector_out_delete_element h e.pointer e.origin) x
        = some (delete_upd e.pointer e.origin ⟨lc, lk⟩ (removed Q.out.data e.origin) x X) := by
    intro x X hX
    rw [hview x, hX]
    rfl
  have hrem := removed_get (j := e.origin) hlast
  refine ⟨?_, ?_, ?_⟩
  · -- well-formed input vectors
    intro x X2 hX2
    obtain ⟨X, hX, rfl⟩ := hback x X2 hX2
    have hwf := hce.wf x X hX
    unfold delete_upd
    by_cases hx : x = lc
    · subst hx
      rw [hCl] at hX
      cases hX
      unfold wf_in bound_count at hwf ⊢
      simp only [↓reduceIte, redirect, List.length_set]
      rw [bound_count_set_some _ hsl]
      exact hwf
    · unfold wf_in bound_count at hwf ⊢
      simp only [if_neg hx]
      exact hwf
  · -- every attached slot has its link
    intro x X2 i e1 hX2 hi hg1 hD1
    obtain ⟨X, hX, rfl⟩ := hback x X2 hX2
    rw [hslot x X i hX] at hi
    have hD1a : ¬ D x i := fun hd => hD1 (Or.inl hd)
    have hne : ¬ (x = c ∧ i = k) := fun hd => hD1 (Or.inr hd)
    by_cases hxl : x = lc ∧ i = lk
    · rw [if_pos hxl] at hi
      simp only [Option.some.injEq] at hi
      subst hi
      obtain ⟨rfl, rfl⟩ := hxl
      refine ⟨_, hfwd _ Q hQ, ?_⟩
      rw [hout, if_pos rfl, hrem]
      have hlt : e.origin < Q.out.data.length - 1 := by
        by_contra hge
        have heq : e.origin = Q.out.data.length - 1 := by omega
        rw [heq, hlast] at hj
        simp only [Option.some.injEq, element_out.mk.injEq] at hj
        exact hne hj
      simp [hlt]
    · rw [if_neg hxl] at hi
      obtain ⟨P, hP, ho⟩ := hce.slot_link x X i e1 hX hi hg1 hD1a
      refine ⟨_, hfwd _ P hP, ?_⟩
      rw [hout]
      by_cases hpq : e1.pointer = e.pointer
      · rw [if_pos hpq, hrem]
        rw [hpq, hQ] at hP
        cases hP
        have ho1 : e1.origin ≠ e.origin := by
          intro heq
          rw [heq, hj] at ho
          simp only [Option.some.injEq, element_out.mk.injEq] at ho
          exact hne ⟨ho.1.symm, ho.2.symm⟩
        have ho2 : e1.origin ≠ Q.out.data.length - 1 := by
          intro heq
          rw [heq, hlast] at ho
          simp only [Option.some.injEq, element_out.mk.injEq] at ho
          exact hxl ⟨ho.1.symm, ho.2.symm⟩
        have ho3 := lt_of_getElem?_some ho
        rw [if_pos (by omega), if_neg ho1]
        exact ho
      · rw [if_neg hpq]
        exact ho
  · -- every link designates its slot
    intro p P2 o x i hP2 ho
    obtain ⟨P, hP, rfl⟩ := hback p P2 hP2
    rw [hout] at ho
    by_cases hpq : p = e.pointer
    · subst hpq
      rw [hQ] at hP
      cases hP
      rw [if_pos rfl, hrem] at ho
      by_cases holt : o < Q.out.data.length - 1
      swap
      · rw [if_neg holt] at ho
        cases ho
      rw [if_pos holt] at ho
      have hjo : ∀ o1, o1 ≠ e.origin → Q.out.data[o1]? ≠ some (element_out.mk c k) := by
        intro o1 hne1 hc1
        exact hne1 (hce.link_inj hQ hc1 hj)
      by_cases hoj : o = e.origin
      · rw [if_pos hoj] at ho
        simp only [Option.some.injEq, element_out.mk.injEq] at ho
        obtain ⟨rfl, rfl⟩ := ho
        have hne : ¬ (lc = c ∧ lk = k) := by
          rintro ⟨rfl, rfl⟩
          exact hjo (Q.out.data.length - 1) (by omega) hlast
        refine ⟨fun hd => hd.elim hDl hne, _, hfwd _ Cl hCl, ?_⟩
        rw [hslot _ Cl _ hCl, if_pos ⟨rfl, rfl⟩, hoj]
      · rw [if_neg hoj] at ho
        obtain ⟨hDx, X, hX, hs⟩ := hce.link_slot _ Q o x i hQ ho
        have hne : ¬ (x = c ∧ i = k) := by
          rintro ⟨rfl, rfl⟩
          exact hjo o hoj ho
        refine ⟨fun hd => hd.elim hDx hne, _, hfwd _ X hX, ?_⟩
        rw [hslot _ X _ hX]
        have hnl : ¬ (x = lc ∧ i = lk) := by
          rintro ⟨rfl, rfl⟩
          have := hce.link_inj hQ ho hlast
          omega
        rw [if_neg hnl]
        exact hs
    · rw [if_neg hpq] at ho
      obtain ⟨hDx, X, hX, hs⟩ := hce.link_slot p P o x i hP ho
      have hne : ¬ (x = c ∧ i = k) := by
        rintro ⟨rfl, rfl⟩
        rw [hC] at hX
        cases hX
        rw [hk] at hs
        simp only [Option.some.injEq] at hs
        rw [hs] at hpq
        exact hpq rfl
      refine ⟨fun hd => hd.elim hDx hne, _, hfwd _ X hX, ?_⟩
      rw [hslot _ X _ hX]
      have hnl : ¬ (x = lc ∧ i = lk) := by
        rintro ⟨rfl, rfl⟩
        rw [hCl] at hX
        cases hX
        rw [hsl] at hs
        simp only [Option.some.injEq, element_in.mk.injEq, true_and] at hs
        exact hpq hs.1.symm
      rw [if_neg hnl]
      exact hs

theorem removed_perm {data : List element_out} {j : Nat} {a : element_out}
    (hnd : data.Nodup) (hnd2 : (removed data j).Nodup) (hj : data[j]? = some a) :
    (removed data j).Perm (data.erase a) := by
  have hjlt := lt_of_getElem?_some hj
  have hlast : data[data.length - 1]? = some (data[data.length - 1]) :=
    List.getElem?_eq_getElem (by omega)
  have hrem := removed_get (j := j) hlast
  have hinj : ∀ (i1 i2 : Nat) (x : element_out), data[i1]? = some x → data[i2]? = some x →
      i1 = i2 := by
    intro i1 i2 x h1 h2
    have l1 := lt_of_getElem?_some h1
    have l2 := lt_of_getElem?_some h2
    rw [List.getElem?_eq_getElem l1] at h1
    rw [List.getElem?_eq_getElem l2] at h2
    have := (@List.Nodup.getElem_inj_iff _ _ hnd i1 l1 i2 l2).mp (by
      simp only [Option.some.injEq] at h1 h2
      rw [h1, h2])
    exact this
  rw [List.perm_ext_iff_of_nodup hnd2 (hnd.erase a)]
  intro x
  rw [hnd.mem_erase_iff, List.mem_iff_getElem?, List.mem_iff_getElem?]
  constructor
  · rintro ⟨o, ho⟩
    rw [hrem] at ho
    by_cases holt : o < data.length - 1
    swap
    · rw [if_neg holt] at ho; cases ho
    rw [if_pos holt] at ho
    by_cases hoj : o = j
    · rw [if_pos hoj] at ho
      simp only [Option.some.injEq] at ho
      subst hoj
      refine ⟨?_, data.length - 1, by rw [hlast, ho]⟩
      rintro rfl
      have := hinj _ _ _ (by rw [hlast, ho]) hj
      omega
    · rw [if_neg hoj] at ho
      refine ⟨?_, o, ho⟩
      rintro rfl
      exact hoj (hinj _ _ _ ho hj)
  · rintro ⟨hne, o, ho⟩
    have holt := lt_of_getElem?_some ho
    have hoj : o ≠ j := by
      rintro rfl
      rw [hj] at ho
      simp only [Option.some.injEq] at ho
      exact hne ho.symm
    by_cases hol : o = data.length - 1
    · refine ⟨j, ?_⟩
      rw [hrem, if_pos (by omega), if_pos rfl, ← ho, hol, hlast]
    · refine ⟨o, ?_⟩
      rw [hrem, if_pos (by omega), if_neg hoj]
      exact ho

theorem Kept.refl_kept (X : gate) : Kept X X := ⟨rfl, rfl, rfl, rfl, rfl, rfl, rfl, rfl⟩

theorem Kept.trans_kept {X X1 X2 : gate} (h1 : Kept X X1) (h2 : Kept X1 X2) : Kept X X2 :=
  ⟨h2.state.trans h1.state, h2.res.trans h1.res, h2.path_len.trans h1.path_len,
    h2.kind.trans h1.kind, h2.size.trans h1.size, h2.capacity.trans h1.capacity,
    h2.out_capacity.trans h1.out_capacity, h2.bindings.trans h1.bindings⟩

theorem vector_out_delete_element_length (h : Heap) (p el : Nat) :
    (vector_out_delete_element h p el).length = h.length := by
  unfold vector_out_delete_element
  cases lookup h p with
  | none => rfl
  | some P =>
    simp only
    cases P.out.data[vector_out_size P.out - 1]? with
    | none => rfl
    | some last =>
      simp only
      cases lookup (store h p _) last.pointer with
      | none => simp [length_store]
      | some g_under =>
        simp only
        cases get_element_in_at_index g_under.in_ last.idx with
        | none => simp [length_store]
        | some e => simp [length_store]

theorem delete_upd_kept (q j : Nat) (last : element_out) (newout : List element_out)
    (x : Nat) (X : gate) {e0 : element_in}
    (hslot : x = last.pointer → X.in_.data[last.idx]? = some (some e0) ∧
      e0.connection_type = in_connection_type_t.GATE ∧ e0.pointer = q) :
    Kept X (delete_upd q j last newout x X) := by
  refine ⟨rfl, rfl, rfl, rfl, ?_, ?_, ?_, ?_⟩
  · unfold delete_upd redirect; simp only; split_ifs <;> rfl
  · unfold delete_upd redirect; simp only; split_ifs <;> rfl
  · unfold delete_upd; simp only; split_ifs <;> rfl
  · unfold bindings delete_upd
    simp only
    by_cases hx : x = last.pointer
    · obtain ⟨hs, hg, hp⟩ := hslot hx
      rw [if_pos hx]
      unfold redirect
      simp only
      apply List.ext_getElem?
      intro i
      simp only [List.getElem?_map]
      by_cases hi : i = last.idx
      · subst hi
        rw [List.getElem?_set_self (lt_of_getElem?_some hs), hs]
        simp [hg, hp]
      · rw [List.getElem?_set_ne (Ne.symm hi)]
    · rw [if_neg hx]

theorem get_element_eq (vec : vector_in) (k : Nat) :
    get_element_in_at_index vec k = (vec.data[k]?).join := by
  unfold get_element_in_at_index
  rw [List.getD_eq_getElem?_getD]
  cases vec.data[k]? <;> rfl

/-- Removal of the old binding of slot `k` of gate `c`. -/
theorem CE.unlink {h : Heap} {D : Nat → Nat → Prop} {c k : Nat} {C : gate}
    (hce : CE h D) (hD : ¬ D c k) (hC : lookup h c = some C) :
    CE (unlink_old h (get_element_in_at_index C.in_ k))
        (fun c1 k1 => D c1 k1 ∨ (c1 = c ∧ k1 = k)) ∧
      UnlinkRel h (unlink_old h (get_element_in_at_index C.in_ k)) c k ∧
      ∃ C2, lookup (unlink_old h (get_element_in_at_index C.in_ k)) c = some C2 ∧
        (C2.in_.data[k]? = some none ↔ C.in_.data[k]? = some none) ∧
        C2.in_.data.length = C.in_.data.length := by
  have hstill : CE h (fun c1 k1 => D c1 k1 ∨ (c1 = c ∧ k1 = k)) →
      (∀ q, ¬ bound_to h c k q) →
      CE h (fun c1 k1 => D c1 k1 ∨ (c1 = c ∧ k1 = k)) ∧ UnlinkRel h h c k ∧
      ∃ C2, lookup h c = some C2 ∧
        (C2.in_.data[k]? = some none ↔ C.in_.data[k]? = some none) ∧
        C2.in_.data.length = C.in_.data.length := by
    intro hce1 hnb
    refine ⟨hce1, ⟨rfl, fun x hx => hx, fun x X hX => ⟨X, hX, Kept.refl_kept X⟩, ?_, ?_⟩,
      C, hC, Iff.rfl, rfl⟩
    · intro x X X2 hX hX2 _
      rw [hX] at hX2
      cases hX2; rfl
    · intro q Q Q2 _ _ hb
      exact absurd hb (hnb q)
  have hweak : (∀ e, C.in_.data[k]? = some (some e) →
        e.connection_type ≠ in_connection_type_t.GATE) →
      CE h (fun c1 k1 => D c1 k1 ∨ (c1 = c ∧ k1 = k)) ∧ ∀ q, ¬ bound_to h c k q := by
    intro hng
    refine ⟨⟨hce.wf, ?_, ?_⟩, ?_⟩
    · intro x X i e hX hi hg hD1
      exact hce.slot_link x X i e hX hi hg (fun hd => hD1 (Or.inl hd))
    · intro p P j x i hP hj
      obtain ⟨hDx, X, hX, hs⟩ := hce.link_slot p P j x i hP hj
      refine ⟨fun hd => hd.elim hDx ?_, X, hX, hs⟩
      rintro ⟨rfl, rfl⟩
      rw [hC] at hX
      cases hX
      exact hng _ hs rfl
    · rintro q ⟨C1, e, hC1, he, hg, _⟩
      rw [hC] at hC1
      cases hC1
      exact hng e he hg
  rw [get_element_eq]
  cases hk : C.in_.data[k]? with
  | none =>
    obtain ⟨hce1, hnb⟩ := hweak (fun e he => by rw [hk] at he; cases he)
    have := hstill hce1 hnb
    simpa [unlink_old, hk] using this
  | some slot =>
    cases slot with
    | none =>
      obtain ⟨hce1, hnb⟩ := hweak (fun e he => by rw [hk] at he; cases he)
      have := hstill hce1 hnb
      simpa [unlink_old, hk] using this
    | some e =>
      by_cases hg : e.connection_type = in_connection_type_t.GATE
      swap
      · obtain ⟨hce1, hnb⟩ := hweak (fun e1 he1 => by
          rw [hk] at he1
          simp only [Option.some.injEq] at he1
          rw [← he1]; exact hg)
        have := hstill hce1 hnb
        simpa [unlink_old, hk, hg] using this
      obtain ⟨Q, last, hQ, hj, hlast, ⟨Cl, hCl, hlklt⟩, hview, hce2⟩ :=
        hce.delete hD hC hk hg
      obtain ⟨_, Cl1, hCl1, hsl⟩ := hce.link_slot e.pointer Q _ last.pointer last.idx hQ hlast
      have hunl : unlink_old h ((some (some e) : Option (Option element_in)).join)
          = vector_out_delete_element h e.pointer e.origin := by
        simp [unlink_old, hg]
      rw [hunl]
      have hkept : ∀ x X, lookup h x = some X →
          Kept X (delete_upd e.pointer e.origin last (removed Q.out.data e.origin) x X) := by
        intro x X hX
        refine @delete_upd_kept _ _ _ _ _ _ (element_in.mk in_connection_type_t.GATE
          e.pointer (Q.out.data.length - 1)) ?_
        intro hx
        subst hx
        rw [hCl1] at hX
        cases hX
        exact ⟨hsl, rfl, rfl⟩
      refine ⟨hce2, ⟨vector_out_delete_element_length h _ _, ?_, ?_, ?_, ?_⟩, ?_⟩
      · intro x hx
        rw [hview x, hx]; rfl
      · intro x X hX
        exact ⟨_, by rw [hview x, hX]; rfl, hkept x X hX⟩
      · intro x X X2 hX hX2 hnb
        rw [hview x, hX] at hX2
        simp only [Option.map_some', Option.some.injEq] at hX2
        subst hX2
        have hxq : x ≠ e.pointer := by
          rintro rfl
          exact hnb ⟨C, e, hC, hk, hg, rfl⟩
        simp [delete_upd, hxq]
      · intro q Q1 Q2 hQ1 hQ2 hb
        obtain ⟨C1, e1, hC1, he1, _, hp1⟩ := hb
        rw [hC] at hC1
        cases hC1
        rw [hk] at he1
        simp only [Option.some.injEq] at he1
        subst he1
        subst hp1
        rw [hQ] at hQ1
        cases hQ1
        rw [hview _, hQ] at hQ2
        simp only [Option.map_some', Option.some.injEq] at hQ2
        subst hQ2
        have hdata : (delete_upd e.pointer e.origin last (removed Q.out.data e.origin)
            e.pointer Q).out.data = removed Q.out.data e.origin := by
          simp [delete_upd]
        rw [hdata]
        have hnd := hce.nodup hQ
        have hnd2 : (removed Q.out.data e.origin).Nodup := by
          have := hce2.nodup (p := e.pointer) (by rw [hview _, hQ]; rfl)
          rw [hdata] at this
          exact this
        have hperm := removed_perm hnd hnd2 hj
        have hne : Q.out.data ≠ [] := by
          intro hnil
          rw [hnil] at hj
          simp at hj
        refine ⟨hperm, ?_, ?_⟩
        · rw [removed_length hne]
          have := List.length_pos.mpr hne
          omega
        · intro hmem
          have := hperm.mem_iff.mp hmem
          exact (hnd.mem_erase_iff.mp this).1 rfl
      · refine ⟨_, by rw [hview c, hC]; rfl, ?_, ?_⟩
        · have hb := (hkept c C hC).bindings
          have hkb := congrArg (fun l => l[k]?) hb
          simp only [bindings, List.getElem?_map, hk] at hkb
          constructor
          · intro h2
            rw [h2] at hkb
            simp at hkb
          · intro h2
            cases h2
        · have hb := congrArg List.length (hkept c C hC).bindings
          simpa [bindings] using hb

/-! ## Connection management: binding a slot -/

theorem lookup_of_gview {h h1 : Heap}
    (hv : ∀ x, (lookup h1 x).map gview = (lookup h x).map gview) {x : Nat} {X1 : gate}
    (hX1 : lookup h1 x = some X1) :
    ∃ X, lookup h x = some X ∧ X.in_ = X1.in_ ∧ X.out.data = X1.out.data := by
  have := hv x
  rw [hX1] at this
  cases hX : lookup h x with
  | none => rw [hX] at this; cases this
  | some X =>
    rw [hX] at this
    simp only [Option.map_some', Option.some.injEq, gview, Prod.mk.injEq] at this
    exact ⟨X, rfl, this.1.symm, this.2.symm⟩

theorem Consistent.congr_view {h h1 : Heap}
    (hv : ∀ x, (lookup h1 x).map gview = (lookup h x).map gview) (hc : Consistent h) :
    Consistent h1 := by
  have hv2 : ∀ x, (lookup h x).map gview = (lookup h1 x).map gview := fun x => (hv x).symm
  refine ⟨?_, ?_, ?_⟩
  · intro g G1 hG1
    obtain ⟨G, hG, hi, _⟩ := lookup_of_gview hv hG1
    have := hc.wf g G hG
    unfold wf_in bound_count at this ⊢
    rw [← hi]; exact this
  · intro c C1 k e hC1 hk hg
    obtain ⟨C, hC, hi, _⟩ := lookup_of_gview hv hC1
    rw [← hi] at hk
    obtain ⟨P, hP, ho⟩ := hc.slot_link c C k e hC hk hg
    obtain ⟨P1, hP1, _, ho1⟩ := lookup_of_gview hv2 hP
    exact ⟨P1, hP1, by rw [ho1]; exact ho⟩
  · intro p P1 j c k hP1 hj
    obtain ⟨P, hP, _, ho⟩ := lookup_of_gview hv hP1
    rw [← ho] at hj
    obtain ⟨C, hC, hs⟩ := hc.link_slot p P j c k hP hj
    obtain ⟨C1, hC1, hi1, _⟩ := lookup_of_gview hv2 hC
    exact ⟨C1, hC1, by rw [hi1]; exact hs⟩

theorem update_get (v : vector_in) (el : element_in) (k i : Nat) (hk : k < v.data.length) :
    (vector_in_update_at_index v el k).data[i]?
      = if i = k then some (some el) else v.data[i]? := by
  unfold vector_in_update_at_index
  simp only
  split_ifs with hi
  · subst hi
    rw [List.getElem?_set_self hk]
  · rw [List.getElem?_set_ne (Ne.symm hi)]

theorem update_wf {v : vector_in} (el : element_in) {k : Nat} (hk : k < v.data.length)
    (hlen : v.data.length = v.capacity) (hsize : v.size = bound_count v) :
    (vector_in_update_at_index v el k).data.length = (vector_in_update_at_index v el k).capacity ∧
    (vector_in_update_at_index v el k).size = bound_count (vector_in_update_at_index v el k) := by
  have hadd := countP_set_add (fun s : Option element_in => s.isSome) v.data k (some el) hk
  have hget : get_element_in_at_index v k = v.data.get ⟨k, hk⟩ := by
    rw [get_element_eq, List.getElem?_eq_getElem hk]
    rfl
  unfold vector_in_update_at_index bound_count at *
  simp only [List.length_set]
  refine ⟨hlen, ?_⟩
  rw [hget]
  cases hs : v.data.get ⟨k, hk⟩ with
  | none =>
    rw [hs] at hadd
    simp at hadd
    simp
    omega
  | some e0 =>
    rw [hs] at hadd
    simp at hadd
    simp
    omega

/-- Binding a detached slot restores the consistency of the graph. -/
theorem CE.fill {h h1 : Heap} {D : Nat → Nat → Prop} {c k : Nat} {C : gate}
    {p : Option Nat} {el : element_in}
    (hce : CE h D) (hD : ∀ c1 k1, D c1 k1 ↔ (c1 = c ∧ k1 = k))
    (hC : lookup h c = some C) (hk : k < C.in_.data.length)
    (hel : (p = none ∧ el.connection_type = in_connection_type_t.SIGNAL) ∨
      ∃ p0 P, p = some p0 ∧ lookup h p0 = some P ∧
        el = element_in.mk in_connection_type_t.GATE p0 P.out.data.length)
    (hview : ∀ x, lookup h1 x = (lookup h x).map (connect_upd p c k el x)) :
    Consistent h1 := by
  have hback : ∀ x X1, lookup h1 x = some X1 →
      ∃ X, lookup h x = some X ∧ X1 = connect_upd p c k el x X := by
    intro x X1 hX1
    rw [hview x] at hX1
    cases hX : lookup h x with
    | none => rw [hX] at hX1; cases hX1
    | some X =>
      rw [hX] at hX1
      simp only [Option.map_some', Option.some.injEq] at hX1
      exact ⟨X, rfl, hX1.symm⟩
  have hfwd : ∀ x X, lookup h x = some X → lookup h1 x = some (connect_upd p c k el x X) := by
    intro x X hX
    rw [hview x, hX]; rfl
  have hslot : ∀ (x : Nat) (X : gate) (i : Nat), lookup h x = some X →
      (connect_upd p c k el x X).in_.data[i]?
        = if x = c ∧ i = k then some (some el) else X.in_.data[i]? := by
    intro x X i hX
    unfold connect_upd
    simp only
    by_cases hx : x = c
    · subst hx
      rw [hC] at hX
      cases hX
      rw [if_pos rfl, update_get _ _ _ _ hk]
      simp
    · rw [if_neg hx]
      simp [hx]
  have hout : ∀ x X, (connect_upd p c k el x X).out.data
      = if some x = p then X.out.data ++ [element_out.mk c k] else X.out.data := by
    intro x X
    unfold connect_upd vector_out_push_back
    simp only
    split_ifs <;> rfl
  have hkeep : ∀ (x : Nat) (X : gate) (o : Nat) (l : element_out), X.out.data[o]? = some l →
      (connect_upd p c k el x X).out.data[o]? = some l := by
    intro x X o l ho
    rw [hout]
    split_ifs
    · rw [List.getElem?_append_left (lt_of_getElem?_some ho)]
      exact ho
    · exact ho
  refine ⟨?_, ?_, ?_⟩
  · intro x X1 hX1
    obtain ⟨X, hX, rfl⟩ := hback x X1 hX1
    have hwf := hce.wf x X hX
    unfold connect_upd
    by_cases hx : x = c
    · subst hx
      rw [hC] at hX
      cases hX
      simp only [↓reduceIte]
      exact update_wf el hk hwf.1 hwf.2
    · simp only [if_neg hx]
      exact hwf
  · intro x X1 i e1 hX1 hi hg1
    obtain ⟨X, hX, rfl⟩ := hback x X1 hX1
    rw [hslot x X i hX] at hi
    by_cases hxc : x = c ∧ i = k
    · rw [if_pos hxc] at hi
      simp only [Option.some.injEq] at hi
      subst hi
      obtain ⟨rfl, rfl⟩ := hxc
      rcases hel with ⟨_, hsig⟩ | ⟨p0, P, hp, hP, hel1⟩
      · rw [hsig] at hg1
        cases hg1
      · subst hel1
        refine ⟨_, hfwd p0 P hP, ?_⟩
        rw [hout, if_pos hp.symm]
        simp
    · rw [if_neg hxc] at hi
      obtain ⟨P, hP, ho⟩ := hce.slot_link x X i e1 hX hi hg1 (fun hd => hxc ((hD x i).mp hd))
      exact ⟨_, hfwd _ P hP, hkeep _ P _ _ ho⟩
  · intro p1 P1 j x i hP1 hj
    obtain ⟨P, hP, rfl⟩ := hback p1 P1 hP1
    rw [hout] at hj
    have hold : P.out.data[j]? = some (element_out.mk x i) →
        ∃ X1, lookup h1 x = some X1 ∧ X1.in_.data[i]?
          = some (some (element_in.mk in_connection_type_t.GATE p1 j)) := by
      intro hj0
      obtain ⟨hDx, X, hX, hs⟩ := hce.link_slot p1 P j x i hP hj0
      refine ⟨_, hfwd x X hX, ?_⟩
      rw [hslot x X i hX, if_neg (fun hd => hDx ((hD x i).mpr hd))]
      exact hs
    by_cases hp1 : some p1 = p
    · rw [if_pos hp1] at hj
      by_cases hjlt : j < P.out.data.length
      · rw [List.getElem?_append_left hjlt] at hj
        exact hold hj
      · rw [List.getElem?_append_right (by omega)] at hj
        rcases hel with ⟨hp, _⟩ | ⟨p0, P0, hp, hP0, hel1⟩
        · rw [hp] at hp1
          cases hp1
        · rw [hp] at hp1
          simp only [Option.some.injEq] at hp1
          subst hp1
          rw [hP] at hP0
          cases hP0
          have hj0 : j - P.out.data.length = 0 := by
            by_contra hne
            rw [List.getElem?_eq_none (by simp; omega)] at hj
            cases hj
          have hjeq : j = P.out.data.length := by omega
          rw [hj0] at hj
          simp only [List.getElem?_cons_zero, Option.some.injEq, element_out.mk.injEq] at hj
          obtain ⟨rfl, rfl⟩ := hj
          refine ⟨_, hfwd _ C hC, ?_⟩
          rw [hslot _ C _ hC, if_pos ⟨rfl, rfl⟩, hel1, hjeq]
    · rw [if_neg hp1] at hj
      exact hold hj

theorem vector_out_realloc_data (vec : vector_out) (ok : Bool) :
    (vector_out_realloc vec ok).1.data = vec.data := by
  unfold vector_out_realloc
  split_ifs <;> rfl

theorem vector_out_realloc_failed (vec : vector_out) (ok : Bool)
    (hr : (vector_out_realloc vec ok).2 ≠ 0) : (vector_out_realloc vec ok).1 = vec := by
  unfold vector_out_realloc at hr ⊢
  split_ifs at hr ⊢ <;> simp_all

theorem realloc_heap_lookup {h : Heap} {p : Nat} {P : gate} (ok : Bool)
    (hP : lookup h p = some P) (x : Nat) :
    lookup (realloc_heap h p P ok) x
      = (lookup h x).map (fun X =>
          if x = p then { X with out := (vector_out_realloc X.out ok).1 } else X) := by
  unfold realloc_heap
  rw [lookup_store _ _ _ _ (lookup_lt hP)]
  by_cases hx : p = x
  · subst hx
    simp [hP]
  · rw [if_neg hx]
    cases lookup h x with
    | none => rfl
    | some X => simp [Ne.symm hx]

theorem realloc_heap_gview {h : Heap} {p : Nat} {P : gate} (ok : Bool)
    (hP : lookup h p = some P) (x : Nat) :
    (lookup (realloc_heap h p P ok) x).map gview = (lookup h x).map gview := by
  rw [realloc_heap_lookup ok hP]
  cases lookup h x with
  | none => rfl
  | some X =>
    simp only [Option.map_some', Option.some.injEq]
    split_ifs
    · simp [gview, vector_out_realloc_data]
    · rfl

theorem gate_connect_signal_eq {h : Heap} {sp c k : Nat} {C C1 : gate}
    (hC : lookup h c = some C) (hk : k < vector_in_capacity C.in_)
    (hC1 : lookup (unlink_old h (get_element_in_at_index C.in_ k)) c = some C1) :
    gate_connect_signal h (some sp) (some c) k true
      = (store (unlink_old h (get_element_in_at_index C.in_ k)) c
          { C1 with in_ := (vector_in_update_at_index C1.in_
              (element_in.mk in_connection_type_t.SIGNAL sp 0) k) }, SUCCESS) := by
  have hk1 : ¬ k ≥ vector_in_capacity C.in_ := by omega
  simp [gate_connect_signal, hC, hk1, hC1]

theorem store_connect_upd {h : Heap} {c k : Nat} {C1 : gate} (el : element_in)
    (hC1 : lookup h c = some C1) (x : Nat) :
    lookup (store h c { C1 with in_ := vector_in_update_at_index C1.in_ el k }) x
      = (lookup h x).map (connect_upd none c k el x) := by
  rw [lookup_store _ _ _ _ (lookup_lt hC1)]
  by_cases hx : c = x
  · subst hx
    simp [hC1, connect_upd]
  · rw [if_neg hx]
    cases lookup h x with
    | none => rfl
    | some X => simp [connect_upd, Ne.symm hx]

/-- Specification of a successful `gate_connect_signal`. -/
theorem gate_connect_signal_spec {h : Heap} {sp c k : Nat} {C : gate}
    (hc : Consistent h) (hC : lookup h c = some C) (hk : k < vector_in_capacity C.in_) :
    ∃ h1 h2, gate_connect_signal h (some sp) (some c) k true = (h2, SUCCESS) ∧
      UnlinkRel h h1 c k ∧
      (∃ C1, lookup h1 c = some C1 ∧
        (C1.in_.data[k]? = some none ↔ C.in_.data[k]? = some none) ∧
        C1.in_.data.length = C.in_.data.length) ∧
      (∀ x, lookup h2 x = (lookup h1 x).map
        (connect_upd none c k (element_in.mk in_connection_type_t.SIGNAL sp 0) x)) ∧
      h2.length = h.length ∧ Consistent h2 := by
  obtain ⟨hce, hrel, C1, hC1, hnone, hlen⟩ :=
    (CE.of_consistent hc).unlink (c := c) (k := k) (fun hf => hf) hC
  have hview := store_connect_upd (k := k) (element_in.mk in_connection_type_t.SIGNAL sp 0) hC1
  have hklt : k < C1.in_.data.length := by
    rw [hlen, (hc.wf c C hC).1]; exact hk
  refine ⟨_, _, gate_connect_signal_eq hC hk hC1, hrel, ⟨C1, hC1, hnone, hlen⟩, hview, ?_, ?_⟩
  · rw [length_store, hrel.len]
  · exact hce.fill (p := none) (fun c1 k1 => by simp) hC1 hklt (Or.inl ⟨rfl, rfl⟩) hview

theorem gate_connect_gate_eq {h : Heap} {p c k : Nat} {P C P2 C3 : gate} (ok : Bool)
    (hP : lookup h p = some P) (hC : lookup h c = some C)
    (hk : k < vector_in_capacity C.in_) (hr : (vector_out_realloc P.out ok).2 = 0)
    (hP2 : lookup (unlink_old (realloc_heap h p P ok)
      ((lookup (realloc_heap h p P ok) c).bind (fun C1 => get_element_in_at_index C1.in_ k))) p
        = some P2)
    (hC3 : lookup (store (unlink_old (realloc_heap h p P ok)
      ((lookup (realloc_heap h p P ok) c).bind (fun C1 => get_element_in_at_index C1.in_ k))) p
        { P2 with out := vector_out_push_back P2.out (element_out.mk c k) }) c = some C3) :
    gate_connect_gate h (some p) (some c) k true true ok
      = (store (store (unlink_old (realloc_heap h p P ok)
          ((lookup (realloc_heap h p P ok) c).bind (fun C1 => get_element_in_at_index C1.in_ k))) p
          { P2 with out := vector_out_push_back P2.out (element_out.mk c k) }) c
          { C3 with in_ := (vector_in_update_at_index C3.in_
              (element_in.mk in_connection_type_t.GATE p (vector_out_size P2.out)) k) },
        SUCCESS) := by
  have hk1 : ¬ k ≥ vector_in_capacity C.in_ := by omega
  unfold realloc_heap at hP2 hC3 ⊢
  simp [gate_connect_gate, hP, hC, hk1, hr, hP2, hC3]

theorem store_store_connect_upd {h : Heap} {p c k : Nat} {P2 C3 : gate} (el : element_in)
    (hP2 : lookup h p = some P2)
    (hC3 : lookup (store h p
      { P2 with out := vector_out_push_back P2.out (element_out.mk c k) }) c = some C3)
    (x : Nat) :
    lookup (store (store h p
        { P2 with out := vector_out_push_back P2.out (element_out.mk c k) }) c
        { C3 with in_ := vector_in_update_at_index C3.in_ el k }) x
      = (lookup h x).map (connect_upd (some p) c k el x) := by
  have hltp := lookup_lt hP2
  have hltc := lookup_lt hC3
  rw [lookup_store _ _ _ _ hltc]
  rw [lookup_store _ _ _ _ hltp] at hC3
  by_cases hx : c = x
  · subst hx
    rw [if_pos rfl]
    by_cases hpc : p = c
    · subst hpc
      rw [if_pos rfl] at hC3
      cases hC3
      simp [hP2, connect_upd]
    · rw [if_neg hpc] at hC3
      simp [hC3, connect_upd, Ne.symm hpc]
  · rw [if_neg hx, lookup_store _ _ _ _ hltp]
    by_cases hpx : p = x
    · subst hpx
      simp [hP2, connect_upd, Ne.symm hx]
    · rw [if_neg hpx]
      cases lookup h x with
      | none => rfl
      | some X => simp [connect_upd, Ne.symm hx, Ne.symm hpx]

/-- Specification of a successful `gate_connect_gate`. -/
theorem gate_connect_gate_spec {h : Heap} {p c k : Nat} {P C : gate} (ok : Bool)
    (hc : Consistent h) (hP : lookup h p = some P) (hC : lookup h c = some C)
    (hk : k < vector_in_capacity C.in_) (hr : (vector_out_realloc P.out ok).2 = 0) :
    ∃ h1 h2 P1 C0, gate_connect_gate h (some p) (some c) k true true ok = (h2, SUCCESS) ∧
      lookup (realloc_heap h p P ok) c = some C0 ∧ C0.in_ = C.in_ ∧
      UnlinkRel (realloc_heap h p P ok) h1 c k ∧ lookup h1 p = some P1 ∧
      (∃ C1, lookup h1 c = some C1 ∧
        (C1.in_.data[k]? = some none ↔ C.in_.data[k]? = some none) ∧
        C1.in_.data.length = C.in_.data.length) ∧
      (∀ x, lookup h2 x = (lookup h1 x).map
        (connect_upd (some p) c k
          (element_in.mk in_connection_type_t.GATE p P1.out.data.length) x)) ∧
      h2.length = h.length ∧ Consistent h2 := by
  have hc0 : Consistent (realloc_heap h p P ok) := hc.congr_view (realloc_heap_gview ok hP)
  have hC0 : ∃ C0, lookup (realloc_heap h p P ok) c = some C0 ∧ C0.in_ = C.in_ := by
    rw [realloc_heap_lookup ok hP, hC]
    simp only [Option.map_some', Option.some.injEq, exists_eq_left']
    split_ifs <;> rfl
  obtain ⟨C0, hC0, hi0⟩ := hC0
  have hP0 : ∃ P0, lookup (realloc_heap h p P ok) p = some P0 := by
    rw [realloc_heap_lookup ok hP, hP]
    exact ⟨_, rfl⟩
  obtain ⟨P0, hP0⟩ := hP0
  obtain ⟨hce, hrel, C1, hC1, hnone, hlen⟩ :=
    (CE.of_consistent hc0).unlink (c := c) (k := k) (fun hf => hf) hC0
  have hbind : (lookup (realloc_heap h p P ok) c).bind
      (fun C1 => get_element_in_at_index C1.in_ k) = get_element_in_at_index C0.in_ k := by
    rw [hC0]; rfl
  obtain ⟨P1, hP1, _⟩ := hrel.kept p P0 hP0
  have hC3 : ∃ C3, lookup (store (unlink_old (realloc_heap h p P ok)
      (get_element_in_at_index C0.in_ k)) p
        { P1 with out := vector_out_push_back P1.out (element_out.mk c k) }) c = some C3 := by
    rw [lookup_store _ _ _ _ (lookup_lt hP1)]
    split_ifs
    · exact ⟨_, rfl⟩
    · exact ⟨C1, hC1⟩
  obtain ⟨C3, hC3⟩ := hC3
  have heq := gate_connect_gate_eq ok hP hC hk hr (by rw [hbind]; exact hP1)
    (by rw [hbind]; exact hC3)
  rw [hbind] at heq
  have hview := store_store_connect_upd
    (element_in.mk in_connection_type_t.GATE p (vector_out_size P1.out)) hP1 hC3
  have hklt : k < C1.in_.data.length := by
    rw [hlen, hi0, (hc.wf c C hC).1]; exact hk
  have hlen0 : (realloc_heap h p P ok).length = h.length := by
    unfold realloc_heap; rw [length_store]
  refine ⟨_, _, P1, C0, heq, hC0, hi0, hrel, hP1, ⟨C1, hC1, ?_, ?_⟩, hview, ?_, ?_⟩
  · rw [← hi0]; exact hnone
  · rw [← hi0]; exact hlen
  · rw [length_store, length_store, hrel.len, hlen0]
  · exact hce.fill (p := some p) (fun c1 k1 => by simp) hC1 hklt
      (Or.inr ⟨p, P1, rfl, hP1, rfl⟩) hview

/-! ## `gate_delete`: the loop over the slots of the deleted gate -/

theorem CE.equiv {h : Heap} {D D1 : Nat → Nat → Prop} (hce : CE h D)
    (hD : ∀ c k, D1 c k ↔ D c k) : CE h D1 :=
  ⟨hce.wf, fun c C k e hC hk hg hd => hce.slot_link c C k e hC hk hg (fun hd1 => hd ((hD c k).mpr hd1)),
    fun p P j c k hP hj =>
      ⟨fun hd => (hce.link_slot p P j c k hP hj).1 ((hD c k).mp hd),
        (hce.link_slot p P j c k hP hj).2⟩⟩

theorem bound_iff_binding (X : gate) (i x : Nat) :
    (∃ e, X.in_.data[i]? = some (some e) ∧
      e.connection_type = in_connection_type_t.GATE ∧ e.pointer = x) ↔
    (bindings X)[i]? = some (some (in_connection_type_t.GATE, x)) := by
  unfold bindings
  rw [List.getElem?_map]
  constructor
  · rintro ⟨e, he, hg, hp⟩
    rw [he]
    simp [hg, hp]
  · intro hb
    cases hs : X.in_.data[i]? with
    | none => rw [hs] at hb; cases hb
    | some s =>
      cases s with
      | none => rw [hs] at hb; simp at hb
      | some e =>
        rw [hs] at hb
        simp only [Option.map_some', Option.some.injEq, Prod.mk.injEq] at hb
        exact ⟨e, rfl, hb.1, hb.2⟩

theorem links_pred_succ (gp i : Nat) (l : element_out) :
    ((l != element_out.mk gp i) && decide (¬ (l.pointer = gp ∧ l.idx < i)))
      = decide (¬ (l.pointer = gp ∧ l.idx < i + 1)) := by
  obtain ⟨lp, li⟩ := l
  rw [Bool.eq_iff_iff]
  simp only [Bool.and_eq_true, bne_iff_ne, ne_eq, element_out.mk.injEq, decide_eq_true_eq,
    not_and, not_lt]
  constructor
  · rintro ⟨h1, h2⟩ h3
    have := h1 h3
    have := h2 h3
    omega
  · intro h1
    refine ⟨fun h3 h4 => ?_, fun h3 => ?_⟩
    · have := h1 h3
      omega
    · have := h1 h3
      omega

theorem links_pred_same (gp i : Nat) (l : element_out) (hne : l ≠ element_out.mk gp i) :
    decide (¬ (l.pointer = gp ∧ l.idx < i)) = decide (¬ (l.pointer = gp ∧ l.idx < i + 1)) := by
  rw [← links_pred_succ]
  simp [hne]

theorem DelIn.start {h : Heap} (hc : Consistent h) (gp : Nat) (G : gate) :
    DelIn h h gp G 0 := by
  refine ⟨(CE.of_consistent hc).equiv (fun c k => by simp), rfl, fun x hx => hx, ?_⟩
  intro x X hX
  refine ⟨X, hX, Kept.refl_kept X, ?_, ?_⟩
  · have : links_except gp 0 X.out.data = X.out.data := by
      unfold links_except
      rw [List.filter_eq_self]
      intro l _
      simp
    rw [this]
  · simp [bound_slots]

theorem DelIn.step_del {h hh : Heap} {gp : Nat} {G : gate} {i : Nat}
    (hc : Consistent h) (hG : lookup h gp = some G) (hinv : DelIn h hh gp G i)
    (hi : i < G.in_.data.length) :
    DelIn h (delete_in_step gp hh i) gp G (i + 1) := by
  obtain ⟨G1, hG1, hkG, _, _⟩ := hinv.kept gp G hG
  obtain ⟨hce, hrel, _⟩ := hinv.ce.unlink (c := gp) (k := i) (by simp) hG1
  have hstep : delete_in_step gp hh i = unlink_old hh (get_element_in_at_index G1.in_ i) := by
    simp [delete_in_step, hG1]
  rw [hstep]
  have hbound : ∀ x, bound_to hh gp i x ↔
      (bindings G)[i]? = some (some (in_connection_type_t.GATE, x)) := by
    intro x
    rw [← hkG.bindings, ← bound_iff_binding]
    constructor
    · rintro ⟨C, e, hC, he, hg, hp⟩
      rw [hG1] at hC
      cases hC
      exact ⟨e, he, hg, hp⟩
    · rintro ⟨e, he, hg, hp⟩
      exact ⟨G1, e, hG1, he, hg, hp⟩
  have hilt : i < (bindings G).length := by simpa [bindings] using hi
  have hcount : ∀ x, bound_slots G x (i + 1) = bound_slots G x i +
      (if (bindings G)[i]? = some (some (in_connection_type_t.GATE, x)) then 1 else 0) := by
    intro x
    unfold bound_slots
    rw [List.take_succ, List.count_append, List.getElem?_eq_getElem hilt]
    simp only [Option.toList_some, Option.some.injEq]
    rw [List.count_singleton]
    by_cases hb : (bindings G)[i] = some (in_connection_type_t.GATE, x)
    · simp [hb]
    · simp [hb]
  refine ⟨hce.equiv (fun c k => by
      constructor
      · rintro ⟨rfl, hk⟩
        by_cases hki : k = i
        · exact Or.inr ⟨rfl, hki⟩
        · exact Or.inl ⟨rfl, by omega⟩
      · rintro (⟨rfl, hk⟩ | ⟨rfl, rfl⟩)
        · exact ⟨rfl, by omega⟩
        · exact ⟨rfl, by omega⟩), hrel.len.trans hinv.len,
    fun x hx => hrel.dead x (hinv.dead x hx), ?_⟩
  intro x X hX
  obtain ⟨X1, hX1, hk1, hperm1, hlen1⟩ := hinv.kept x X hX
  obtain ⟨X2, hX2, hk2⟩ := hrel.kept x X1 hX1
  refine ⟨X2, hX2, hk1.trans_kept hk2, ?_, ?_⟩
  · by_cases hb : bound_to hh gp i x
    · obtain ⟨hperm2, _, _⟩ := hrel.out_prod x X1 X2 hX1 hX2 hb
      refine hperm2.trans ?_
      have hnd : (links_except gp i X.out.data).Nodup :=
        ((CE.of_consistent hc).nodup hX).filter _
      refine (hperm1.erase _).trans ?_
      rw [hnd.erase_eq_filter]
      unfold links_except
      rw [List.filter_filter]
      apply List.Perm.of_eq
      apply List.filter_congr
      intro l _
      exact links_pred_succ gp i l
    · rw [hrel.out_other x X1 X2 hX1 hX2 hb]
      refine hperm1.trans (List.Perm.of_eq ?_)
      unfold links_except
      apply List.filter_congr
      intro l hl
      apply links_pred_same
      rintro rfl
      obtain ⟨j, hj⟩ := List.mem_iff_getElem?.mp hl
      obtain ⟨C, hC, hs⟩ := hc.link_slot x X j gp i hX hj
      rw [hG] at hC
      cases hC
      exact hb ((hbound x).mpr ((bound_iff_binding G i x).mp ⟨_, hs, rfl, rfl⟩))
  · rw [hcount x]
    by_cases hb : bound_to hh gp i x
    · obtain ⟨_, hlen2, _⟩ := hrel.out_prod x X1 X2 hX1 hX2 hb
      rw [if_pos ((hbound x).mp hb)]
      omega
    · rw [hrel.out_other x X1 X2 hX1 hX2 hb, if_neg (fun hbb => hb ((hbound x).mpr hbb))]
      omega

theorem DelIn.loop {h : Heap} {gp : Nat} {G : gate}
    (hc : Consistent h) (hG : lookup h gp = some G) (n : Nat) (hn : n ≤ G.in_.data.length) :
    DelIn h ((List.range n).foldl (delete_in_step gp) h) gp G n := by
  induction n with
  | zero => exact DelIn.start hc gp G
  | succ n ih =>
    rw [List.range_succ, List.foldl_append]
    exact DelIn.step_del hc hG (ih (by omega)) (by omega)

/-! ## `gate_delete`: the loop over the links of the deleted gate -/

theorem delete_out_step_lookup (h : Heap) (l : element_out) (x : Nat) :
    lookup (delete_out_step h l) x
      = (lookup h x).map (fun X =>
          { X with in_ := if l.pointer = x then clear_slot X.in_ l.idx else X.in_ }) := by
  unfold delete_out_step
  cases hC : lookup h l.pointer with
  | none =>
    simp only
    by_cases hx : l.pointer = x
    · rw [← hx, hC]; rfl
    · cases lookup h x with
      | none => rfl
      | some X => simp [hx]
  | some C =>
    simp only
    rw [lookup_store _ _ _ _ (lookup_lt hC)]
    by_cases hx : l.pointer = x
    · subst hx
      simp [hC, clear_slot]
    · rw [if_neg hx]
      cases lookup h x with
      | none => rfl
      | some X => simp [hx]

theorem delete_out_lookup (links : List element_out) :
    ∀ (h : Heap) (x : Nat), lookup (links.foldl delete_out_step h) x
      = (lookup h x).map (fun X => { X with in_ := clear_slots x links X.in_ }) := by
  induction links with
  | nil =>
    intro h x
    simp only [List.foldl_nil]
    cases hX : lookup h x with
    | none => rfl
    | some X => rfl
  | cons l ls ih =>
    intro h x
    rw [List.foldl_cons, ih, delete_out_step_lookup]
    cases lookup h x with
    | none => rfl
    | some X =>
      simp only [Option.map_some', clear_slots, List.foldl_cons]

theorem delete_out_step_length (h : Heap) (l : element_out) :
    (delete_out_step h l).length = h.length := by
  unfold delete_out_step
  cases lookup h l.pointer with
  | none => rfl
  | some C => simp [length_store]

theorem delete_out_length (links : List element_out) :
    ∀ (h : Heap), (links.foldl delete_out_step h).length = h.length := by
  induction links with
  | nil => intro h; rfl
  | cons l ls ih =>
    intro h
    rw [List.foldl_cons, ih, delete_out_step_length]

theorem clear_slots_capacity (x : Nat) (links : List element_out) :
    ∀ v : vector_in, (clear_slots x links v).capacity = v.capacity ∧
      (clear_slots x links v).data.length = v.data.length := by
  induction links with
  | nil => intro v; exact ⟨rfl, rfl⟩
  | cons l ls ih =>
    intro v
    simp only [clear_slots, List.foldl_cons]
    by_cases hx : l.pointer = x
    · rw [if_pos hx]
      have := ih (clear_slot v l.idx)
      simp only [clear_slots, clear_slot, List.length_set] at this
      exact this
    · rw [if_neg hx]
      exact ih v

theorem clear_slots_get (x : Nat) (links : List element_out) :
    ∀ (v : vector_in) (i : Nat), (clear_slots x links v).data[i]?
      = if element_out.mk x i ∈ links then (v.data[i]?).map (fun _ => none) else v.data[i]? := by
  induction links with
  | nil => intro v i; simp [clear_slots]
  | cons l ls ih =>
    intro v i
    simp only [clear_slots, List.foldl_cons]
    have ih1 := fun v => ih v i
    simp only [clear_slots] at ih1
    obtain ⟨lp, li⟩ := l
    by_cases hx : lp = x
    · subst hx
      simp only [if_true]
      rw [ih1]
      by_cases hi : li = i
      · subst hi
        simp only [List.mem_cons, true_or, if_true, clear_slot]
        by_cases hlt : li < v.data.length
        · rw [List.getElem?_set_self hlt, List.getElem?_eq_getElem hlt]
          split_ifs <;> rfl
        · rw [List.getElem?_eq_none (by simp; omega), List.getElem?_eq_none (by omega)]
          split_ifs <;> rfl
      · have hne : element_out.mk lp i ≠ element_out.mk lp li := by
          intro heq
          simp only [element_out.mk.injEq, true_and] at heq
          exact hi heq.symm
        simp only [List.mem_cons, hne, false_or, clear_slot]
        rw [List.getElem?_set_ne hi]
    · simp only [if_neg hx]
      rw [ih1]
      have hne : element_out.mk x i ≠ element_out.mk lp li := by
        intro heq
        simp only [element_out.mk.injEq] at heq
        exact hx heq.1.symm
      simp only [List.mem_cons, hne, false_or]

theorem clear_slots_wf (x : Nat) (links : List element_out) :
    ∀ (v : vector_in), links.Nodup →
      (∀ l, l ∈ links → l.pointer = x → ∃ e, v.data[l.idx]? = some (some e)) →
      v.size = bound_count v →
      (clear_slots x links v).size = bound_count (clear_slots x links v) ∧
      (clear_slots x links v).size + links.countP (fun l => decide (l.pointer = x)) = v.size := by
  induction links with
  | nil => intro v _ _ hs; exact ⟨hs, by simp [clear_slots]⟩
  | cons l ls ih =>
    intro v hnd hall hs
    simp only [clear_slots, List.foldl_cons]
    have hnd1 := (List.nodup_cons.mp hnd).2
    have hnotin := (List.nodup_cons.mp hnd).1
    by_cases hx : l.pointer = x
    · rw [if_pos hx]
      obtain ⟨e, he⟩ := hall l (List.mem_cons_self _ _) hx
      have hlt := lt_of_getElem?_some he
      have hadd := countP_set_add (fun s : Option element_in => s.isSome) v.data l.idx none hlt
      have hget : v.data.get ⟨l.idx, hlt⟩ = some e := by
        rw [List.getElem?_eq_getElem hlt] at he
        simpa using he
      rw [hget] at hadd
      simp only [Option.isSome_some, if_true, Option.isSome_none] at hadd
      have hs1 : (clear_slot v l.idx).size = bound_count (clear_slot v l.idx) := by
        unfold clear_slot bound_count
        simp only
        unfold bound_count at hs
        simp at hadd
        omega
      have hall1 : ∀ l1, l1 ∈ ls → l1.pointer = x →
          ∃ e1, (clear_slot v l.idx).data[l1.idx]? = some (some e1) := by
        intro l1 hl1 hx1
        obtain ⟨e1, he1⟩ := hall l1 (List.mem_cons_of_mem _ hl1) hx1
        refine ⟨e1, ?_⟩
        have hne : l.idx ≠ l1.idx := by
          intro heq
          apply hnotin
          have : l = l1 := by
            obtain ⟨a, b⟩ := l
            obtain ⟨a1, b1⟩ := l1
            simp only at hx hx1 heq
            rw [hx, hx1, heq]
          rw [this]; exact hl1
        unfold clear_slot
        simp only
        rw [List.getElem?_set_ne hne]
        exact he1
      obtain ⟨h1, h2⟩ := ih (clear_slot v l.idx) hnd1 hall1 hs1
      simp only [clear_slots] at h1 h2
      refine ⟨h1, ?_⟩
      rw [List.countP_cons_of_pos _ _ (by simpa using hx)]
      have hpos : 0 < v.size := by
        unfold bound_count at hs
        rw [hs]
        simp at hadd
        omega
      have : (clear_slot v l.idx).size = v.size - 1 := rfl
      omega
    · rw [if_neg hx]
      obtain ⟨h1, h2⟩ := ih v hnd1 (fun l1 hl1 hx1 => hall l1 (List.mem_cons_of_mem _ hl1) hx1) hs
      simp only [clear_slots] at h1 h2
      refine ⟨h1, ?_⟩
      rw [List.countP_cons_of_neg _ _ (by simpa using hx)]
      exact h2

/-! ## `gate_delete` -/

theorem gate_delete_eq {h : Heap} {gp : Nat} {G G1 : gate} (hG : lookup h gp = some G)
    (hG1 : lookup ((List.range (vector_in_capacity G.in_)).foldl (delete_in_step gp) h) gp
      = some G1) :
    gate_delete h (some gp)
      = (G1.out.data.foldl delete_out_step
          ((List.range (vector_in_capacity G.in_)).foldl (delete_in_step gp) h)).set gp none := by
  simp [gate_delete, hG, hG1]

theorem lookup_set_none (h : Heap) (g x : Nat) :
    lookup (h.set g none) x = if g = x then none else lookup h x := by
  rw [lookup_eq, lookup_eq]
  by_cases hx : g = x
  · subst hx
    rw [if_pos rfl]
    by_cases hlt : g < h.length
    · rw [List.getElem?_set_self hlt]; rfl
    · rw [List.getElem?_eq_none (by simp; omega)]; rfl
  · rw [if_neg hx, List.getElem?_set_ne hx]

theorem bound_count_bindings (X : gate) :
    bound_count X.in_ = (bindings X).countP (fun b => b.isSome) := by
  unfold bound_count bindings
  rw [List.countP_map]
  congr 1
  funext s
  cases s <;> rfl

theorem countP_unbind (gp : Nat) (bs : List (Option (in_connection_type_t × Nat))) :
    (bs.map (unbind gp)).countP (fun b => b.isSome)
      + bs.count (some (in_connection_type_t.GATE, gp)) = bs.countP (fun b => b.isSome) := by
  induction bs with
  | nil => rfl
  | cons b t ih =>
    simp only [List.map_cons, List.countP_cons, List.count_cons]
    by_cases hb : b = some (in_connection_type_t.GATE, gp)
    · have h1 : (unbind gp b).isSome = false := by simp [unbind, hb]
      have h2 : (b == some (in_connection_type_t.GATE, gp)) = true := by simpa using hb
      have h3 : b.isSome = true := by rw [hb]; rfl
      simp only [h1, h2, h3, if_true]
      simp only [Bool.false_eq_true, if_false]
      omega
    · have h1 : unbind gp b = b := by simp [unbind, hb]
      have h2 : (b == some (in_connection_type_t.GATE, gp)) = false := by simpa using hb
      rw [h1]
      simp only [h2, Bool.false_eq_true, if_false]
      omega

theorem gate_delete_spec {h : Heap} {gp : Nat} {G : gate} (hc : Consistent h)
    (hG : lookup h gp = some G) :
    Consistent (gate_delete h (some gp)) ∧ DeleteRel h (gate_delete h (some gp)) gp G := by
  have hcap : vector_in_capacity G.in_ = G.in_.data.length := (hc.wf gp G hG).1.symm
  have hinv := DelIn.loop hc hG (vector_in_capacity G.in_) (by rw [hcap])
  obtain ⟨G1, hG1, hkG, _, _⟩ := hinv.kept gp G hG
  rw [gate_delete_eq hG hG1]
  generalize hh1 : (List.range (vector_in_capacity G.in_)).foldl (delete_in_step gp) h = h1
    at hinv hG1
  have hce := hinv.ce
  have hview := delete_out_lookup G1.out.data h1
  have hlen2 := delete_out_length G1.out.data h1
  generalize hh2 : G1.out.data.foldl delete_out_step h1 = h2 at hview hlen2
  have hnd := hce.nodup hG1
  have hG1len : G1.in_.data.length = vector_in_capacity G.in_ := by
    have h1w := (hce.wf gp G1 hG1).1
    rw [h1w, hkG.capacity]; rfl
  -- the links of the deleted gate
  have hlink : ∀ (x i : Nat), element_out.mk x i ∈ G1.out.data →
      x ≠ gp ∧ ∃ X1 j, lookup h1 x = some X1 ∧
        X1.in_.data[i]? = some (some (element_in.mk in_connection_type_t.GATE gp j)) := by
    intro x i hmem
    obtain ⟨j, hj⟩ := List.mem_iff_getElem?.mp hmem
    obtain ⟨hD, X1, hX1, hs⟩ := hce.link_slot gp G1 j x i hG1 hj
    refine ⟨?_, X1, j, hX1, hs⟩
    rintro rfl
    rw [hG1] at hX1
    cases hX1
    have := lt_of_getElem?_some hs
    exact hD ⟨rfl, by omega⟩
  have hslotf : ∀ (x : Nat) (X1 : gate) (i : Nat), x ≠ gp → lookup h1 x = some X1 →
      (clear_slots x G1.out.data X1.in_).data[i]?
        = if (bindings X1)[i]? = some (some (in_connection_type_t.GATE, gp)) then some none
          else X1.in_.data[i]? := by
    intro x X1 i hx hX1
    rw [clear_slots_get]
    by_cases hmem : element_out.mk x i ∈ G1.out.data
    · obtain ⟨_, X1a, j, hX1a, hs⟩ := hlink x i hmem
      rw [hX1] at hX1a
      cases hX1a
      rw [if_pos hmem, if_pos ((bound_iff_binding X1 i gp).mp ⟨_, hs, rfl, rfl⟩), hs]
      rfl
    · rw [if_neg hmem, if_neg]
      intro hb
      obtain ⟨e, he, hg, hp⟩ := (bound_iff_binding X1 i gp).mpr hb
      obtain ⟨P, hP, ho⟩ := hce.slot_link x X1 i e hX1 he hg (fun hd => hx hd.1)
      rw [hp, hG1] at hP
      cases hP
      exact hmem (List.getElem?_mem ho)
  have hfin : ∀ x, lookup (h2.set gp none) x
      = if gp = x then none
        else (lookup h1 x).map (fun X => { X with in_ := clear_slots x G1.out.data X.in_ }) := by
    intro x
    rw [lookup_set_none, hview]
  have hback : ∀ x Xf, lookup (h2.set gp none) x = some Xf →
      x ≠ gp ∧ ∃ X1, lookup h1 x = some X1 ∧
        Xf = { X1 with in_ := clear_slots x G1.out.data X1.in_ } := by
    intro x Xf hXf
    rw [hfin] at hXf
    by_cases hx : gp = x
    · rw [if_pos hx] at hXf; cases hXf
    · rw [if_neg hx] at hXf
      cases hX1 : lookup h1 x with
      | none => rw [hX1] at hXf; cases hXf
      | some X1 =>
        rw [hX1] at hXf
        simp only [Option.map_some', Option.some.injEq] at hXf
        exact ⟨Ne.symm hx, X1, rfl, hXf.symm⟩
  have hfwd : ∀ x X1, x ≠ gp → lookup h1 x = some X1 →
      lookup (h2.set gp none) x = some { X1 with in_ := clear_slots x G1.out.data X1.in_ } := by
    intro x X1 hx hX1
    rw [hfin, if_neg (Ne.symm hx), hX1]
    rfl
  have hwf : ∀ x X1, x ≠ gp → lookup h1 x = some X1 →
      (clear_slots x G1.out.data X1.in_).size = bound_count (clear_slots x G1.out.data X1.in_) := by
    intro x X1 _ hX1
    refine (clear_slots_wf x G1.out.data X1.in_ hnd ?_ (hce.wf x X1 hX1).2).1
    intro l hl hlx
    obtain ⟨lp, li⟩ := l
    simp only at hlx
    subst hlx
    obtain ⟨_, X1a, j, hX1a, hs⟩ := hlink lp li hl
    rw [hX1] at hX1a
    cases hX1a
    exact ⟨_, hs⟩
  refine ⟨⟨?_, ?_, ?_⟩, ⟨?_, ?_, ?_, ?_⟩⟩
  · intro x Xf hXf
    obtain ⟨hx, X1, hX1, rfl⟩ := hback x Xf hXf
    refine ⟨?_, hwf x X1 hx hX1⟩
    simp only
    rw [(clear_slots_capacity x G1.out.data X1.in_).1, (clear_slots_capacity x _ X1.in_).2]
    exact (hce.wf x X1 hX1).1
  · intro x Xf i e hXf hi hg
    obtain ⟨hx, X1, hX1, rfl⟩ := hback x Xf hXf
    simp only at hi
    rw [hslotf x X1 i hx hX1] at hi
    by_cases hb : (bindings X1)[i]? = some (some (in_connection_type_t.GATE, gp))
    · rw [if_pos hb] at hi
      simp at hi
    rw [if_neg hb] at hi
    obtain ⟨P, hP, ho⟩ := hce.slot_link x X1 i e hX1 hi hg (fun hd => hx hd.1)
    have hpe : e.pointer ≠ gp := by
      intro hpe
      exact hb ((bound_iff_binding X1 i gp).mp ⟨e, hi, hg, hpe⟩)
    exact ⟨_, hfwd _ P hpe hP, ho⟩
  · intro p Pf j x i hPf hj
    obtain ⟨hp, P1, hP1, rfl⟩ := hback p Pf hPf
    simp only at hj
    obtain ⟨hD, X1, hX1, hs⟩ := hce.link_slot p P1 j x i hP1 hj
    have hx : x ≠ gp := by
      rintro rfl
      rw [hG1] at hX1
      cases hX1
      have := lt_of_getElem?_some hs
      exact hD ⟨rfl, by omega⟩
    refine ⟨_, hfwd x X1 hx hX1, ?_⟩
    simp only
    rw [hslotf x X1 i hx hX1, if_neg]
    · exact hs
    · intro hb
      obtain ⟨e, he, _, hpe⟩ := (bound_iff_binding X1 i gp).mpr hb
      rw [hs] at he
      simp only [Option.some.injEq] at he
      rw [← he] at hpe
      exact hp hpe
  · rw [List.length_set, hlen2, hinv.len]
  · rw [hfin, if_pos rfl]
  · intro x hx
    rw [hfin]
    split_ifs
    · rfl
    · rw [hinv.dead x hx]; rfl
  · intro x X hx hX
    obtain ⟨X1, hX1, hk1, hperm, hlen⟩ := hinv.kept x X hX
    have hb : bindings { X1 with in_ := clear_slots x G1.out.data X1.in_ }
        = (bindings X).map (unbind gp) := by
      rw [← hk1.bindings]
      apply List.ext_getElem?
      intro i
      have := hslotf x X1 i hx hX1
      simp only [bindings, List.getElem?_map] at this ⊢
      rw [this]
      by_cases hbb : Option.map (Option.map fun e => (e.connection_type, e.pointer))
          X1.in_.data[i]? = some (some (in_connection_type_t.GATE, gp))
      · rw [if_pos hbb, hbb]
        simp [unbind]
      · rw [if_neg hbb]
        cases hs : X1.in_.data[i]? with
        | none => rfl
        | some s =>
          rw [hs] at hbb
          simp only [Option.map_some', Option.some.injEq] at hbb
          simp [unbind, hbb]
    have hsize : (clear_slots x G1.out.data X1.in_).size
        + (bindings X).count (some (in_connection_type_t.GATE, gp)) = X.in_.size := by
      have h1 := hwf x X1 hx hX1
      have h2 := bound_count_bindings { X1 with in_ := clear_slots x G1.out.data X1.in_ }
      simp only at h2
      rw [hb] at h2
      have h3 := countP_unbind gp (bindings X)
      have h4 := (hc.wf x X hX).2
      rw [bound_count_bindings X] at h4
      omega
    refine ⟨_, hfwd x X1 hx hX1, hk1.state, hk1.res, hk1.path_len, hk1.kind, ?_,
      hk1.out_capacity, hb, hsize, ?_, ?_⟩
    · simp only
      rw [(clear_slots_capacity x G1.out.data X1.in_).1]
      exact hk1.capacity
    · refine hperm.trans (List.Perm.of_eq ?_)
      unfold links_except
      apply List.filter_congr
      intro l hl
      obtain ⟨lp, li⟩ := l
      by_cases hlp : lp = gp
      · subst hlp
        obtain ⟨j, hj⟩ := List.mem_iff_getElem?.mp hl
        obtain ⟨C, hC, hs⟩ := hc.link_slot x X j lp li hX hj
        rw [hG] at hC
        cases hC
        have hlt := lt_of_getElem?_some hs
        have : li < vector_in_capacity G.in_ := by omega
        simp [this]
      · simp [hlp]
    · simp only
      rw [← hcap]
      exact hlen

/-! ## `gate_new` and the failing paths of the connect operations -/

theorem lookup_append (h : Heap) (o : Option gate) (x : Nat) :
    lookup (h ++ [o]) x = if x < h.length then lookup h x else if x = h.length then o
      else none := by
  rw [lookup_eq, lookup_eq]
  by_cases hlt : x < h.length
  · rw [if_pos hlt, List.getElem?_append_left hlt]
  · rw [if_neg hlt, List.getElem?_append_right (by omega)]
    by_cases hx : x = h.length
    · subst hx
      simp
    · rw [if_neg hx, List.getElem?_eq_none (by simp; omega)]
      rfl

theorem lookup_append_old {h : Heap} (o : Option gate) {x : Nat} {X : gate}
    (hX : lookup h x = some X) : lookup (h ++ [o]) x = some X := by
  rw [lookup_append, if_pos (lookup_lt hX)]
  exact hX

theorem gate_new_consistent {h : Heap} (hc : Consistent h) (kind : gate_kind_t) (n : Nat)
    (g_ok in_ok out_ok : Bool) : Consistent (gate_new h kind n g_ok in_ok out_ok).1 := by
  unfold gate_new
  split_ifs
  · exact hc
  · exact hc
  · exact hc
  · simp only
    have hnew : ∀ x X, lookup (h ++ [some
          { in_ := vector_in_init n, out := vector_out_init 1, state := state.UNVISITED,
            res := false, path_len := 1, kind := kind }]) x = some X →
        lookup h x = some X ∨ (X.in_ = vector_in_init n ∧ X.out = vector_out_init 1) := by
      intro x X hX
      rw [lookup_append] at hX
      split_ifs at hX with h1 h2
      · exact Or.inl hX
      · cases hX
        exact Or.inr ⟨rfl, rfl⟩
    refine ⟨?_, ?_, ?_⟩
    · intro x X hX
      rcases hnew x X hX with hold | ⟨hi, _⟩
      · exact hc.wf x X hold
      · unfold wf_in bound_count
        rw [hi]
        simp [vector_in_init, List.countP_replicate]
    · intro c C k e hC hk hg
      rcases hnew c C hC with hold | ⟨hi, _⟩
      · obtain ⟨P, hP, ho⟩ := hc.slot_link c C k e hold hk hg
        exact ⟨P, lookup_append_old _ hP, ho⟩
      · rw [hi] at hk
        simp only [vector_in_init] at hk
        have := List.getElem?_mem hk
        simp at this
    · intro p P j c k hP hj
      rcases hnew p P hP with hold | ⟨_, ho⟩
      · obtain ⟨C, hC, hs⟩ := hc.link_slot p P j c k hold hj
        exact ⟨C, lookup_append_old _ hC, hs⟩
      · rw [ho] at hj
        simp [vector_out_init] at hj

theorem consistent_nil : Consistent ([] : Heap) := by
  refine ⟨?_, ?_, ?_⟩ <;> intros <;> simp_all [lookup]

/-- A call of `gate_connect_gate` either fails and leaves the heap untouched, or
it has two live gates, an index in range and successful allocations. -/
theorem gate_connect_gate_cases (h : Heap) (g_out g_in : Option Nat) (k : Nat)
    (el_in_ok el_out_ok ok : Bool) (hc : Consistent h) :
    gate_connect_gate h g_out g_in k el_in_ok el_out_ok ok = (h, FAILED) ∨
    ∃ p c P C, g_out = some p ∧ g_in = some c ∧ lookup h p = some P ∧ lookup h c = some C ∧
      k < vector_in_capacity C.in_ ∧ el_in_ok = true ∧ el_out_ok = true ∧
      (vector_out_realloc P.out ok).2 = 0 ∧
      (gate_connect_gate h g_out g_in k el_in_ok el_out_ok ok).2 = SUCCESS := by
  cases g_out with
  | none => left; simp [gate_connect_gate]
  | some p =>
    cases g_in with
    | none => left; simp [gate_connect_gate]
    | some c =>
      cases hP : lookup h p with
      | none => left; simp [gate_connect_gate, hP]
      | some P =>
        cases hC : lookup h c with
        | none => left; simp [gate_connect_gate, hP, hC]
        | some C =>
          by_cases hk : k ≥ vector_in_capacity C.in_
          · left; simp [gate_connect_gate, hP, hC, hk]
          cases el_in_ok with
          | false => left; simp [gate_connect_gate, hP, hC, hk]
          | true =>
            cases el_out_ok with
            | false => left; simp [gate_connect_gate, hP, hC, hk]
            | true =>
              by_cases hr : (vector_out_realloc P.out ok).2 = 0
              · right
                obtain ⟨h1, h2, P1, C0, heq, _⟩ :=
                  gate_connect_gate_spec ok hc hP hC (Nat.lt_of_not_ge hk) hr
                exact ⟨p, c, P, C, rfl, rfl, hP, hC, Nat.lt_of_not_ge hk, rfl, rfl, hr, by rw [heq]⟩
              · left; simp [gate_connect_gate, hP, hC, hk, hr]

theorem gate_connect_signal_cases (h : Heap) (s g : Option Nat) (k : Nat) (el_ok : Bool) :
    gate_connect_signal h s g k el_ok = (h, FAILED) ∨
    ∃ sp c C, s = some sp ∧ g = some c ∧ lookup h c = some C ∧
      k < vector_in_capacity C.in_ ∧ el_ok = true := by
  cases s with
  | none => left; simp [gate_connect_signal]
  | some sp =>
    cases g with
    | none => left; simp [gate_connect_signal]
    | some c =>
      cases hC : lookup h c with
      | none => left; simp [gate_connect_signal, hC]
      | some C =>
        by_cases hk : k ≥ vector_in_capacity C.in_
        · left; simp [gate_connect_signal, hC, hk]
        cases el_ok with
        | false => left; simp [gate_connect_signal, hC, hk]
        | true => right; exact ⟨sp, c, C, rfl, rfl, hC, Nat.lt_of_not_ge hk, rfl⟩

theorem gate_connect_gate_consistent {h : Heap} (hc : Consistent h) (g_out g_in : Option Nat)
    (k : Nat) (el_in_ok el_out_ok ok : Bool) :
    Consistent (gate_connect_gate h g_out g_in k el_in_ok el_out_ok ok).1 := by
  rcases gate_connect_gate_cases h g_out g_in k el_in_ok el_out_ok ok hc with hfail |
    ⟨p, c, P, C, rfl, rfl, hP, hC, hk, rfl, rfl, hr, _⟩
  · rw [hfail]; exact hc
  · obtain ⟨h1, h2, P1, C0, heq, _, _, _, _, _, _, _, hc2⟩ :=
      gate_connect_gate_spec ok hc hP hC hk hr
    rw [heq]; exact hc2

theorem gate_connect_signal_consistent {h : Heap} (hc : Consistent h) (s g : Option Nat)
    (k : Nat) (el_ok : Bool) : Consistent (gate_connect_signal h s g k el_ok).1 := by
  rcases gate_connect_signal_cases h s g k el_ok with hfail |
    ⟨sp, c, C, rfl, rfl, hC, hk, rfl⟩
  · rw [hfail]; exact hc
  · obtain ⟨h1, h2, heq, _, _, _, _, hc2⟩ := @gate_connect_signal_spec _ sp _ _ _ hc hC hk
    rw [heq]; exact hc2

theorem gate_delete_consistent {h : Heap} (hc : Consistent h) (g : Option Nat) :
    Consistent (gate_delete h g) := by
  cases g with
  | none => exact hc
  | some gp =>
    cases hG : lookup h gp with
    | none =>
      have : gate_delete h (some gp) = h := by simp [gate_delete, hG]
      rw [this]; exact hc
    | some G => exact (gate_delete_spec hc hG).1

theorem Consistent.bidirectional {h : Heap} (hc : Consistent h) : Bidirectional h := by
  refine ⟨?_, ?_⟩
  · intro c C k e hC hk hg
    obtain ⟨P, hP, ho⟩ := hc.slot_link c C k e hC hk hg
    refine ⟨P, hP, ho, fun j hj => ?_⟩
    exact (CE.of_consistent hc).link_inj hP hj ho
  · intro p P j c k hP hj
    obtain ⟨C, hC, hs⟩ := hc.link_slot p P j c k hP hj
    exact ⟨C, _, hC, hs, rfl, rfl⟩

/-- C3: bidirectional consistency (with well-formed input vectors) is an
invariant of the graph: it holds after `gate_new` and is preserved by every
successful or failed `gate_connect_gate`, `gate_connect_signal` and
`gate_delete`. -/
theorem bidirectional_consistency_invariant (h : Heap) (hc : Consistent h) :
    Bidirectional h ∧
    (∀ kind n g_ok in_ok out_ok,
      Consistent (gate_new h kind n g_ok in_ok out_ok).1 ∧
      Bidirectional (gate_new h kind n g_ok in_ok out_ok).1) ∧
    (∀ g_out g_in k el_in_ok el_out_ok ok,
      Consistent (gate_connect_gate h g_out g_in k el_in_ok el_out_ok ok).1 ∧
      Bidirectional (gate_connect_gate h g_out g_in k el_in_ok el_out_ok ok).1) ∧
    (∀ s g k el_ok,
      Consistent (gate_connect_signal h s g k el_ok).1 ∧
      Bidirectional (gate_connect_signal h s g k el_ok).1) ∧
    (∀ g, Consistent (gate_delete h g) ∧ Bidirectional (gate_delete h g)) :=
  ⟨hc.bidirectional,
    fun kind n a b c => ⟨gate_new_consistent hc kind n a b c,
      (gate_new_consistent hc kind n a b c).bidirectional⟩,
    fun g_out g_in k a b ok => ⟨gate_connect_gate_consistent hc g_out g_in k a b ok,
      (gate_connect_gate_consistent hc g_out g_in k a b ok).bidirectional⟩,
    fun s g k a => ⟨gate_connect_signal_consistent hc s g k a,
      (gate_connect_signal_consistent hc s g k a).bidirectional⟩,
    fun g => ⟨gate_delete_consistent hc g, (gate_delete_consistent hc g).bidirectional⟩⟩

/-- C3 (witness): the empty graph is consistent, and the invariant holds on
the graph of `example.c` and after every operation on it. -/
theorem bidirectional_consistency_invariant_witness :
    Consistent ([] : Heap) ∧
    Consistent example_heap2 ∧
    Bidirectional example_heap2 ∧
    (∀ kind n g_ok in_ok out_ok,
      Consistent (gate_new example_heap2 kind n g_ok in_ok out_ok).1 ∧
      Bidirectional (gate_new example_heap2 kind n g_ok in_ok out_ok).1) ∧
    (∀ g_out g_in k el_in_ok el_out_ok ok,
      Consistent (gate_connect_gate example_heap2 g_out g_in k el_in_ok el_out_ok ok).1 ∧
      Bidirectional (gate_connect_gate example_heap2 g_out g_in k el_in_ok el_out_ok ok).1) ∧
    (∀ s g k el_ok,
      Consistent (gate_connect_signal example_heap2 s g k el_ok).1 ∧
      Bidirectional (gate_connect_signal example_heap2 s g k el_ok).1) ∧
    (∀ g, Consistent (gate_delete example_heap2 g) ∧
      Bidirectional (gate_delete example_heap2 g)) :=
  ⟨consistent_nil, consistent_of_check (by decide),
    bidirectional_consistency_invariant example_heap2 (consistent_of_check (by decide))⟩

/-! ## Claims on the connect operations -/

theorem connect_upd_out_data (p : Option Nat) (c k : Nat) (el : element_in) (x : Nat)
    (X : gate) :
    (connect_upd p c k el x X).out.data
      = if some x = p then X.out.data ++ [element_out.mk c k] else X.out.data := by
  unfold connect_upd vector_out_push_back
  simp only
  split_ifs <;> rfl

theorem bound_to_congr {h h0 : Heap} {c k q : Nat} {C C0 : gate} (hC : lookup h c = some C)
    (hC0 : lookup h0 c = some C0) (hi : C0.in_ = C.in_) :
    bound_to h0 c k q ↔ bound_to h c k q := by
  constructor
  · rintro ⟨C1, e, hC1, he, hg, hp⟩
    rw [hC0] at hC1
    cases hC1
    exact ⟨C, e, hC, by rw [← hi]; exact he, hg, hp⟩
  · rintro ⟨C1, e, hC1, he, hg, hp⟩
    rw [hC] at hC1
    cases hC1
    exact ⟨C0, e, hC0, by rw [hi]; exact he, hg, hp⟩

theorem gate_fan_out_eq {h : Heap} {p : Nat} {P : gate} (hP : lookup h p = some P) :
    gate_fan_out h (some p) = (P.out.data.length : Int) := by
  simp [gate_fan_out, hP, vector_out_size]

theorem gate_input_bound {h : Heap} {c k : Nat} {C : gate} {e : element_in}
    (hC : lookup h c = some C) (hk : k < vector_in_capacity C.in_)
    (he : C.in_.data[k]? = some (some e)) :
    gate_input h (some c) k = (some (e.connection_type, e.pointer), none) := by
  have hk1 : ¬ k ≥ vector_in_capacity C.in_ := by omega
  simp [gate_input, hC, hk1, get_element_eq, he]

theorem gate_input_empty {h : Heap} {c k : Nat} {C : gate}
    (hC : lookup h c = some C) (hk : k < vector_in_capacity C.in_)
    (he : C.in_.data[k]? = some none) :
    gate_input h (some c) k = (none, some 0) := by
  have hk1 : ¬ k ≥ vector_in_capacity C.in_ := by omega
  simp [gate_input, hC, hk1, get_element_eq, he]

/-- C4: after a successful `gate_connect_gate(p, c, k)` with `k` below the slot
count of `c`, `gate_input(c, k)` returns `p`, exactly one output link of `p`
records the pair `(c, k)`, and `gate_fan_out(p)` is its previous value when
slot `k` was bound to `p` itself, and its previous value plus one otherwise. -/
theorem gate_connect_gate_round_trip (h : Heap) (p c k : Nat)
    (el_in_ok el_out_ok ok : Bool)
    (hc : Consistent h) (hlive : ∃ P, lookup h p = some P)
    (hslot : ∃ C, lookup h c = some C ∧ k < vector_in_capacity C.in_)
    (hres : (gate_connect_gate h (some p) (some c) k el_in_ok el_out_ok ok).2 = SUCCESS) :
    gate_input (gate_connect_gate h (some p) (some c) k el_in_ok el_out_ok ok).1 (some c) k
      = (some (in_connection_type_t.GATE, p), none) ∧
    (∃ P2, lookup (gate_connect_gate h (some p) (some c) k el_in_ok el_out_ok ok).1 p = some P2 ∧
      P2.out.data.count (element_out.mk c k) = 1) ∧
    (bound_to h c k p →
      gate_fan_out (gate_connect_gate h (some p) (some c) k el_in_ok el_out_ok ok).1 (some p)
        = gate_fan_out h (some p)) ∧
    (¬ bound_to h c k p →
      gate_fan_out (gate_connect_gate h (some p) (some c) k el_in_ok el_out_ok ok).1 (some p)
        = gate_fan_out h (some p) + 1) := by
  obtain ⟨P, hP⟩ := hlive
  obtain ⟨C, hC, hk⟩ := hslot
  rcases gate_connect_gate_cases h (some p) (some c) k el_in_ok el_out_ok ok hc with hfail |
    ⟨p1, c1, P1, C1, hp1, hc1, hP1, hC1, _, rfl, rfl, hr, _⟩
  · rw [hfail] at hres
    simp [FAILED, SUCCESS] at hres
  cases hp1
  cases hc1
  rw [hP] at hP1
  rw [hC] at hC1
  cases hP1
  cases hC1
  obtain ⟨h1, h2, P1, C0, heq, hC0, hi0, hrel, hP1, ⟨C1, hC1, _, hlen1⟩, hview, _, hc2⟩ :=
    gate_connect_gate_spec ok hc hP hC hk hr
  rw [heq]
  simp only
  have hwf := hc.wf c C hC
  have hP0 : ∃ P0, lookup (realloc_heap h p P ok) p = some P0 ∧ P0.out.data = P.out.data := by
    rw [realloc_heap_lookup ok hP, hP]
    exact ⟨_, rfl, by simp [vector_out_realloc_data]⟩
  obtain ⟨P0, hP0, hP0d⟩ := hP0
  have hC2 : lookup h2 c = some (connect_upd (some p) c k
      (element_in.mk in_connection_type_t.GATE p P1.out.data.length) c C1) := by
    rw [hview c, hC1]; rfl
  have hP2 : lookup h2 p = some (connect_upd (some p) c k
      (element_in.mk in_connection_type_t.GATE p P1.out.data.length) p P1) := by
    rw [hview p, hP1]; rfl
  have hP2d := connect_upd_out_data (some p) c k
      (element_in.mk in_connection_type_t.GATE p P1.out.data.length) p P1
  rw [if_pos rfl] at hP2d
  have hklt : k < C1.in_.data.length := by rw [hlen1, hwf.1]; exact hk
  obtain ⟨C1a, hC1a, hkept⟩ := hrel.kept c C0 hC0
  rw [hC1] at hC1a
  cases hC1a
  refine ⟨?_, ⟨_, hP2, ?_⟩, ?_, ?_⟩
  · have hslot : (connect_upd (some p) c k
        (element_in.mk in_connection_type_t.GATE p P1.out.data.length) c C1).in_.data[k]?
          = some (some (element_in.mk in_connection_type_t.GATE p P1.out.data.length)) := by
      unfold connect_upd
      simp only [if_true]
      rw [update_get _ _ _ _ hklt, if_pos rfl]
    have hcap : k < vector_in_capacity (connect_upd (some p) c k
        (element_in.mk in_connection_type_t.GATE p P1.out.data.length) c C1).in_ := by
      unfold connect_upd vector_in_capacity vector_in_update_at_index
      simp only [if_true]
      rw [hkept.capacity, hi0]
      exact hk
    exact gate_input_bound hC2 hcap hslot
  · have hnd := (CE.of_consistent hc2).nodup hP2
    exact List.count_eq_one_of_mem hnd (by rw [hP2d]; simp)
  · intro hb
    have hb0 := (bound_to_congr hC hC0 hi0).mpr hb
    obtain ⟨_, hlen, _⟩ := hrel.out_prod p P0 P1 hP0 hP1 hb0
    rw [gate_fan_out_eq hP2, gate_fan_out_eq hP, hP2d, ← hP0d]
    simp only [List.length_append, List.length_singleton]
    omega
  · intro hb
    have hb0 : ¬ bound_to (realloc_heap h p P ok) c k p :=
      fun hb0 => hb ((bound_to_congr hC hC0 hi0).mp hb0)
    have := hrel.out_other p P0 P1 hP0 hP1 hb0
    rw [gate_fan_out_eq hP2, gate_fan_out_eq hP, hP2d, this, hP0d]
    simp

/-- C4 (witness): in the graph of `example.c`, slot 0 of `g0` is rebound from
`g1` to `g2`. -/
theorem gate_connect_gate_round_trip_witness :
    gate_input (gate_connect_gate example_heap1 (some 2) (some 0) 0 true true true).1 (some 0) 0
      = (some (in_connection_type_t.GATE, 2), none) ∧
    (∃ P2, lookup (gate_connect_gate example_heap1 (some 2) (some 0) 0 true true true).1 2
        = some P2 ∧ P2.out.data.count (element_out.mk 0 0) = 1) ∧
    (bound_to example_heap1 0 0 2 →
      gate_fan_out (gate_connect_gate example_heap1 (some 2) (some 0) 0 true true true).1 (some 2)
        = gate_fan_out example_heap1 (some 2)) ∧
    (¬ bound_to example_heap1 0 0 2 →
      gate_fan_out (gate_connect_gate example_heap1 (some 2) (some 0) 0 true true true).1 (some 2)
        = gate_fan_out example_heap1 (some 2) + 1) :=
  gate_connect_gate_round_trip example_heap1 2 0 0 true true true
    (consistent_of_check (by decide)) ⟨_, rfl⟩ ⟨_, rfl, by decide⟩ (by decide)

theorem old_link_removed {h h0 h1 h2 : Heap} {p : Option Nat} {q c k : Nat} {Q Q0 : gate}
    {el : element_in} (hQ : lookup h q = some Q) (hQ0 : lookup h0 q = some Q0)
    (hQd : Q0.out.data = Q.out.data) (hb : bound_to h0 c k q) (hrel : UnlinkRel h0 h1 c k)
    (hview : ∀ x, lookup h2 x = (lookup h1 x).map (connect_upd p c k el x))
    (hp : p ≠ some q) : OldLinkRemoved h h2 q c k Q := by
  obtain ⟨Q1, hQ1, _⟩ := hrel.kept q Q0 hQ0
  obtain ⟨hperm, hlen, hnot⟩ := hrel.out_prod q Q0 Q1 hQ0 hQ1 hb
  have hQ2 : lookup h2 q = some (connect_upd p c k el q Q1) := by
    rw [hview q, hQ1]; rfl
  have hQ2d : (connect_upd p c k el q Q1).out.data = Q1.out.data := by
    rw [connect_upd_out_data, if_neg (fun hh => hp hh.symm)]
  refine ⟨?_, _, hQ2, by rw [hQ2d]; exact hnot, by rw [hQ2d, ← hQd]; exact hperm⟩
  rw [gate_fan_out_eq hQ2, gate_fan_out_eq hQ, hQ2d, ← hQd]
  omega

/-- C5: when slot `k` of gate `c` is bound to gate `q`, a successful
`gate_connect_signal(s, c, k)`, or a successful `gate_connect_gate(p, c, k)` with
`p` different from `q`, decreases `gate_fan_out(q)` by exactly one, leaves no
output link of `q` recording `(c, k)`, and keeps every other output link of `q`
(as a multiset). -/
theorem rebinding_removes_old_link (h : Heap) (q c k : Nat) (Q : gate)
    (hc : Consistent h) (hQ : lookup h q = some Q) (hb : bound_to h c k q) :
    (∀ s el_ok, (gate_connect_signal h s (some c) k el_ok).2 = SUCCESS →
      OldLinkRemoved h (gate_connect_signal h s (some c) k el_ok).1 q c k Q) ∧
    (∀ p el_in_ok el_out_ok ok, p ≠ q →
      (gate_connect_gate h (some p) (some c) k el_in_ok el_out_ok ok).2 = SUCCESS →
      OldLinkRemoved h (gate_connect_gate h (some p) (some c) k el_in_ok el_out_ok ok).1
        q c k Q) := by
  obtain ⟨C, e, hC, he, hg, hpq⟩ := hb
  have hb : bound_to h c k q := ⟨C, e, hC, he, hg, hpq⟩
  have hk : k < vector_in_capacity C.in_ := by
    have := lt_of_getElem?_some he
    unfold vector_in_capacity
    rw [← (hc.wf c C hC).1]
    exact this
  refine ⟨?_, ?_⟩
  · intro s el_ok hres
    rcases gate_connect_signal_cases h s (some c) k el_ok with hfail |
      ⟨sp, c1, C1, rfl, hc1, hC1, _, rfl⟩
    · rw [hfail] at hres
      simp [FAILED, SUCCESS] at hres
    obtain ⟨h1, h2, heq, hrel, _, hview, _, _⟩ := @gate_connect_signal_spec _ sp _ _ _ hc hC hk
    rw [heq]
    exact old_link_removed hQ hQ rfl hb hrel hview (by simp)
  · intro p el_in_ok el_out_ok ok hne hres
    rcases gate_connect_gate_cases h (some p) (some c) k el_in_ok el_out_ok ok hc with hfail |
      ⟨p1, c1, P1, C1, hp1, hc1, hP1, hC1, _, rfl, rfl, hr, _⟩
    · rw [hfail] at hres
      simp [FAILED, SUCCESS] at hres
    cases hp1
    cases hc1
    rw [hC] at hC1
    cases hC1
    obtain ⟨h1, h2, P2, C0, heq, hC0, hi0, hrel, _, _, hview, _, _⟩ :=
      gate_connect_gate_spec ok hc hP1 hC hk hr
    rw [heq]
    have hQ0 : lookup (realloc_heap h p P1 ok) q = some Q := by
      rw [realloc_heap_lookup ok hP1, hQ]
      simp [Ne.symm hne]
    exact old_link_removed hQ hQ0 rfl ((bound_to_congr hC hC0 hi0).mpr hb) hrel hview
      (by simpa using hne)

/-- C5 (witness): in the graph of `example.c`, slot 0 of `g4` is bound to `g1`;
it is rebound to a signal and to the gate `g2`. -/
theorem rebinding_removes_old_link_witness :
    (∀ s el_ok, (gate_connect_signal example_heap2 s (some 3) 0 el_ok).2 = SUCCESS →
      OldLinkRemoved example_heap2 (gate_connect_signal example_heap2 s (some 3) 0 el_ok).1
        1 3 0 ((lookup example_heap2 1).getD
          ⟨vector_in_init 0, vector_out_init 1, state.UNVISITED, false, 1, gate_kind_t.AND⟩)) ∧
    (∀ p el_in_ok el_out_ok ok, p ≠ 1 →
      (gate_connect_gate example_heap2 (some p) (some 3) 0 el_in_ok el_out_ok ok).2 = SUCCESS →
      OldLinkRemoved example_heap2
        (gate_connect_gate example_heap2 (some p) (some 3) 0 el_in_ok el_out_ok ok).1
        1 3 0 ((lookup example_heap2 1).getD
          ⟨vector_in_init 0, vector_out_init 1, state.UNVISITED, false, 1, gate_kind_t.AND⟩)) :=
  rebinding_removes_old_link example_heap2 1 3 0 _
    (consistent_of_check (by decide)) rfl ⟨_, _, rfl, rfl, rfl, rfl⟩

/-! ## Claim on `gate_delete` -/

theorem gate_fan_in_eq {h : Heap} {x : Nat} {X : gate} (hX : lookup h x = some X) :
    gate_fan_in h (some x) = (X.in_.size : Int) := by
  simp [gate_fan_in, hX, vector_in_size]

theorem slot_of_binding_none {X : gate} {k : Nat} (hb : (bindings X)[k]? = some none) :
    X.in_.data[k]? = some none := by
  unfold bindings at hb
  rw [List.getElem?_map] at hb
  cases hs : X.in_.data[k]? with
  | none => rw [hs] at hb; cases hb
  | some s =>
    cases s with
    | none => rfl
    | some e => rw [hs] at hb; simp at hb

/-- C6: after `gate_delete(g)` on a consistent graph, for every other gate `x`:
every slot of `x` that was bound to `g` is empty (`gate_input` returns the empty
result) and the fan-in of `x` dropped by the number of such slots; `x` has no
output link whose consumer is `g` and its fan-out dropped by the number of slots
of `g` that were bound to `x`; the other slots keep their binding and the other
output links are kept up to their order. -/
theorem gate_delete_clears_both_directions (h : Heap) (g : Nat)
    (hc : Consistent h) (hlive : ∃ G, lookup h g = some G) :
    lookup (gate_delete h (some g)) g = none ∧
    ∀ x X, x ≠ g → lookup h x = some X →
      ∃ Xf, lookup (gate_delete h (some g)) x = some Xf ∧
        (∀ k, bound_to h x k g → gate_input (gate_delete h (some g)) (some x) k = (none, some 0)) ∧
        gate_fan_in (gate_delete h (some g)) (some x)
          + ((bindings X).count (some (in_connection_type_t.GATE, g)) : Int)
          = gate_fan_in h (some x) ∧
        (∀ l, l ∈ Xf.out.data → l.pointer ≠ g) ∧
        (∀ G, lookup h g = some G →
          gate_fan_out (gate_delete h (some g)) (some x)
            + ((bindings G).count (some (in_connection_type_t.GATE, x)) : Int)
            = gate_fan_out h (some x)) ∧
        (∀ k, ¬ bound_to h x k g → (bindings Xf)[k]? = (bindings X)[k]?) ∧
        Xf.out.data.Perm (X.out.data.filter (fun l => decide (l.pointer ≠ g))) ∧
        Xf.kind = X.kind := by
  obtain ⟨G, hG⟩ := hlive
  obtain ⟨hcf, hrel⟩ := gate_delete_spec hc hG
  refine ⟨hrel.gone, ?_⟩
  intro x X hx hX
  obtain ⟨Xf, hXf, _, _, _, hkind, hcap, _, hbind, hsize, hperm, hlen⟩ := hrel.kept x X hx hX
  refine ⟨Xf, hXf, ?_, ?_, ?_, ?_, ?_, hperm, hkind⟩
  · intro k hb
    obtain ⟨X0, e, hX0, he, hg, hp⟩ := hb
    rw [hX] at hX0
    cases hX0
    have hbk : (bindings Xf)[k]? = some none := by
      rw [hbind, List.getElem?_map, (bound_iff_binding X k g).mp ⟨e, he, hg, hp⟩]
      simp [unbind]
    have hk : k < vector_in_capacity Xf.in_ := by
      have := lt_of_getElem?_some he
      unfold vector_in_capacity
      rw [hcap, ← (hc.wf x X hX).1]
      exact this
    exact gate_input_empty hXf hk (slot_of_binding_none hbk)
  · rw [gate_fan_in_eq hXf, gate_fan_in_eq hX]
    exact_mod_cast hsize
  · intro l hl
    have := hperm.mem_iff.mp hl
    simpa using (List.mem_filter.mp this).2
  · intro G0 hG0
    rw [hG] at hG0
    cases hG0
    rw [gate_fan_out_eq hXf, gate_fan_out_eq hX]
    have hfull : bound_slots G x G.in_.data.length
        = (bindings G).count (some (in_connection_type_t.GATE, x)) := by
      unfold bound_slots
      rw [List.take_of_length_le (by simp [bindings])]
    rw [hfull] at hlen
    exact_mod_cast hlen
  · intro k hb
    rw [hbind, List.getElem?_map]
    cases hs : (bindings X)[k]? with
    | none => rfl
    | some b =>
      have : unbind g b = b := by
        unfold unbind
        rw [if_neg]
        rintro rfl
        obtain ⟨e, he, hge, hp⟩ := (bound_iff_binding X k g).mpr hs
        exact hb ⟨X, e, hX, he, hge, hp⟩
      simp [this]

/-- C6 (witness): deletion of `g0` in the graph of `example.c`; `g0` consumed
`g1` and `g2` and fed slot 1 of `g4`. -/
theorem gate_delete_clears_both_directions_witness :
    gate_input (gate_delete example_heap2 (some 0)) (some 3) 1 = (none, some 0) ∧
    gate_fan_out (gate_delete example_heap2 (some 0)) (some 1) = 1 ∧
    gate_fan_out example_heap2 (some 1) = 2 ∧
    (lookup (gate_delete example_heap2 (some 0)) 0 = none ∧
    ∀ x X, x ≠ 0 → lookup example_heap2 x = some X →
      ∃ Xf, lookup (gate_delete example_heap2 (some 0)) x = some Xf ∧
        (∀ k, bound_to example_heap2 x k 0 →
          gate_input (gate_delete example_heap2 (some 0)) (some x) k = (none, some 0)) ∧
        gate_fan_in (gate_delete example_heap2 (some 0)) (some x)
          + ((bindings X).count (some (in_connection_type_t.GATE, 0)) : Int)
          = gate_fan_in example_heap2 (some x) ∧
        (∀ l, l ∈ Xf.out.data → l.pointer ≠ 0) ∧
        (∀ G, lookup example_heap2 0 = some G →
          gate_fan_out (gate_delete example_heap2 (some 0)) (some x)
            + ((bindings G).count (some (in_connection_type_t.GATE, x)) : Int)
            = gate_fan_out example_heap2 (some x)) ∧
        (∀ k, ¬ bound_to example_heap2 x k 0 → (bindings Xf)[k]? = (bindings X)[k]?) ∧
        Xf.out.data.Perm (X.out.data.filter (fun l => decide (l.pointer ≠ 0))) ∧
        Xf.kind = X.kind) :=
  ⟨by decide, by decide, by decide,
    gate_delete_clears_both_directions example_heap2 0 (consistent_of_check (by decide))
      ⟨_, rfl⟩⟩

/-! ## Cycles: failure and recovery -/

theorem gview_of_ext {h h1 : Heap} (he : Ext h h1) (x : Nat) :
    (lookup h1 x).map gview = (lookup h x).map gview := by
  cases hx : lookup h x with
  | none => rw [(he x).of_none hx]
  | some X =>
    obtain ⟨X1, hx1, hi, ho, _, _⟩ := (he x).of_some hx
    simp [hx1, gview, hi, ho]

theorem gview_of_clean {h h1 : Heap} (hrel : CleanRel h h1) (x : Nat) :
    (lookup h1 x).map gview = (lookup h x).map gview := by
  rcases hrel.unmark x with heq | ⟨X, hX, hX1⟩
  · rw [heq]
  · rw [hX, hX1]
    rfl

theorem all_unvisited_of_unlink {h0 h1 h2 : Heap} {p : Option Nat} {c k : Nat}
    {el : element_in} (hun : all_unvisited h0) (hrel : UnlinkRel h0 h1 c k)
    (hview : ∀ x, lookup h2 x = (lookup h1 x).map (connect_upd p c k el x)) :
    all_unvisited h2 := by
  intro x X2 hX2
  rw [hview x] at hX2
  cases hX1 : lookup h1 x with
  | none => rw [hX1] at hX2; cases hX2
  | some X1 =>
    rw [hX1] at hX2
    simp only [Option.map_some', Option.some.injEq] at hX2
    subst hX2
    cases hX0 : lookup h0 x with
    | none =>
      rw [hrel.dead x hX0] at hX1
      cases hX1
    | some X0 =>
      obtain ⟨X1a, hX1a, hk⟩ := hrel.kept x X0 hX0
      rw [hX1] at hX1a
      cases hX1a
      show X1.state = state.UNVISITED
      rw [hk.state]
      exact hun x X0 hX0

theorem gate_connect_signal_unvisited {h : Heap} (hc : Consistent h) (hun : all_unvisited h)
    (s g : Option Nat) (k : Nat) (el_ok : Bool) :
    all_unvisited (gate_connect_signal h s g k el_ok).1 ∧
      (gate_connect_signal h s g k el_ok).1.length = h.length := by
  rcases gate_connect_signal_cases h s g k el_ok with hfail |
    ⟨sp, c, C, rfl, rfl, hC, hk, rfl⟩
  · rw [hfail]; exact ⟨hun, rfl⟩
  · obtain ⟨h1, h2, heq, hrel, _, hview, hlen, _⟩ := @gate_connect_signal_spec _ sp _ _ _ hc hC hk
    rw [heq]
    exact ⟨all_unvisited_of_unlink hun hrel hview, hlen⟩

theorem gate_connect_gate_unvisited {h : Heap} (hc : Consistent h) (hun : all_unvisited h)
    (g_out g_in : Option Nat) (k : Nat) (el_in_ok el_out_ok ok : Bool) :
    all_unvisited (gate_connect_gate h g_out g_in k el_in_ok el_out_ok ok).1 ∧
      (gate_connect_gate h g_out g_in k el_in_ok el_out_ok ok).1.length = h.length := by
  rcases gate_connect_gate_cases h g_out g_in k el_in_ok el_out_ok ok hc with hfail |
    ⟨p, c, P, C, rfl, rfl, hP, hC, hk, rfl, rfl, hr, _⟩
  · rw [hfail]; exact ⟨hun, rfl⟩
  · obtain ⟨h1, h2, P1, C0, heq, _, _, hrel, _, _, hview, hlen, _⟩ :=
      gate_connect_gate_spec ok hc hP hC hk hr
    rw [heq]
    refine ⟨all_unvisited_of_unlink ?_ hrel hview, hlen⟩
    intro x X hX
    rw [realloc_heap_lookup ok hP] at hX
    cases hX0 : lookup h x with
    | none => rw [hX0] at hX; cases hX
    | some X0 =>
      rw [hX0] at hX
      simp only [Option.map_some', Option.some.injEq] at hX
      subst hX
      have := hun x X0 hX0
      split_ifs
      · exact this
      · exact this

/-- On a consistent graph with unvisited markers and sound targets, the
evaluation succeeds with the reference values and the maximal reference depth. -/
theorem gate_evaluate_sound_run (fuel : Nat) (sig : Nat → Bool) (h : Heap)
    (gs : List (Option Nat)) (sb : List Bool)
    (hc : Consistent h) (hun : all_unvisited h) (hfuel : h.length < fuel)
    (hne : gs ≠ []) (hsound : AllSound h gs) (hlen : sb.length = gs.length) :
    ∃ result, gate_evaluate fuel sig h (some gs) (some sb) = some result ∧
      0 ≤ result.ret ∧
      (∀ (i t : Nat), gs[i]? = some (some t) →
        ∃ v, result.s[i]? = some v ∧
          ∀ n : Nat, result.ret < (n : Int) → ref_value sig h n t = some v) ∧
      (∀ t, some t ∈ gs → ∃ d : Nat, (d : Int) ≤ result.ret ∧
        ∀ n : Nat, result.ret < (n : Int) → ref_depth h n t = some d) ∧
      ∃ (t d : Nat), some t ∈ gs ∧ result.ret = (d : Int) ∧
        ∀ n : Nat, result.ret < (n : Int) → ref_depth h n t = some d := by
  obtain ⟨result, he, hres, hinv, hext, _, _, _, hcase⟩ :=
    gate_evaluate_spec fuel sig h gs sb hc.wf hun hfuel
  rcases hcase with ⟨_, hbad⟩ | ⟨_, hsucc⟩
  · rcases hbad with hnil | hns
    · exact absurd hnil hne
    · exact absurd hsound hns
  have hall : ∀ t, some t ∈ gs → ∃ d : Nat, (d : Int) ≤ result.ret ∧
      ∀ n : Nat, result.ret < (n : Int) → ref_depth h n t = some d := by
    intro t ht
    obtain ⟨G, _, hpl, href⟩ := hsucc.target hinv hext ht
    exact ⟨G.path_len, hpl, fun n hn => (href n (by omega)).2⟩
  refine ⟨result, hres, hsucc.nonneg, ?_, hall, ?_⟩
  · intro i t hi
    obtain ⟨v, d, hout, hd, href, _⟩ := hsucc.reference hinv hext i t hi
    have hilt := lt_of_getElem?_some hi
    exact ⟨v, hout (by omega), fun n hn => (href n (by omega)).1⟩
  · rcases hsucc.attained with hzero | ⟨t, G, ht, hG, hret⟩
    · obtain ⟨g0, gs1, rfl⟩ := List.exists_cons_of_ne_nil hne
      cases g0 with
      | none => exact absurd rfl (hsucc.nonnull none (List.mem_cons_self _ _))
      | some t =>
        obtain ⟨d, hd, href⟩ := hall t (List.mem_cons_self _ _)
        exact ⟨t, d, List.mem_cons_self _ _, by omega, href⟩
    · obtain ⟨G1, hG1, _, href⟩ := hsucc.target hinv hext ht
      rw [hG] at hG1
      cases hG1
      exact ⟨t, G.path_len, ht, hret, fun n hn => (href n (by omega)).2⟩

/-- C7: on a consistent graph with unvisited markers, `gate_evaluate` fails
(returns `-1`) for every target array from which a gate on a cycle of
gate-to-gate bindings is reachable; and after that call, once one slot has been
rebound by a connect operation such that the graph reachable from the new
targets is ready and acyclic, the next `gate_evaluate` succeeds with the
reference values as outputs and the maximal reference depth as path length. -/
theorem cycle_fails_then_recovers (fuel : Nat) (sig : Nat → Bool) (h : Heap)
    (gs : List (Option Nat)) (sb : List Bool)
    (hc : Consistent h) (hun : all_unvisited h) (hfuel : h.length < fuel) :
    ∃ r1, gate_evaluate fuel sig h (some gs) (some sb) = some r1 ∧
      ((∃ t x, some t ∈ gs ∧ Reach h t x ∧ OnCycle h x) → r1.ret = -1) ∧
      ∀ (h2 : Heap) (gs2 : List (Option Nat)) (sb2 : List Bool),
        ((∃ s c k el_ok, h2 = (gate_connect_signal r1.heap s c k el_ok).1) ∨
          (∃ p c k a b ok, h2 = (gate_connect_gate r1.heap p c k a b ok).1)) →
        gs2 ≠ [] → AllSound h2 gs2 → sb2.length = gs2.length →
        ∃ r2, gate_evaluate fuel sig h2 (some gs2) (some sb2) = some r2 ∧
          0 ≤ r2.ret ∧
          (∀ (i t : Nat), gs2[i]? = some (some t) →
            ∃ v, r2.s[i]? = some v ∧
              ∀ n : Nat, r2.ret < (n : Int) → ref_value sig h2 n t = some v) ∧
          (∀ t, some t ∈ gs2 → ∃ d : Nat, (d : Int) ≤ r2.ret ∧
            ∀ n : Nat, r2.ret < (n : Int) → ref_depth h2 n t = some d) ∧
          ∃ (t d : Nat), some t ∈ gs2 ∧ r2.ret = (d : Int) ∧
            ∀ n : Nat, r2.ret < (n : Int) → ref_depth h2 n t = some d := by
  obtain ⟨r1, he, hres, hinv, hext, hrel, hlen, hun1, hcase⟩ :=
    gate_evaluate_spec fuel sig h gs sb hc.wf hun hfuel
  have hc1 : Consistent r1.heap :=
    hc.congr_view (fun x => (gview_of_clean hrel x).trans (gview_of_ext hext x))
  refine ⟨r1, hres, ?_, ?_⟩
  · rintro ⟨t, x, ht, hreach, hcyc⟩
    rcases hcase with ⟨hfail, _⟩ | ⟨_, hsucc⟩
    · exact hfail
    · exfalso
      obtain ⟨t1, ht1, hsound⟩ := hsucc.all_sound hinv hext (some t) ht
      cases ht1
      exact (hsound x hreach).2 hcyc
  · intro h2 gs2 sb2 hmut hne hsound hlen2
    have hgood : Consistent h2 ∧ all_unvisited h2 ∧ h2.length = r1.heap.length := by
      rcases hmut with ⟨s, c, k, el_ok, rfl⟩ | ⟨p, c, k, a, b, ok, rfl⟩
      · exact ⟨gate_connect_signal_consistent hc1 s c k el_ok,
          gate_connect_signal_unvisited hc1 hun1 s c k el_ok⟩
      · exact ⟨gate_connect_gate_consistent hc1 p c k a b ok,
          gate_connect_gate_unvisited hc1 hun1 p c k a b ok⟩
    obtain ⟨hc2, hun2, hl2⟩ := hgood
    exact gate_evaluate_sound_run fuel sig h2 gs2 sb2 hc2 hun2 (by omega) hne hsound hlen2

/-- C7 (witness): in a graph where `g0` and `g1` feed each other and `g2` reads
`g0`, the evaluation of `[g2]` fails; after slot 0 of `g0` is rebound to a
signal the evaluation of `[g2]` succeeds. -/
theorem cycle_fails_then_recovers_witness :
    (gate_evaluate 5 example_sig cycle_heap (some [some 2]) (some [false])).map
        (fun r => r.ret) = some (-1) ∧
    (gate_evaluate 5 example_sig (gate_connect_signal cycle_heap (some 1) (some 0) 0 true).1
        (some [some 2]) (some [false])).map (fun r => (r.ret, r.s)) = some (2, [false]) ∧
    ∃ r1, gate_evaluate 5 example_sig cycle_heap (some [some 2]) (some [false]) = some r1 ∧
      ((∃ t x, some t ∈ [some 2] ∧ Reach cycle_heap t x ∧ OnCycle cycle_heap x) →
        r1.ret = -1) ∧
      ∀ (h2 : Heap) (gs2 : List (Option Nat)) (sb2 : List Bool),
        ((∃ s c k el_ok, h2 = (gate_connect_signal r1.heap s c k el_ok).1) ∨
          (∃ p c k a b ok, h2 = (gate_connect_gate r1.heap p c k a b ok).1)) →
        gs2 ≠ [] → AllSound h2 gs2 → sb2.length = gs2.length →
        ∃ r2, gate_evaluate 5 example_sig h2 (some gs2) (some sb2) = some r2 ∧
          0 ≤ r2.ret ∧
          (∀ (i t : Nat), gs2[i]? = some (some t) →
            ∃ v, r2.s[i]? = some v ∧
              ∀ n : Nat, r2.ret < (n : Int) → ref_value example_sig h2 n t = some v) ∧
          (∀ t, some t ∈ gs2 → ∃ d : Nat, (d : Int) ≤ r2.ret ∧
            ∀ n : Nat, r2.ret < (n : Int) → ref_depth h2 n t = some d) ∧
          ∃ (t d : Nat), some t ∈ gs2 ∧ r2.ret = (d : Int) ∧
            ∀ n : Nat, r2.ret < (n : Int) → ref_depth h2 n t = some d :=
  ⟨by decide, by decide,
    cycle_fails_then_recovers 5 example_sig cycle_heap [some 2] [false]
      (consistent_of_check (by decide)) (all_unvisited_of_check (by decide)) (by decide)⟩

/-! ## Claim on the rejected arguments of the connect operations -/

theorem gate_connect_gate_null_out (h : Heap) (c : Option Nat) (k : Nat) (a b ok : Bool) :
    gate_connect_gate h none c k a b ok = (h, FAILED) := by
  simp [gate_connect_gate]

theorem gate_connect_gate_null_in (h : Heap) (p : Option Nat) (k : Nat) (a b ok : Bool) :
    gate_connect_gate h p none k a b ok = (h, FAILED) := by
  cases p <;> simp [gate_connect_gate]

theorem gate_connect_gate_range (h : Heap) (p : Option Nat) {c : Nat} {C : gate} {k : Nat}
    (a b ok : Bool) (hC : lookup h c = some C) (hk : k ≥ vector_in_capacity C.in_) :
    gate_connect_gate h p (some c) k a b ok = (h, FAILED) := by
  cases p with
  | none => simp [gate_connect_gate]
  | some pp =>
    cases hP : lookup h pp with
    | none => simp [gate_connect_gate, hP]
    | some P => simp [gate_connect_gate, hP, hC, hk]

theorem gate_connect_signal_null_signal (h : Heap) (c : Option Nat) (k : Nat) (ok : Bool) :
    gate_connect_signal h none c k ok = (h, FAILED) := by
  simp [gate_connect_signal]

theorem gate_connect_signal_null_gate (h : Heap) (s : Option Nat) (k : Nat) (ok : Bool) :
    gate_connect_signal h s none k ok = (h, FAILED) := by
  cases s <;> simp [gate_connect_signal]

theorem gate_connect_signal_range (h : Heap) (s : Option Nat) {c : Nat} {C : gate} {k : Nat}
    (ok : Bool) (hC : lookup h c = some C) (hk : k ≥ vector_in_capacity C.in_) :
    gate_connect_signal h s (some c) k ok = (h, FAILED) := by
  cases s with
  | none => simp [gate_connect_signal]
  | some sp => simp [gate_connect_signal, hC, hk]

/-- C11: for a gate `c` and a slot index `k` at or above the slot count of `c`,
`gate_connect_gate(p, c, k)` and `gate_connect_signal(s, c, k)` return `-1` for
every `p` and `s`, and so do both operations on a null gate or a null signal
for every index; the graph after the failing call is the graph before it, so
every slot and every output vector (links and their order) is unchanged. -/
theorem connect_rejects_invalid_arguments (h : Heap) (c : Nat) (k : Nat)
    (hk : ∃ C, lookup h c = some C ∧ k ≥ vector_in_capacity C.in_) :
    (∀ p a b ok, gate_connect_gate h p (some c) k a b ok = (h, -1)) ∧
    (∀ s ok, gate_connect_signal h s (some c) k ok = (h, -1)) ∧
    (∀ g k1 a b ok, gate_connect_gate h none g k1 a b ok = (h, -1) ∧
      gate_connect_gate h g none k1 a b ok = (h, -1)) ∧
    (∀ x k1 ok, gate_connect_signal h none x k1 ok = (h, -1) ∧
      gate_connect_signal h x none k1 ok = (h, -1)) := by
  obtain ⟨C, hC, hge⟩ := hk
  refine ⟨fun p a b ok => gate_connect_gate_range h p a b ok hC hge,
    fun s ok => gate_connect_signal_range h s ok hC hge,
    fun g k1 a b ok => ⟨gate_connect_gate_null_out h g k1 a b ok,
      gate_connect_gate_null_in h g k1 a b ok⟩,
    fun x k1 ok => ⟨gate_connect_signal_null_signal h x k1 ok,
      gate_connect_signal_null_gate h x k1 ok⟩⟩

/-- C11 (witness): `g0` of the example has two slots; index 2 is rejected. -/
theorem connect_rejects_invalid_arguments_witness :
    (∀ p a b ok, gate_connect_gate example_heap1 p (some 0) 2 a b ok = (example_heap1, -1)) ∧
    (∀ s ok, gate_connect_signal example_heap1 s (some 0) 2 ok = (example_heap1, -1)) ∧
    (∀ g k1 a b ok, gate_connect_gate example_heap1 none g k1 a b ok = (example_heap1, -1) ∧
      gate_connect_gate example_heap1 g none k1 a b ok = (example_heap1, -1)) ∧
    (∀ x k1 ok, gate_connect_signal example_heap1 none x k1 ok = (example_heap1, -1) ∧
      gate_connect_signal example_heap1 x none k1 ok = (example_heap1, -1)) :=
  connect_rejects_invalid_arguments example_heap1 0 2 ⟨_, rfl, by decide⟩

/-! ## Input side of the connect operations -/

theorem bindings_update (X : gate) (el : element_in) (k : Nat) :
    bindings { X with in_ := vector_in_update_at_index X.in_ el k }
      = (bindings X).set k (some (el.connection_type, el.pointer)) := by
  unfold bindings vector_in_update_at_index
  simp only [List.map_set]
  rfl

theorem update_size (v : vector_in) (el : element_in) {k : Nat} (hk : k < v.data.length) :
    (vector_in_update_at_index v el k).size
      = v.size + (if v.data[k]? = some none then 1 else 0) := by
  unfold vector_in_update_at_index
  simp only
  rw [get_element_eq, List.getElem?_eq_getElem hk]
  cases hs : v.data[k] with
  | none => simp
  | some e => simp

theorem connect_rel_of_view {h0 h1 h2 : Heap} {p : Option Nat} {c k : Nat} {el : element_in}
    {C : gate} (hrel : UnlinkRel h0 h1 c k)
    (hview : ∀ x, lookup h2 x = (lookup h1 x).map (connect_upd p c k el x))
    (hC : lookup h0 c = some C)
    (hC1 : ∃ C1, lookup h1 c = some C1 ∧
      (C1.in_.data[k]? = some none ↔ C.in_.data[k]? = some none) ∧
      C1.in_.data.length = C.in_.data.length)
    (hk : k < C.in_.data.length) :
    ConnectRel h0 h2 c k (el.connection_type, el.pointer) := by
  obtain ⟨C1, hC1, hnone, hlen⟩ := hC1
  refine ⟨?_, ?_⟩
  · intro x hx
    rw [hview x, hrel.dead x hx]
    rfl
  · intro x X hX
    obtain ⟨X1, hX1, hkept⟩ := hrel.kept x X hX
    refine ⟨connect_upd p c k el x X1, by rw [hview x, hX1]; rfl, ?_, ?_, ?_, ?_⟩
    · exact hkept.kind
    · unfold connect_upd vector_in_update_at_index
      simp only
      split_ifs <;> exact hkept.capacity
    · by_cases hxc : x = c
      · subst hxc
        rw [hC] at hX
        cases hX
        rw [hC1] at hX1
        cases hX1
        have : (connect_upd p x k el x C1).in_ = vector_in_update_at_index C1.in_ el k := by
          unfold connect_upd
          simp
        rw [this, update_size _ _ (by rw [hlen]; exact hk), hkept.size]
        by_cases hn : C.in_.data[k]? = some none
        · rw [if_pos (hnone.mpr hn), if_pos ⟨rfl, hn⟩]
        · rw [if_neg (fun hh => hn (hnone.mp hh)), if_neg (fun hh => hn hh.2)]
      · have : (connect_upd p c k el x X1).in_ = X1.in_ := by
          unfold connect_upd
          simp [hxc]
        rw [this, hkept.size, if_neg (fun hh => hxc hh.1)]
        rfl
    · by_cases hxc : x = c
      · subst hxc
        have hb : bindings (connect_upd p x k el x X1)
            = (bindings X1).set k (some (el.connection_type, el.pointer)) := by
          unfold bindings connect_upd vector_in_update_at_index
          simp only [if_true, List.map_set]
          rfl
        rw [hb, hkept.bindings, if_pos rfl]
      · have : bindings (connect_upd p c k el x X1) = bindings X1 := by
          unfold bindings connect_upd
          simp [hxc]
        rw [this, hkept.bindings, if_neg hxc]

theorem gate_connect_signal_rel {h : Heap} (hc : Consistent h) {s c : Option Nat} {k : Nat}
    {ok : Bool} (hres : (gate_connect_signal h s c k ok).2 = SUCCESS) :
    ∃ sp cp C, s = some sp ∧ c = some cp ∧ lookup h cp = some C ∧
      k < vector_in_capacity C.in_ ∧
      ConnectRel h (gate_connect_signal h s c k ok).1 cp k (in_connection_type_t.SIGNAL, sp) := by
  rcases gate_connect_signal_cases h s c k ok with hfail | ⟨sp, cp, C, rfl, rfl, hC, hk, rfl⟩
  · rw [hfail] at hres
    simp [FAILED, SUCCESS] at hres
  · obtain ⟨h1, h2, heq, hrel, hC1, hview, _, _⟩ := @gate_connect_signal_spec _ sp _ _ _ hc hC hk
    refine ⟨sp, cp, C, rfl, rfl, hC, hk, ?_⟩
    rw [heq]
    have hklt : k < C.in_.data.length := by
      rw [(hc.wf cp C hC).1]
      exact hk
    exact connect_rel_of_view hrel hview hC hC1 hklt

theorem gate_connect_gate_rel {h : Heap} (hc : Consistent h) {p c : Option Nat} {k : Nat}
    {a b ok : Bool} (hres : (gate_connect_gate h p c k a b ok).2 = SUCCESS) :
    ∃ pp cp P C, p = some pp ∧ c = some cp ∧ lookup h pp = some P ∧ lookup h cp = some C ∧
      k < vector_in_capacity C.in_ ∧
      ConnectRel h (gate_connect_gate h p c k a b ok).1 cp k (in_connection_type_t.GATE, pp) := by
  rcases gate_connect_gate_cases h p c k a b ok hc with hfail |
    ⟨pp, cp, P, C, rfl, rfl, hP, hC, hk, rfl, rfl, hr, _⟩
  · rw [hfail] at hres
    simp [FAILED, SUCCESS] at hres
  · obtain ⟨h1, h2, P1, C0, heq, hC0, hi0, hrel, _, hC1, hview, _, _⟩ :=
      gate_connect_gate_spec ok hc hP hC hk hr
    refine ⟨pp, cp, P, C, rfl, rfl, hP, hC, hk, ?_⟩
    rw [heq]
    have hklt : k < C0.in_.data.length := by
      rw [hi0, (hc.wf cp C hC).1]
      exact hk
    have hC1a : ∃ C1, lookup h1 cp = some C1 ∧
        (C1.in_.data[k]? = some none ↔ C0.in_.data[k]? = some none) ∧
        C1.in_.data.length = C0.in_.data.length := by
      rw [hi0]
      exact hC1
    have hr0 := connect_rel_of_view hrel hview hC0 hC1a hklt
    have hsame : ∀ x X, lookup h x = some X → ∃ X0, lookup (realloc_heap h pp P ok) x = some X0 ∧
        X0.in_ = X.in_ ∧ X0.kind = X.kind := by
      intro x X hX
      rw [realloc_heap_lookup ok hP, hX]
      refine ⟨_, rfl, ?_, ?_⟩ <;> split_ifs <;> rfl
    refine ⟨?_, ?_⟩
    · intro x hx
      apply hr0.dead
      rw [realloc_heap_lookup ok hP, hx]
      rfl
    · intro x X hX
      obtain ⟨X0, hX0, hi, hkd⟩ := hsame x X hX
      obtain ⟨X2, hX2, hk2, hcap, hsize, hbind⟩ := hr0.kept x X0 hX0
      refine ⟨X2, hX2, hk2.trans hkd, by rw [hcap, hi], by rw [hsize, hi], ?_⟩
      rw [hbind]
      unfold bindings
      rw [hi]

/-! ## Claim on `gate_fan_in` -/

theorem Step.keeps_consistent {h h1 : Heap} (hs : Step h h1) (hc : Consistent h) : Consistent h1 := by
  cases hs with
  | new kind n a b c => exact gate_new_consistent hc kind n a b c
  | connect_gate p c k a b ok => exact gate_connect_gate_consistent hc p c k a b ok
  | connect_signal s c k ok => exact gate_connect_signal_consistent hc s c k ok
  | delete g => exact gate_delete_consistent hc g

theorem Reachable.consistent_of {h : Heap} (hr : Reachable h) : Consistent h := by
  induction hr with
  | empty => exact consistent_nil
  | step h h1 _ hs ih => exact hs.keeps_consistent ih

theorem gate_connect_gate_failed {h : Heap} (hc : Consistent h) {p c : Option Nat} {k : Nat}
    {a b ok : Bool} (hres : (gate_connect_gate h p c k a b ok).2 ≠ SUCCESS) :
    (gate_connect_gate h p c k a b ok).1 = h := by
  rcases gate_connect_gate_cases h p c k a b ok hc with hfail | ⟨_, _, _, _, _, _, _, _, _, _, _, _, hs⟩
  · rw [hfail]
  · exact absurd hs hres

theorem gate_connect_signal_failed {h : Heap} (hc : Consistent h) {s c : Option Nat} {k : Nat}
    {ok : Bool} (hres : (gate_connect_signal h s c k ok).2 ≠ SUCCESS) :
    (gate_connect_signal h s c k ok).1 = h := by
  rcases gate_connect_signal_cases h s c k ok with hfail | ⟨sp, cp, C, rfl, rfl, hC, hk, rfl⟩
  · rw [hfail]
  · obtain ⟨h1, h2, heq, _⟩ := @gate_connect_signal_spec _ sp _ _ _ hc hC hk
    rw [heq] at hres
    exact absurd rfl hres

theorem gate_delete_dead {h : Heap} {p : Nat} (hp : lookup h p = none) :
    gate_delete h (some p) = h := by
  simp [gate_delete, hp]

theorem Step.keeps_capacity {h h1 : Heap} (hs : Step h h1) (hc : Consistent h) {g : Nat} {G G1 : gate}
    (hG : lookup h g = some G) (hG1 : lookup h1 g = some G1) :
    vector_in_capacity G1.in_ = vector_in_capacity G.in_ := by
  unfold vector_in_capacity
  cases hs with
  | new kind n a b c =>
    have : lookup (gate_new h kind n a b c).1 g = some G := by
      unfold gate_new
      split_ifs
      · exact hG
      · exact hG
      · exact hG
      · exact lookup_append_old _ hG
    rw [this] at hG1
    cases hG1
    rfl
  | connect_gate p c k a b ok =>
    by_cases hres : (gate_connect_gate h p c k a b ok).2 = SUCCESS
    · obtain ⟨_, cp, _, _, _, _, _, _, _, hrel⟩ := gate_connect_gate_rel hc hres
      obtain ⟨G2, hG2, _, hcap, _⟩ := hrel.kept g G hG
      rw [hG1] at hG2
      cases hG2
      exact hcap
    · rw [gate_connect_gate_failed hc hres, hG] at hG1
      cases hG1
      rfl
  | connect_signal s c k ok =>
    by_cases hres : (gate_connect_signal h s c k ok).2 = SUCCESS
    · obtain ⟨_, cp, _, _, _, _, _, hrel⟩ := gate_connect_signal_rel hc hres
      obtain ⟨G2, hG2, _, hcap, _⟩ := hrel.kept g G hG
      rw [hG1] at hG2
      cases hG2
      exact hcap
    · rw [gate_connect_signal_failed hc hres, hG] at hG1
      cases hG1
      rfl
  | delete d =>
    cases d with
    | none =>
      have : gate_delete h none = h := rfl
      rw [this, hG] at hG1
      cases hG1
      rfl
    | some dp =>
      cases hD : lookup h dp with
      | none =>
        rw [gate_delete_dead hD, hG] at hG1
        cases hG1
        rfl
      | some D =>
        obtain ⟨_, hrel⟩ := gate_delete_spec hc hD
        by_cases hgd : g = dp
        · subst hgd
          rw [hrel.gone] at hG1
          cases hG1
        · obtain ⟨Gf, hGf, _, _, _, _, hcap, _⟩ := hrel.kept g G hgd hG
          rw [hG1] at hGf
          cases hGf
          exact hcap

theorem bound_count_le (v : vector_in) : bound_count v ≤ v.data.length := by
  unfold bound_count
  exact List.countP_le_length _

theorem count_binding_dead {h : Heap} (hc : Consistent h) {g p : Nat} {G : gate}
    (hG : lookup h g = some G) (hp : lookup h p = none) :
    (bindings G).count (some (in_connection_type_t.GATE, p)) = 0 := by
  rw [List.count_eq_zero]
  intro hmem
  obtain ⟨k, hk⟩ := List.mem_iff_getElem?.mp hmem
  obtain ⟨e, he, hg, hpe⟩ := (bound_iff_binding G k p).mpr hk
  obtain ⟨P, hP, _⟩ := hc.slot_link g G k e hG he hg
  rw [hpe, hp] at hP
  cases hP

/-- C12: in every state reachable from the empty graph by `gate_new`, the connect
operations and `gate_delete`, for every live gate `g`: `gate_fan_in(g)` is the
number of bound slots of `g` and is at most the slot count; no operation changes
the slot count of `g`; a successful connect operation on slot `k` of `g` raises
the fan-in by one when the slot was empty and leaves it unchanged otherwise; a
connect operation on another gate leaves it unchanged; the deletion of another
gate `p` lowers it by the number of slots of `g` that were bound to `p`. -/
theorem gate_fan_in_counts_bound_slots (h : Heap) (g : Nat) (hr : Reachable h) :
    ∀ G, lookup h g = some G →
      gate_fan_in h (some g) = (bound_count G.in_ : Int) ∧
      bound_count G.in_ ≤ vector_in_capacity G.in_ ∧
      (∀ h1 G1, Step h h1 → lookup h1 g = some G1 →
        vector_in_capacity G1.in_ = vector_in_capacity G.in_) ∧
      (∀ s c k ok, (gate_connect_signal h s (some c) k ok).2 = SUCCESS →
        gate_fan_in (gate_connect_signal h s (some c) k ok).1 (some g)
          = gate_fan_in h (some g) + (if c = g ∧ G.in_.data[k]? = some none then 1 else 0)) ∧
      (∀ p c k a b ok, (gate_connect_gate h p (some c) k a b ok).2 = SUCCESS →
        gate_fan_in (gate_connect_gate h p (some c) k a b ok).1 (some g)
          = gate_fan_in h (some g) + (if c = g ∧ G.in_.data[k]? = some none then 1 else 0)) ∧
      (∀ p, p ≠ g →
        gate_fan_in (gate_delete h (some p)) (some g)
          + ((bindings G).count (some (in_connection_type_t.GATE, p)) : Int)
          = gate_fan_in h (some g)) := by
  intro G hG
  have hc := hr.consistent_of
  have hwf := hc.wf g G hG
  refine ⟨?_, ?_, ?_, ?_, ?_, ?_⟩
  · rw [gate_fan_in_eq hG, hwf.2]
  · unfold vector_in_capacity
    rw [← hwf.1]
    exact bound_count_le _
  · intro h1 G1 hs hG1
    exact hs.keeps_capacity hc hG hG1
  · intro s c k ok hres
    obtain ⟨sp, cp, C, _, hcp, _, _, hrel⟩ := gate_connect_signal_rel hc hres
    cases hcp
    obtain ⟨G2, hG2, _, _, hsize, _⟩ := hrel.kept g G hG
    rw [gate_fan_in_eq hG2, gate_fan_in_eq hG, hsize]
    by_cases hcond : g = c ∧ G.in_.data[k]? = some none
    · rw [if_pos hcond, if_pos ⟨hcond.1.symm, hcond.2⟩]
      simp
    · rw [if_neg hcond, if_neg (fun hh => hcond ⟨hh.1.symm, hh.2⟩)]
      simp
  · intro p c k a b ok hres
    obtain ⟨pp, cp, P, C, _, hcp, _, _, _, hrel⟩ := gate_connect_gate_rel hc hres
    cases hcp
    obtain ⟨G2, hG2, _, _, hsize, _⟩ := hrel.kept g G hG
    rw [gate_fan_in_eq hG2, gate_fan_in_eq hG, hsize]
    by_cases hcond : g = c ∧ G.in_.data[k]? = some none
    · rw [if_pos hcond, if_pos ⟨hcond.1.symm, hcond.2⟩]
      simp
    · rw [if_neg hcond, if_neg (fun hh => hcond ⟨hh.1.symm, hh.2⟩)]
      simp
  · intro p hpg
    cases hP : lookup h p with
    | none =>
      rw [gate_delete_dead hP, count_binding_dead hc hG hP]
      simp
    | some P =>
      obtain ⟨_, hrel⟩ := gate_delete_spec hc hP
      obtain ⟨Gf, hGf, _, _, _, _, _, _, _, hsize, _⟩ := hrel.kept g G (Ne.symm hpg) hG
      rw [gate_fan_in_eq hGf, gate_fan_in_eq hG, ← hsize]
      simp

theorem reachable_half_bound : Reachable half_bound_heap :=
  Reachable.step _ _ (Reachable.step _ _ Reachable.empty
    (Step.new [] gate_kind_t.NAND 2 true true true))
    (Step.connect_signal _ (some 0) (some 0) 0 true)

/-- C12 (witness): a gate created with two slots of which slot 0 was bound to a
signal has fan-in 1; binding slot 1 raises it to 2 and rebinding slot 0 leaves
it at 1. -/
theorem gate_fan_in_counts_bound_slots_witness :
    gate_fan_in half_bound_heap (some 0) = 1 ∧
    gate_fan_in (gate_connect_signal half_bound_heap (some 1) (some 0) 1 true).1 (some 0) = 2 ∧
    gate_fan_in (gate_connect_signal half_bound_heap (some 1) (some 0) 0 true).1 (some 0) = 1 ∧
    (lookup half_bound_heap 0).isSome = true ∧
    ∀ G, lookup half_bound_heap 0 = some G →
      gate_fan_in half_bound_heap (some 0) = (bound_count G.in_ : Int) ∧
      bound_count G.in_ ≤ vector_in_capacity G.in_ ∧
      (∀ h1 G1, Step half_bound_heap h1 → lookup h1 0 = some G1 →
        vector_in_capacity G1.in_ = vector_in_capacity G.in_) ∧
      (∀ s c k ok, (gate_connect_signal half_bound_heap s (some c) k ok).2 = SUCCESS →
        gate_fan_in (gate_connect_signal half_bound_heap s (some c) k ok).1 (some 0)
          = gate_fan_in half_bound_heap (some 0)
            + (if c = 0 ∧ G.in_.data[k]? = some none then 1 else 0)) ∧
      (∀ p c k a b ok, (gate_connect_gate half_bound_heap p (some c) k a b ok).2 = SUCCESS →
        gate_fan_in (gate_connect_gate half_bound_heap p (some c) k a b ok).1 (some 0)
          = gate_fan_in half_bound_heap (some 0)
            + (if c = 0 ∧ G.in_.data[k]? = some none then 1 else 0)) ∧
      (∀ p, p ≠ 0 →
        gate_fan_in (gate_delete half_bound_heap (some p)) (some 0)
          + ((bindings G).count (some (in_connection_type_t.GATE, p)) : Int)
          = gate_fan_in half_bound_heap (some 0)) :=
  ⟨by decide, by decide, by decide, by decide,
    gate_fan_in_counts_bound_slots half_bound_heap 0 reachable_half_bound⟩

/-! ## Claim on `gate_input` -/

theorem gate_input_eq {h : Heap} {x : Nat} {X : gate} (hX : lookup h x = some X) (k : Nat) :
    gate_input h (some x) k = input_result X.in_.capacity (bindings X) k := by
  unfold gate_input input_result bindings vector_in_capacity
  simp only [Option.some_bind, hX]
  split_ifs with hk
  · rfl
  · rw [get_element_eq, List.getElem?_map]
    cases hs : X.in_.data[k]? with
    | none => rfl
    | some s =>
      cases s with
      | none => rfl
      | some e => rfl

theorem gate_input_dead {h : Heap} {x : Nat} (hX : lookup h x = none) (k : Nat) :
    gate_input h (some x) k = (none, some EINVAL) := by
  simp [gate_input, hX]

theorem input_law_of_wf {h : Heap} (hwf : ∀ g G, lookup h g = some G → wf_in G) :
    InputLaw h := by
  intro x X k hX
  have hlen := (hwf x X hX).1
  refine ⟨?_, ?_⟩
  · unfold gate_input vector_in_capacity
    simp only [Option.some_bind, hX]
    split_ifs with hk
    · simp [EINVAL]
      intro hlt
      omega
    · have hklt : k < X.in_.data.length := by omega
      rw [get_element_eq, List.getElem?_eq_getElem hklt]
      cases hs : X.in_.data[k] with
      | none => simp; omega
      | some e => simp
  · intro hk
    unfold gate_input
    simp [hX, hk]

theorem ConnectRel.input {h h2 : Heap} {c k : Nat} {b : in_connection_type_t × Nat}
    (hrel : ConnectRel h h2 c k b) {C : gate} (hC : lookup h c = some C)
    (hk : k < C.in_.data.length) (hcap : C.in_.data.length = C.in_.capacity) :
    gate_input h2 (some c) k = (some b, none) ∧
    ∀ x j, (x, j) ≠ (c, k) → gate_input h2 (some x) j = gate_input h (some x) j := by
  refine ⟨?_, ?_⟩
  · obtain ⟨C2, hC2, _, hcap2, _, hbind⟩ := hrel.kept c C hC
    rw [gate_input_eq hC2, hcap2, hbind, if_pos rfl]
    unfold input_result
    rw [if_neg (by omega), List.getElem?_set_self (by unfold bindings; simpa using hk)]
    rfl
  · intro x j hne
    cases hX : lookup h x with
    | none => rw [gate_input_dead hX, gate_input_dead (hrel.dead x hX)]
    | some X =>
      obtain ⟨X2, hX2, _, hcap2, _, hbind⟩ := hrel.kept x X hX
      rw [gate_input_eq hX2, gate_input_eq hX, hcap2, hbind]
      by_cases hxc : x = c
      · subst hxc
        rw [if_pos rfl]
        have hjk : k ≠ j := fun hh => hne (by rw [hh])
        unfold input_result
        rw [List.getElem?_set_ne hjk]
      · rw [if_neg hxc]

/-- C13: after a successful `gate_connect_signal(s, c, k)` on a consistent graph,
`gate_input(c, k)` returns the signal `s` and `gate_input` is unchanged on every
other pair of gate and slot; before and after the call, `gate_input` returns the
explicit empty result exactly on the in-range unbound slots and fails on every
out-of-range index. -/
theorem gate_connect_signal_input (h : Heap) (s c k : Nat) (ok : Bool) (hc : Consistent h)
    (hslot : ∃ C, lookup h c = some C ∧ k < vector_in_capacity C.in_)
    (hres : (gate_connect_signal h (some s) (some c) k ok).2 = SUCCESS) :
    gate_input (gate_connect_signal h (some s) (some c) k ok).1 (some c) k
      = (some (in_connection_type_t.SIGNAL, s), none) ∧
    (∀ x j, (x, j) ≠ (c, k) →
      gate_input (gate_connect_signal h (some s) (some c) k ok).1 (some x) j
        = gate_input h (some x) j) ∧
    InputLaw h ∧ InputLaw (gate_connect_signal h (some s) (some c) k ok).1 := by
  obtain ⟨C, hC, hk⟩ := hslot
  obtain ⟨sp, cp, C1, hs, hcp, hC1, _, hrel⟩ := gate_connect_signal_rel hc hres
  cases hs
  cases hcp
  have hwf := hc.wf c C hC
  have hin := hrel.input hC (by rw [hwf.1]; exact hk) hwf.1
  exact ⟨hin.1, hin.2, input_law_of_wf hc.wf,
    input_law_of_wf (gate_connect_signal_consistent hc (some s) (some c) k ok).wf⟩

/-- C13 (witness): slot 1 of the half-bound gate is unbound and reads as empty;
after it is bound to the signal at address 1 it reads as that signal, slot 0
still reads as the signal at address 0, and index 2 fails. -/
theorem gate_connect_signal_input_witness :
    gate_input half_bound_heap (some 0) 1 = (none, some 0) ∧
    gate_input half_bound_heap (some 0) 2 = (none, some EINVAL) ∧
    gate_input (gate_connect_signal half_bound_heap (some 1) (some 0) 1 true).1 (some 0) 0
      = (some (in_connection_type_t.SIGNAL, 0), none) ∧
    (gate_input (gate_connect_signal half_bound_heap (some 1) (some 0) 1 true).1 (some 0) 1
      = (some (in_connection_type_t.SIGNAL, 1), none) ∧
    (∀ x j, (x, j) ≠ (0, 1) →
      gate_input (gate_connect_signal half_bound_heap (some 1) (some 0) 1 true).1 (some x) j
        = gate_input half_bound_heap (some x) j) ∧
    InputLaw half_bound_heap ∧
    InputLaw (gate_connect_signal half_bound_heap (some 1) (some 0) 1 true).1) :=
  ⟨by decide, by decide, by decide,
    gate_connect_signal_input half_bound_heap 1 0 1 true (consistent_of_check (by decide))
      ⟨_, rfl, by decide⟩ (by decide)⟩

/-! ## Claim on `gate_output` -/

theorem gate_output_in_range {h : Heap} {g : Nat} {G : gate} (hG : lookup h g = some G)
    {k : Int} (h0 : 0 ≤ k) (hk : k < gate_fan_out h (some g)) :
    ∃ l, G.out.data[k.toNat]? = some l ∧ gate_output h (some g) k = some l.pointer := by
  rw [gate_fan_out_eq hG] at hk
  have hlt : k.toNat < G.out.data.length := by omega
  refine ⟨G.out.data[k.toNat], List.getElem?_eq_getElem hlt, ?_⟩
  unfold gate_output
  simp only [Option.some_bind, hG]
  rw [gate_fan_out_eq hG, if_neg (by omega)]
  unfold get_element_out_at_index
  rw [List.getElem?_eq_getElem hlt]
  rfl

theorem gate_output_out_of_range (h : Heap) (g : Option Nat) {k : Int}
    (hk : k < 0 ∨ k ≥ gate_fan_out h g) : gate_output h g k = none := by
  unfold gate_output
  cases hb : g.bind (lookup h) with
  | none => rfl
  | some G => simp only [if_pos hk]

/-- C14: for a gate `g` of a consistent graph and every integer `k`,
`gate_output(g, k)` returns a gate exactly when `0 ≤ k < gate_fan_out(g)`; the
gate returned is the consumer recorded in the `k`-th output link of `g`, and the
slot recorded in that link is a slot of the consumer bound to `g`; for `k < 0` or
`k ≥ gate_fan_out(g)` the result is none. -/
theorem gate_output_consumer (h : Heap) (g : Nat) (k : Int) (hc : Consistent h)
    (hlive : ∃ G, lookup h g = some G) :
    ((∃ c, gate_output h (some g) k = some c) ↔ (0 ≤ k ∧ k < gate_fan_out h (some g))) ∧
    (∀ c, gate_output h (some g) k = some c →
      ∃ G l, lookup h g = some G ∧ G.out.data[k.toNat]? = some l ∧ l.pointer = c ∧
        bound_to h c l.idx g) ∧
    ((k < 0 ∨ k ≥ gate_fan_out h (some g)) → gate_output h (some g) k = none) := by
  obtain ⟨G, hG⟩ := hlive
  have hout := gate_output_out_of_range h (some g) (k := k)
  refine ⟨⟨?_, ?_⟩, ?_, hout⟩
  · rintro ⟨c, hcq⟩
    by_contra hn
    have : k < 0 ∨ k ≥ gate_fan_out h (some g) := by omega
    rw [hout this] at hcq
    cases hcq
  · rintro ⟨h0, hk⟩
    obtain ⟨l, _, hl⟩ := gate_output_in_range hG h0 hk
    exact ⟨_, hl⟩
  · intro c hcq
    have hr : 0 ≤ k ∧ k < gate_fan_out h (some g) := by
      by_contra hn
      have : k < 0 ∨ k ≥ gate_fan_out h (some g) := by omega
      rw [hout this] at hcq
      cases hcq
    obtain ⟨l, hl, hres⟩ := gate_output_in_range hG hr.1 hr.2
    rw [hres] at hcq
    cases hcq
    obtain ⟨C, hC, hslot⟩ := hc.link_slot g G k.toNat l.pointer l.idx hG hl
    exact ⟨G, l, hG, hl, rfl, C, _, hC, hslot, rfl, rfl⟩

/-- C14 (witness): in the graph of `example.c` the gate `g1` feeds slot 0 of `g0`
and slot 0 of `g4`; `gate_output(g1, 0)` is `g0`, `gate_output(g1, 1)` is `g4`, and
indices `-1` and `2` give none. -/
theorem gate_output_consumer_witness :
    gate_output example_heap2 (some 1) 0 = some 0 ∧
    gate_output example_heap2 (some 1) 1 = some 3 ∧
    gate_output example_heap2 (some 1) (-1) = none ∧
    gate_output example_heap2 (some 1) 2 = none ∧
    (((∃ c, gate_output example_heap2 (some 1) 1 = some c) ↔
      (0 ≤ (1 : Int) ∧ 1 < gate_fan_out example_heap2 (some 1))) ∧
    (∀ c, gate_output example_heap2 (some 1) 1 = some c →
      ∃ G l, lookup example_heap2 1 = some G ∧ G.out.data[(1 : Int).toNat]? = some l ∧
        l.pointer = c ∧ bound_to example_heap2 c l.idx 1) ∧
    (((1 : Int) < 0 ∨ 1 ≥ gate_fan_out example_heap2 (some 1)) →
      gate_output example_heap2 (some 1) 1 = none)) :=
  ⟨by decide, by decide, by decide, by decide,
    gate_output_consumer example_heap2 1 1 (consistent_of_check (by decide)) ⟨_, rfl⟩⟩

/-! ## Claim on the growth policy of `vector_out_realloc` -/

/-- C15 (counterexample): the output vector of `g0` in the drained graph is empty
with capacity 4, so its size is at most one quarter of its capacity, and a
successful `vector_out_realloc` leaves the capacity at 4 instead of halving it. -/
theorem vector_out_realloc_keeps_empty :
    (lookup drained_heap 0).map (fun G => G.out) = some (vector_out.mk [] 4) ∧
    vector_out_size (vector_out.mk [] 4) ≤ (vector_out.mk [] 4).capacity ∧
    4 * vector_out_size (vector_out.mk [] 4) ≤ (vector_out.mk [] 4).capacity ∧
    vector_out_realloc (vector_out.mk [] 4) true = (vector_out.mk [] 4, 0) ∧
    (vector_out_realloc (vector_out.mk [] 4) true).1.capacity
      ≠ (vector_out.mk [] 4).capacity / 2 := by
  decide

/-- C15 (amended): for an output vector with size at most its capacity,
`vector_out_realloc` leaves an empty vector unchanged whatever its capacity; on
a non-empty vector a successful call doubles the capacity when the vector is
full, halves it when the size is at most one quarter of the capacity, and
changes nothing otherwise; a failed reallocation changes nothing; the links are
never changed, the size stays at most the capacity, and a capacity of at least
1 stays at least 1. -/
theorem vector_out_realloc_policy (vec : vector_out) (ok : Bool)
    (hle : vector_out_size vec ≤ vec.capacity) :
    (vector_out_size vec = 0 → vector_out_realloc vec ok = (vec, 0)) ∧
    (0 < vector_out_size vec → vector_out_size vec = vec.capacity →
      vector_out_realloc vec true = ({ vec with capacity := vec.capacity * 2 }, 0)) ∧
    (0 < vector_out_size vec → 4 * vector_out_size vec ≤ vec.capacity →
      vector_out_realloc vec true = ({ vec with capacity := vec.capacity / 2 }, 0)) ∧
    (0 < vector_out_size vec → vector_out_size vec < vec.capacity →
      vec.capacity < 4 * vector_out_size vec → vector_out_realloc vec ok = (vec, 0)) ∧
    (vector_out_realloc vec false).1 = vec ∧
    (vector_out_realloc vec ok).1.data = vec.data ∧
    vector_out_size (vector_out_realloc vec ok).1 ≤ (vector_out_realloc vec ok).1.capacity ∧
    (1 ≤ vec.capacity → 1 ≤ (vector_out_realloc vec ok).1.capacity) := by
  refine ⟨?_, ?_, ?_, ?_, ?_, ?_, ?_, ?_⟩
  · intro h0
    simp [vector_out_realloc, h0]
  · intro hpos hfull
    have hne : ¬ vector_out_size vec = 0 := by omega
    simp only [vector_out_realloc, if_neg hne, if_pos hfull.symm, if_true]
  · intro hpos hq
    have hne : ¬ vector_out_size vec = 0 := by omega
    have hnf : ¬ vec.capacity = vector_out_size vec := by omega
    have hq1 : vec.capacity ≥ 4 * vector_out_size vec := hq
    simp only [vector_out_realloc, if_neg hne, if_neg hnf, if_pos hq1, if_true]
  · intro hpos hlt hq
    have hne : ¬ vector_out_size vec = 0 := by omega
    have hnf : ¬ vec.capacity = vector_out_size vec := by omega
    have hnq : ¬ vec.capacity ≥ 4 * vector_out_size vec := by omega
    simp only [vector_out_realloc, if_neg hne, if_neg hnf, if_neg hnq]
  · unfold vector_out_realloc
    split_ifs <;> first | rfl | contradiction
  · exact vector_out_realloc_data vec ok
  · unfold vector_out_realloc
    split_ifs <;> simp only [vector_out_size] at * <;> omega
  · intro h1
    unfold vector_out_realloc
    split_ifs <;> simp only [vector_out_size] at * <;> omega

/-- C15 (witness): a full vector with one link and capacity 1 grows to capacity
2, and a vector with one link and capacity 4 shrinks to capacity 2. -/
theorem vector_out_realloc_policy_witness :
    vector_out_realloc (vector_out.mk [element_out.mk 1 0] 1) true
      = (vector_out.mk [element_out.mk 1 0] 2, 0) ∧
    vector_out_realloc (vector_out.mk [element_out.mk 1 0] 4) true
      = (vector_out.mk [element_out.mk 1 0] 2, 0) ∧
    ((vector_out_size (vector_out.mk [element_out.mk 1 0] 4) = 0 →
      vector_out_realloc (vector_out.mk [element_out.mk 1 0] 4) true
        = (vector_out.mk [element_out.mk 1 0] 4, 0)) ∧
    (0 < vector_out_size (vector_out.mk [element_out.mk 1 0] 4) →
      vector_out_size (vector_out.mk [element_out.mk 1 0] 4)
        = (vector_out.mk [element_out.mk 1 0] 4).capacity →
      vector_out_realloc (vector_out.mk [element_out.mk 1 0] 4) true
        = ({ vector_out.mk [element_out.mk 1 0] 4 with
            capacity := (vector_out.mk [element_out.mk 1 0] 4).capacity * 2 }, 0)) ∧
    (0 < vector_out_size (vector_out.mk [element_out.mk 1 0] 4) →
      4 * vector_out_size (vector_out.mk [element_out.mk 1 0] 4)
        ≤ (vector_out.mk [element_out.mk 1 0] 4).capacity →
      vector_out_realloc (vector_out.mk [element_out.mk 1 0] 4) true
        = ({ vector_out.mk [element_out.mk 1 0] 4 with
            capacity := (vector_out.mk [element_out.mk 1 0] 4).capacity / 2 }, 0)) ∧
    (0 < vector_out_size (vector_out.mk [element_out.mk 1 0] 4) →
      vector_out_size (vector_out.mk [element_out.mk 1 0] 4)
        < (vector_out.mk [element_out.mk 1 0] 4).capacity →
      (vector_out.mk [element_out.mk 1 0] 4).capacity
        < 4 * vector_out_size (vector_out.mk [element_out.mk 1 0] 4) →
      vector_out_realloc (vector_out.mk [element_out.mk 1 0] 4) true
        = (vector_out.mk [element_out.mk 1 0] 4, 0)) ∧
    (vector_out_realloc (vector_out.mk [element_out.mk 1 0] 4) false).1
      = vector_out.mk [element_out.mk 1 0] 4 ∧
    (vector_out_realloc (vector_out.mk [element_out.mk 1 0] 4) true).1.data
      = (vector_out.mk [element_out.mk 1 0] 4).data ∧
    vector_out_size (vector_out_realloc (vector_out.mk [element_out.mk 1 0] 4) true).1
      ≤ (vector_out_realloc (vector_out.mk [element_out.mk 1 0] 4) true).1.capacity ∧
    (1 ≤ (vector_out.mk [element_out.mk 1 0] 4).capacity →
      1 ≤ (vector_out_realloc (vector_out.mk [element_out.mk 1 0] 4) true).1.capacity)) :=
  ⟨by decide, by decide,
    vector_out_realloc_policy (vector_out.mk [element_out.mk 1 0] 4) true (by decide)⟩

/-! ## Claim on `vector_out_delete_element` -/

theorem removed_last {data : List element_out} {j : Nat} (hj : j = data.length - 1)
    (hne : data ≠ []) : removed data j = data.take (data.length - 1) := by
  have hpos : 0 < data.length := List.length_pos.mpr hne
  have hlast : ∃ last, data[data.length - 1]? = some last :=
    ⟨_, List.getElem?_eq_getElem (by omega)⟩
  obtain ⟨last, hlast⟩ := hlast
  apply List.ext_getElem?
  intro o
  rw [removed_get hlast, List.getElem?_take]
  by_cases ho : o < data.length - 1
  · rw [if_pos ho, if_pos ho, if_neg (by omega)]
  · rw [if_neg ho, if_neg ho]

theorem vector_out_delete_element_spec {h : Heap} {p j : Nat} {P : gate} {l : element_out}
    (hc : Consistent h) (hP : lookup h p = some P) (hl : P.out.data[j]? = some l) :
    SwapRemoved h (vector_out_delete_element h p j) p j P l := by
  obtain ⟨c, k⟩ := l
  obtain ⟨C, hC, hslot⟩ := hc.link_slot p P j c k hP hl
  obtain ⟨Q, last, hQ, _, hlast, ⟨Cl, hCl, hidx⟩, hview, hce⟩ :=
    (CE.of_consistent hc).delete (fun hf => hf) hC hslot rfl
  simp only at hQ hlast hview hce
  rw [hP] at hQ
  cases hQ
  have hjlt := lt_of_getElem?_some hl
  have hne : P.out.data ≠ [] := by
    intro hnil
    rw [hnil] at hjlt
    simp at hjlt
  have hP1 : lookup (vector_out_delete_element h p j) p
      = some (delete_upd p j last (removed P.out.data j) p P) := by
    rw [hview p, hP]; rfl
  have hP1d : (delete_upd p j last (removed P.out.data j) p P).out.data
      = removed P.out.data j := by
    unfold delete_upd
    simp
  obtain ⟨Cs, hCs, hsl⟩ := hc.link_slot p P (P.out.data.length - 1) last.pointer last.idx hP
    hlast
  have hkept : ∀ x X, lookup h x = some X →
      ∃ X1, lookup (vector_out_delete_element h p j) x = some X1 ∧ Kept X X1 := by
    intro x X hX
    refine ⟨_, by rw [hview x, hX]; rfl, ?_⟩
    refine @delete_upd_kept _ _ _ _ _ _ (element_in.mk in_connection_type_t.GATE
      p (P.out.data.length - 1)) ?_
    intro hx
    subst hx
    rw [hCs] at hX
    cases hX
    exact ⟨hsl, rfl, rfl⟩
  refine ⟨?_, ⟨_, hP1, ?_, ?_, ?_, ?_⟩, ⟨last, _, hlast, by rw [hview last.pointer, hCl]; rfl,
    ?_⟩, ?_, hkept⟩
  · rw [gate_fan_out_eq hP1, gate_fan_out_eq hP, hP1d, removed_length hne]
    have : 0 < P.out.data.length := by omega
    omega
  · rw [hP1d]
    have hnd := (CE.of_consistent hc).nodup hP
    have hnd2 := hce.nodup hP1
    rw [hP1d] at hnd2
    exact removed_perm hnd hnd2 hl
  · intro i hi hij
    rw [hP1d, removed_get hlast, if_pos hi, if_neg hij]
  · intro hj
    rw [hP1d, removed_get hlast, if_pos hj, if_pos rfl, hlast]
  · intro hj
    rw [hP1d]
    exact removed_last hj hne
  · have : (delete_upd p j last (removed P.out.data j) last.pointer Cl).in_
        = redirect Cl.in_ last.idx p j := by
      unfold delete_upd
      simp
    rw [this, redirect_get _ _ _ _ _ hidx, if_pos rfl]
  · intro x X hxp hX
    refine ⟨_, by rw [hview x, hX]; rfl, ?_⟩
    unfold delete_upd
    simp [hxp]

/-- C16: on a consistent graph, for a link `l` at position `j` of the output
vector of a gate `p`, `vector_out_delete_element` decreases the size by exactly
one, removes exactly the pair of `l` from the multiset of links, leaves every
link other than `l` and the last one at its position, places the former last
link at position `j`, and redirects the back-reference of the slot fed by the
former last link to position `j`; when `l` is itself the last link the remaining
links are unchanged. -/
theorem vector_out_delete_element_swaps_last (h : Heap) (p j : Nat) (hc : Consistent h)
    (hlink : ∃ P l, lookup h p = some P ∧ P.out.data[j]? = some l) :
    ∃ P l, lookup h p = some P ∧ P.out.data[j]? = some l ∧
      SwapRemoved h (vector_out_delete_element h p j) p j P l := by
  obtain ⟨P, l, hP, hl⟩ := hlink
  exact ⟨P, l, hP, hl, vector_out_delete_element_spec hc hP hl⟩

/-- C16 (witness): in the graph of `example.c` the output vector of `g1` holds
the links `(g0, 0)` and `(g4, 0)`; removing the first moves `(g4, 0)` to position
0 and redirects slot 0 of `g4`; removing the last leaves `(g0, 0)` alone. -/
theorem vector_out_delete_element_swaps_last_witness :
    (lookup example_heap2 1).map (fun G => G.out.data)
      = some [element_out.mk 0 0, element_out.mk 3 0] ∧
    (lookup (vector_out_delete_element example_heap2 1 0) 1).map (fun G => G.out.data)
      = some [element_out.mk 3 0] ∧
    (lookup (vector_out_delete_element example_heap2 1 0) 3).map (fun G => G.in_.data[0]?)
      = some (some (some (element_in.mk in_connection_type_t.GATE 1 0))) ∧
    (lookup (vector_out_delete_element example_heap2 1 1) 1).map (fun G => G.out.data)
      = some [element_out.mk 0 0] ∧
    ∃ P l, lookup example_heap2 1 = some P ∧ P.out.data[0]? = some l ∧
      SwapRemoved example_heap2 (vector_out_delete_element example_heap2 1 0) 1 0 P l :=
  ⟨by decide, by decide, by decide, by decide,
    vector_out_delete_element_swaps_last example_heap2 1 0 (consistent_of_check (by decide))
      ⟨_, _, rfl, rfl⟩⟩

/-! ## Claim on termination -/

theorem MarksKept.refl_marks (h : Heap) : MarksKept h h := fun _ hm => hm

theorem MarksKept.trans_marks {h h1 h2 : Heap} (h01 : MarksKept h h1) (h12 : MarksKept h1 h2) :
    MarksKept h h2 := fun x hm => h12 x (h01 x hm)

theorem MarksKept.store_marks {h : Heap} {g : Nat} {G : gate} (G1 : gate)
    (hg : lookup h g = some G) (hs : G.state ≠ state.UNVISITED → G1.state ≠ state.UNVISITED) :
    MarksKept h (store h g G1) := by
  rintro x ⟨X, hX, hm⟩
  by_cases hgx : g = x
  · subst hgx
    rw [hg] at hX
    cases hX
    exact ⟨G1, lookup_store_eq G1 (lookup_lt hg), hs hm⟩
  · exact ⟨X, by rw [lookup_store_ne h G1 hgx]; exact hX, hm⟩

theorem eval_step_marks (rec : Heap → Nat → Option (Heap × res_with_code)) (sig : Nat → Bool)
    (hrec : ∀ h p h1 r, rec h p = some (h1, r) → MarksKept h h1)
    {g i : Nat} {h : Heap} {rv : Bool} {res : LoopRes}
    (hres : eval_step rec sig g i h rv = some res) : MarksKept h res.heap := by
  cases hg : lookup h g with
  | none => rw [eval_step_dead rec sig hg] at hres; cases hres; exact MarksKept.refl_marks h
  | some G =>
    cases hs : get_element_in_at_index G.in_ i with
    | none => rw [eval_step_empty rec sig hg hs] at hres; cases hres; exact MarksKept.refl_marks h
    | some e =>
      by_cases hc : e.connection_type = in_connection_type_t.SIGNAL
      · rw [eval_step_signal rec sig hg hs hc] at hres; cases hres; exact MarksKept.refl_marks h
      · by_cases hself : g = e.pointer
        · rw [eval_step_self rec sig hg hs hc hself] at hres
          cases hres
          exact MarksKept.refl_marks h
        · cases hr : rec h e.pointer with
          | none => rw [eval_step_fuel rec sig hg hs hc hself hr] at hres; cases hres
          | some hr1 =>
            obtain ⟨h1, r⟩ := hr1
            have hk := hrec h e.pointer h1 r hr
            by_cases hcode : r.code = SUCCESS
            · cases hg1 : lookup h1 g with
              | none =>
                rw [eval_step_lost rec sig hg hs hc hself hr hcode (Or.inl hg1)] at hres
                cases hres; exact hk
              | some G1 =>
                cases hp1 : lookup h1 e.pointer with
                | none =>
                  rw [eval_step_lost rec sig hg hs hc hself hr hcode (Or.inr hp1)] at hres
                  cases hres; exact hk
                | some Gin =>
                  rw [eval_step_ok rec sig hg hs hc hself hr hcode hg1 hp1] at hres
                  cases hres
                  exact hk.trans_marks (MarksKept.store_marks _ hg1 (fun hm => hm))
            · rw [eval_step_fail rec sig hg hs hc hself hr hcode] at hres
              cases hres; exact hk

theorem eval_loop_marks (rec : Heap → Nat → Option (Heap × res_with_code)) (sig : Nat → Bool)
    (hrec : ∀ h p h1 r, rec h p = some (h1, r) → MarksKept h h1)
    (g : Nat) (is : List Nat) :
    ∀ (h : Heap) (rv : Bool) (res : LoopRes), eval_loop rec sig g is h rv = some res →
      MarksKept h res.heap := by
  induction is with
  | nil =>
    intro h rv res hres
    simp only [eval_loop] at hres
    cases hres; exact MarksKept.refl_marks h
  | cons i is ih =>
    intro h rv res hres
    simp only [eval_loop] at hres
    cases hstep : eval_step rec sig g i h rv with
    | none => rw [hstep] at hres; cases hres
    | some sres =>
      rw [hstep] at hres
      have hk := eval_step_marks rec sig hrec hstep
      cases sres with
      | ret h1 r => simp only at hres; cases hres; exact hk
      | cont h1 rv1 =>
        simp only at hres
        exact hk.trans_marks (ih h1 rv1 res hres)

/-- The recursive evaluation never resets a marker. -/
theorem nand_evaluate_recursive_marks (sig : Nat → Bool) (fuel : Nat) :
    ∀ (h : Heap) (g : Nat) (h1 : Heap) (r : res_with_code),
      nand_evaluate_recursive fuel sig h g = some (h1, r) → MarksKept h h1 := by
  induction fuel with
  | zero =>
    intro h g h1 r hres
    simp [nand_evaluate_recursive] at hres
  | succ fuel ih =>
    intro h g h1 r hres
    cases hg : lookup h g with
    | none => rw [eval_dead sig fuel hg] at hres; cases hres; exact MarksKept.refl_marks h
    | some G =>
      by_cases hready : ready G
      swap
      · rw [eval_not_ready sig fuel hg hready] at hres; cases hres; exact MarksKept.refl_marks h
      by_cases hcal : G.state = state.CALCULATED
      · rw [eval_calculated sig fuel hg hready hcal] at hres
        cases hres
        exact MarksKept.refl_marks h
      by_cases hvis : G.state = state.VISITED
      · rw [eval_visited sig fuel hg hready hvis] at hres; cases hres; exact MarksKept.refl_marks h
      rw [eval_unvisited sig fuel hg hready (state_unvisited_of hcal hvis)] at hres
      have henter : MarksKept h (store h g (enter G)) :=
        MarksKept.store_marks _ hg (fun _ => by simp [enter])
      cases hloop : eval_loop (nand_evaluate_recursive fuel sig) sig g
          (List.range (vector_in_size G.in_)) (store h g (enter G)) (init_value G.kind) with
      | none => rw [hloop] at hres; simp [eval_leave] at hres
      | some res =>
        rw [hloop] at hres
        have hk := henter.trans_marks (eval_loop_marks _ sig ih g _ _ _ _ hloop)
        cases res with
        | ret h2 r2 =>
          rw [eval_leave_ret] at hres
          cases hres; exact hk
        | cont h2 rv =>
          cases hg2 : lookup h2 g with
          | none => rw [eval_leave_lost rv hg2] at hres; cases hres; exact hk
          | some G2 =>
            rw [eval_leave_cont rv hg2] at hres
            cases hres
            exact hk.trans_marks (MarksKept.store_marks _ hg2 (fun _ => by simp [leave]))

/-- Entering an unvisited ready gate lowers the number of unvisited gates. -/
theorem nand_evaluate_recursive_enter (sig : Nat → Bool) (fuel : Nat) {h : Heap} {g : Nat}
    {G : gate} (hg : lookup h g = some G) (hready : ready G)
    (hun : G.state = state.UNVISITED) {h1 : Heap} {r : res_with_code}
    (hn : unvisited_count h < fuel)
    (hres : nand_evaluate_recursive fuel sig h g = some (h1, r)) :
    unvisited_count h1 < unvisited_count h := by
  cases fuel with
  | zero => omega
  | succ fuel =>
    have hcount := unvisited_count_store (enter G) hg
    simp only [hun, if_true, enter] at hcount
    have hdec : unvisited_count (store h g (enter G)) + 1 = unvisited_count h := by
      simpa [enter] using hcount
    obtain ⟨res, hloop, hle⟩ := eval_loop_total (nand_evaluate_recursive fuel sig) sig fuel
      (fun h p hp => nand_evaluate_recursive_total sig fuel h p hp) g
      (List.range (vector_in_size G.in_)) (store h g (enter G)) (init_value G.kind) (by omega)
    rw [eval_unvisited sig fuel hg hready hun, hloop] at hres
    cases res with
    | ret h2 r2 =>
      simp only [LoopRes.heap] at hle
      rw [eval_leave_ret] at hres
      cases hres
      omega
    | cont h2 rv =>
      simp only [LoopRes.heap] at hle
      cases hg2 : lookup h2 g with
      | none =>
        rw [eval_leave_lost rv hg2] at hres
        cases hres
        omega
      | some G2 =>
        rw [eval_leave_cont rv hg2] at hres
        cases hres
        have := unvisited_count_store_le (leave G2 rv) hg2 (by simp [leave])
        omega

/-- Un-marking a marked gate lowers the number of marked gates. -/
theorem nand_clean_recursive_enter (fuel : Nat) {h : Heap} {g : Nat} (hm : marked h g)
    {h1 : Heap} (hn : marked_count h < fuel)
    (hres : nand_clean_recursive fuel h g = some h1) :
    marked_count h1 < marked_count h := by
  obtain ⟨G, hg, hu⟩ := hm
  cases fuel with
  | zero => omega
  | succ fuel =>
    have hdec := marked_count_unmark hg hu
    obtain ⟨h2, hloop, hle⟩ := clean_loop_total (nand_clean_recursive fuel) fuel
      (fun h p hp => nand_clean_recursive_total fuel h p hp) g
      (List.range (vector_in_size G.in_)) (store h g { G with state := state.UNVISITED })
      (by omega)
    rw [clean_marked fuel hg hu, hloop] at hres
    cases hres
    omega

theorem evaluate_loop_total (fuel : Nat) (sig : Nat → Bool) (all : List (Option Nat))
    (gs : List (Option Nat)) :
    ∀ (i : Nat) (h : Heap) (s : List Bool) (res : Int), h.length < fuel →
      ∃ result, evaluate_loop fuel sig all gs i h s res = some result := by
  have hclean : ∀ (h : Heap) (f : Heap → eval_result), h.length < fuel →
      ∃ result, (nand_clean fuel all h).map f = some result := by
    intro h f hfuel
    obtain ⟨h1, hres, _⟩ := nand_clean_spec fuel all h
      (lt_of_le_of_lt (marked_count_le_length h) hfuel)
    exact ⟨f h1, by rw [hres]; rfl⟩
  induction gs with
  | nil =>
    intro i h s res hfuel
    rw [evaluate_loop_nil]
    exact hclean h _ hfuel
  | cons gi gs ih =>
    intro i h s res hfuel
    cases gi with
    | none =>
      rw [evaluate_loop_null]
      exact hclean h _ hfuel
    | some t =>
      by_cases hr : ∃ G, lookup h t = some G ∧ ready G
      · obtain ⟨G, hG, hready⟩ := hr
        obtain ⟨h1, r, heval, _⟩ := nand_evaluate_recursive_total sig fuel h t
          (lt_of_le_of_lt (unvisited_count_le_length h) hfuel)
        have hlen := nand_evaluate_recursive_length sig fuel h t h1 r heval
        by_cases hcode : r.code = 0
        · cases hG1 : lookup h1 t with
          | none =>
            have hnr : ¬ vector_in_size G.in_ ≠ vector_in_capacity G.in_ := by
              unfold ready at hready
              simp [hready]
            have : evaluate_loop fuel sig all (some t :: gs) i h s res
                = (nand_clean fuel all h1).map (fun h2 => ⟨h2, s, FAILED⟩) := by
              simp [evaluate_loop, hG, hnr, heval, hcode, hG1]
            rw [this]
            exact hclean h1 _ (by omega)
          | some G1 =>
            rw [evaluate_loop_next fuel sig all gs i s res hG hready heval hcode hG1]
            exact ih _ h1 _ _ (by omega)
        · rw [evaluate_loop_failed fuel sig all gs i s res hG hready heval hcode]
          exact hclean h1 _ (by omega)
      · rw [evaluate_loop_not_ready fuel sig all gs i s res
          (fun G hG hready => hr ⟨G, hG, hready⟩)]
        exact hclean h _ hfuel

theorem gate_evaluate_total (fuel : Nat) (sig : Nat → Bool) (h : Heap)
    (g : Option (List (Option Nat))) (s : Option (List Bool)) (hfuel : h.length < fuel) :
    ∃ result, gate_evaluate fuel sig h g s = some result := by
  cases g with
  | none =>
    obtain ⟨sb, hres⟩ := gate_evaluate_null_g fuel sig h s
    exact ⟨_, hres⟩
  | some gs =>
    cases s with
    | none =>
      obtain ⟨sb, hres⟩ := gate_evaluate_null_s fuel sig h (some gs)
      exact ⟨_, hres⟩
    | some sb =>
      by_cases hne : gs = []
      · subst hne
        exact ⟨_, gate_evaluate_empty fuel sig h sb⟩
      · by_cases hnull : none ∈ gs
        · exact ⟨_, gate_evaluate_null_entry fuel sig h sb hnull⟩
        · rw [gate_evaluate_loop fuel sig h sb hne hnull]
          exact evaluate_loop_total fuel sig gs gs 0 h sb 0 hfuel

/-- C17: on every graph (cycles and self-loops included, no invariant assumed)
the recursive evaluation returns as soon as the budget exceeds the number of
unvisited gates: it never resets a marker, it never raises the number of
unvisited gates, and entering a gate lowers that number, so a gate is marked at
most once. The recursive cleanup returns as soon as the budget exceeds the
number of marked gates: it never marks a gate, and un-marking a gate lowers the
number of marked gates. Both numbers are at most the number of gates, and
`gate_evaluate` returns for every argument once the budget exceeds it. -/
theorem recursion_terminates (sig : Nat → Bool) (h : Heap) (fuel : Nat) (g : Nat) :
    (unvisited_count h < fuel →
      ∃ h1 r, nand_evaluate_recursive fuel sig h g = some (h1, r) ∧
        unvisited_count h1 ≤ unvisited_count h ∧
        (∀ x, marked h x → marked h1 x) ∧
        (∀ G, lookup h g = some G → ready G → G.state = state.UNVISITED →
          unvisited_count h1 < unvisited_count h)) ∧
    (marked_count h < fuel →
      ∃ h1, nand_clean_recursive fuel h g = some h1 ∧
        marked_count h1 ≤ marked_count h ∧
        (∀ x, ¬ marked h x → ¬ marked h1 x) ∧
        (marked h g → marked_count h1 < marked_count h)) ∧
    unvisited_count h ≤ h.length ∧ marked_count h ≤ h.length ∧
    (h.length < fuel → ∀ gs s, ∃ result, gate_evaluate fuel sig h gs s = some result) := by
  refine ⟨?_, ?_, unvisited_count_le_length h, marked_count_le_length h, ?_⟩
  · intro hn
    obtain ⟨h1, r, hres, hle⟩ := nand_evaluate_recursive_total sig fuel h g hn
    exact ⟨h1, r, hres, hle, nand_evaluate_recursive_marks sig fuel h g h1 r hres,
      fun G hG hready hun => nand_evaluate_recursive_enter sig fuel hG hready hun hn hres⟩
  · intro hn
    obtain ⟨h1, hres, hle⟩ := nand_clean_recursive_total fuel h g hn
    exact ⟨h1, hres, hle,
      fun x hx => (nand_clean_recursive_spec fuel h g h1 hres).1.not_marked hx,
      fun hm => nand_clean_recursive_enter fuel hm hn hres⟩
  · intro hfuel gs s
    exact gate_evaluate_total fuel sig h gs s hfuel

/-- C17 (witness): on the graph with the cycle `g0 → g1 → g0`, the evaluation of
`g2`, which reads `g0`, returns with a failure, the cleanup returns, and
`gate_evaluate` returns for every argument. -/
theorem recursion_terminates_witness :
    (nand_evaluate_recursive 5 example_sig cycle_heap 2).map (fun r => r.2.code)
      = some (-1) ∧
    (∃ h1 r, nand_evaluate_recursive 5 example_sig cycle_heap 2 = some (h1, r) ∧
        unvisited_count h1 ≤ unvisited_count cycle_heap ∧
        (∀ x, marked cycle_heap x → marked h1 x) ∧
        (∀ G, lookup cycle_heap 2 = some G → ready G → G.state = state.UNVISITED →
          unvisited_count h1 < unvisited_count cycle_heap)) ∧
    (∃ h1, nand_clean_recursive 5 cycle_heap 2 = some h1 ∧
        marked_count h1 ≤ marked_count cycle_heap ∧
        (∀ x, ¬ marked cycle_heap x → ¬ marked h1 x) ∧
        (marked cycle_heap 2 → marked_count h1 < marked_count cycle_heap)) ∧
    (∀ gs s, ∃ result, gate_evaluate 5 example_sig cycle_heap gs s = some result) :=
  ⟨by decide, (recursion_terminates example_sig cycle_heap 5 2).1 (by decide),
    (recursion_terminates example_sig cycle_heap 5 2).2.1 (by decide),
    (recursion_terminates example_sig cycle_heap 5 2).2.2.2.2 (by decide)⟩

/-! ## Claim on the topology after `gate_evaluate` -/

theorem SameTopology.refl_topology (h : Heap) : SameTopology h h := fun _ => rfl

theorem SameTopology.trans_topology {h h1 h2 : Heap} (h01 : SameTopology h h1)
    (h12 : SameTopology h1 h2) : SameTopology h h2 := fun x => (h12 x).trans (h01 x)

theorem SameTopology.store_topology {h : Heap} {g : Nat} {G : gate} (G1 : gate)
    (hg : lookup h g = some G) (hk : G1.kind = G.kind) (hi : G1.in_ = G.in_)
    (ho : G1.out = G.out) : SameTopology h (store h g G1) := by
  intro x
  unfold topology
  by_cases hgx : g = x
  · subst hgx
    rw [lookup_store_eq G1 (lookup_lt hg), hg]
    simp [hk, hi, ho]
  · rw [lookup_store_ne h G1 hgx]

theorem SameTopology.of_clean {h h1 : Heap} (hrel : CleanRel h h1) : SameTopology h h1 := by
  intro x
  unfold topology
  rcases hrel.unmark x with heq | ⟨X, hX, hX1⟩
  · rw [heq]
  · rw [hX, hX1]
    rfl

theorem eval_step_topology (rec : Heap → Nat → Option (Heap × res_with_code))
    (sig : Nat → Bool)
    (hrec : ∀ h p h1 r, rec h p = some (h1, r) → SameTopology h h1)
    {g i : Nat} {h : Heap} {rv : Bool} {res : LoopRes}
    (hres : eval_step rec sig g i h rv = some res) : SameTopology h res.heap := by
  cases hg : lookup h g with
  | none =>
    rw [eval_step_dead rec sig hg] at hres
    cases hres
    exact SameTopology.refl_topology h
  | some G =>
    cases hs : get_element_in_at_index G.in_ i with
    | none =>
      rw [eval_step_empty rec sig hg hs] at hres
      cases hres
      exact SameTopology.refl_topology h
    | some e =>
      by_cases hc : e.connection_type = in_connection_type_t.SIGNAL
      · rw [eval_step_signal rec sig hg hs hc] at hres
        cases hres
        exact SameTopology.refl_topology h
      · by_cases hself : g = e.pointer
        · rw [eval_step_self rec sig hg hs hc hself] at hres
          cases hres
          exact SameTopology.refl_topology h
        · cases hr : rec h e.pointer with
          | none => rw [eval_step_fuel rec sig hg hs hc hself hr] at hres; cases hres
          | some hr1 =>
            obtain ⟨h1, r⟩ := hr1
            have hk := hrec h e.pointer h1 r hr
            by_cases hcode : r.code = SUCCESS
            · cases hg1 : lookup h1 g with
              | none =>
                rw [eval_step_lost rec sig hg hs hc hself hr hcode (Or.inl hg1)] at hres
                cases hres; exact hk
              | some G1 =>
                cases hp1 : lookup h1 e.pointer with
                | none =>
                  rw [eval_step_lost rec sig hg hs hc hself hr hcode (Or.inr hp1)] at hres
                  cases hres; exact hk
                | some Gin =>
                  rw [eval_step_ok rec sig hg hs hc hself hr hcode hg1 hp1] at hres
                  cases hres
                  exact hk.trans_topology (SameTopology.store_topology _ hg1 rfl rfl rfl)
            · rw [eval_step_fail rec sig hg hs hc hself hr hcode] at hres
              cases hres; exact hk

theorem eval_loop_topology (rec : Heap → Nat → Option (Heap × res_with_code))
    (sig : Nat → Bool)
    (hrec : ∀ h p h1 r, rec h p = some (h1, r) → SameTopology h h1)
    (g : Nat) (is : List Nat) :
    ∀ (h : Heap) (rv : Bool) (res : LoopRes), eval_loop rec sig g is h rv = some res →
      SameTopology h res.heap := by
  induction is with
  | nil =>
    intro h rv res hres
    simp only [eval_loop] at hres
    cases hres; exact SameTopology.refl_topology h
  | cons i is ih =>
    intro h rv res hres
    simp only [eval_loop] at hres
    cases hstep : eval_step rec sig g i h rv with
    | none => rw [hstep] at hres; cases hres
    | some sres =>
      rw [hstep] at hres
      have hk := eval_step_topology rec sig hrec hstep
      cases sres with
      | ret h1 r => simp only at hres; cases hres; exact hk
      | cont h1 rv1 =>
        simp only at hres
        exact hk.trans_topology (ih h1 rv1 res hres)

/-- The recursive evaluation writes markers, results and path lengths only. -/
theorem nand_evaluate_recursive_topology (sig : Nat → Bool) (fuel : Nat) :
    ∀ (h : Heap) (g : Nat) (h1 : Heap) (r : res_with_code),
      nand_evaluate_recursive fuel sig h g = some (h1, r) → SameTopology h h1 := by
  induction fuel with
  | zero =>
    intro h g h1 r hres
    simp [nand_evaluate_recursive] at hres
  | succ fuel ih =>
    intro h g h1 r hres
    cases hg : lookup h g with
    | none =>
      rw [eval_dead sig fuel hg] at hres
      cases hres
      exact SameTopology.refl_topology h
    | some G =>
      by_cases hready : ready G
      swap
      · rw [eval_not_ready sig fuel hg hready] at hres
        cases hres
        exact SameTopology.refl_topology h
      by_cases hcal : G.state = state.CALCULATED
      · rw [eval_calculated sig fuel hg hready hcal] at hres
        cases hres
        exact SameTopology.refl_topology h
      by_cases hvis : G.state = state.VISITED
      · rw [eval_visited sig fuel hg hready hvis] at hres
        cases hres
        exact SameTopology.refl_topology h
      rw [eval_unvisited sig fuel hg hready (state_unvisited_of hcal hvis)] at hres
      have henter : SameTopology h (store h g (enter G)) :=
        SameTopology.store_topology _ hg rfl rfl rfl
      cases hloop : eval_loop (nand_evaluate_recursive fuel sig) sig g
          (List.range (vector_in_size G.in_)) (store h g (enter G)) (init_value G.kind) with
      | none => rw [hloop] at hres; simp [eval_leave] at hres
      | some res =>
        rw [hloop] at hres
        have hk := henter.trans_topology (eval_loop_topology _ sig ih g _ _ _ _ hloop)
        cases res with
        | ret h2 r2 =>
          rw [eval_leave_ret] at hres
          cases hres; exact hk
        | cont h2 rv =>
          cases hg2 : lookup h2 g with
          | none => rw [eval_leave_lost rv hg2] at hres; cases hres; exact hk
          | some G2 =>
            rw [eval_leave_cont rv hg2] at hres
            cases hres
            exact hk.trans_topology (SameTopology.store_topology _ hg2 rfl rfl rfl)

theorem evaluate_loop_topology (fuel : Nat) (sig : Nat → Bool) (all : List (Option Nat))
    (gs : List (Option Nat)) :
    ∀ (i : Nat) (h : Heap) (s : List Bool) (res : Int), h.length < fuel →
      ∃ result, evaluate_loop fuel sig all gs i h s res = some result ∧
        SameTopology h result.heap := by
  have hclean : ∀ (h : Heap) (s : List Bool) (ret : Int), h.length < fuel →
      ∃ result, (nand_clean fuel all h).map (fun h1 => eval_result.mk h1 s ret) = some result ∧
        SameTopology h result.heap := by
    intro h s ret hfuel
    obtain ⟨h1, hres, hrel, _⟩ := nand_clean_spec fuel all h
      (lt_of_le_of_lt (marked_count_le_length h) hfuel)
    exact ⟨⟨h1, s, ret⟩, by rw [hres]; rfl, SameTopology.of_clean hrel⟩
  induction gs with
  | nil =>
    intro i h s res hfuel
    rw [evaluate_loop_nil]
    exact hclean h _ _ hfuel
  | cons gi gs ih =>
    intro i h s res hfuel
    cases gi with
    | none =>
      rw [evaluate_loop_null]
      exact hclean h _ _ hfuel
    | some t =>
      by_cases hr : ∃ G, lookup h t = some G ∧ ready G
      · obtain ⟨G, hG, hready⟩ := hr
        obtain ⟨h1, r, heval, _⟩ := nand_evaluate_recursive_total sig fuel h t
          (lt_of_le_of_lt (unvisited_count_le_length h) hfuel)
        have hlen := nand_evaluate_recursive_length sig fuel h t h1 r heval
        have htop := nand_evaluate_recursive_topology sig fuel h t h1 r heval
        by_cases hcode : r.code = 0
        · cases hG1 : lookup h1 t with
          | none =>
            have hnr : ¬ vector_in_size G.in_ ≠ vector_in_capacity G.in_ := by
              unfold ready at hready
              simp [hready]
            have : evaluate_loop fuel sig all (some t :: gs) i h s res
                = (nand_clean fuel all h1).map (fun h2 => ⟨h2, s, FAILED⟩) := by
              simp [evaluate_loop, hG, hnr, heval, hcode, hG1]
            rw [this]
            obtain ⟨result, hres, ht⟩ := hclean h1 s FAILED (by omega)
            exact ⟨result, hres, htop.trans_topology ht⟩
          | some G1 =>
            rw [evaluate_loop_next fuel sig all gs i s res hG hready heval hcode hG1]
            obtain ⟨result, hres, ht⟩ := ih (i + 1) h1 (s.set i r.res)
              (if (G1.path_len : Int) > res then (G1.path_len : Int) else res) (by omega)
            exact ⟨result, hres, htop.trans_topology ht⟩
        · rw [evaluate_loop_failed fuel sig all gs i s res hG hready heval hcode]
          obtain ⟨result, hres, ht⟩ := hclean h1 s FAILED (by omega)
          exact ⟨result, hres, htop.trans_topology ht⟩
      · rw [evaluate_loop_not_ready fuel sig all gs i s res
          (fun G hG hready => hr ⟨G, hG, hready⟩)]
        exact hclean h _ _ hfuel

/-- C18: every call of `gate_evaluate`, successful or failed, on any graph and
with any arguments, returns (for a budget above the number of gates) and leaves
the topology unchanged: every gate has the same kind, the same input vector
(every slot empty, or holding the same signal, or the same producer with the
same back-reference) and the same output links in the same order; in particular
an unbound slot is still unbound after the call. -/
theorem gate_evaluate_keeps_topology (fuel : Nat) (sig : Nat → Bool) (h : Heap)
    (g : Option (List (Option Nat))) (s : Option (List Bool)) (hfuel : h.length < fuel) :
    ∃ result, gate_evaluate fuel sig h g s = some result ∧
      (∀ x, topology result.heap x = topology h x) ∧
      (∀ (x : Nat) (X : gate) (k : Nat), lookup h x = some X → X.in_.data[k]? = some none →
        ∃ X1, lookup result.heap x = some X1 ∧ X1.in_.data[k]? = some none) := by
  have hmain : ∃ result, gate_evaluate fuel sig h g s = some result ∧
      SameTopology h result.heap := by
    cases g with
    | none =>
      obtain ⟨sb, hres⟩ := gate_evaluate_null_g fuel sig h s
      exact ⟨_, hres, SameTopology.refl_topology h⟩
    | some gs =>
      cases s with
      | none =>
        obtain ⟨sb, hres⟩ := gate_evaluate_null_s fuel sig h (some gs)
        exact ⟨_, hres, SameTopology.refl_topology h⟩
      | some sb =>
        by_cases hne : gs = []
        · subst hne
          exact ⟨_, gate_evaluate_empty fuel sig h sb, SameTopology.refl_topology h⟩
        · by_cases hnull : none ∈ gs
          · exact ⟨_, gate_evaluate_null_entry fuel sig h sb hnull,
              SameTopology.refl_topology h⟩
          · rw [gate_evaluate_loop fuel sig h sb hne hnull]
            exact evaluate_loop_topology fuel sig gs gs 0 h sb 0 hfuel
  obtain ⟨result, hres, htop⟩ := hmain
  refine ⟨result, hres, htop, ?_⟩
  intro x X k hX hk
  have := htop x
  unfold topology at this
  rw [hX] at this
  cases hX1 : lookup result.heap x with
  | none => rw [hX1] at this; cases this
  | some X1 =>
    rw [hX1] at this
    simp only [Option.map_some', Option.some.injEq, Prod.mk.injEq] at this
    exact ⟨X1, rfl, by rw [this.2.1]; exact hk⟩

/-- C18 (witness): the gate with two slots of which only slot 0 is bound,
evaluated alone, fails, and its slot 1 is still unbound afterwards. -/
theorem gate_evaluate_keeps_topology_witness :
    (gate_evaluate 2 example_sig half_bound_heap (some [some 0]) (some [false])).map
      (fun r => (r.ret, (lookup r.heap 0).map (fun G => G.in_.data[1]?)))
      = some (-1, some (some none)) ∧
    ∃ result, gate_evaluate 2 example_sig half_bound_heap (some [some 0]) (some [false])
        = some result ∧
      (∀ x, topology result.heap x = topology half_bound_heap x) ∧
      (∀ (x : Nat) (X : gate) (k : Nat), lookup half_bound_heap x = some X →
        X.in_.data[k]? = some none →
        ∃ X1, lookup result.heap x = some X1 ∧ X1.in_.data[k]? = some none) :=
  ⟨by decide, gate_evaluate_keeps_topology 2 example_sig half_bound_heap (some [some 0])
    (some [false]) (by decide)⟩

/-! ## Claim on the `XOR` and `XNOR` gates -/

theorem calculate_result_xor (b : Bool) (kind : gate_kind_t)
    (hk : kind = gate_kind_t.XOR ∨ kind = gate_kind_t.XNOR) :
    calculate_result false b kind = (false, 0) := by
  rcases hk with rfl | rfl <;> simp [calculate_result]

theorem cfold_xor (kind : gate_kind_t) (sig : Nat → Bool) (h : Heap)
    (hk : kind = gate_kind_t.XOR ∨ kind = gate_kind_t.XNOR)
    (slots : List (Option element_in)) : cfold kind sig h false slots = false := by
  unfold cfold
  induction slots with
  | nil => rfl
  | cons slot slots ih =>
    rw [List.foldl_cons]
    cases slot with
    | none => exact ih
    | some e =>
      simp only [calculate_result_xor _ kind hk]
      exact ih

theorem cached_xor {sig : Nat → Bool} {h : Heap} {G : gate} (hc : Cached sig h G) :
    (G.kind = gate_kind_t.XOR → G.res = false) ∧ (G.kind = gate_kind_t.XNOR → G.res = true) := by
  refine ⟨fun hk => ?_, fun hk => ?_⟩
  · have hi : init_value G.kind = false := by simp [init_value, hk]
    rw [hc.1, hi, cfold_xor G.kind sig h (Or.inl hk)]
    simp [final_value, hk]
  · have hi : init_value G.kind = false := by simp [init_value, hk]
    rw [hc.1, hi, cfold_xor G.kind sig h (Or.inr hk)]
    simp [final_value, hk]

/-- C19: the fold of an `XOR` or `XNOR` gate starts at `false` and multiplies, so
it stays `false` whatever the inputs; in every successful `gate_evaluate`, for
every valuation of the signals, the output of a target of kind `XOR` is `false`
and the output of a target of kind `XNOR` is `true`. -/
theorem xor_gates_ignore_inputs (fuel : Nat) (sig : Nat → Bool) (h : Heap)
    (gs : List (Option Nat)) (sb : List Bool)
    (hcons : Consistent h) (hun : all_unvisited h) (hfuel : h.length < fuel) :
    init_value gate_kind_t.XOR = false ∧ init_value gate_kind_t.XNOR = false ∧
    (∀ b, calculate_result false b gate_kind_t.XOR = (false, 0) ∧
      calculate_result false b gate_kind_t.XNOR = (false, 0)) ∧
    ∃ result, gate_evaluate fuel sig h (some gs) (some sb) = some result ∧
      (result.ret ≠ FAILED →
        ∀ (i t : Nat) (G : gate), gs[i]? = some (some t) → lookup h t = some G →
          i < sb.length →
          (G.kind = gate_kind_t.XOR → result.s[i]? = some false) ∧
          (G.kind = gate_kind_t.XNOR → result.s[i]? = some true)) := by
  refine ⟨by simp [init_value], by simp [init_value],
    fun b => ⟨calculate_result_xor b _ (Or.inl rfl), calculate_result_xor b _ (Or.inr rfl)⟩, ?_⟩
  obtain ⟨result, he, hres, hinv, hext, _, _, _, hcase⟩ :=
    gate_evaluate_spec fuel sig h gs sb hcons.wf hun hfuel
  refine ⟨result, hres, fun hok => ?_⟩
  rcases hcase with ⟨hfail, _⟩ | ⟨_, hsucc⟩
  · exact absurd hfail hok
  · intro i t G hi hG hlt
    obtain ⟨Ge, hGe, hcal, hout, _⟩ := hsucc.done i t hi
    rw [Nat.zero_add] at hout
    obtain ⟨Ge1, hGe1, _, _, hkind, _⟩ := (hext t).of_some hG
    rw [hGe] at hGe1
    cases hGe1
    have hx := cached_xor (hinv.cached t Ge hGe hcal)
    rw [hout hlt]
    exact ⟨fun hk => by rw [hx.1 (hkind.trans hk)], fun hk => by rw [hx.2 (hkind.trans hk)]⟩

/-- C19 (witness): the gate `g4 = XNOR(g1, g0)` of the example evaluates to `true`
with `b0 = false, b1 = true` and also with both signals `true`. -/
theorem xor_gates_ignore_inputs_witness :
    (gate_evaluate 5 example_sig example_heap2 (some [some 3]) (some [false])).map
      (fun r => r.s) = some [true] ∧
    (gate_evaluate 5 (fun _ => true) example_heap2 (some [some 3]) (some [false])).map
      (fun r => r.s) = some [true] ∧
    (init_value gate_kind_t.XOR = false ∧ init_value gate_kind_t.XNOR = false ∧
    (∀ b, calculate_result false b gate_kind_t.XOR = (false, 0) ∧
      calculate_result false b gate_kind_t.XNOR = (false, 0)) ∧
    ∃ result, gate_evaluate 5 example_sig example_heap2 (some [some 3]) (some [false])
        = some result ∧
      (result.ret ≠ FAILED →
        ∀ (i t : Nat) (G : gate), [some 3][i]? = some (some t) →
          lookup example_heap2 t = some G → i < [false].length →
          (G.kind = gate_kind_t.XOR → result.s[i]? = some false) ∧
          (G.kind = gate_kind_t.XNOR → result.s[i]? = some true))) :=
  ⟨by decide, by decide,
    xor_gates_ignore_inputs 5 example_sig example_heap2 [some 3] [false]
      (consistent_of_check (by decide)) (all_unvisited_of_check (by decide)) (by decide)⟩

/-! ## Claim on batch evaluation -/

theorem agree_of_large {α : Type} {f : Nat → Option α} {a b : Int} {v w : α}
    (ha : ∀ n : Nat, a < (n : Int) → f n = some v)
    (hb : ∀ n : Nat, b < (n : Int) → f n = some w) : v = w := by
  have h1 := ha (a.toNat + b.toNat + 1) (by omega)
  have h2 := hb (a.toNat + b.toNat + 1) (by omega)
  rw [h1] at h2
  exact Option.some.inj h2

/-- A run of `gate_evaluate`: it succeeds exactly on a non-empty array of sound
targets, and then its outputs and its return value are given by the reference
definitions. -/
theorem gate_evaluate_run (fuel : Nat) (sig : Nat → Bool) (h : Heap)
    (gs : List (Option Nat)) (sb : List Bool)
    (hc : Consistent h) (hun : all_unvisited h) (hfuel : h.length < fuel)
    (hlen : sb.length = gs.length) :
    ∃ r, gate_evaluate fuel sig h (some gs) (some sb) = some r ∧
      (r.ret ≠ FAILED ↔ (gs ≠ [] ∧ AllSound h gs)) ∧
      (r.ret ≠ FAILED →
        (∀ (i t : Nat), gs[i]? = some (some t) →
          ∃ v, r.s[i]? = some v ∧
            ∀ n : Nat, r.ret < (n : Int) → ref_value sig h n t = some v) ∧
        (∀ t, some t ∈ gs → ∃ d : Nat, (d : Int) ≤ r.ret ∧
          ∀ n : Nat, r.ret < (n : Int) → ref_depth h n t = some d) ∧
        ∃ (t d : Nat), some t ∈ gs ∧ r.ret = (d : Int) ∧
          ∀ n : Nat, r.ret < (n : Int) → ref_depth h n t = some d) := by
  by_cases hs : gs ≠ [] ∧ AllSound h gs
  · obtain ⟨r, hr, hpos, hV, hD, hA⟩ :=
      gate_evaluate_sound_run fuel sig h gs sb hc hun hfuel hs.1 hs.2 hlen
    have hok : r.ret ≠ FAILED := by
      unfold FAILED
      omega
    exact ⟨r, hr, ⟨fun _ => hs, fun _ => hok⟩, fun _ => ⟨hV, hD, hA⟩⟩
  · obtain ⟨r, he, hr, hinv, hext, _, _, _, hcase⟩ :=
      gate_evaluate_spec fuel sig h gs sb hc.wf hun hfuel
    rcases hcase with ⟨hfail, _⟩ | ⟨hne, hsucc⟩
    · exact ⟨r, hr, ⟨fun hok => absurd hfail hok, fun hh => absurd hh hs⟩,
        fun hok => absurd hfail hok⟩
    · exact absurd ⟨hne, hsucc.all_sound hinv hext⟩ hs

theorem all_sound_singleton {h : Heap} {gs : List (Option Nat)} :
    AllSound h gs ↔ ∀ gi, gi ∈ gs → AllSound h [gi] := by
  constructor
  · intro hs gi hgi x hx
    rw [List.mem_singleton] at hx
    subst hx
    exact hs x hgi
  · intro hall gi hgi
    exact hall gi hgi gi (List.mem_singleton.mpr rfl)

/-- C20: on a consistent graph with unvisited markers and a non-empty target
array, the batch evaluation succeeds exactly when the evaluation of every
singleton `[g[i]]` succeeds; in that case `s[i]` is the output of the singleton
call on `g[i]`, every singleton call returns at most the batch value and one of
them returns it; and for every permutation of the targets the returned value is
the same and equal targets get equal outputs. -/
theorem batch_agrees_with_singletons (fuel : Nat) (sig : Nat → Bool) (h : Heap)
    (gs : List (Option Nat)) (sb : List Bool)
    (hc : Consistent h) (hun : all_unvisited h) (hfuel : h.length < fuel)
    (hne : gs ≠ []) (hlen : sb.length = gs.length) :
    ∃ rb, gate_evaluate fuel sig h (some gs) (some sb) = some rb ∧
      (∀ gi b, ∃ r1, gate_evaluate fuel sig h (some [gi]) (some [b]) = some r1) ∧
      (rb.ret ≠ FAILED ↔ ∀ gi, gi ∈ gs → ∀ b r1,
        gate_evaluate fuel sig h (some [gi]) (some [b]) = some r1 → r1.ret ≠ FAILED) ∧
      (rb.ret ≠ FAILED →
        (∀ (i : Nat) (gi : Option Nat) (b : Bool) (r1 : eval_result), gs[i]? = some gi →
          gate_evaluate fuel sig h (some [gi]) (some [b]) = some r1 →
          rb.s[i]? = r1.s[0]? ∧ r1.ret ≤ rb.ret) ∧
        ∃ gi, gi ∈ gs ∧ ∀ b r1,
          gate_evaluate fuel sig h (some [gi]) (some [b]) = some r1 → r1.ret = rb.ret) ∧
      (∀ gs2 sb2, gs2.Perm gs → sb2.length = gs2.length →
        ∃ r2, gate_evaluate fuel sig h (some gs2) (some sb2) = some r2 ∧ r2.ret = rb.ret ∧
          (rb.ret ≠ FAILED → ∀ (i j : Nat) (gi : Option Nat), gs[i]? = some gi →
            gs2[j]? = some gi → r2.s[j]? = rb.s[i]?)) := by
  obtain ⟨rb, hrb, hiffb, hfb⟩ := gate_evaluate_run fuel sig h gs sb hc hun hfuel hlen
  have hsingle : ∀ (gi : Option Nat) (b : Bool) (r1 : eval_result),
      gate_evaluate fuel sig h (some [gi]) (some [b]) = some r1 →
      (r1.ret ≠ FAILED ↔ AllSound h [gi]) ∧
      (r1.ret ≠ FAILED → ∀ t, gi = some t →
        (∃ v, r1.s[0]? = some v ∧
          ∀ n : Nat, r1.ret < (n : Int) → ref_value sig h n t = some v) ∧
        ∃ d : Nat, r1.ret = (d : Int) ∧
          ∀ n : Nat, r1.ret < (n : Int) → ref_depth h n t = some d) := by
    intro gi b r1 hr1
    obtain ⟨r, hr, hiff, hf⟩ := gate_evaluate_run fuel sig h [gi] [b] hc hun hfuel rfl
    rw [hr1] at hr
    cases hr
    refine ⟨⟨fun hok => (hiff.mp hok).2, fun hs => hiff.mpr ⟨by simp, hs⟩⟩, ?_⟩
    intro hok t ht
    subst ht
    obtain ⟨hV, _, t1, d, ht1, hret, hd⟩ := hf hok
    rw [List.mem_singleton] at ht1
    cases ht1
    exact ⟨hV 0 t rfl, d, hret, hd⟩
  refine ⟨rb, hrb, ?_, ?_, ?_, ?_⟩
  · intro gi b
    obtain ⟨r, hr, _⟩ := gate_evaluate_run fuel sig h [gi] [b] hc hun hfuel rfl
    exact ⟨r, hr⟩
  · constructor
    · intro hok gi hgi b r1 hr1
      exact (hsingle gi b r1 hr1).1.mpr (all_sound_singleton.mp (hiffb.mp hok).2 gi hgi)
    · intro hall
      refine hiffb.mpr ⟨hne, all_sound_singleton.mpr ?_⟩
      intro gi hgi
      obtain ⟨r, hr, _⟩ := gate_evaluate_run fuel sig h [gi] [false] hc hun hfuel rfl
      exact (hsingle gi false r hr).1.mp (hall gi hgi false r hr)
  · intro hok
    obtain ⟨hV, hD, t0, d0, ht0, hret0, hd0⟩ := hfb hok
    have hsound := (hiffb.mp hok).2
    refine ⟨?_, some t0, ht0, ?_⟩
    · intro i gi b r1 hi hr1
      have hgi : gi ∈ gs := List.getElem?_mem hi
      obtain ⟨t, rfl, _⟩ := hsound gi hgi
      obtain ⟨hiff1, hf1⟩ := hsingle (some t) b r1 hr1
      have hok1 := hiff1.mpr (all_sound_singleton.mp hsound _ hgi)
      obtain ⟨⟨v1, hs1, hv1⟩, d1, hret1, hd1⟩ := hf1 hok1 t rfl
      obtain ⟨v, hs, hv⟩ := hV i t hi
      obtain ⟨d, hdle, hd⟩ := hD t hgi
      have hvv : v = v1 := agree_of_large hv hv1
      have hdd : d = d1 := agree_of_large hd hd1
      refine ⟨by rw [hs, hs1, hvv], ?_⟩
      rw [hret1, ← hdd]
      exact hdle
    · intro b r1 hr1
      obtain ⟨hiff1, hf1⟩ := hsingle (some t0) b r1 hr1
      have hok1 := hiff1.mpr (all_sound_singleton.mp hsound _ ht0)
      obtain ⟨_, d1, hret1, hd1⟩ := hf1 hok1 t0 rfl
      have hdd : d0 = d1 := agree_of_large hd0 hd1
      rw [hret1, hret0, hdd]
  · intro gs2 sb2 hperm hlen2
    obtain ⟨r2, hr2, hiff2, hf2⟩ := gate_evaluate_run fuel sig h gs2 sb2 hc hun hfuel hlen2
    have hne2 : gs2 ≠ [] := by
      intro hnil
      rw [hnil] at hperm
      exact hne (List.Perm.nil_eq hperm).symm
    have hs_iff : AllSound h gs2 ↔ AllSound h gs :=
      ⟨fun hs gi hgi => hs gi (hperm.mem_iff.mpr hgi),
        fun hs gi hgi => hs gi (hperm.mem_iff.mp hgi)⟩
    have hok_iff : r2.ret ≠ FAILED ↔ rb.ret ≠ FAILED := by
      rw [hiff2, hiffb]
      exact ⟨fun hh => ⟨hne, hs_iff.mp hh.2⟩, fun hh => ⟨hne2, hs_iff.mpr hh.2⟩⟩
    refine ⟨r2, hr2, ?_, ?_⟩
    · by_cases hok : rb.ret ≠ FAILED
      · have hok2 := hok_iff.mpr hok
        obtain ⟨_, hD, t0, d0, ht0, hret0, hd0⟩ := hfb hok
        obtain ⟨_, hD2, t2, d2, ht2, hret2, hd2⟩ := hf2 hok2
        obtain ⟨da, hda, hda1⟩ := hD2 t0 (hperm.mem_iff.mpr ht0)
        obtain ⟨db, hdb, hdb1⟩ := hD t2 (hperm.mem_iff.mp ht2)
        have e1 : d0 = da := agree_of_large hd0 hda1
        have e2 : d2 = db := agree_of_large hd2 hdb1
        omega
      · have hok2 : ¬ r2.ret ≠ FAILED := fun hh => hok (hok_iff.mp hh)
        rw [not_not] at hok hok2
        rw [hok, hok2]
    · intro hok i j gi hi hj
      have hok2 := hok_iff.mpr hok
      obtain ⟨t, rfl, _⟩ := (hiffb.mp hok).2 gi (List.getElem?_mem hi)
      obtain ⟨v, hs, hv⟩ := (hfb hok).1 i t hi
      obtain ⟨v2, hs2, hv2⟩ := (hf2 hok2).1 j t hj
      rw [hs, hs2, agree_of_large hv2 hv]

/-- C20 (witness): in the graph of `example.c` the batch `[g4, g0, g4]` gives the
outputs `[true, true, true]` and the path length 3, the singletons `[g4]` and
`[g0]` give `true` with path lengths 3 and 2. -/
theorem batch_agrees_with_singletons_witness :
    (gate_evaluate 5 example_sig example_heap2 (some [some 3, some 0, some 3])
      (some [false, false, false])).map (fun r => (r.ret, r.s))
      = some (3, [true, true, true]) ∧
    (gate_evaluate 5 example_sig example_heap2 (some [some 3]) (some [false])).map
      (fun r => (r.ret, r.s)) = some (3, [true]) ∧
    (gate_evaluate 5 example_sig example_heap2 (some [some 0]) (some [false])).map
      (fun r => (r.ret, r.s)) = some (2, [true]) ∧
    ∃ rb, gate_evaluate 5 example_sig example_heap2 (some [some 3, some 0, some 3])
        (some [false, false, false]) = some rb ∧
      (∀ gi b, ∃ r1, gate_evaluate 5 example_sig example_heap2 (some [gi]) (some [b])
        = some r1) ∧
      (rb.ret ≠ FAILED ↔ ∀ gi, gi ∈ [some 3, some 0, some 3] → ∀ b r1,
        gate_evaluate 5 example_sig example_heap2 (some [gi]) (some [b]) = some r1 →
          r1.ret ≠ FAILED) ∧
      (rb.ret ≠ FAILED →
        (∀ (i : Nat) (gi : Option Nat) (b : Bool) (r1 : eval_result),
          [some 3, some 0, some 3][i]? = some gi →
          gate_evaluate 5 example_sig example_heap2 (some [gi]) (some [b]) = some r1 →
          rb.s[i]? = r1.s[0]? ∧ r1.ret ≤ rb.ret) ∧
        ∃ gi, gi ∈ [some 3, some 0, some 3] ∧ ∀ b r1,
          gate_evaluate 5 example_sig example_heap2 (some [gi]) (some [b]) = some r1 →
            r1.ret = rb.ret) ∧
      (∀ gs2 sb2, gs2.Perm [some 3, some 0, some 3] → sb2.length = gs2.length →
        ∃ r2, gate_evaluate 5 example_sig example_heap2 (some gs2) (some sb2) = some r2 ∧
          r2.ret = rb.ret ∧
          (rb.ret ≠ FAILED → ∀ (i j : Nat) (gi : Option Nat),
            [some 3, some 0, some 3][i]? = some gi →
            gs2[j]? = some gi → r2.s[j]? = rb.s[i]?)) :=
  ⟨by decide, by decide, by decide,
    batch_agrees_with_singletons 5 example_sig example_heap2 [some 3, some 0, some 3]
      [false, false, false] (consistent_of_check (by decide))
      (all_unvisited_of_check (by decide)) (by decide) (by decide) (by decide)⟩

/-! ## Claim on the bounds of the output vectors -/

theorem realloc_room {vec : vector_out} (ok : Bool) (hb : out_bounds vec)
    (hr : (vector_out_realloc vec ok).2 = 0) :
    out_bounds (vector_out_realloc vec ok).1 ∧
      vector_out_size (vector_out_realloc vec ok).1 < (vector_out_realloc vec ok).1.capacity := by
  obtain ⟨h1, h2⟩ := hb
  unfold out_bounds
  unfold vector_out_realloc at hr ⊢
  split_ifs at hr ⊢ <;> simp only [vector_out_size] at * <;> omega

theorem UnlinkRel.out_le {h h1 : Heap} {c k : Nat} (hrel : UnlinkRel h h1 c k) {x : Nat}
    {X1 : gate} (hX1 : lookup h1 x = some X1) :
    ∃ X, lookup h x = some X ∧ X1.out.capacity = X.out.capacity ∧
      X1.out.data.length ≤ X.out.data.length := by
  cases hX : lookup h x with
  | none =>
    rw [hrel.dead x hX] at hX1
    cases hX1
  | some X =>
    obtain ⟨X2, hX2, hkept⟩ := hrel.kept x X hX
    rw [hX1] at hX2
    cases hX2
    refine ⟨X, rfl, hkept.out_capacity, ?_⟩
    by_cases hb : bound_to h c k x
    · obtain ⟨_, hlen, _⟩ := hrel.out_prod x X X1 hX hX1 hb
      omega
    · rw [hrel.out_other x X X1 hX hX1 hb]

theorem out_bounded_of_unlink {h h1 : Heap} {c k : Nat} (hrel : UnlinkRel h h1 c k)
    (hb : OutBounded h) : OutBounded h1 := by
  intro x X1 hX1
  obtain ⟨X, hX, hcap, hlen⟩ := hrel.out_le hX1
  obtain ⟨b1, b2⟩ := hb x X hX
  unfold out_bounds vector_out_size at *
  omega

theorem gate_new_bounded {h : Heap} (hb : OutBounded h) (kind : gate_kind_t) (n : Nat)
    (a b c : Bool) : OutBounded (gate_new h kind n a b c).1 := by
  unfold gate_new
  split_ifs
  · exact hb
  · exact hb
  · exact hb
  · intro g G hG
    simp only at hG
    rw [lookup_append] at hG
    split_ifs at hG with h1 h2
    · exact hb g G hG
    · cases hG
      unfold out_bounds vector_out_size vector_out_init
      simp

theorem gate_connect_signal_bounded {h : Heap} (hc : Consistent h) (hb : OutBounded h)
    (s c : Option Nat) (k : Nat) (ok : Bool) :
    OutBounded (gate_connect_signal h s c k ok).1 := by
  rcases gate_connect_signal_cases h s c k ok with hfail | ⟨sp, cp, C, rfl, rfl, hC, hk, rfl⟩
  · rw [hfail]
    exact hb
  · obtain ⟨h1, h2, heq, hrel, _, hview, _, _⟩ := @gate_connect_signal_spec _ sp _ _ _ hc hC hk
    rw [heq]
    have hb1 := out_bounded_of_unlink hrel hb
    intro x X2 hX2
    simp only at hX2
    rw [hview x] at hX2
    cases hX1 : lookup h1 x with
    | none => rw [hX1] at hX2; cases hX2
    | some X1 =>
      rw [hX1] at hX2
      simp only [Option.map_some', Option.some.injEq] at hX2
      subst hX2
      have : (connect_upd none cp k (element_in.mk in_connection_type_t.SIGNAL sp 0) x X1).out
          = X1.out := by
        unfold connect_upd
        simp
      rw [this]
      exact hb1 x X1 hX1

/-- The state of `gate_connect_gate` at its call of `vector_out_push_back`: the
output vector of the producer has a free cell, and all output vectors are
bounded. -/
theorem before_push_room {h : Heap} {p c k : Nat} {P C : gate} (ok : Bool)
    (hc : Consistent h) (hb : OutBounded h) (hP : lookup h p = some P)
    (hC : lookup h c = some C) (hr : (vector_out_realloc P.out ok).2 = 0) :
    OutBounded (before_push h p P c k ok) ∧
    ∃ P2, lookup (before_push h p P c k ok) p = some P2 ∧
      vector_out_size P2.out < P2.out.capacity := by
  have hc0 : Consistent (realloc_heap h p P ok) := hc.congr_view (realloc_heap_gview ok hP)
  have hC0 : ∃ C0, lookup (realloc_heap h p P ok) c = some C0 := by
    rw [realloc_heap_lookup ok hP, hC]
    exact ⟨_, rfl⟩
  obtain ⟨C0, hC0⟩ := hC0
  have hroom := realloc_room ok (hb p P hP) hr
  have hP0 : lookup (realloc_heap h p P ok) p
      = some { P with out := (vector_out_realloc P.out ok).1 } := by
    rw [realloc_heap_lookup ok hP, hP]
    simp
  have hb0 : OutBounded (realloc_heap h p P ok) := by
    intro x X0 hX0
    rw [realloc_heap_lookup ok hP] at hX0
    cases hX : lookup h x with
    | none => rw [hX] at hX0; cases hX0
    | some X =>
      rw [hX] at hX0
      simp only [Option.map_some', Option.some.injEq] at hX0
      subst hX0
      split_ifs with hxp
      · subst hxp
        rw [hP] at hX
        cases hX
        exact hroom.1
      · exact hb x X hX
  obtain ⟨_, hrel, _⟩ := (CE.of_consistent hc0).unlink (c := c) (k := k) (fun hf => hf) hC0
  have hbind : before_push h p P c k ok
      = unlink_old (realloc_heap h p P ok) (get_element_in_at_index C0.in_ k) := by
    unfold before_push
    rw [hC0]
    rfl
  rw [hbind]
  refine ⟨out_bounded_of_unlink hrel hb0, ?_⟩
  obtain ⟨P2, hP2, _⟩ := hrel.kept p _ hP0
  obtain ⟨P0, hP0a, hcap, hlen⟩ := hrel.out_le hP2
  rw [hP0] at hP0a
  cases hP0a
  refine ⟨P2, hP2, ?_⟩
  have := hroom.2
  unfold vector_out_size at *
  simp only at hcap hlen
  omega

/-- The output vector of the producer after a successful `gate_connect_gate` is
the one of the state before the push with the new link appended. -/
theorem gate_connect_gate_push {h : Heap} {p c k : Nat} {P C : gate} (ok : Bool)
    (hc : Consistent h) (hP : lookup h p = some P) (hC : lookup h c = some C)
    (hk : k < vector_in_capacity C.in_) (hr : (vector_out_realloc P.out ok).2 = 0) :
    ∀ P2, lookup (before_push h p P c k ok) p = some P2 →
      (∀ x X, x ≠ p → lookup (before_push h p P c k ok) x = some X →
        ∃ X3, lookup (gate_connect_gate h (some p) (some c) k true true ok).1 x = some X3 ∧
          X3.out = X.out) ∧
      (∀ x, lookup (before_push h p P c k ok) x = none →
        lookup (gate_connect_gate h (some p) (some c) k true true ok).1 x = none) ∧
      ∃ P3, lookup (gate_connect_gate h (some p) (some c) k true true ok).1 p = some P3 ∧
        P3.out = vector_out_push_back P2.out (element_out.mk c k) := by
  intro P2 hP2
  have hP2a := hP2
  unfold before_push at hP2a
  have hlive : ∃ CB, lookup (before_push h p P c k ok) c = some CB := by
    have hc0 : Consistent (realloc_heap h p P ok) := hc.congr_view (realloc_heap_gview ok hP)
    have hC0 : ∃ C0, lookup (realloc_heap h p P ok) c = some C0 := by
      rw [realloc_heap_lookup ok hP, hC]
      exact ⟨_, rfl⟩
    obtain ⟨C0, hC0⟩ := hC0
    obtain ⟨_, hrel, _⟩ := (CE.of_consistent hc0).unlink (c := c) (k := k) (fun hf => hf) hC0
    obtain ⟨CB, hCB, _⟩ := hrel.kept c C0 hC0
    refine ⟨CB, ?_⟩
    unfold before_push
    rw [hC0]
    exact hCB
  obtain ⟨CB, hCB⟩ := hlive
  have hC3 : ∃ C3, lookup (store (before_push h p P c k ok) p
      { P2 with out := vector_out_push_back P2.out (element_out.mk c k) }) c = some C3 ∧
      C3.out = (if p = c then vector_out_push_back P2.out (element_out.mk c k) else CB.out) := by
    rw [lookup_store _ _ _ _ (lookup_lt hP2)]
    split_ifs with hpc
    · exact ⟨_, rfl, rfl⟩
    · exact ⟨CB, hCB, rfl⟩
  obtain ⟨C3, hC3, hC3o⟩ := hC3
  have heq := gate_connect_gate_eq ok hP hC hk hr hP2a hC3
  rw [heq]
  simp only
  have hlt3 : c < (store (before_push h p P c k ok) p
      { P2 with out := vector_out_push_back P2.out (element_out.mk c k) }).length :=
    lookup_lt hC3
  refine ⟨?_, ?_, ?_⟩
  · intro x X hxp hX
    show ∃ X3, lookup (store (store (before_push h p P c k ok) p _) c _) x = some X3 ∧ _
    rw [lookup_store _ _ _ _ hlt3]
    split_ifs with hcx
    · subst hcx
      refine ⟨_, rfl, ?_⟩
      simp only
      rw [hC3o, if_neg (Ne.symm hxp)]
      rw [hCB] at hX
      cases hX
      rfl
    · rw [lookup_store_ne _ _ (Ne.symm hxp)]
      exact ⟨X, hX, rfl⟩
  · intro x hx
    show lookup (store (store (before_push h p P c k ok) p _) c _) x = none
    have hxc : c ≠ x := by
      intro hh
      subst hh
      rw [hCB] at hx
      cases hx
    have hxp : p ≠ x := by
      intro hh
      subst hh
      rw [hP2] at hx
      cases hx
    rw [lookup_store_ne _ _ hxc, lookup_store_ne _ _ hxp]
    exact hx
  · show ∃ P3, lookup (store (store (before_push h p P c k ok) p _) c _) p = some P3 ∧ _
    rw [lookup_store _ _ _ _ hlt3]
    split_ifs with hcp
    · subst hcp
      refine ⟨_, rfl, ?_⟩
      simp only
      rw [hC3o, if_pos rfl]
    · rw [lookup_store_eq _ (lookup_lt hP2)]
      exact ⟨_, rfl, rfl⟩

theorem gate_connect_gate_bounded {h : Heap} (hc : Consistent h) (hb : OutBounded h)
    (p c : Option Nat) (k : Nat) (a b ok : Bool) :
    OutBounded (gate_connect_gate h p c k a b ok).1 := by
  rcases gate_connect_gate_cases h p c k a b ok hc with hfail |
    ⟨pp, cp, P, C, rfl, rfl, hP, hC, hk, rfl, rfl, hr, _⟩
  · rw [hfail]
    exact hb
  · obtain ⟨hbp, P2, hP2, hroom⟩ := before_push_room (c := cp) (k := k) ok hc hb hP hC hr
    obtain ⟨hother, hdead, P3, hP3, hP3o⟩ := gate_connect_gate_push ok hc hP hC hk hr P2 hP2
    intro x X3 hX3
    by_cases hxp : x = pp
    · subst hxp
      rw [hP3] at hX3
      cases hX3
      rw [hP3o]
      obtain ⟨b1, _⟩ := hbp x P2 hP2
      unfold out_bounds vector_out_push_back vector_out_size at *
      simp only [List.length_append, List.length_singleton]
      omega
    · cases hX : lookup (before_push h pp P cp k ok) x with
      | none =>
        rw [hdead x hX] at hX3
        cases hX3
      | some X =>
        obtain ⟨X3a, hX3a, hout⟩ := hother x X hxp hX
        rw [hX3] at hX3a
        cases hX3a
        rw [hout]
        exact hbp x X hX

theorem gate_delete_bounded {h : Heap} (hc : Consistent h) (hb : OutBounded h)
    (g : Option Nat) : OutBounded (gate_delete h g) := by
  cases g with
  | none => exact hb
  | some gp =>
    cases hG : lookup h gp with
    | none =>
      rw [gate_delete_dead hG]
      exact hb
    | some G =>
      obtain ⟨_, hrel⟩ := gate_delete_spec hc hG
      intro x Xf hXf
      by_cases hx : x = gp
      · subst hx
        rw [hrel.gone] at hXf
        cases hXf
      · cases hX : lookup h x with
        | none =>
          rw [hrel.dead x hX] at hXf
          cases hXf
        | some X =>
          obtain ⟨Xf1, hXf1, _, _, _, _, _, hcap, _, _, _, hlen⟩ := hrel.kept x X hx hX
          rw [hXf] at hXf1
          cases hXf1
          obtain ⟨b1, b2⟩ := hb x X hX
          unfold out_bounds vector_out_size at *
          omega

theorem Step.keeps_bounded {h h1 : Heap} (hs : Step h h1) (hc : Consistent h)
    (hb : OutBounded h) : OutBounded h1 := by
  cases hs with
  | new kind n a b c => exact gate_new_bounded hb kind n a b c
  | connect_gate p c k a b ok => exact gate_connect_gate_bounded hc hb p c k a b ok
  | connect_signal s c k ok => exact gate_connect_signal_bounded hc hb s c k ok
  | delete g => exact gate_delete_bounded hc hb g

theorem Reachable.out_bounded {h : Heap} (hr : Reachable h) : OutBounded h := by
  induction hr with
  | empty =>
    intro g G hG
    simp [lookup] at hG
  | step h h1 hr0 hs ih => exact hs.keeps_bounded hr0.consistent_of ih

/-- C21: in every state reachable from the empty graph by `gate_new`, the connect
operations and `gate_delete`, every output vector has capacity at least 1 and
size at most its capacity; right after a successful `vector_out_realloc` its
size is below its capacity; and in every successful `gate_connect_gate(p, c, k)`
the output vector of `p`, in the state in which `vector_out_push_back` is
called, has its size (the index written) below its capacity, the resulting
output vector of `p` being that vector with the new link appended. -/
theorem push_back_within_capacity (h : Heap) (hr : Reachable h) :
    (∀ g G, lookup h g = some G →
      1 ≤ G.out.capacity ∧ vector_out_size G.out ≤ G.out.capacity) ∧
    (∀ g G ok, lookup h g = some G → (vector_out_realloc G.out ok).2 = 0 →
      1 ≤ (vector_out_realloc G.out ok).1.capacity ∧
      vector_out_size (vector_out_realloc G.out ok).1
        < (vector_out_realloc G.out ok).1.capacity) ∧
    (∀ p c k a b ok, (gate_connect_gate h (some p) (some c) k a b ok).2 = SUCCESS →
      ∃ P P2 P3, lookup h p = some P ∧ lookup (before_push h p P c k ok) p = some P2 ∧
        vector_out_size P2.out < P2.out.capacity ∧
        lookup (gate_connect_gate h (some p) (some c) k a b ok).1 p = some P3 ∧
        P3.out = vector_out_push_back P2.out (element_out.mk c k)) := by
  have hc := hr.consistent_of
  have hb := hr.out_bounded
  refine ⟨hb, ?_, ?_⟩
  · intro g G ok hG hre
    have := realloc_room ok (hb g G hG) hre
    exact ⟨this.1.1, this.2⟩
  · intro p c k a b ok hres
    rcases gate_connect_gate_cases h (some p) (some c) k a b ok hc with hfail |
      ⟨pp, cp, P, C, hp, hcp, hP, hC, hk, rfl, rfl, hre, _⟩
    · rw [hfail] at hres
      simp [FAILED, SUCCESS] at hres
    · cases hp
      cases hcp
      obtain ⟨_, P2, hP2, hroom⟩ := before_push_room (c := c) (k := k) ok hc hb hP hC hre
      obtain ⟨_, _, P3, hP3, hP3o⟩ := gate_connect_gate_push ok hc hP hC hk hre P2 hP2
      exact ⟨P, P2, P3, hP, hP2, hroom, hP3, hP3o⟩

theorem reachable_drained : Reachable drained_heap :=
  Reachable.step _ _ (Reachable.step _ _ (Reachable.step _ _ (Reachable.step _ _
    (Reachable.step _ _ (Reachable.step _ _ (Reachable.step _ _ (Reachable.step _ _
      Reachable.empty
      (Step.new [] gate_kind_t.AND 0 true true true))
      (Step.new _ gate_kind_t.AND 3 true true true))
      (Step.connect_gate _ (some 0) (some 1) 0 true true true))
      (Step.connect_gate _ (some 0) (some 1) 1 true true true))
      (Step.connect_gate _ (some 0) (some 1) 2 true true true))
      (Step.connect_signal _ (some 0) (some 1) 0 true))
      (Step.connect_signal _ (some 0) (some 1) 1 true))
      (Step.connect_signal _ (some 0) (some 1) 2 true)

/-- C21 (witness): in the drained graph the output vector of `g0` is empty with
capacity 4; binding `g0` to slot 0 of `g1` again leaves the capacity at 4 and
writes index 0. -/
theorem push_back_within_capacity_witness :
    (lookup drained_heap 0).map (fun G => (vector_out_size G.out, G.out.capacity))
      = some (0, 4) ∧
    (lookup (gate_connect_gate drained_heap (some 0) (some 1) 0 true true true).1 0).map
      (fun G => (vector_out_size G.out, G.out.capacity)) = some (1, 4) ∧
    ((∀ g G, lookup drained_heap g = some G →
      1 ≤ G.out.capacity ∧ vector_out_size G.out ≤ G.out.capacity) ∧
    (∀ g G ok, lookup drained_heap g = some G → (vector_out_realloc G.out ok).2 = 0 →
      1 ≤ (vector_out_realloc G.out ok).1.capacity ∧
      vector_out_size (vector_out_realloc G.out ok).1
        < (vector_out_realloc G.out ok).1.capacity) ∧
    (∀ p c k a b ok,
      (gate_connect_gate drained_heap (some p) (some c) k a b ok).2 = SUCCESS →
      ∃ P P2 P3, lookup drained_heap p = some P ∧
        lookup (before_push drained_heap p P c k ok) p = some P2 ∧
        vector_out_size P2.out < P2.out.capacity ∧
        lookup (gate_connect_gate drained_heap (some p) (some c) k a b ok).1 p = some P3 ∧
        P3.out = vector_out_push_back P2.out (element_out.mk c k))) :=
  ⟨by decide, by decide, push_back_within_capacity drained_heap reachable_drained⟩

end LogicGates
